import Mathlib

/-!
Verification of the double-tree ordered map (`double_tree::map`), a B+-tree of
B+-trees: the outer tree's nodes are page-sized `PageNode`s, each of which is a
small B+-tree of cache-line-sized `line_node`s drawn from a fixed slot pool.

The development embeds the C++ sources shallowly:

* `line_node` (`double_tree_line_node.hpp`): a bounded sorted run of elements is
  a `List α` together with a key-extraction function `kf : α → Nat`; the C++
  index arithmetic over `elems_` becomes list surgery.
* `PageNode` (`double_tree_page_node.hpp`): the intra-page B+-tree is the
  inductive `PTree α` whose nodes are lines; the slot pool is abstracted by
  node counting (each `allocate` creates exactly one live node and each
  `deallocate` retires one, so `free_count = pool_count - number of nodes`).
  The intra-page leaf linked list (`aux.prev_index` / `aux.next_index`) is
  represented by the in-order sequence of leaf lines, which is what the code
  maintains it to be; `min_leaf_index` / `max_leaf_index` are the first / last
  leaf lines in order.  The `stem_levels` field is carried explicitly in
  `PageS` and drives every descent, exactly as in the C++.
* `kernel` (`double_tree.hpp`): outer pages are heap objects reached by
  pointers; the model replaces the pointer graph by the inductive `ONode`,
  and the leaf-page linked list by the in-order sequence of leaf pages.
  Iterator positions `(page pointer, line slot, element index)` become
  `(in-order leaf-page index, in-order leaf-line index, element index)`,
  an abstraction that is injective on any fixed tree.

All sizes are those of the repository's instantiation
`double_tree::map<uint64_t, uint64_t>`; the byte arithmetic from the source is
reproduced in comments next to each constant.

Machine integers: the C++ indices are `uint8_t` and counts are small (at most
15 everywhere, see the constants), so all arithmetic below stays far from any
wrap-around and is modelled on `Nat`.
-/

namespace DT

-- Keys are `uint64_t` in the instantiations exercised by the repository; the
-- counts never approach 2^64, so plain `Nat` models keys and values faithfully.


/-- Elements of the user-facing map: `std::pair<const Key, T>` with
`Key = T = uint64_t`. -/
abbrev E := Nat × Nat

-- ======================================================================
-- CONSTANTS (double_tree_line_node.hpp, double_tree_page_node.hpp)
-- ======================================================================

/-- C++ `line_node::max_count = (line_node_size - sizeof(line_index) -
sizeof(Aux)) / sizeof(Element)` with `line_node_size = 256`.  For every
instantiation in this repository the element is 16 bytes (a pair of two
8-byte members, or an 8-byte member plus a 1-byte index padded to 16) and
`sizeof(line_index) + sizeof(Aux)` is 2 or 3 bytes, so
`max_count = 253/16 = 254/16 = 15`. -/
def lineMax : Nat := 15

/-- C++ `line_node::min_count = max_count / 2 = 7`. -/
def minCount : Nat := lineMax / 2

/-- C++ `PageNode::branchout = stem_node::max_count`.  A stem line stores
`std::pair<const Key, page_index>` elements (16 bytes with padding) and an
empty `stem_aux`, so `branchout = (256 - 1 - 1) / 16 = 15`. -/
def branchout : Nat := 15

/-- C++ `PageNode::pool_count = (page_node_size - 6*sizeof(page_index) - 1 -
sizeof(Aux)) / sizeof(PoolEntry)` with `page_node_size = 4096` and 256-byte
pool entries.  `sizeof(Aux)` is 1, 2 or 16 bytes across the instantiations,
giving `4089/256 = 4087/256 = 4073/256 = 15` in every case. -/
def poolCount : Nat := 15

/-- C++ `PageNode::max_stem_levels_helper(n, b)`:
`(n > b) ? 1 + max_stem_levels_helper(n - b, b*branchout) : 0`.
The C++ is a terminating `constexpr` recursion because `b ≥ 1` on every call
chain starting from `b = 1`; the explicit `fuel` argument (always called with
`fuel = n`, which bounds the recursion depth since `n` shrinks by at least one
each step) makes the same recursion structural. -/
def maxStemLevelsHelper (fuel n b : Nat) : Nat :=
  match fuel with
  | 0 => 0
  | fuel + 1 => if n > b then 1 + maxStemLevelsHelper fuel (n - b) (b * branchout) else 0

/-- C++ `PageNode::max_stem_levels = max_stem_levels_helper(pool_count, 1)`.
Evaluates to 1 for this repository's constants. -/
def maxStemLevels : Nat := maxStemLevelsHelper poolCount poolCount 1

/-- C++ `PageNode::max_levels = max_stem_levels + 1`. -/
def maxLevels : Nat := maxStemLevels + 1

-- ======================================================================
-- PAGE LOAD-STATE PREDICATES (double_tree_page_node.hpp, lines 187-197)
-- ======================================================================

/-- C++ `PageNode::small(): free_count > 2*max_levels - 1`. -/
def smallFC (fc : Nat) : Bool := fc > 2 * maxLevels - 1

/-- C++ `PageNode::large(): free_count <= 2*max_levels - 1`. -/
def largeFC (fc : Nat) : Bool := fc ≤ 2 * maxLevels - 1

/-- C++ `PageNode::oversized(): free_count <= max_levels - 1`. -/
def oversizedFC (fc : Nat) : Bool := fc ≤ maxLevels - 1

-- ======================================================================
-- LINE NODE OPERATIONS (double_tree_line_node.hpp)
-- ======================================================================

/-- Scanning tail of `line_node::find`: the C++ loop
`for (i = 1; i < end_index(); ++i) if (key(i) > find_key) return i - 1;
return count_ - 1;` expressed with the running index `i`. -/
def lineFindGo (kf : α → Nat) (k : Nat) : List α → Nat → Nat
  | [], i => i - 1
  | x :: xs, i => if kf x > k then i - 1 else lineFindGo kf k xs (i + 1)

/-- C++ `line_node::find`: the index of the greatest key less than or equal to
`k`, or the minimum index 0 if all keys are greater than `k` (comment and code
at double_tree_line_node.hpp lines 1164-1177).  On an empty line the C++ reads
uninitialised storage; the model returns 0 there (no reachable line is empty
when `find` runs). -/
def lineFind (kf : α → Nat) (es : List α) (k : Nat) : Nat :=
  match es with
  | [] => 0
  | e :: rest => if kf e > k then 0 else lineFindGo kf k rest 1

/-- C++ `line_node::insert`: the insertion index is the first index whose key
is strictly greater than the new element's key (so an element with an equal
key is placed after the existing ones); a block shift opens the hole.  The
code assumes the line is not full. -/
def lineInsert (kf : α → Nat) (es : List α) (e : α) : List α :=
  match es with
  | [] => [e]
  | x :: xs => if kf x > kf e then e :: x :: xs else x :: lineInsert kf xs e

/-- C++ `line_node::split`: this node keeps `count/2 + count%2` elements
(the first half, rounded up). -/
def lineSplitL (es : List α) : List α := es.take (es.length / 2 + es.length % 2)

/-- C++ `line_node::split`: the split node receives the remaining `count/2`
elements (the second half). -/
def lineSplitR (es : List α) : List α := es.drop (es.length / 2 + es.length % 2)

/-- C++ `line_node::erase(index)`: shift the trailing block one position
forward, i.e. remove the element at the index. -/
def lineErase (es : List α) (i : Nat) : List α := es.eraseIdx i

/-- C++ `line_node::merge_prev_erase(index, prev)`: all elements except the
one at `index` are appended to the previous node; this node is left empty. -/
def lineMergePrevErase (es : List α) (i : Nat) (prev : List α) : List α :=
  prev ++ es.eraseIdx i

/-- C++ `line_node::merge_next_erase(index, next)`: the element at `index` is
removed and the next node's elements are appended; the next node is left
empty. -/
def lineMergeNextErase (es : List α) (i : Nat) (next : List α) : List α :=
  es.eraseIdx i ++ next

/-- C++ `line_node::borrow_prev_erase(index, prev)`: this node's result -- the
previous node's last element is moved in front of this node's elements minus
the one at `index`. -/
def lineBorrowPrevErase (es : List α) (i : Nat) (prev : List α) : List α :=
  match prev.getLast? with
  | some l => l :: es.eraseIdx i
  | none => es.eraseIdx i

/-- C++ `line_node::borrow_prev_erase`: the previous node loses its last
element. -/
def lineBorrowPrevDonor (prev : List α) : List α := prev.dropLast

/-- C++ `line_node::borrow_next_erase(index, next)`: this node's result -- the
next node's first element is appended after this node's elements minus the one
at `index`. -/
def lineBorrowNextErase (es : List α) (i : Nat) (next : List α) : List α :=
  es.eraseIdx i ++ next.take 1

/-- C++ `line_node::borrow_next_erase`: the next node loses its first
element. -/
def lineBorrowNextDonor (next : List α) : List α := next.drop 1

-- ======================================================================
-- SORTEDNESS
-- ======================================================================

/-- Keys of a run of elements are strictly increasing (source invariant for
every line: "Within any LineNode elements are strictly sorted by key"). -/
def sortedKeys (kf : α → Nat) (es : List α) : Prop :=
  List.Pairwise (fun a b => a < b) (es.map kf)

instance (kf : α → Nat) (es : List α) : Decidable (sortedKeys kf es) := by
  unfold sortedKeys; infer_instance

-- ======================================================================
-- LINE FIND: CORRECTNESS LEMMAS
-- ======================================================================

theorem lineFindGo_eq_takeWhile (kf : α → Nat) (k : Nat) (xs : List α) (i : Nat) :
    lineFindGo kf k xs i = i + (xs.takeWhile (fun e => decide (kf e ≤ k))).length - 1 := by
  induction xs generalizing i with
  | nil => simp [lineFindGo]
  | cons x xs ih =>
    by_cases h : kf x > k
    · have hd : (fun e => decide (kf e ≤ k)) x = false := by
        simpa using Nat.not_le.mpr h
      rw [List.takeWhile_cons_of_neg (by simpa using hd)]
      simp [lineFindGo, h]
    · have hle : kf x ≤ k := Nat.not_lt.mp h
      have hd : (fun e => decide (kf e ≤ k)) x = true := by simpa using hle
      rw [List.takeWhile_cons_of_pos (by simpa using hd)]
      simp only [lineFindGo, if_neg h, ih, List.length_cons]
      omega

theorem lineFind_eq_takeWhile (kf : α → Nat) (k : Nat) (e : α) (rest : List α)
    (h : kf e ≤ k) :
    lineFind kf (e :: rest) k
      = ((e :: rest).takeWhile (fun x => decide (kf x ≤ k))).length - 1 := by
  have hgt : ¬ kf e > k := Nat.not_lt.mpr h
  have hd : (fun x => decide (kf x ≤ k)) e = true := by simpa using h
  rw [List.takeWhile_cons_of_pos (by simpa using hd)]
  simp [lineFind, hgt, lineFindGo_eq_takeWhile]

theorem takeWhile_getD_sat (p : α → Bool) (es : List α) (d : α) (j : Nat)
    (hj : j < (es.takeWhile p).length) : p (es.getD j d) = true := by
  induction es generalizing j with
  | nil => simp [List.takeWhile] at hj
  | cons x xs ih =>
    by_cases hx : p x
    · rw [List.takeWhile_cons_of_pos hx, List.length_cons] at hj
      cases j with
      | zero => simpa [List.getD] using hx
      | succ j =>
        simp only [List.getD_cons_succ]
        exact ih j (Nat.lt_of_succ_lt_succ hj)
    · rw [List.takeWhile_cons_of_neg (by simpa using hx)] at hj
      simp at hj

theorem lt_length_takeWhile_of_sat (p : α → Bool) (es : List α) (d : α) (j : Nat)
    (hj : j < es.length) (hall : ∀ i, i ≤ j → p (es.getD i d) = true) :
    j < (es.takeWhile p).length := by
  induction es generalizing j with
  | nil => simp at hj
  | cons x xs ih =>
    have hx : p x = true := by simpa [List.getD] using hall 0 (Nat.zero_le _)
    cases j with
    | zero => simp [List.takeWhile_cons, hx]
    | succ j =>
      have : j < (xs.takeWhile p).length := by
        apply ih j (Nat.lt_of_succ_lt_succ hj)
        intro i hi
        simpa [List.getD_cons_succ] using hall (i + 1) (Nat.succ_le_succ hi)
      simpa [List.takeWhile_cons, hx] using Nat.succ_lt_succ this

theorem length_takeWhile_le_length (p : α → Bool) (es : List α) :
    (es.takeWhile p).length ≤ es.length := by
  induction es with
  | nil => simp [List.takeWhile]
  | cons x xs ih =>
    by_cases hx : p x
    · simpa [List.takeWhile_cons, hx] using Nat.succ_le_succ ih
    · simp [List.takeWhile_cons, hx]

theorem sortedKeys_getD_le (kf : α → Nat) (es : List α) (d : α)
    (hs : sortedKeys kf es) (i j : Nat) (hij : i ≤ j) (hj : j < es.length) :
    kf (es.getD i d) ≤ kf (es.getD j d) := by
  rcases Nat.eq_or_lt_of_le hij with rfl | hlt
  · exact Nat.le_refl _
  · have hi : i < es.length := Nat.lt_trans hlt hj
    have hmap : (es.map kf).Pairwise (fun a b => a < b) := hs
    rw [List.pairwise_iff_get] at hmap
    have := hmap ⟨i, by simpa using hi⟩ ⟨j, by simpa using hj⟩ (by simpa using hlt)
    rw [List.getD_eq_get _ _ hi, List.getD_eq_get _ _ hj]
    have hgi : (es.map kf).get ⟨i, by simpa using hi⟩ = kf (es.get ⟨i, hi⟩) := by
      simp
    have hgj : (es.map kf).get ⟨j, by simpa using hj⟩ = kf (es.get ⟨j, hj⟩) := by
      simp
    rw [hgi, hgj] at this
    exact Nat.le_of_lt this

-- ======================================================================
-- PAGE NODE MODEL (double_tree_page_node.hpp)
-- ======================================================================

/-- Intra-page B+-tree of a `PageNode`: every node is one `line_node`.  A
`pleaf` is a leaf line holding elements, a `pstem` is a stem line holding
`(routing key, child)` entries, where the child stands for the 8-bit slot
index `page_index` stored in the C++ stem entry. -/
inductive PTree (α : Type) where
  | pleaf (elems : List α)
  | pstem (children : List (Nat × PTree α))
deriving Repr

/-- A `PageNode`: its intra-page tree plus the `stem_levels` field that the
C++ stores explicitly and uses to steer every descent.  `head_index`,
`back_index`, `min_leaf_index`, `max_leaf_index` and the leaf linked list are
represented implicitly: the linked list is the in-order sequence of leaf
lines, and `free_count` is recovered by node counting (`freeCount`), since
every `allocate` creates exactly one live line and every `deallocate` retires
one. -/
structure PageS (α : Type) where
  tree : PTree α
  levels : Nat
deriving Repr

/-- Default child entry used for out-of-range list reads; the C++ would read
junk memory in those (unreachable) situations. -/
def pgdflt (α : Type) : Nat × PTree α := (0, PTree.pleaf [])

/-- Children of a stem line (`get_stem(index)` contents).  On a leaf the C++
would reinterpret the union storage; the model returns the empty list. -/
def stemChildren : PTree α → List (Nat × PTree α)
  | .pstem cs => cs
  | .pleaf _ => []

/-- Elements of a leaf line (`get_leaf(index)` contents). -/
def leafElems : PTree α → List α
  | .pleaf es => es
  | .pstem _ => []

mutual

/-- Number of pool slots occupied by the subtree: one per line node.  This is
exactly the number of `allocate` calls minus `deallocate` calls that built the
subtree, so `pool_count - pnodes` is the page's `free_count`. -/
def pnodes : PTree α → Nat
  | .pleaf _ => 1
  | .pstem cs => 1 + pnodesL cs

def pnodesL : List (Nat × PTree α) → Nat
  | [] => 0
  | c :: cs => pnodes c.2 + pnodesL cs

end

/-- C++ `free_count`: the pool has `pool_count` slots and `pnodes` of them
hold live lines. -/
def freeCount (p : PageS α) : Nat := poolCount - pnodes p.tree

/-- C++ `PageNode::small()` of a modelled page. -/
def psmall (p : PageS α) : Bool := smallFC (freeCount p)

/-- C++ `PageNode::large()` of a modelled page. -/
def plarge (p : PageS α) : Bool := largeFC (freeCount p)

/-- C++ `PageNode::oversized()` of a modelled page. -/
def poversized (p : PageS α) : Bool := oversizedFC (freeCount p)

/-- Is a line node at maximum capacity (`line_node::full`)?  Leaf lines hold
up to `lineMax` elements, stem lines up to `branchout` entries. -/
def nodeFull : PTree α → Bool
  | .pleaf es => es.length == lineMax
  | .pstem cs => cs.length == branchout

/-- C++ `min_key()` of a single line node: the key at index 0.  On an empty
line the C++ reads uninitialised storage; the model returns 0. -/
def nodeMinKey (kf : α → Nat) : PTree α → Nat
  | .pleaf es => ((es.head?).map kf).getD 0
  | .pstem cs => ((cs.head?).map Prod.fst).getD 0

/-- First half of `line_node::split` applied to a line node. -/
def nodeSplitL : PTree α → PTree α
  | .pleaf es => .pleaf (lineSplitL es)
  | .pstem cs => .pstem (lineSplitL cs)

/-- Second half of `line_node::split` applied to a line node. -/
def nodeSplitR : PTree α → PTree α
  | .pleaf es => .pleaf (lineSplitR es)
  | .pstem cs => .pstem (lineSplitR cs)

/-- Helper of `pLines` over a child list, abstracted over the recursive call
so that `pLines` is structurally recursive on the level count (and therefore
evaluates by kernel reduction). -/
def pLinesL (f : PTree α → List (List α)) : List (Nat × PTree α) → List (List α)
  | [] => []
  | c :: cs => f c.2 ++ pLinesL f cs

/-- The leaf lines of the subtree in linked-list (in-order) order, descending
`h` stem levels.  This is the page's leaf linked list threaded through
`aux.prev_index` / `aux.next_index`, whose order the code keeps equal to the
key order of the lines. -/
def pLines : Nat → PTree α → List (List α)
  | 0, t => [leafElems t]
  | h + 1, t => pLinesL (pLines h) (stemChildren t)

/-- All elements of a page in key order: the concatenation of its leaf lines
in linked-list order. -/
def pElems (p : PageS α) : List α := (pLines p.levels p.tree).join

/-- C++ `PageNode::empty()`: `stem_levels == 0 && get_leaf(root_index).empty()`. -/
def pempty (p : PageS α) : Bool := p.levels == 0 && (leafElems p.tree).isEmpty

/-- C++ `PageNode::min_key()`: the minimum key of the page,
`get_leaf(min_leaf_index).min_key()`. -/
def pageMinKey (kf : α → Nat) (p : PageS α) : Nat :=
  (((pLines p.levels p.tree).headD []).head?.map kf).getD 0

/-- C++ `PageNode::find` (double_tree_page_node.hpp lines 332-342): descend
`stem_levels` stem lines choosing the child at the `line_node::find` index,
then run `line_node::find` in the final leaf line.  The result is a
`page_position`; the model represents the `line` slot by the leaf line's
in-order (linked-list) index, so the result is
`(in-order leaf-line index, element index)`. -/
def pfindPos (kf : α → Nat) : Nat → PTree α → Nat → Nat × Nat
  | 0, t, k => (0, lineFind kf (leafElems t) k)
  | h + 1, t, k =>
    let cs := stemChildren t
    let i := lineFind Prod.fst cs k
    let r := pfindPos kf h (cs.getD i (pgdflt α)).2 k
    ((pLinesL (pLines h) (cs.take i)).length + r.1, r.2)

/-- C++ `PageNode::find` on a page value. -/
def pfind (kf : α → Nat) (p : PageS α) (k : Nat) : Nat × Nat :=
  pfindPos kf p.levels p.tree k

/-- C++ `line_node::max_index()`: `count == 0 ? 0 : count - 1`. -/
def lineMaxIdx (es : List α) : Nat := if es.length = 0 then 0 else es.length - 1

/-- C++ `PageNode::min_position()`: `{min_leaf_index, min_index()}`; the
minimum leaf line has in-order index 0 and `min_index()` is always 0. -/
def pMinPosition (_p : PageS α) : Nat × Nat := (0, 0)

/-- C++ `PageNode::end_position()`: `{max_leaf_index, max_index() + 1}`. -/
def pEndPosition (p : PageS α) : Nat × Nat :=
  let ls := pLines p.levels p.tree
  (ls.length - 1, lineMaxIdx (ls.getLast?.getD []) + 1)

-- ======================================================================
-- PAGE INSERT (double_tree_page_node.hpp lines 405-542)
-- ======================================================================

/-- C++ `PageNode::split_root()`: if the root line is full, split it with
`line_node::split` and allocate a new root stem holding the two halves (each
inserted with `line_node::insert`, i.e. in key order); `stem_levels` grows by
one.  In the leaf case the leaf linked list is spliced so the new half
follows the old root, which the in-order representation gives for free. -/
def psplitRoot (kf : α → Nat) (p : PageS α) : PageS α :=
  if p.levels > 0 then
    let cs := stemChildren p.tree
    if cs.length == branchout then
      let l := PTree.pstem (lineSplitL cs)
      let r := PTree.pstem (lineSplitR cs)
      { tree := .pstem (lineInsert Prod.fst
          (lineInsert Prod.fst [] (nodeMinKey kf l, l)) (nodeMinKey kf r, r)),
        levels := p.levels + 1 }
    else p
  else
    let es := leafElems p.tree
    if es.length == lineMax then
      let l := PTree.pleaf (lineSplitL es)
      let r := PTree.pleaf (lineSplitR es)
      { tree := .pstem (lineInsert Prod.fst
          (lineInsert Prod.fst [] (nodeMinKey kf l, l)) (nodeMinKey kf r, r)),
        levels := 1 }
    else p

/-- Descent of C++ `PageNode::insert` below the (already root-split) root,
with `h` stem levels remaining.  At each stem line: find the target child by
`line_node::find`; lower its routing key if the new key is smaller
(`current_stem.set_key`); if the target is full, split it preemptively, pin
the new half into the current stem line with `line_node::insert`, and descend
into whichever half covers the new key; finally `line_node::insert` into the
reached leaf line.  The C++ updates the parent entry through the stored slot
index; the model rebuilds the entry in place (`List.set`), then recurses into
the child and writes the result back, which commutes with the parent-side
updates because they touch disjoint data. -/
def pinsertGo (kf : α → Nat) : Nat → PTree α → α → PTree α
  | 0, t, e => .pleaf (lineInsert kf (leafElems t) e)
  | h + 1, t, e =>
    let cs := stemChildren t
    let k := kf e
    let i := lineFind Prod.fst cs k
    let c0 := cs.getD i (pgdflt α)
    let cs1 := if k < nodeMinKey kf c0.2 then cs.set i (k, c0.2) else cs
    let c1 := cs1.getD i (pgdflt α)
    if nodeFull c1.2 then
      let l := nodeSplitL c1.2
      let r := nodeSplitR c1.2
      let kr := nodeMinKey kf r
      if k ≥ kr then
        .pstem (lineInsert Prod.fst (cs1.set i (c1.1, l)) (kr, pinsertGo kf h r e))
      else
        .pstem (lineInsert Prod.fst (cs1.set i (c1.1, pinsertGo kf h l e)) (kr, r))
    else
      .pstem (cs1.set i (c1.1, pinsertGo kf h c1.2 e))

/-- C++ `PageNode::insert`: `split_root()` followed by the descent. -/
def pinsert (kf : α → Nat) (p : PageS α) (e : α) : PageS α :=
  let p1 := psplitRoot kf p
  { tree := pinsertGo kf p1.levels p1.tree e, levels := p1.levels }

-- ======================================================================
-- ALLOCATION COUNTING FOR CLAIM C8
-- ======================================================================

/-- Number of `allocate()` calls performed by `PageNode::split_root()`: two
when the root line is full (the split sibling and the new root), otherwise
none. -/
def psplitRootAllocs (p : PageS α) : Nat :=
  if p.levels > 0 then
    if (stemChildren p.tree).length == branchout then 2 else 0
  else
    if (leafElems p.tree).length == lineMax then 2 else 0

/-- Number of `allocate()` calls performed by the descent of
`PageNode::insert`: one per preemptive split of a full target line, mirroring
`pinsertGo` branch for branch. -/
def pinsertGoAllocs (kf : α → Nat) : Nat → PTree α → α → Nat
  | 0, _, _ => 0
  | h + 1, t, e =>
    let cs := stemChildren t
    let k := kf e
    let i := lineFind Prod.fst cs k
    let c0 := cs.getD i (pgdflt α)
    let cs1 := if k < nodeMinKey kf c0.2 then cs.set i (k, c0.2) else cs
    let c1 := cs1.getD i (pgdflt α)
    if nodeFull c1.2 then
      let l := nodeSplitL c1.2
      let r := nodeSplitR c1.2
      let kr := nodeMinKey kf r
      if k ≥ kr then 1 + pinsertGoAllocs kf h r e
      else 1 + pinsertGoAllocs kf h l e
    else
      pinsertGoAllocs kf h c1.2 e

/-- Total number of `allocate()` calls performed by one `PageNode::insert`
(the insert itself never deallocates). -/
def pinsertAllocs (kf : α → Nat) (p : PageS α) (e : α) : Nat :=
  let p1 := psplitRoot kf p
  psplitRootAllocs p + pinsertGoAllocs kf p1.levels p1.tree e

-- ======================================================================
-- PAGE POSITIONS AND PATHS (double_tree_page_node.hpp)
-- ======================================================================

/-- Element count of a single line node (`line_node::count`). -/
def nodeCount : PTree α → Nat
  | .pleaf es => es.length
  | .pstem cs => cs.length

/-- C++ `line_node::thin()`: `count < min_count`. -/
def nodeThin (t : PTree α) : Bool := nodeCount t < minCount

/-- Routing key at index 0 of a stem line (`stem_node::min_key()`). -/
def stemMinKey (t : PTree α) : Nat :=
  (((stemChildren t).head?).map Prod.fst).getD 0

/-- Element stored at a `page_position` (C++ `PageNode::elem(position)`),
with the position's `line` slot represented by the in-order leaf-line
index. -/
def pElemAtPos (p : PageS α) (pos : Nat × Nat) (d : α) : α :=
  (((pLines p.levels p.tree).getD pos.1 []).getD pos.2 d)

/-- C++ `PageNode::max_position()`: `{max_leaf_index, max_index()}`. -/
def pMaxPosition (p : PageS α) : Nat × Nat :=
  let ls := pLines p.levels p.tree
  (ls.length - 1, lineMaxIdx (ls.getLast?.getD []))

/-- C++ `PageNode::prev_position`: step to the previous element, crossing to
the previous leaf line (via `aux.prev_index`) when at that line's minimum
index. -/
def pPrevPos (p : PageS α) (pos : Nat × Nat) : Nat × Nat :=
  if pos.1 > 0 ∧ pos.2 = 0 then
    (pos.1 - 1, lineMaxIdx ((pLines p.levels p.tree).getD (pos.1 - 1) []))
  else (pos.1, pos.2 - 1)

/-- C++ `PageNode::next_position`: step to the next element, crossing to the
next leaf line (via `aux.next_index`) when at that line's maximum index. -/
def pNextPos (p : PageS α) (pos : Nat × Nat) : Nat × Nat :=
  let lines := pLines p.levels p.tree
  if pos.1 + 1 < lines.length ∧ pos.2 = lineMaxIdx (lines.getD pos.1 []) then
    (pos.1 + 1, 0)
  else (pos.1, pos.2 + 1)

/-- Per-depth element indices of C++ `PageNode::find_path(key)`: at each stem
level the `line_node::find` index of the chosen entry (`path[depth].elem`);
the node identity `path[depth].line` is recovered by following these indices
from the root. -/
def pFindIPath (kf : α → Nat) : Nat → PTree α → Nat → List Nat
  | 0, _, _ => []
  | h + 1, t, k =>
    let cs := stemChildren t
    let i := lineFind Prod.fst cs k
    i :: pFindIPath kf h ((cs.getD i (pgdflt α)).2) k

/-- Per-depth element indices of C++ `PageNode::min_path()` (all
`min_index() = 0`). -/
def pMinIPath : Nat → PTree α → List Nat
  | 0, _ => []
  | h + 1, t =>
    let cs := stemChildren t
    0 :: pMinIPath h ((cs.getD 0 (pgdflt α)).2)

/-- Per-depth element indices of C++ `PageNode::max_path()`
(each stem's `max_index()`). -/
def pMaxIPath : Nat → PTree α → List Nat
  | 0, _ => []
  | h + 1, t =>
    let cs := stemChildren t
    (cs.length - 1) :: pMaxIPath h ((cs.getD (cs.length - 1) (pgdflt α)).2)

/-- The node reached from `t` by following child indices (the C++
`path[depth].line` slot contents). -/
def pNodeAt : PTree α → List Nat → PTree α
  | t, [] => t
  | t, i :: is =>
    match t with
    | .pstem cs => pNodeAt ((cs.getD i (pgdflt α)).2) is
    | .pleaf es => pNodeAt (.pleaf es) is

/-- Rebuild the tree with the node at the given child-index path replaced by
`f` of it (the C++ mutates that node in place through its slot index). -/
def pModifyNodeAt (f : PTree α → PTree α) : PTree α → List Nat → PTree α
  | t, [] => f t
  | t, i :: is =>
    match t with
    | .pstem cs =>
      let c := cs.getD i (pgdflt α)
      .pstem (cs.set i (c.1, pModifyNodeAt f c.2 is))
    | .pleaf es => .pleaf es

/-- C++ `line_node::set_key` on a stem line: replace the key stored at the
index, keeping the child. -/
def stemSetKeyNode (elem nk : Nat) : PTree α → PTree α
  | .pstem cs => .pstem (cs.set elem (nk, (cs.getD elem (pgdflt α)).2))
  | .pleaf es => .pleaf es

/-- C++ `PageNode::update_key(path, depth, elem, new_key)`: set the routing
key `elem` of the stem at `path[depth]`, and while the updated entry is the
minimum of its line (`elem == 0`) propagate to the parent entry
(`path[depth-1].elem`). -/
def pUpdateKey : PTree α → List Nat → Nat → Nat → Nat → PTree α
  | t, ipath, d + 1, 0, nk =>
    let t1 := pModifyNodeAt (stemSetKeyNode 0 nk) t (ipath.take (d + 1))
    pUpdateKey t1 ipath d (ipath.getD d 0) nk
  | t, ipath, d, elem, nk => pModifyNodeAt (stemSetKeyNode elem nk) t (ipath.take d)

/-- Helper of `pSetLine` over a child list, abstracted over the recursive
call and the per-subtree leaf count. -/
def pSetLineL (f : PTree α → Nat → List α → PTree α) (cnt : PTree α → Nat) :
    List (Nat × PTree α) → Nat → List α → List (Nat × PTree α)
  | [], _, _ => []
  | c :: cs, i, l =>
    let n := cnt c.2
    if i < n then (c.1, f c.2 i l) :: cs
    else c :: pSetLineL f cnt cs (i - n) l

/-- Replace the leaf line with in-order index `i` (the C++ writes through the
line's slot index). -/
def pSetLine : Nat → PTree α → Nat → List α → PTree α
  | 0, t, i, l => if i = 0 then .pleaf l else t
  | h + 1, t, i, l =>
    match t with
    | .pstem cs => .pstem (pSetLineL (pSetLine h) (fun c => (pLines h c).length) cs i l)
    | .pleaf es => .pleaf es

/-- In-order index of the leaf line reached by a find path: the number of
leaf lines in subtrees left of the path. -/
def pLeafIdxOfIPath : Nat → PTree α → List Nat → Nat
  | 0, _, _ => 0
  | h + 1, t, ipath =>
    let cs := stemChildren t
    let i := ipath.headD 0
    (pLinesL (pLines h) (cs.take i)).length
      + pLeafIdxOfIPath h ((cs.getD i (pgdflt α)).2) ipath.tail

-- ======================================================================
-- PAGE ERASE (double_tree_page_node.hpp lines 634-889)
-- ======================================================================

/-- C++ `PageNode::erase_node(path, depth, elem)`: remove routing entry
`elem` from the stem at `path[depth]`.  A thin non-root stem first merges
with or borrows from its same-parent sibling (previous if it has one, next
otherwise); a merge removes a line, so the parent entry is erased by the
recursive call one level up.  At the root, if a single child remains the
level collapses (`root_index` moves to that child and `stem_levels`
decreases).  Returns the new tree together with the number of root collapses
(0 or 1), to be subtracted from `stem_levels`. -/
def pEraseNode : PTree α → List Nat → Nat → Nat → PTree α × Nat
  | t, _, 0, elem =>
    let cs' := (stemChildren t).eraseIdx elem
    if cs'.length = 1 then ((cs'.getD 0 (pgdflt α)).2, 1) else (.pstem cs', 0)
  | t, ipath, d + 1, elem =>
    let nI := ipath.take (d + 1)
    let node := pNodeAt t nI
    if nodeThin node then
      let pli := ipath.getD d 0
      let parent := pNodeAt t (ipath.take d)
      let pcs := stemChildren parent
      if pli > 0 then
        let prevE := pcs.getD (pli - 1) (pgdflt α)
        if nodeCount node + nodeCount prevE.2 ≤ branchout then
          let merged := PTree.pstem
            (lineMergePrevErase (stemChildren node) elem (stemChildren prevE.2))
          let t1 := pModifyNodeAt
            (fun par => .pstem ((stemChildren par).set (pli - 1) (prevE.1, merged)))
            t (ipath.take d)
          pEraseNode t1 ipath d pli
        else
          let node' := PTree.pstem
            (lineBorrowPrevErase (stemChildren node) elem (stemChildren prevE.2))
          let prev' := PTree.pstem (lineBorrowPrevDonor (stemChildren prevE.2))
          let t1 := pModifyNodeAt
            (fun par => .pstem (((stemChildren par).set (pli - 1) (prevE.1, prev')).set
              pli ((pcs.getD pli (pgdflt α)).1, node')))
            t (ipath.take d)
          (pUpdateKey t1 ipath d pli (stemMinKey node'), 0)
      else
        let nextE := pcs.getD (pli + 1) (pgdflt α)
        if nodeCount node + nodeCount nextE.2 ≤ branchout then
          let merged := PTree.pstem
            (lineMergeNextErase (stemChildren node) elem (stemChildren nextE.2))
          let t1 := pModifyNodeAt
            (fun par => .pstem ((stemChildren par).set pli
              ((pcs.getD pli (pgdflt α)).1, merged)))
            t (ipath.take d)
          let t2 := if elem = 0 then pUpdateKey t1 ipath d pli (stemMinKey merged) else t1
          pEraseNode t2 ipath d (pli + 1)
        else
          let node' := PTree.pstem
            (lineBorrowNextErase (stemChildren node) elem (stemChildren nextE.2))
          let next' := PTree.pstem (lineBorrowNextDonor (stemChildren nextE.2))
          let t1 := pModifyNodeAt
            (fun par => .pstem (((stemChildren par).set pli
              ((pcs.getD pli (pgdflt α)).1, node')).set (pli + 1) (nextE.1, next')))
            t (ipath.take d)
          let t2 := pUpdateKey t1 ipath d (pli + 1) (stemMinKey next')
          let t3 := if elem = 0 then pUpdateKey t2 ipath d pli (stemMinKey node') else t2
          (t3, 0)
    else
      let erased := PTree.pstem ((stemChildren node).eraseIdx elem)
      let t1 := pModifyNodeAt (fun _ => erased) t nI
      let t2 := if elem = 0 then pUpdateKey t1 ipath d (ipath.getD d 0) (stemMinKey erased)
        else t1
      (t2, 0)

/-- C++ `PageNode::erase(key)` (lines 634-764): find the key's path; if the
leaf line is thin and not the intra-page root, merge with or borrow from its
linked-list neighbour (previous if any, else next) and propagate the
structural change with `erase_node` / `update_key`; otherwise erase in place,
fixing the routing keys when the line's minimum was removed. -/
def perase (kf : α → Nat) (p : PageS α) (k : Nat) : PageS α :=
  let ipath := pFindIPath kf p.levels p.tree k
  let leafLine := leafElems (pNodeAt p.tree ipath)
  let elemIdx := lineFind kf leafLine k
  let leafIdx := pLeafIdxOfIPath p.levels p.tree ipath
  let pli := ipath.getD (p.levels - 1) 0
  if p.levels > 0 ∧ nodeThin (.pleaf leafLine) then
    if leafIdx > 0 then
      let prevLine := (pLines p.levels p.tree).getD (leafIdx - 1) []
      if leafLine.length + prevLine.length ≤ lineMax then
        let t1 := pSetLine p.levels p.tree (leafIdx - 1)
          (lineMergePrevErase leafLine elemIdx prevLine)
        let t2 := pSetLine p.levels t1 leafIdx []
        let r := pEraseNode t2 ipath (p.levels - 1) pli
        ⟨r.1, p.levels - r.2⟩
      else
        let newLine := lineBorrowPrevErase leafLine elemIdx prevLine
        let t1 := pSetLine p.levels p.tree (leafIdx - 1) (lineBorrowPrevDonor prevLine)
        let t2 := pSetLine p.levels t1 leafIdx newLine
        let t3 := pUpdateKey t2 ipath (p.levels - 1) pli ((newLine.head?.map kf).getD 0)
        ⟨t3, p.levels⟩
    else
      let nextLine := (pLines p.levels p.tree).getD (leafIdx + 1) []
      if leafLine.length + nextLine.length ≤ lineMax then
        let newLine := lineMergeNextErase leafLine elemIdx nextLine
        let t1 := pSetLine p.levels p.tree leafIdx newLine
        let t2 := pSetLine p.levels t1 (leafIdx + 1) []
        let t3 := if elemIdx = 0 then
            pUpdateKey t2 ipath (p.levels - 1) pli ((newLine.head?.map kf).getD 0)
          else t2
        let r := pEraseNode t3 ipath (p.levels - 1) (pli + 1)
        ⟨r.1, p.levels - r.2⟩
      else
        let newLine := lineBorrowNextErase leafLine elemIdx nextLine
        let donor := lineBorrowNextDonor nextLine
        let t1 := pSetLine p.levels p.tree leafIdx newLine
        let t2 := pSetLine p.levels t1 (leafIdx + 1) donor
        let t3 := pUpdateKey t2 ipath (p.levels - 1) (pli + 1) ((donor.head?.map kf).getD 0)
        let t4 := if elemIdx = 0 then
            pUpdateKey t3 ipath (p.levels - 1) pli ((newLine.head?.map kf).getD 0)
          else t3
        ⟨t4, p.levels⟩
  else
    let newLine := lineErase leafLine elemIdx
    let t1 := pSetLine p.levels p.tree leafIdx newLine
    let t2 := if p.levels > 0 ∧ elemIdx = 0 then
        pUpdateKey t1 ipath (p.levels - 1) pli ((newLine.head?.map kf).getD 0)
      else t1
    ⟨t2, p.levels⟩

-- ======================================================================
-- PAGE SET_KEY (double_tree_page_node.hpp lines 256-264)
-- ======================================================================

/-- Replace the key stored at an index of a line of `(key, payload)` pairs
(C++ `line_node::set_key`). -/
def lineSetKeyPair : List (Nat × β) → Nat → Nat → List (Nat × β)
  | [], _, _ => []
  | x :: xs, 0, nk => (nk, x.2) :: xs
  | x :: xs, i + 1, nk => x :: lineSetKeyPair xs i nk

/-- Replace the payload stored at an index of a line of `(key, payload)`
pairs (the C++ mutates the pointed-to child through the stored pointer). -/
def lineSetChild : List (Nat × β) → Nat → β → List (Nat × β)
  | [], _, _ => []
  | x :: xs, 0, c => (x.1, c) :: xs
  | x :: xs, i + 1, c => x :: lineSetChild xs i c

/-- C++ `PageNode::set_key(position, new_key)`: rewrite the key at the
position; if it is its line's minimum (`position.elem == 0`), re-find the old
key's path and run `update_key` on the stem levels above.  When
`stem_levels == 0` the C++ calls `update_key` with depth `-1` and indexes the
path array out of bounds -- undefined behaviour; the model makes that case a
no-op on the (non-existent) stem levels, which is the only behaviour
consistent with the page's structure. -/
def psetKey (p : PageS (Nat × β)) (pos : Nat × Nat) (nk : Nat) : PageS (Nat × β) :=
  let line := (pLines p.levels p.tree).getD pos.1 []
  let oldKey := ((line.get? pos.2).map Prod.fst).getD 0
  let t1 := pSetLine p.levels p.tree pos.1 (lineSetKeyPair line pos.2 nk)
  if pos.2 = 0 ∧ p.levels > 0 then
    let ipath := pFindIPath Prod.fst p.levels t1 oldKey
    ⟨pUpdateKey t1 ipath (p.levels - 1) (ipath.getD (p.levels - 1) 0) nk, p.levels⟩
  else ⟨t1, p.levels⟩

/-- Replace the child payload of the element at a page position, keeping its
key (the C++ reaches the child through the stored pointer, so parent entries
never change when the child is mutated; the model writes the new child value
back instead). -/
def psetChildAtPos (p : PageS (Nat × β)) (pos : Nat × Nat) (c : β) : PageS (Nat × β) :=
  let line := (pLines p.levels p.tree).getD pos.1 []
  ⟨pSetLine p.levels p.tree pos.1 (lineSetChild line pos.2 c), p.levels⟩

-- ======================================================================
-- PAGE MIN/MAX LEAF INSERTION AND BORROWING
-- (double_tree_page_node.hpp lines 544-630 and 891-1015)
-- ======================================================================

/-- Descent of C++ `PageNode::insert_min_leaf` below the root: along the
leftmost path, rewrite each stem's minimum routing key to the new minimum,
split a full target preemptively (pinning the right half into the current
stem), and insert the `(new_min_key, slot)` entry into the terminal stem. -/
def pInsertMinLeafGo : Nat → PTree α → Nat × PTree α → Nat → PTree α
  | 0, t, _, _ => t
  | 1, t, entry, _ => .pstem (lineInsert Prod.fst (stemChildren t) entry)
  | h + 2, t, entry, nk =>
    let cs := stemChildren t
    let tgt := (cs.getD 0 (pgdflt α)).2
    if nodeFull tgt then
      let l := nodeSplitL tgt
      let r := nodeSplitR tgt
      .pstem (lineInsert Prod.fst
        (cs.set 0 (nk, pInsertMinLeafGo (h + 1) l entry nk)) (stemMinKey r, r))
    else
      .pstem (cs.set 0 (nk, pInsertMinLeafGo (h + 1) tgt entry nk))

/-- C++ `PageNode::insert_min_leaf(new_min_key, slot)`: splice an
already-filled leaf line in as the new leftmost leaf.  With stem levels the
root is split preemptively and the descent registers the entry; with none a
new root stem is allocated holding the new entry and then the old root. -/
def pInsertMinLeaf (kf : α → Nat) (p : PageS α) (nk : Nat) (leaf : PTree α) : PageS α :=
  if p.levels > 0 then
    let p1 := psplitRoot kf p
    ⟨pInsertMinLeafGo p1.levels p1.tree (nk, leaf) nk, p1.levels⟩
  else
    ⟨.pstem (lineInsert Prod.fst (lineInsert Prod.fst [] (nk, leaf))
      (nodeMinKey kf p.tree, p.tree)), 1⟩

/-- Descent of C++ `PageNode::insert_max_leaf` below the root: along the
rightmost path, split a full target preemptively (descending into the new
right half), and insert the `(new_min_key, slot)` entry into the terminal
stem. -/
def pInsertMaxLeafGo : Nat → PTree α → Nat × PTree α → PTree α
  | 0, t, _ => t
  | 1, t, entry => .pstem (lineInsert Prod.fst (stemChildren t) entry)
  | h + 2, t, entry =>
    let cs := stemChildren t
    let li := cs.length - 1
    let c := cs.getD li (pgdflt α)
    if nodeFull c.2 then
      let l := nodeSplitL c.2
      let r := nodeSplitR c.2
      .pstem (lineInsert Prod.fst (cs.set li (c.1, l))
        (stemMinKey r, pInsertMaxLeafGo (h + 1) r entry))
    else
      .pstem (cs.set li (c.1, pInsertMaxLeafGo (h + 1) c.2 entry))

/-- C++ `PageNode::insert_max_leaf(new_min_key, slot)`: splice an
already-filled leaf line in as the new rightmost leaf. -/
def pInsertMaxLeaf (kf : α → Nat) (p : PageS α) (nk : Nat) (leaf : PTree α) : PageS α :=
  if p.levels > 0 then
    let p1 := psplitRoot kf p
    ⟨pInsertMaxLeafGo p1.levels p1.tree (nk, leaf), p1.levels⟩
  else
    ⟨.pstem (lineInsert Prod.fst (lineInsert Prod.fst [] (nodeMinKey kf p.tree, p.tree))
      (nk, leaf)), 1⟩

/-- The loop in C++ `PageNode::borrow_next` that rewrites the routing keys
along the donor's minimum path (depths `0 .. stem_levels-2`) to the donor's
current minimum key before the donor line is removed. -/
def pSetLeftKeys : Nat → PTree α → Nat → PTree α
  | 0, t, _ => t
  | cnt + 1, t, nk =>
    match t with
    | .pstem cs =>
      let c := cs.getD 0 (pgdflt α)
      .pstem (cs.set 0 (nk, pSetLeftKeys cnt c.2 nk))
    | .pleaf es => .pleaf es

/-- Removal of a page's maximum leaf line from its stem structure (the
common tail of `borrow_prev` / `split_one_leaf`): with stem levels, the slot
is deallocated and `erase_node` removes its routing entry (the max-leaf index
and the leaf linked list are maintained implicitly); with none, the root leaf
is `reset()`. -/
def pRemoveMaxLeaf (p : PageS α) : PageS α :=
  if p.levels ≠ 0 then
    let mp := pMaxIPath p.levels p.tree
    let r := pEraseNode p.tree mp (p.levels - 1) (mp.getD (p.levels - 1) 0)
    ⟨r.1, p.levels - r.2⟩
  else ⟨.pleaf [], 0⟩

/-- Removal of a page's minimum leaf line from its stem structure (the
common tail of `borrow_next`).  The C++ passes
`next_path[stem_levels - 1].elem` where `stem_levels` is the *recipient's*
field (design note 5 in the specification); every entry of a minimum path is
0 and out-of-range reads default to 0 here, so the argument is 0 either
way. -/
def pRemoveMinLeaf (selfLevels : Nat) (p : PageS α) : PageS α :=
  if p.levels ≠ 0 then
    let mp := pMinIPath p.levels p.tree
    let r := pEraseNode p.tree mp (p.levels - 1) (mp.getD (selfLevels - 1) 0)
    ⟨r.1, p.levels - r.2⟩
  else ⟨.pleaf [], 0⟩

/-- C++ `PageNode::borrow_prev(prev_page)`: move one leaf line's worth of
data from the previous page into this one.  If the donor's maximum leaf line
is under `min_count`, its elements are inserted one by one with
`PageNode::insert`; otherwise the line is copied in wholesale as the new
minimum leaf (`insert_min_leaf`).  Either way the donor then loses its
maximum leaf line.  Returns `(self, prev)` after the transfer. -/
def pborrowPrev (kf : α → Nat) (self prev : PageS α) : PageS α × PageS α :=
  let old := (pLines prev.levels prev.tree).getLast?.getD []
  let self' :=
    if old.length < minCount then
      old.foldl (fun acc e => pinsert kf acc e) self
    else
      pInsertMinLeaf kf self ((old.head?.map kf).getD 0) (.pleaf old)
  (self', pRemoveMaxLeaf prev)

/-- C++ `PageNode::borrow_next(next_page)`: the mirror image of
`borrow_prev`, taking the next page's minimum leaf line as the new maximum
leaf (`insert_max_leaf`); in the wholesale branch the donor's minimum-path
routing keys are first rewritten to its current minimum key. -/
def pborrowNext (kf : α → Nat) (self next : PageS α) : PageS α × PageS α :=
  let old := (pLines next.levels next.tree).headD []
  if old.length < minCount then
    (old.foldl (fun acc e => pinsert kf acc e) self, pRemoveMinLeaf self.levels next)
  else
    let self' := pInsertMaxLeaf kf self ((old.head?.map kf).getD 0) (.pleaf old)
    let nt := pSetLeftKeys (next.levels - 1) next.tree (pageMinKey kf next)
    (self', pRemoveMinLeaf self.levels ⟨nt, next.levels⟩)

/-- C++ `PageNode::split_one_leaf()`: pop the maximum leaf line into a fresh
heap-allocated page whose root leaf is that line; the donor loses the line.
Returns `(donor, new page)`. -/
def psplitOneLeaf (p : PageS α) : PageS α × PageS α :=
  let old := (pLines p.levels p.tree).getLast?.getD []
  (pRemoveMaxLeaf p, ⟨.pleaf old, 0⟩)

-- ======================================================================
-- OUTER TREE (double_tree.hpp, kernel)
-- ======================================================================

/-- A node of the outer tree, reached through a `void*` in the C++ and
interpreted by descent depth: leaf pages hold user elements, stem pages hold
`(routing key, child pointer)` pairs. -/
inductive ONode where
  | oleaf (p : PageS E)
  | ostem (p : PageS (Nat × ONode))

instance : Inhabited ONode := ⟨.oleaf ⟨.pleaf [], 0⟩⟩

/-- Interpret an outer node as a leaf page (C++ `get_leaf(pointer)`; on a
stem the C++ would reinterpret the page bytes, the model yields an empty
page). -/
def asLeafPage : ONode → PageS E
  | .oleaf p => p
  | .ostem _ => ⟨.pleaf [], 0⟩

/-- Interpret an outer node as a stem page (C++ `get_stem(pointer)`). -/
def asStemPage : ONode → PageS (Nat × ONode)
  | .ostem p => p
  | .oleaf _ => ⟨.pleaf [], 0⟩

/-- The kernel: the root pointer and the `stem_levels` count that steers
every descent.  `min_leaf_pointer` / `max_leaf_pointer` and the leaf-page
linked list are represented implicitly by the in-order sequence of leaf
pages. -/
structure KState where
  root : ONode
  levels : Nat

/-- The freshly constructed kernel (C++ `kernel::kernel()`): one empty leaf
page, no stem levels. -/
def kinit : KState := ⟨.oleaf ⟨.pleaf [], 0⟩, 0⟩

/-- Helper of `oLeafList` over the elements of a stem page, abstracted over
the recursive call. -/
def oLeafListL (f : ONode → List (PageS E)) : List (Nat × ONode) → List (PageS E)
  | [] => []
  | c :: cs => f c.2 ++ oLeafListL f cs

/-- The leaf pages of an outer subtree with `h` stem levels, in linked-list
(in-order) order. -/
def oLeafList : Nat → ONode → List (PageS E)
  | 0, n => [asLeafPage n]
  | h + 1, n => oLeafListL (oLeafList h) (pElems (asStemPage n))

/-- All elements of the map in key order: concatenation of the leaf pages'
elements in leaf-list order (what iterating from `begin()` to `end()`
visits). -/
def ktoList (s : KState) : List E :=
  ((oLeafList s.levels s.root).map (fun p => pElems p)).join

/-- An iterator position `tree_position`: the C++ holds `(page pointer,
page_position)`; the model represents the page pointer by the leaf page's
in-order index and the `page_position` by `(in-order leaf-line index,
element index)`.  On one fixed tree this renaming is injective, so iterator
equality is position equality. -/
structure KPos where
  page : Nat
  line : Nat
  elem : Nat
deriving DecidableEq, Repr

/-- Flat rank of a page position among the page's elements in key order. -/
def pRankOfPos (p : PageS α) (pos : Nat × Nat) : Nat :=
  (((pLines p.levels p.tree).take pos.1).map List.length).sum + pos.2

/-- Descent of C++ `kernel::find_implementation`: at each stem page follow
the child at the page's `find` position; in the terminal leaf page return
its `find` position.  `acc` counts the leaf pages left of the descent, which
is the model's name for the found page pointer. -/
def kfindGo (k : Nat) : Nat → ONode → Nat → KPos
  | 0, n, acc =>
    let pos := pfind Prod.fst (asLeafPage n) k
    ⟨acc, pos.1, pos.2⟩
  | h + 1, n, acc =>
    let p := asStemPage n
    let pos := pfind Prod.fst p k
    let r := pRankOfPos p pos
    let elems := pElems p
    kfindGo k h ((elems.getD r (0, default)).2) (acc + (oLeafListL (oLeafList h) (elems.take r)).length)

/-- C++ `kernel::find_implementation(key)`. -/
def kfindImpl (s : KState) (k : Nat) : KPos := kfindGo k s.levels s.root 0

/-- C++ `kernel::begin()`: `(min_leaf_pointer, min_position())`, i.e. leaf
page 0, leaf line 0, element index 0. -/
def kbegin (_s : KState) : KPos := ⟨0, 0, 0⟩

/-- C++ `kernel::end()`: `(max_leaf_pointer, end_position())`. -/
def kend (s : KState) : KPos :=
  let pages := oLeafList s.levels s.root
  let lastPage := pages.getLast?.getD ⟨.pleaf [], 0⟩
  let pos := pEndPosition lastPage
  ⟨pages.length - 1, pos.1, pos.2⟩

-- ======================================================================
-- KERNEL INSERT (double_tree.hpp lines 209-470)
-- ======================================================================

/-- Fuel for the `while (oversized()) borrow` / `while (small()) borrow`
loops.  Every iteration either removes a leaf line from the donor page (of
which there are at most `pool_count`) or strictly drives the loop condition
towards false, so 32 iterations always suffice for 15-slot pools; the C++
loops terminate for the same reason. -/
def borrowFuel : Nat := 32

/-- The C++ loop `while (donor.oversized()) self.borrow_prev(donor)`. -/
def borrowPrevLoop (kf : α → Nat) : Nat → PageS α → PageS α → PageS α × PageS α
  | 0, s, d => (s, d)
  | fuel + 1, s, d =>
    if poversized d then
      let r := pborrowPrev kf s d
      borrowPrevLoop kf fuel r.1 r.2
    else (s, d)

/-- The C++ loop `while (donor.oversized()) self.borrow_next(donor)`. -/
def borrowNextLoop (kf : α → Nat) : Nat → PageS α → PageS α → PageS α × PageS α
  | 0, s, d => (s, d)
  | fuel + 1, s, d =>
    if poversized d then
      let r := pborrowNext kf s d
      borrowNextLoop kf fuel r.1 r.2
    else (s, d)

/-- C++ `kernel::split_root()`: if the root page is oversized, pop one leaf
line into a fresh sibling page, borrow from the old root into it until the
old root is no longer oversized, and allocate a new root stem page holding
`(min key, pointer)` entries for the old root and the sibling (in that
order); `stem_levels` grows by one. -/
def ksplitRoot (s : KState) : KState :=
  if s.levels > 0 then
    let oldRoot := asStemPage s.root
    if poversized oldRoot then
      let r0 := psplitOneLeaf oldRoot
      let r1 := borrowPrevLoop Prod.fst borrowFuel r0.2 r0.1
      let newRootPage : PageS (Nat × ONode) :=
        pinsert Prod.fst (pinsert Prod.fst ⟨.pleaf [], 0⟩
          (pageMinKey Prod.fst r1.2, .ostem r1.2))
          (pageMinKey Prod.fst r1.1, .ostem r1.1)
      ⟨.ostem newRootPage, s.levels + 1⟩
    else s
  else
    let oldRoot := asLeafPage s.root
    if poversized oldRoot then
      let r0 := psplitOneLeaf oldRoot
      let r1 := borrowPrevLoop Prod.fst borrowFuel r0.2 r0.1
      let newRootPage : PageS (Nat × ONode) :=
        pinsert Prod.fst (pinsert Prod.fst ⟨.pleaf [], 0⟩
          (pageMinKey Prod.fst r1.2, .oleaf r1.2))
          (pageMinKey Prod.fst r1.1, .oleaf r1.1)
      ⟨.ostem newRootPage, 1⟩
    else s

/-- How the descent reattaches the child it descends into after a stem-level
step of `kernel::insert`: either writing it back at an existing position, or
as the payload of the routing entry freshly inserted by the split branch. -/
inductive StemStep where
  | atPos (pos : Nat × Nat)
  | newEntry (k : Nat)

/-- One stem-level step of C++ `kernel::insert` (lines 272-361): find the
target child; if it is oversized try, in order, offloading into a small left
sibling (`borrow_next` until not oversized), offloading into a small right
sibling (`borrow_prev`), or splitting off a new sibling with
`split_one_leaf` + `borrow_prev`; fix the affected routing keys
(`current_stem.set_key`, and `current_stem.insert` of the new sibling's
entry); then descend into the side that covers the new key.  Returns the
updated current page, the child to descend into, and how to write the
descended child back.  In the split branch the C++ addresses the target
through its slot, which is stable across the routing-entry insertion; the
model's in-order positions agree on every state in which these branches run
in this development. -/
def kinsStemStep (e : E) (p : PageS (Nat × ONode)) :
    PageS (Nat × ONode) × ONode × StemStep :=
  let k := e.1
  let tpos := pfind Prod.fst p k
  let tgtE := pElemAtPos p tpos (0, default)
  let tgt := asStemPage tgtE.2
  let ppos := pPrevPos p tpos
  let prevE := pElemAtPos p ppos (0, default)
  let npos := pNextPos p tpos
  let nextE := pElemAtPos p npos (0, default)
  if poversized tgt ∧ tpos ≠ pMinPosition p ∧ psmall (asStemPage prevE.2) then
    let r := borrowNextLoop Prod.fst borrowFuel (asStemPage prevE.2) tgt
    let p1 := psetKey p tpos (pageMinKey Prod.fst r.2)
    if k < pageMinKey Prod.fst r.2 then
      let p2 := if k < pageMinKey Prod.fst r.1 then psetKey p1 ppos k else p1
      (psetChildAtPos p2 tpos (.ostem r.2), .ostem r.1, .atPos ppos)
    else
      (psetChildAtPos p1 ppos (.ostem r.1), .ostem r.2, .atPos tpos)
  else if poversized tgt ∧ tpos ≠ pMaxPosition p ∧ psmall (asStemPage nextE.2) then
    let r := borrowPrevLoop Prod.fst borrowFuel (asStemPage nextE.2) tgt
    let p1 := psetKey p npos (pageMinKey Prod.fst r.1)
    if k ≥ pageMinKey Prod.fst r.1 then
      (psetChildAtPos p1 tpos (.ostem r.2), .ostem r.1, .atPos npos)
    else
      let p2 := if k < pageMinKey Prod.fst r.2 then psetKey p1 tpos k else p1
      (psetChildAtPos p2 npos (.ostem r.1), .ostem r.2, .atPos tpos)
  else if poversized tgt then
    let r0 := psplitOneLeaf tgt
    let r1 := borrowPrevLoop Prod.fst borrowFuel r0.2 r0.1
    let kNew := pageMinKey Prod.fst r1.1
    if k ≥ kNew then
      (psetChildAtPos p tpos (.ostem r1.2), .ostem r1.1, .newEntry kNew)
    else
      let p1 := if k < pageMinKey Prod.fst r1.2 then psetKey p tpos k else p
      (pinsert Prod.fst p1 (kNew, .ostem r1.1), .ostem r1.2, .atPos tpos)
  else
    let p1 := if k < pageMinKey Prod.fst tgt then psetKey p tpos k else p
    (p1, tgtE.2, .atPos tpos)

/-- The terminal level of C++ `kernel::insert` (lines 363-464): the same
three oversized remedies against leaf pages, after which the new element is
inserted with `PageNode::insert` into whichever page covers its key; the
leaf-page linked list splice and the `max_leaf_pointer` update of the split
branch are implicit in the in-order representation. -/
def kinsTerminal (e : E) (p : PageS (Nat × ONode)) : PageS (Nat × ONode) :=
  let k := e.1
  let tpos := pfind Prod.fst p k
  let tgtE := pElemAtPos p tpos (0, default)
  let tgt := asLeafPage tgtE.2
  let ppos := pPrevPos p tpos
  let prevE := pElemAtPos p ppos (0, default)
  let npos := pNextPos p tpos
  let nextE := pElemAtPos p npos (0, default)
  if poversized tgt ∧ tpos ≠ pMinPosition p ∧ psmall (asLeafPage prevE.2) then
    let r := borrowNextLoop Prod.fst borrowFuel (asLeafPage prevE.2) tgt
    let p1 := psetKey p tpos (pageMinKey Prod.fst r.2)
    if k < pageMinKey Prod.fst r.2 then
      let p2 := if k < pageMinKey Prod.fst r.1 then psetKey p1 ppos k else p1
      psetChildAtPos (psetChildAtPos p2 tpos (.oleaf r.2)) ppos
        (.oleaf (pinsert Prod.fst r.1 e))
    else
      psetChildAtPos (psetChildAtPos p1 ppos (.oleaf r.1)) tpos
        (.oleaf (pinsert Prod.fst r.2 e))
  else if poversized tgt ∧ tpos ≠ pMaxPosition p ∧ psmall (asLeafPage nextE.2) then
    let r := borrowPrevLoop Prod.fst borrowFuel (asLeafPage nextE.2) tgt
    let p1 := psetKey p npos (pageMinKey Prod.fst r.1)
    if k ≥ pageMinKey Prod.fst r.1 then
      psetChildAtPos (psetChildAtPos p1 tpos (.oleaf r.2)) npos
        (.oleaf (pinsert Prod.fst r.1 e))
    else
      let p2 := if k < pageMinKey Prod.fst r.2 then psetKey p1 tpos k else p1
      psetChildAtPos (psetChildAtPos p2 npos (.oleaf r.1)) tpos
        (.oleaf (pinsert Prod.fst r.2 e))
  else if poversized tgt then
    let r0 := psplitOneLeaf tgt
    let r1 := borrowPrevLoop Prod.fst borrowFuel r0.2 r0.1
    let kNew := pageMinKey Prod.fst r1.1
    if k ≥ kNew then
      pinsert Prod.fst (psetChildAtPos p tpos (.oleaf r1.2))
        (kNew, .oleaf (pinsert Prod.fst r1.1 e))
    else
      let p1 := if k < pageMinKey Prod.fst r1.2 then psetKey p tpos k else p
      pinsert Prod.fst (psetChildAtPos p1 tpos (.oleaf (pinsert Prod.fst r1.2 e)))
        (kNew, .oleaf r1.1)
  else
    let p1 := if k < pageMinKey Prod.fst tgt then psetKey p tpos k else p
    psetChildAtPos p1 tpos (.oleaf (pinsert Prod.fst tgt e))

/-- The descent of C++ `kernel::insert` after `split_root()`: `stem_levels -
1` stem steps, a terminal step against leaf pages, or a direct
`PageNode::insert` when there are no stem levels. -/
def kinsertGo (e : E) : Nat → ONode → ONode
  | 0, n => .oleaf (pinsert Prod.fst (asLeafPage n) e)
  | 1, n => .ostem (kinsTerminal e (asStemPage n))
  | h + 2, n =>
    let r := kinsStemStep e (asStemPage n)
    let c := kinsertGo e (h + 1) r.2.1
    match r.2.2 with
    | .atPos pos => .ostem (psetChildAtPos r.1 pos c)
    | .newEntry kNew => .ostem (pinsert Prod.fst r.1 (kNew, c))

/-- C++ `kernel::insert(new_elem)`: `split_root()` then the descent. -/
def kinsert (s : KState) (e : E) : KState :=
  let s1 := ksplitRoot s
  ⟨kinsertGo e s1.levels s1.root, s1.levels⟩

-- ======================================================================
-- WELL-FORMEDNESS (the specification's documented invariants)
-- ======================================================================

/-- Offset of block `i` inside the concatenation of `blocks`. -/
def blocksOffset (blocks : List (List α)) (i : Nat) : Nat :=
  ((blocks.take i).map List.length).sum

/-- All elements of a page subtree in leaf linked-list order. -/
def eJoin (h : Nat) (t : PTree α) : List α := (pLines h t).join

/-- Flat rank of a `(line, elem)` position inside `eJoin`. -/
def rankOfPos (h : Nat) (t : PTree α) (pos : Nat × Nat) : Nat :=
  blocksOffset (pLines h t) pos.1 + pos.2

/-- The minimum key of a page subtree: the key of its first element in leaf
order (specification invariant 2 equates the stored routing keys with these
minima). -/
def pMinKeyOf (kf : α → Nat) (h : Nat) (t : PTree α) : Nat :=
  ((eJoin h t).head?.map kf).getD 0

/-- Structural page invariants over a child list, abstracted over the
recursive call (`f`) and the subtree-minimum function (`m`). -/
def pwfL (f : PTree α → Bool) (m : PTree α → Nat) : List (Nat × PTree α) → Bool
  | [] => true
  | c :: cs => f c.2 && (c.1 == m c.2) && pwfL f m cs

/-- Structural page invariants (specification section 8, items 1, 2, 5
restricted to one page): the tree is uniform of height `h`, every line is
non-empty, and every stem entry stores the minimum key of its subtree. -/
def pwf (kf : α → Nat) : Nat → PTree α → Bool
  | 0, t =>
    match t with
    | .pleaf es => !es.isEmpty
    | .pstem _ => false
  | h + 1, t =>
    match t with
    | .pleaf _ => false
    | .pstem cs => !cs.isEmpty && pwfL (pwf kf h) (pMinKeyOf kf h) cs

/-- All map elements under an outer node with `h` stem levels. -/
def ktoListN (h : Nat) (n : ONode) : List E :=
  ((oLeafList h n).map (fun p => pElems p)).join

/-- The minimum key of an outer subtree. -/
def oMinKeyN (h : Nat) (n : ONode) : Nat :=
  ((ktoListN h n).head?.map Prod.fst).getD 0

/-- Outer-tree structural invariants over a stem page's elements, abstracted
over the recursive call and the subtree-minimum function. -/
def kwfL (f : ONode → Bool) (m : ONode → Nat) : List (Nat × ONode) → Bool
  | [] => true
  | c :: cs => f c.2 && (c.1 == m c.2) && kwfL f m cs

/-- Outer-tree structural invariants: nodes are leaf pages at depth
`stem_levels` and stem pages above, every page satisfies the page
invariants, and every outer routing entry stores the minimum key of the
child it points to. -/
def kwf : Nat → ONode → Bool
  | 0, n =>
    match n with
    | .oleaf p => pwf Prod.fst p.levels p.tree
    | .ostem _ => false
  | h + 1, n =>
    match n with
    | .ostem p => pwf Prod.fst p.levels p.tree && kwfL (kwf h) (oMinKeyN h) (pElems p)
    | .oleaf _ => false

/-- The freshly constructed map: a single empty root leaf page.  The empty
map is the one reachable state whose root line is empty, which the page
invariants otherwise exclude. -/
def kIsEmptyRoot (s : KState) : Bool :=
  match s.root with
  | .oleaf p =>
    s.levels == 0 && p.levels == 0 &&
      (match p.tree with
       | .pleaf [] => true
       | _ => false)
  | .ostem _ => false

/-- The specification's documented invariants of a map state at a public
entry point: the structural and routing invariants at both tree scales, and
strict global key sortedness (section 8, items 1, 2, 5). -/
def kernelWF (s : KState) : Bool :=
  (kwf s.levels s.root || kIsEmptyRoot s) && decide (sortedKeys Prod.fst (ktoList s))

/-- The leaf page at in-order index `i` under an outer node with `h` stem
levels (the model's reading of a leaf-page pointer). -/
def oPageAt (h : Nat) (n : ONode) (i : Nat) : PageS E :=
  (oLeafList h n).getD i ⟨.pleaf [], 0⟩

/-- Global rank of an iterator position among the elements under one outer
node: the elements of the leaf pages left of the position's page, plus the
position's rank inside its page. -/
def oRankOfPos (h : Nat) (n : ONode) (pos : KPos) : Nat :=
  blocksOffset ((oLeafList h n).map (fun p => pElems p)) pos.page
    + pRankOfPos (oPageAt h n pos.page) (pos.line, pos.elem)

/-- The element an iterator position refers to (`*iterator`). -/
def kElemAt (s : KState) (pos : KPos) (d : E) : E :=
  pElemAtPos (oPageAt s.levels s.root pos.page) (pos.line, pos.elem) d

/-- Global rank of an iterator position in `ktoList`. -/
def kRankOfPos (s : KState) (pos : KPos) : Nat :=
  oRankOfPos s.levels s.root pos

-- ======================================================================
-- BASIC PAGE LEMMAS
-- ======================================================================

theorem pnodes_pos (t : PTree α) : 1 ≤ pnodes t := by
  cases t with
  | pleaf es => simp [pnodes]
  | pstem cs => simp [pnodes]

theorem pnodesL_ge_length (cs : List (Nat × PTree α)) : cs.length ≤ pnodesL cs := by
  induction cs with
  | nil => simp [pnodesL]
  | cons c cs ih =>
    have := pnodes_pos c.2
    simp only [pnodesL, List.length_cons]
    omega

theorem mem_lineInsert (kf : α → Nat) (es : List α) (e x : α)
    (h : x ∈ lineInsert kf es e) : x = e ∨ x ∈ es := by
  induction es with
  | nil => simpa [lineInsert] using h
  | cons y ys ih =>
    by_cases hc : kf y > kf e
    · simp only [lineInsert, if_pos hc, List.mem_cons] at h
      rcases h with h | h | h
      · left; exact h
      · right; simp [h]
      · right; simp [h]
    · simp only [lineInsert, if_neg hc, List.mem_cons] at h
      rcases h with h | h
      · right; simp [h]
      · rcases ih h with h | h
        · left; exact h
        · right; simp [h]

theorem getD_mem_or_eq (cs : List β) (i : Nat) (d : β) :
    cs.getD i d ∈ cs ∨ cs.getD i d = d := by
  by_cases h : i < cs.length
  · left
    rw [List.getD_eq_get _ _ h]
    exact List.get_mem _ _ _
  · right
    exact List.getD_eq_default _ _ (Nat.le_of_not_lt h)

theorem getD_set_same (cs : List β) (i : Nat) (y d : β) :
    (cs.set i y).getD i d = if i < cs.length then y else d := by
  induction cs generalizing i with
  | nil => simp [List.set]
  | cons c cs ih =>
    cases i with
    | zero => simp [List.set, List.getD]
    | succ i =>
      simp only [List.set, List.getD_cons_succ, List.length_cons, ih]
      by_cases h : i < cs.length
      · rw [if_pos h, if_pos (Nat.succ_lt_succ h)]
      · rw [if_neg h, if_neg (fun hc => h (Nat.lt_of_succ_lt_succ hc))]

theorem nodeFull_getD_false (cs : List (Nat × PTree α)) (i : Nat)
    (hall : ∀ c ∈ cs, nodeFull c.2 = false) :
    nodeFull ((cs.getD i (pgdflt α)).2) = false := by
  rcases getD_mem_or_eq cs i (pgdflt α) with h | h
  · exact hall _ h
  · rw [h]
    simp [pgdflt, nodeFull, lineMax]

theorem nodeFull_getD_set_false (cs : List (Nat × PTree α)) (i : Nat) (k : Nat)
    (hall : ∀ c ∈ cs, nodeFull c.2 = false) :
    nodeFull (((cs.set i (k, (cs.getD i (pgdflt α)).2)).getD i (pgdflt α)).2) = false := by
  rw [getD_set_same]
  split
  · exact nodeFull_getD_false cs i hall
  · simp [pgdflt, nodeFull, lineMax]

-- ======================================================================
-- CLAIM C8: one PageNode::insert cannot exhaust the slot pool
-- ======================================================================

/-- A descent over one stem level whose children are all non-full lines
performs no allocation. -/
theorem pinsertGoAllocs_stem1_zero (kf : α → Nat) (cs : List (Nat × PTree α)) (e : α)
    (hall : ∀ c ∈ cs, nodeFull c.2 = false) :
    pinsertGoAllocs kf 1 (PTree.pstem cs) e = 0 := by
  by_cases hc : kf e < nodeMinKey kf
      ((cs.getD (lineFind Prod.fst cs (kf e)) (pgdflt α))).2
  · simp only [pinsertGoAllocs, stemChildren, if_pos hc,
      nodeFull_getD_set_false cs (lineFind Prod.fst cs (kf e)) (kf e) hall,
      Bool.false_eq_true, if_false]
  · simp only [pinsertGoAllocs, stemChildren, if_neg hc,
      nodeFull_getD_false cs (lineFind Prod.fst cs (kf e)) hall,
      Bool.false_eq_true, if_false]

/-- One descent step over a single stem level allocates at most once: the
line below it is a leaf, and the leaf level never allocates. -/
theorem pinsertGoAllocs_le_one (kf : α → Nat) (t : PTree α) (e : α) :
    pinsertGoAllocs kf 1 t e ≤ 1 := by
  simp only [pinsertGoAllocs]
  split
  · split <;> simp [pinsertGoAllocs]
  · split <;> simp [pinsertGoAllocs]

/-- C8: a `PageNode` that is not oversized on entry (`free_count ≥
MAX_LEVELS`) survives one `PageNode::insert` without exhausting the slot
pool: the total number of `allocate()` calls it performs (directly or via
`split_root`) is at most the entry `free_count`.  Since the insert never
deallocates and each `allocate` decrements `free_count` by exactly one, this
says every `allocate` runs with `free_count > 0`, so the assertion
`assert(free_count > 0)` in `PageNode::allocate` cannot fire.  The page's
`stem_levels` is at most `max_stem_levels`, the bound the pool geometry is
sized for. -/
theorem C8_insert_pool_safe (kf : α → Nat) (p : PageS α) (e : α)
    (hlev : p.levels ≤ maxStemLevels) (hno : poversized p = false) :
    pinsertAllocs kf p e ≤ freeCount p := by
  have hML : maxLevels = 2 := by decide
  have hfc : 2 ≤ freeCount p := by
    simp only [poversized, oversizedFC, hML, decide_eq_false_iff_not, Nat.not_le] at hno
    omega
  have hms : maxStemLevels = 1 := by decide
  rw [hms] at hlev
  obtain ⟨t, lv⟩ := p
  simp only at hlev hfc ⊢
  match lv, hlev with
  | 0, _ =>
    -- stem_levels = 0: the root is a leaf line
    by_cases hfull : ((leafElems t).length == lineMax) = true
    · have hlen : (leafElems t).length = 15 := by
        simpa [lineMax] using hfull
      have hallnf : ∀ c ∈ (lineInsert Prod.fst
          (lineInsert Prod.fst ([] : List (Nat × PTree α))
            (nodeMinKey kf (PTree.pleaf (lineSplitL (leafElems t))),
              PTree.pleaf (lineSplitL (leafElems t))))
          (nodeMinKey kf (PTree.pleaf (lineSplitR (leafElems t))),
            PTree.pleaf (lineSplitR (leafElems t)))), nodeFull c.2 = false := by
        intro c hc
        have hLlen : (lineSplitL (leafElems t)).length = 8 := by
          simp [lineSplitL, hlen]
        have hRlen : (lineSplitR (leafElems t)).length = 7 := by
          simp [lineSplitR, hlen]
        rcases mem_lineInsert _ _ _ _ hc with h1 | h1
        · rw [h1]
          simp [nodeFull, hRlen, lineMax]
        · rcases mem_lineInsert _ _ _ _ h1 with h2 | h2
          · rw [h2]
            simp [nodeFull, hLlen, lineMax]
          · simp at h2
      simp only [pinsertAllocs, psplitRoot, psplitRootAllocs, Nat.lt_irrefl, if_false,
        hfull, if_true]
      rw [pinsertGoAllocs_stem1_zero kf _ e hallnf]
      omega
    · simp only [pinsertAllocs, psplitRoot, psplitRootAllocs, Nat.lt_irrefl, if_false,
        hfull]
      simp [pinsertGoAllocs]
  | 1, _ =>
    -- stem_levels = 1: a full stem root is impossible with free_count ≥ 2
    have hnotfull : ((stemChildren t).length == branchout) = false := by
      by_contra hcon
      have hlen : (stemChildren t).length = 15 := by
        have hb : ((stemChildren t).length == branchout) = true := by
          revert hcon
          cases ((stemChildren t).length == branchout) <;> simp
        simpa [branchout] using hb
      cases htree : t with
      | pleaf es => rw [htree] at hlen; simp [stemChildren] at hlen
      | pstem cs =>
        rw [htree] at hlen
        simp only [stemChildren] at hlen
        have h16 : 16 ≤ pnodes t := by
          rw [htree]
          have := pnodesL_ge_length cs
          simp only [pnodes]
          omega
        simp only [freeCount, poolCount] at hfc
        omega
    simp only [pinsertAllocs, psplitRoot, psplitRootAllocs, Nat.zero_lt_one, if_true,
      hnotfull, Bool.false_eq_true, if_false]
    have := pinsertGoAllocs_le_one kf t e
    simp only [freeCount] at hfc ⊢
    omega

/-- Witness for C8: a one-element root-leaf page has `stem_levels = 0 ≤
max_stem_levels` and `free_count = 14`, is not oversized, and one insert
stays within the pool budget. -/
theorem C8_witness :
    (PageS.levels { tree := PTree.pleaf [((5:Nat),(50:Nat))], levels := 0 } ≤ maxStemLevels)
    ∧ poversized { tree := PTree.pleaf [((5:Nat),(50:Nat))], levels := 0 } = false
    ∧ pinsertAllocs Prod.fst { tree := PTree.pleaf [((5:Nat),(50:Nat))], levels := 0 }
        ((7:Nat),(70:Nat))
      ≤ freeCount { tree := PTree.pleaf [((5:Nat),(50:Nat))], levels := 0 } := by
  refine ⟨by decide, by decide, ?_⟩
  exact C8_insert_pool_safe Prod.fst _ _ (by decide) (by decide)

-- ======================================================================
-- LINE FIND: FURTHER SPECIFICATION LEMMAS
-- ======================================================================

theorem takeWhile_boundary (p : α → Bool) (es : List α) (d : α)
    (h : (es.takeWhile p).length < es.length) :
    p (es.getD (es.takeWhile p).length d) = false := by
  induction es with
  | nil => simp at h
  | cons x xs ih =>
    by_cases hx : p x
    · rw [List.takeWhile_cons_of_pos hx] at h ⊢
      simpa using ih (by simpa using h)
    · rw [List.takeWhile_cons_of_neg (by simpa using hx)]
      simpa [List.getD] using hx

theorem lineFind_lt_length (kf : α → Nat) (es : List α) (k : Nat) (hne : es ≠ []) :
    lineFind kf es k < es.length := by
  match es, hne with
  | e :: rest, _ =>
    by_cases h : kf e > k
    · simp [lineFind, h]
    · have hle : kf e ≤ k := Nat.not_lt.mp h
      rw [lineFind_eq_takeWhile kf k e rest hle]
      have h1 := length_takeWhile_le_length (fun x => decide (kf x ≤ k)) (e :: rest)
      have h2 : 0 < ((e :: rest).takeWhile (fun x => decide (kf x ≤ k))).length := by
        rw [List.takeWhile_cons_of_pos (by simpa using hle)]
        simp
      simp only [List.length_cons] at h1 ⊢
      omega

theorem lineFind_key_le (kf : α → Nat) (es : List α) (k : Nat) (d : α)
    (e : α) (rest : List α) (hes : es = e :: rest) (hh : kf e ≤ k) :
    kf (es.getD (lineFind kf es k) d) ≤ k := by
  subst hes
  rw [lineFind_eq_takeWhile kf k e rest hh]
  have h2 : 0 < ((e :: rest).takeWhile (fun x => decide (kf x ≤ k))).length := by
    rw [List.takeWhile_cons_of_pos (by simpa using hh)]
    simp
  have := takeWhile_getD_sat (fun x => decide (kf x ≤ k)) (e :: rest) d
    (((e :: rest).takeWhile (fun x => decide (kf x ≤ k))).length - 1) (by omega)
  simpa using this

theorem lineFind_ge (kf : α → Nat) (es : List α) (k : Nat) (d : α)
    (hs : sortedKeys kf es) (j : Nat) (hj : j < es.length)
    (hjk : kf (es.getD j d) ≤ k) : j ≤ lineFind kf es k := by
  match es with
  | [] => simp at hj
  | e :: rest =>
    have hh : kf e ≤ k := by
      have := sortedKeys_getD_le kf (e :: rest) d hs 0 j (Nat.zero_le _) hj
      simpa [List.getD] using Nat.le_trans this hjk
    rw [lineFind_eq_takeWhile kf k e rest hh]
    have hjtw : j < ((e :: rest).takeWhile (fun x => decide (kf x ≤ k))).length := by
      apply lt_length_takeWhile_of_sat _ _ d _ hj
      intro i hi
      have hkey := sortedKeys_getD_le kf (e :: rest) d hs i j hi hj
      simpa using Nat.le_trans hkey hjk
    omega

theorem lineFind_next_gt (kf : α → Nat) (es : List α) (k : Nat) (d : α)
    (e : α) (rest : List α) (hes : es = e :: rest) (hh : kf e ≤ k)
    (hlt : lineFind kf es k + 1 < es.length) :
    k < kf (es.getD (lineFind kf es k + 1) d) := by
  subst hes
  rw [lineFind_eq_takeWhile kf k e rest hh] at hlt ⊢
  have h2 : 0 < ((e :: rest).takeWhile (fun x => decide (kf x ≤ k))).length := by
    rw [List.takeWhile_cons_of_pos (by simpa using hh)]
    simp
  have hb := takeWhile_boundary (fun x => decide (kf x ≤ k)) (e :: rest) d (by omega)
  have heq : ((e :: rest).takeWhile (fun x => decide (kf x ≤ k))).length - 1 + 1
      = ((e :: rest).takeWhile (fun x => decide (kf x ≤ k))).length := by omega
  rw [heq]
  simpa using hb

theorem lineFind_all_gt (kf : α → Nat) (es : List α) (k : Nat)
    (hall : ∀ e ∈ es, k < kf e) : lineFind kf es k = 0 := by
  match es with
  | [] => simp [lineFind]
  | e :: rest =>
    have : kf e > k := hall e (by simp)
    simp [lineFind, this]

-- ======================================================================
-- JOIN INDEXING LEMMAS
-- ======================================================================

theorem blocksOffset_cons (b : List α) (blocks : List (List α)) (i : Nat) :
    blocksOffset (b :: blocks) (i + 1) = b.length + blocksOffset blocks i := by
  simp [blocksOffset, List.take_succ_cons]

theorem getD_append_left (l1 l2 : List α) (n : Nat) (d : α) (h : n < l1.length) :
    (l1 ++ l2).getD n d = l1.getD n d := by
  induction l1 generalizing n with
  | nil => simp at h
  | cons x xs ih =>
    cases n with
    | zero => simp [List.getD]
    | succ n =>
      simp only [List.cons_append, List.getD_cons_succ]
      exact ih n (Nat.lt_of_succ_lt_succ h)

theorem getD_append_right (l1 l2 : List α) (n : Nat) (d : α) :
    (l1 ++ l2).getD (l1.length + n) d = l2.getD n d := by
  induction l1 with
  | nil => simp
  | cons x xs ih =>
    simpa [List.cons_append, Nat.succ_add, List.getD_cons_succ] using ih

theorem join_cons_eq (b : List α) (blocks : List (List α)) :
    (b :: blocks).join = b ++ blocks.join := by
  simp [List.join]

theorem join_getD_offset (blocks : List (List α)) (d : α) (i j : Nat)
    (hi : i < blocks.length) (hj : j < (blocks.getD i []).length) :
    blocks.join.getD (blocksOffset blocks i + j) d = (blocks.getD i []).getD j d := by
  induction blocks generalizing i with
  | nil => simp at hi
  | cons b blocks ih =>
    cases i with
    | zero =>
      rw [List.getD_cons_zero] at hj ⊢
      simp only [blocksOffset, List.take_zero, List.map_nil, List.sum_nil, Nat.zero_add]
      rw [join_cons_eq, getD_append_left _ _ _ _ hj]
    | succ i =>
      rw [blocksOffset_cons, join_cons_eq, Nat.add_assoc,
        getD_append_right b blocks.join _ d]
      simp only [List.getD_cons_succ]
      exact ih i (Nat.lt_of_succ_lt_succ hi) hj

theorem blocksOffset_add_lt (blocks : List (List α)) (i j : Nat)
    (hi : i < blocks.length) (hj : j < (blocks.getD i []).length) :
    blocksOffset blocks i + j < blocks.join.length := by
  induction blocks generalizing i with
  | nil => simp at hi
  | cons b blocks ih =>
    cases i with
    | zero =>
      rw [List.getD_cons_zero] at hj
      simp only [blocksOffset, List.take_zero, List.map_nil, List.sum_nil, Nat.zero_add]
      rw [join_cons_eq]
      simp only [List.length_append]
      omega
    | succ i =>
      rw [blocksOffset_cons, join_cons_eq]
      simp only [List.getD_cons_succ] at hj
      simp only [List.length_append]
      have := ih i (Nat.lt_of_succ_lt_succ hi) hj
      omega

theorem join_index_decomp (blocks : List (List α)) (n : Nat)
    (hn : n < blocks.join.length) :
    ∃ i j, i < blocks.length ∧ j < (blocks.getD i []).length
      ∧ n = blocksOffset blocks i + j := by
  induction blocks generalizing n with
  | nil => simp at hn
  | cons b blocks ih =>
    by_cases hb : n < b.length
    · refine ⟨0, n, by simp, ?_, by simp [blocksOffset]⟩
      rw [List.getD_cons_zero]
      exact hb
    · have hn' : n - b.length < blocks.join.length := by
        rw [join_cons_eq] at hn
        simp only [List.length_append] at hn
        omega
      obtain ⟨i, j, hi, hj, he⟩ := ih (n - b.length) hn'
      refine ⟨i + 1, j, by simpa using Nat.succ_lt_succ hi, by simpa using hj, ?_⟩
      rw [blocksOffset_cons]
      omega

-- ======================================================================
-- WELL-FORMEDNESS EXTRACTION LEMMAS
-- ======================================================================

theorem pwfL_getD (f : PTree α → Bool) (m : PTree α → Nat)
    (cs : List (Nat × PTree α)) (hwl : pwfL f m cs = true) (i : Nat)
    (d : Nat × PTree α) (hi : i < cs.length) :
    f (cs.getD i d).2 = true ∧ (cs.getD i d).1 = m (cs.getD i d).2 := by
  induction cs generalizing i with
  | nil => simp at hi
  | cons c cs ih =>
    simp only [pwfL, Bool.and_eq_true, beq_iff_eq] at hwl
    cases i with
    | zero =>
      rw [List.getD_cons_zero]
      exact ⟨hwl.1.1, hwl.1.2⟩
    | succ i =>
      simp only [List.getD_cons_succ]
      exact ih (by simp [hwl.2]) i (Nat.lt_of_succ_lt_succ hi)

theorem sortedKeys_getD_lt (kf : α → Nat) (es : List α) (d : α)
    (hs : sortedKeys kf es) (i j : Nat) (hij : i < j) (hj : j < es.length) :
    kf (es.getD i d) < kf (es.getD j d) := by
  have hi : i < es.length := Nat.lt_trans hij hj
  have hmap : (es.map kf).Pairwise (fun a b => a < b) := hs
  rw [List.pairwise_iff_get] at hmap
  have := hmap ⟨i, by simpa using hi⟩ ⟨j, by simpa using hj⟩ (by simpa using hij)
  rw [List.getD_eq_get _ _ hi, List.getD_eq_get _ _ hj]
  simpa using this

theorem sortedKeys_of_getD_lt (kf : α → Nat) (es : List α) (d : α)
    (hmono : ∀ i j, i < j → j < es.length → kf (es.getD i d) < kf (es.getD j d)) :
    sortedKeys kf es := by
  rw [sortedKeys, List.pairwise_iff_get]
  intro i j hij
  have hj : (j : Nat) < es.length := by simpa using j.isLt
  have := hmono i j (by simpa using hij) hj
  rw [List.getD_eq_get _ _ (by simpa using i.isLt), List.getD_eq_get _ _ hj] at this
  simpa using this

theorem head_getD_key (kf : α → Nat) (l : List α) (d : α) (hne : l ≠ []) :
    ((l.head?).map kf).getD 0 = kf (l.getD 0 d) := by
  match l, hne with
  | x :: xs, _ => simp [List.getD_cons_zero]

-- ======================================================================
-- STRUCTURE OF pLines AND eJoin
-- ======================================================================

theorem pLinesL_append (f : PTree α → List (List α)) (l1 l2 : List (Nat × PTree α)) :
    pLinesL f (l1 ++ l2) = pLinesL f l1 ++ pLinesL f l2 := by
  induction l1 with
  | nil => simp [pLinesL]
  | cons c cs ih => simp [pLinesL, ih]

theorem pLines_stem (h : Nat) (cs : List (Nat × PTree α)) :
    pLines (h + 1) (.pstem cs) = pLinesL (pLines h) cs := rfl

theorem join_append_eq (l1 l2 : List (List α)) :
    (l1 ++ l2).join = l1.join ++ l2.join := by
  induction l1 with
  | nil => simp
  | cons b bs ih => simp [join_cons_eq, ih, List.append_assoc]

theorem eJoin_stem (h : Nat) (cs : List (Nat × PTree α)) :
    eJoin (h + 1) (.pstem cs) = (cs.map (fun c => eJoin h c.2)).join := by
  show (pLinesL (pLines h) cs).join = _
  induction cs with
  | nil => simp [pLinesL]
  | cons c cs ih =>
    simp only [pLinesL, List.map_cons, join_cons_eq, join_append_eq, ih]
    rfl

theorem length_join_eq_sum (blocks : List (List α)) :
    blocks.join.length = (blocks.map List.length).sum := by
  induction blocks with
  | nil => simp
  | cons b bs ih => simp [join_cons_eq, ih]

theorem blocksOffset_succ (blocks : List (List α)) (i : Nat) (hi : i < blocks.length) :
    blocksOffset blocks (i + 1) = blocksOffset blocks i + (blocks.getD i []).length := by
  induction blocks generalizing i with
  | nil => simp at hi
  | cons b bs ih =>
    cases i with
    | zero => simp [blocksOffset, List.getD_cons_zero]
    | succ i =>
      rw [blocksOffset_cons, blocksOffset_cons, List.getD_cons_succ,
        ih i (Nat.lt_of_succ_lt_succ hi)]
      omega

theorem blocksOffset_mono (blocks : List (List α)) (i j : Nat) (hij : i ≤ j) :
    blocksOffset blocks i ≤ blocksOffset blocks j := by
  induction blocks generalizing i j with
  | nil => simp [blocksOffset]
  | cons b bs ih =>
    cases i with
    | zero => simp [blocksOffset]
    | succ i =>
      cases j with
      | zero => omega
      | succ j =>
        rw [blocksOffset_cons, blocksOffset_cons]
        have := ih i j (Nat.le_of_succ_le_succ hij)
        omega

theorem eJoin_ne_nil (kf : α → Nat) (h : Nat) (t : PTree α)
    (hwf : pwf kf h t = true) : eJoin h t ≠ [] := by
  induction h generalizing t with
  | zero =>
    cases t with
    | pleaf es =>
      simp only [pwf, Bool.not_eq_true'] at hwf
      simpa [eJoin, pLines, leafElems, join_cons_eq] using
        (by simpa [List.isEmpty_iff] using hwf : es ≠ [])
    | pstem cs => simp [pwf] at hwf
  | succ h ih =>
    cases t with
    | pleaf es => simp [pwf] at hwf
    | pstem cs =>
      simp only [pwf, Bool.and_eq_true] at hwf
      match cs, hwf with
      | c :: cs, hwf =>
        have hc : pwf kf h c.2 = true := by
          have := hwf.2
          simp only [pwfL, Bool.and_eq_true] at this
          exact this.1.1
        have := ih c.2 hc
        rw [eJoin_stem]
        simp only [List.map_cons, join_cons_eq]
        intro hcon
        rcases List.append_eq_nil.mp hcon with ⟨h1, _⟩
        exact this h1

theorem getD_mem (l : List α) (n : Nat) (d : α) (h : n < l.length) :
    l.getD n d ∈ l := by
  rw [List.getD_eq_get _ _ h]
  exact List.get_mem _ _ _

theorem lineFind_key_le' (kf : α → Nat) (es : List α) (k : Nat) (d : α)
    (hne : es ≠ []) (hh : kf (es.getD 0 d) ≤ k) :
    kf (es.getD (lineFind kf es k) d) ≤ k := by
  match es, hne with
  | e :: rest, _ =>
    exact lineFind_key_le kf (e :: rest) k d e rest rfl
      (by simpa [List.getD_cons_zero] using hh)

theorem lineFind_next_gt' (kf : α → Nat) (es : List α) (k : Nat) (d : α)
    (hne : es ≠ []) (hh : kf (es.getD 0 d) ≤ k)
    (hlt : lineFind kf es k + 1 < es.length) :
    k < kf (es.getD (lineFind kf es k + 1) d) := by
  match es, hne with
  | e :: rest, _ =>
    exact lineFind_next_gt kf (e :: rest) k d e rest rfl
      (by simpa [List.getD_cons_zero] using hh) hlt

theorem pwfL_mem (f : PTree α → Bool) (m : PTree α → Nat)
    (cs : List (Nat × PTree α)) (hwl : pwfL f m cs = true)
    (c : Nat × PTree α) (hc : c ∈ cs) : f c.2 = true ∧ c.1 = m c.2 := by
  induction cs with
  | nil => simp at hc
  | cons c0 cs ih =>
    simp only [pwfL, Bool.and_eq_true, beq_iff_eq] at hwl
    rcases List.mem_cons.mp hc with h | h
    · subst h
      exact ⟨hwl.1.1, hwl.1.2⟩
    · exact ih (by simp [hwl.2]) h

theorem map_getD_blocks (cs : List (Nat × PTree α)) (g : Nat × PTree α → List α)
    (i : Nat) (hi : i < cs.length) :
    (cs.map g).getD i [] = g (cs.getD i (pgdflt α)) := by
  rw [List.getD_eq_get _ _ (by simpa using hi), List.getD_eq_get _ _ hi]
  simp

theorem blocksOffset_append_add (l1 l2 : List (List α)) (x : Nat) :
    blocksOffset (l1 ++ l2) (l1.length + x) = (l1.map List.length).sum + blocksOffset l2 x := by
  induction l1 with
  | nil => simp [blocksOffset]
  | cons b bs ih =>
    simp only [List.cons_append, List.length_cons, Nat.succ_add, blocksOffset_cons,
      List.map_cons, List.sum_cons, ih]
    omega

theorem blocksOffset_append_left (l1 l2 : List (List α)) (x : Nat) (hx : x ≤ l1.length) :
    blocksOffset (l1 ++ l2) x = blocksOffset l1 x := by
  induction l1 generalizing x with
  | nil =>
    have : x = 0 := Nat.le_zero.mp hx
    simp [this, blocksOffset]
  | cons b bs ih =>
    cases x with
    | zero => simp [blocksOffset]
    | succ x =>
      simp only [List.cons_append, blocksOffset_cons]
      rw [ih x (Nat.le_of_succ_le_succ hx)]

theorem pLinesL_join (h : Nat) (l : List (Nat × PTree α)) :
    (pLinesL (pLines h) l).join = (l.map (fun c => eJoin h c.2)).join := by
  induction l with
  | nil => simp [pLinesL]
  | cons c cs ih =>
    simp only [pLinesL, List.map_cons, join_cons_eq, join_append_eq, ih]
    rfl

theorem eJoin_leaf (es : List α) : eJoin 0 (.pleaf es) = es := by
  simp [eJoin, pLines, leafElems, join_cons_eq]

theorem stem_key_eq_join (kf : α → Nat) (d : α) (h : Nat)
    (cs : List (Nat × PTree α)) (hwf : pwf kf (h + 1) (.pstem cs) = true)
    (i : Nat) (hi : i < cs.length) :
    (cs.getD i (pgdflt α)).1
      = kf ((eJoin (h + 1) (.pstem cs)).getD
          (blocksOffset (cs.map (fun c => eJoin h c.2)) i) d)
    ∧ blocksOffset (cs.map (fun c => eJoin h c.2)) i
        < (eJoin (h + 1) (.pstem cs)).length := by
  simp only [pwf, Bool.and_eq_true] at hwf
  have hx := pwfL_getD _ _ cs hwf.2 i (pgdflt α) hi
  have hne := eJoin_ne_nil kf h (cs.getD i (pgdflt α)).2 hx.1
  have hblock : (cs.map (fun c => eJoin h c.2)).getD i []
      = eJoin h (cs.getD i (pgdflt α)).2 :=
    map_getD_blocks cs (fun c => eJoin h c.2) i hi
  have hlen : 0 < ((cs.map (fun c => eJoin h c.2)).getD i []).length := by
    rw [hblock]
    exact List.length_pos.mpr hne
  constructor
  · rw [eJoin_stem]
    have := join_getD_offset (cs.map (fun c => eJoin h c.2)) d i 0 (by simpa using hi) hlen
    rw [Nat.add_zero] at this
    rw [this, hblock]
    rw [hx.2, pMinKeyOf, head_getD_key kf _ d hne]
  · rw [eJoin_stem]
    have := blocksOffset_add_lt (cs.map (fun c => eJoin h c.2)) i 0 (by simpa using hi) hlen
    simpa using this

theorem sorted_block_of_sorted_join (kf : α → Nat) (d : α) (blocks : List (List α))
    (hs : sortedKeys kf blocks.join) (i : Nat) (hi : i < blocks.length) :
    sortedKeys kf (blocks.getD i []) := by
  apply sortedKeys_of_getD_lt kf _ d
  intro a b hab hb
  have ha : a < (blocks.getD i []).length := Nat.lt_trans hab hb
  have h1 := join_getD_offset blocks d i a hi ha
  have h2 := join_getD_offset blocks d i b hi hb
  rw [← h1, ← h2]
  exact sortedKeys_getD_lt kf _ d hs _ _ (by omega)
    (blocksOffset_add_lt blocks i b hi hb)

theorem stem_keys_sorted (kf : α → Nat) (h : Nat) (cs : List (Nat × PTree α))
    (hwf : pwf kf (h + 1) (.pstem cs) = true)
    (hs : sortedKeys kf (eJoin (h + 1) (.pstem cs))) :
    sortedKeys Prod.fst cs := by
  obtain ⟨d0, -⟩ := List.exists_mem_of_ne_nil _ (eJoin_ne_nil kf (h + 1) (.pstem cs) hwf)
  apply sortedKeys_of_getD_lt Prod.fst cs (pgdflt α)
  intro i j hij hj
  have hi : i < cs.length := Nat.lt_trans hij hj
  have Hi := stem_key_eq_join kf d0 h cs hwf i hi
  have Hj := stem_key_eq_join kf d0 h cs hwf j hj
  rw [Hi.1, Hj.1]
  apply sortedKeys_getD_lt kf _ d0 hs _ _ ?_ Hj.2
  have hmono := blocksOffset_mono (cs.map (fun c => eJoin h c.2)) (i + 1) j hij
  have hsucc := blocksOffset_succ (cs.map (fun c => eJoin h c.2)) i (by simpa using hi)
  have hwl : pwfL (pwf kf h) (pMinKeyOf kf h) cs = true := by
    simp only [pwf, Bool.and_eq_true] at hwf
    exact hwf.2
  have hx := pwfL_getD _ _ cs hwl i (pgdflt α) hi
  have hneb : ((cs.map (fun c => eJoin h c.2)).getD i []).length ≠ 0 := by
    rw [map_getD_blocks cs _ i hi]
    simpa using eJoin_ne_nil kf h (cs.getD i (pgdflt α)).2 hx.1
  omega

/-- Correctness of `PageNode::find` on one page subtree: the returned
position is in range; if every key exceeds the searched key the minimum
position `(0,0)` is returned; otherwise the position's flat rank points at
the greatest key at most the searched key. -/
theorem pfind_spec (kf : α → Nat) (d : α) (h : Nat) :
    ∀ (t : PTree α) (k : Nat), pwf kf h t = true → sortedKeys kf (eJoin h t) →
    (pfindPos kf h t k).1 < (pLines h t).length
    ∧ (pfindPos kf h t k).2 < ((pLines h t).getD (pfindPos kf h t k).1 []).length
    ∧ ((∀ e ∈ eJoin h t, k < kf e) → pfindPos kf h t k = (0, 0))
    ∧ (∀ j, j < (eJoin h t).length → kf ((eJoin h t).getD j d) ≤ k →
        kf ((eJoin h t).getD (rankOfPos h t (pfindPos kf h t k)) d) ≤ k
        ∧ j ≤ rankOfPos h t (pfindPos kf h t k)) := by
  induction h with
  | zero =>
    intro t k hwf hs
    cases t with
    | pstem cs => simp [pwf] at hwf
    | pleaf es =>
      have hne : es ≠ [] := by
        simp only [pwf, Bool.not_eq_true'] at hwf
        simpa [List.isEmpty_iff] using hwf
      have hfind : pfindPos kf 0 (.pleaf es) k = (0, lineFind kf es k) := rfl
      have hlines : pLines 0 (.pleaf es) = [es] := rfl
      have hjoin : eJoin 0 (.pleaf es) = es := eJoin_leaf es
      have hrank : ∀ x, rankOfPos 0 (.pleaf es) (0, x) = x := by
        intro x
        simp [rankOfPos, blocksOffset, hlines]
      refine ⟨by simp [hfind, hlines], ?_, ?_, ?_⟩
      · simp only [hfind, hlines, List.getD_cons_zero]
        exact lineFind_lt_length kf es k hne
      · intro hall
        rw [hfind, lineFind_all_gt kf es k (by simpa [hjoin] using hall)]
      · intro j hj hjk
        rw [hjoin] at hj hjk
        have hh : kf (es.getD 0 d) ≤ k := by
          have := sortedKeys_getD_le kf es d (by simpa [hjoin] using hs) 0 j
            (Nat.zero_le _) hj
          omega
        rw [hfind, hjoin, hrank]
        exact ⟨lineFind_key_le' kf es k d hne hh,
          lineFind_ge kf es k d (by simpa [hjoin] using hs) j hj hjk⟩
  | succ h ih =>
    intro t k hwf hs
    cases t with
    | pleaf es => simp [pwf] at hwf
    | pstem cs =>
      have hcs : cs ≠ [] := by
        simp only [pwf, Bool.and_eq_true, Bool.not_eq_true'] at hwf
        simpa [List.isEmpty_iff] using hwf.1
      have hwl : pwfL (pwf kf h) (pMinKeyOf kf h) cs = true := by
        simp only [pwf, Bool.and_eq_true] at hwf
        exact hwf.2
      set blocks := cs.map (fun c => eJoin h c.2) with hblocks
      have hJ : eJoin (h + 1) (.pstem cs) = blocks.join := eJoin_stem h cs
      set liF := lineFind Prod.fst cs k with hliF
      have hiF : liF < cs.length := lineFind_lt_length Prod.fst cs k hcs
      set child := (cs.getD liF (pgdflt α)).2 with hchild
      have hcx := pwfL_getD _ _ cs hwl liF (pgdflt α) hiF
      have hchildwf : pwf kf h child = true := hcx.1
      have hblockc : blocks.getD liF [] = eJoin h child :=
        map_getD_blocks cs _ liF hiF
      have hchildsorted : sortedKeys kf (eJoin h child) := by
        rw [← hblockc]
        exact sorted_block_of_sorted_join kf d blocks (by rw [← hJ]; exact hs) liF
          (by simpa [hblocks] using hiF)
      have IH := ih child k hchildwf hchildsorted
      -- structure of the line list
      have hsplit : cs = cs.take liF ++ (cs.getD liF (pgdflt α)) :: cs.drop (liF + 1) := by
        have hd : cs.drop liF = cs.getD liF (pgdflt α) :: cs.drop (liF + 1) := by
          rw [List.getD_eq_get _ _ hiF]
          exact List.drop_eq_get_cons hiF
        conv_lhs => rw [← List.take_append_drop liF cs, hd]
      set LB := pLinesL (pLines h) (cs.take liF) with hLB
      set LC := pLines h child with hLC
      set LA := pLinesL (pLines h) (cs.drop (liF + 1)) with hLA
      have hlines : pLines (h + 1) (.pstem cs) = LB ++ (LC ++ LA) := by
        conv_lhs => rw [pLines_stem, hsplit]
        rw [pLinesL_append]
        rfl
      have hfind : pfindPos kf (h + 1) (.pstem cs) k
          = (LB.length + (pfindPos kf h child k).1, (pfindPos kf h child k).2) := rfl
      set r := pfindPos kf h child k with hr
      have hr1 : r.1 < LC.length := IH.1
      have hr2 : r.2 < (LC.getD r.1 []).length := IH.2.1
      have hlineAt : (pLines (h + 1) (.pstem cs)).getD (LB.length + r.1) []
          = LC.getD r.1 [] := by
        rw [hlines, getD_append_right, getD_append_left _ _ _ _ hr1]
      have hvalid1 : LB.length + r.1 < (pLines (h + 1) (.pstem cs)).length := by
        rw [hlines]
        simp only [List.length_append]
        omega
      refine ⟨by rw [hfind]; exact hvalid1, ?_, ?_, ?_⟩
      · rw [hfind]
        show r.2 < ((pLines (h + 1) (PTree.pstem cs)).getD (LB.length + r.1) []).length
        rw [hlineAt]
        exact hr2
      · -- all keys greater: the find returns the minimum position
        intro hall
        have hall' : ∀ c ∈ cs, k < c.1 := by
          intro c hc
          have hm := pwfL_mem _ _ cs hwl c hc
          have hnec := eJoin_ne_nil kf h c.2 hm.1
          obtain ⟨x, hx⟩ := List.exists_mem_of_ne_nil _ hnec
          match hx0 : eJoin h c.2, hnec with
          | x0 :: rest, _ =>
            have hx0mem : x0 ∈ eJoin (h + 1) (.pstem cs) := by
              rw [hJ]
              apply List.mem_join.mpr
              refine ⟨eJoin h c.2, ?_, by rw [hx0]; simp⟩
              simp only [hblocks]
              exact List.mem_map.mpr ⟨c, hc, rfl⟩
            have := hall x0 hx0mem
            rw [hm.2, pMinKeyOf, hx0]
            simpa using this
        have hl0 : liF = 0 := by
          rw [hliF]
          exact lineFind_all_gt Prod.fst cs k hall'
        have hchild0 : ∀ e ∈ eJoin h child, k < kf e := by
          intro e he
          apply hall
          rw [hJ]
          apply List.mem_join.mpr
          have hmemb : eJoin h child ∈ blocks := by
            rw [← hblockc]
            exact getD_mem blocks liF [] (by simpa [hblocks] using hiF)
          exact ⟨eJoin h child, hmemb, he⟩
        have hr0 := IH.2.2.1 hchild0
        have hLB0 : LB.length = 0 := by
          rw [hLB, hl0]
          simp [pLinesL]
        rw [hfind, hr0]
        simp [hLB0]
      · -- greatest key at most k
        intro j hj hjk
        rw [hJ] at hj hjk
        -- rank bookkeeping
        have hsumLB : (LB.map List.length).sum = blocksOffset blocks liF := by
          rw [hLB, hblocks, blocksOffset, ← List.map_take, ← length_join_eq_sum,
            ← length_join_eq_sum, pLinesL_join, List.map_take]
        have hrank : rankOfPos (h + 1) (.pstem cs) (LB.length + r.1, r.2)
            = blocksOffset blocks liF + rankOfPos h child r := by
          show blocksOffset (pLines (h + 1) (.pstem cs)) (LB.length + r.1) + r.2 = _
          rw [hlines, blocksOffset_append_add, blocksOffset_append_left _ _ _
            (Nat.le_of_lt hr1), hsumLB, rankOfPos, ← hLC]
          omega
        have hrc : rankOfPos h child r < (eJoin h child).length := by
          rw [rankOfPos, eJoin, length_join_eq_sum]
          have := blocksOffset_add_lt LC r.1 r.2 hr1 hr2
          rw [length_join_eq_sum] at this
          exact this
        have hkey0 : kf (blocks.join.getD 0 d) ≤ k := by
          have := sortedKeys_getD_le kf blocks.join d (by rw [← hJ]; exact hs) 0 j
            (Nat.zero_le _) hj
          omega
        have hhead : Prod.fst (cs.getD 0 (pgdflt α)) ≤ k := by
          have h0 := stem_key_eq_join kf d h cs hwf 0 (by
            cases cs with
            | nil => exact absurd rfl hcs
            | cons a l => simp)
          rw [h0.1, hJ]
          have : blocksOffset blocks 0 = 0 := by simp [blocksOffset]
          rw [this]
          exact hkey0
        have hkeyliF : kf ((eJoin h child).getD 0 d) ≤ k := by
          have := lineFind_key_le' Prod.fst cs k (pgdflt α) hcs
            (by simpa [List.getD_cons_zero] using hhead)
          rw [← hliF] at this
          rw [← head_getD_key kf _ d (eJoin_ne_nil kf h child hchildwf)]
          rw [← pMinKeyOf, ← hcx.2]
          exact this
        have hchildne : (eJoin h child) ≠ [] := eJoin_ne_nil kf h child hchildwf
        have IH4 := IH.2.2.2 0 (List.length_pos.mpr hchildne) hkeyliF
        constructor
        · -- key at the returned rank is at most k
          rw [hfind, hrank, hJ]
          have := join_getD_offset blocks d liF (rankOfPos h child r)
            (by simpa [hblocks] using hiF) (by rw [hblockc]; exact hrc)
          rw [this, hblockc]
          exact IH4.1
        · -- every index with key at most k is bounded by the returned rank
          rw [hfind, hrank]
          obtain ⟨bj, j', hbj, hj', hdecomp⟩ := join_index_decomp blocks j hj
          rcases Nat.lt_trichotomy bj liF with hlt | heq | hgt
          · have h1 : j < blocksOffset blocks (bj + 1) := by
              rw [blocksOffset_succ blocks bj hbj]
              omega
            have h2 : blocksOffset blocks (bj + 1) ≤ blocksOffset blocks liF :=
              blocksOffset_mono blocks _ _ hlt
            omega
          · subst heq
            have hkeyj' : kf ((eJoin h child).getD j' d) ≤ k := by
              have := join_getD_offset blocks d liF j' hbj hj'
              rw [← hblockc, ← this, ← hdecomp]
              exact hjk
            have := (IH.2.2.2 j' (by rw [← hblockc]; exact hj') hkeyj').2
            omega
          · -- j lies in a block past the chosen child: its key exceeds k
            exfalso
            have hnext : liF + 1 < cs.length := by
              have hbl : blocks.length = cs.length := by simp [hblocks]
              omega
            have hgtk : k < Prod.fst (cs.getD (liF + 1) (pgdflt α)) := by
              have := lineFind_next_gt' Prod.fst cs k (pgdflt α) hcs
                (by simpa [List.getD_cons_zero] using hhead) (by rw [← hliF]; exact hnext)
              rw [← hliF] at this
              exact this
            have hbjc : bj < cs.length := by simpa [hblocks] using hbj
            have hbjkey := stem_key_eq_join kf d h cs hwf bj hbjc
            have hnextkey := stem_key_eq_join kf d h cs hwf (liF + 1) hnext
            have hmono1 : Prod.fst (cs.getD (liF + 1) (pgdflt α))
                ≤ Prod.fst (cs.getD bj (pgdflt α)) := by
              rcases Nat.eq_or_lt_of_le (Nat.succ_le_of_lt hgt) with he | hlt2
              · have he2 : liF + 1 = bj := he
                rw [he2]
              · rw [hnextkey.1, hbjkey.1]
                simp only [← hblocks]
                apply Nat.le_of_lt
                apply sortedKeys_getD_lt kf _ d hs
                · have h1 : blocksOffset blocks (liF + 2)
                      = blocksOffset blocks (liF + 1) + (blocks.getD (liF + 1) []).length :=
                    blocksOffset_succ blocks (liF + 1) (by simpa [hblocks] using hnext)
                  have h2 : blocksOffset blocks (liF + 2) ≤ blocksOffset blocks bj :=
                    blocksOffset_mono blocks _ _ hlt2
                  have hlen1 : ((cs.map (fun c => eJoin h c.2)).getD (liF + 1) []).length ≠ 0 := by
                    rw [map_getD_blocks cs _ _ hnext]
                    have hx2 := pwfL_getD _ _ cs hwl (liF + 1) (pgdflt α) hnext
                    simpa using eJoin_ne_nil kf h _ hx2.1
                  simp only [← hblocks] at h1 hlen1
                  omega
                · simp only [← hblocks] at hbjkey
                  exact hbjkey.2
            have hblockbj : kf (blocks.join.getD (blocksOffset blocks bj) d)
                ≤ kf (blocks.join.getD j d) := by
              rcases Nat.eq_zero_or_pos j' with hz | hpos
              · rw [hdecomp, hz]
                simp
              · exact Nat.le_of_lt (sortedKeys_getD_lt kf _ d
                  (by rw [← hJ]; exact hs) _ _ (by omega) hj)
            have hfinal : Prod.fst (cs.getD bj (pgdflt α)) ≤ kf (blocks.join.getD j d) := by
              rw [hbjkey.1, hJ]
              exact hblockbj
            omega

-- ======================================================================
-- PAGE FIND AS A FLAT RANK
-- ======================================================================

theorem pfind_rank_lt (kf : α → Nat) (h : Nat) (t : PTree α) (k : Nat)
    (hwf : pwf kf h t = true) (hs : sortedKeys kf (eJoin h t)) :
    rankOfPos h t (pfindPos kf h t k) < (eJoin h t).length := by
  obtain ⟨d, -⟩ := List.exists_mem_of_ne_nil _ (eJoin_ne_nil kf h t hwf)
  have S := pfind_spec kf d h t k hwf hs
  have := blocksOffset_add_lt (pLines h t) (pfindPos kf h t k).1
    (pfindPos kf h t k).2 S.1 S.2.1
  rw [rankOfPos, eJoin]
  exact this

/-- The flat rank of the position `PageNode::find` returns equals
`line_node::find` run on the page's flat element list: page find locates the
greatest key at most the searched key (or the minimum position). -/
theorem pfind_rank_eq_lineFind (kf : α → Nat) (h : Nat) (t : PTree α) (k : Nat)
    (hwf : pwf kf h t = true) (hs : sortedKeys kf (eJoin h t)) :
    rankOfPos h t (pfindPos kf h t k) = lineFind kf (eJoin h t) k := by
  have hne : eJoin h t ≠ [] := eJoin_ne_nil kf h t hwf
  obtain ⟨d, -⟩ := List.exists_mem_of_ne_nil _ hne
  have S := pfind_spec kf d h t k hwf hs
  have hrlt := pfind_rank_lt kf h t k hwf hs
  by_cases hall : ∀ e ∈ eJoin h t, k < kf e
  · rw [S.2.2.1 hall, lineFind_all_gt kf _ k hall]
    simp [rankOfPos, blocksOffset]
  · push_neg at hall
    obtain ⟨e0, he0, hke0⟩ := hall
    obtain ⟨⟨j0, hj0⟩, hj0e⟩ := List.mem_iff_get.mp he0
    have hj0' : kf ((eJoin h t).getD j0 d) ≤ k := by
      rw [List.getD_eq_get _ _ hj0, hj0e]
      exact hke0
    have H1 := S.2.2.2 j0 hj0 hj0'
    have hle1 : rankOfPos h t (pfindPos kf h t k) ≤ lineFind kf (eJoin h t) k :=
      lineFind_ge kf _ k d hs _ hrlt H1.1
    have hkeyLF : kf ((eJoin h t).getD (lineFind kf (eJoin h t) k) d) ≤ k := by
      apply lineFind_key_le' kf _ k d hne
      have := sortedKeys_getD_le kf _ d hs 0 j0 (Nat.zero_le _) hj0
      omega
    have hle2 := (S.2.2.2 _ (lineFind_lt_length kf _ k hne) hkeyLF).2
    omega

-- ======================================================================
-- KERNEL TREE STRUCTURE LEMMAS
-- ======================================================================

theorem map_getD_gen (l : List β) (g : β → List α) (i : Nat) (d : β)
    (hi : i < l.length) : (l.map g).getD i [] = g (l.getD i d) := by
  rw [List.getD_eq_get _ _ (by simpa using hi), List.getD_eq_get _ _ hi]
  simp

theorem kwfL_getD (f : ONode → Bool) (m : ONode → Nat)
    (cs : List (Nat × ONode)) (hwl : kwfL f m cs = true) (i : Nat)
    (d : Nat × ONode) (hi : i < cs.length) :
    f (cs.getD i d).2 = true ∧ (cs.getD i d).1 = m (cs.getD i d).2 := by
  induction cs generalizing i with
  | nil => simp at hi
  | cons c cs ih =>
    simp only [kwfL, Bool.and_eq_true, beq_iff_eq] at hwl
    cases i with
    | zero =>
      rw [List.getD_cons_zero]
      exact ⟨hwl.1.1, hwl.1.2⟩
    | succ i =>
      simp only [List.getD_cons_succ]
      exact ih (by simp [hwl.2]) i (Nat.lt_of_succ_lt_succ hi)

theorem oLeafListL_append (f : ONode → List (PageS E)) (l1 l2 : List (Nat × ONode)) :
    oLeafListL f (l1 ++ l2) = oLeafListL f l1 ++ oLeafListL f l2 := by
  induction l1 with
  | nil => simp [oLeafListL]
  | cons c cs ih => simp [oLeafListL, ih]

theorem oLeafListL_join (h : Nat) (l : List (Nat × ONode)) :
    ((oLeafListL (oLeafList h) l).map (fun p => pElems p)).join
      = (l.map (fun c => ktoListN h c.2)).join := by
  induction l with
  | nil => simp [oLeafListL]
  | cons c cs ih =>
    simp only [oLeafListL, List.map_cons, List.map_append, join_append_eq,
      join_cons_eq, ih]
    rfl

theorem ktoListN_leaf (p : PageS E) :
    ktoListN 0 (.oleaf p) = eJoin p.levels p.tree := by
  simp [ktoListN, oLeafList, asLeafPage, pElems, eJoin, join_cons_eq]

theorem ktoListN_stem (h : Nat) (p : PageS (Nat × ONode)) :
    ktoListN (h + 1) (.ostem p)
      = ((pElems p).map (fun c => ktoListN h c.2)).join := by
  rw [ktoListN]
  exact oLeafListL_join h (pElems p)

theorem ktoListN_ne_nil (h : Nat) : ∀ (n : ONode), kwf h n = true →
    ktoListN h n ≠ [] := by
  induction h with
  | zero =>
    intro n hwf
    cases n with
    | ostem p => simp [kwf] at hwf
    | oleaf p =>
      rw [ktoListN_leaf]
      exact eJoin_ne_nil Prod.fst p.levels p.tree (by simpa [kwf] using hwf)
  | succ h ih =>
    intro n hwf
    cases n with
    | oleaf p => simp [kwf] at hwf
    | ostem p =>
      simp only [kwf, Bool.and_eq_true] at hwf
      have hne : pElems p ≠ [] := eJoin_ne_nil Prod.fst p.levels p.tree hwf.1
      rw [ktoListN_stem]
      obtain ⟨c, cs, hcs⟩ : ∃ c cs, pElems p = c :: cs := by
        cases hpe : pElems p with
        | nil => exact absurd hpe hne
        | cons c cs => exact ⟨c, cs, rfl⟩
      have hwl := hwf.2
      rw [hcs] at hwl
      simp only [kwfL, Bool.and_eq_true] at hwl
      have hcne := ih c.2 hwl.1.1
      rw [hcs]
      simp only [List.map_cons, join_cons_eq]
      intro hcon
      rcases List.append_eq_nil.mp hcon with ⟨h1, -⟩
      exact hcne h1

theorem kstem_key_eq_join (d : E) (h : Nat) (p : PageS (Nat × ONode))
    (hwf : kwf (h + 1) (.ostem p) = true)
    (i : Nat) (hi : i < (pElems p).length) :
    ((pElems p).getD i (0, default)).1
      = Prod.fst ((ktoListN (h + 1) (.ostem p)).getD
          (blocksOffset ((pElems p).map (fun c => ktoListN h c.2)) i) d)
    ∧ blocksOffset ((pElems p).map (fun c => ktoListN h c.2)) i
        < (ktoListN (h + 1) (.ostem p)).length := by
  simp only [kwf, Bool.and_eq_true] at hwf
  have hx := kwfL_getD _ _ (pElems p) hwf.2 i (0, default) hi
  have hne := ktoListN_ne_nil h ((pElems p).getD i (0, default)).2 hx.1
  have hblock : ((pElems p).map (fun c => ktoListN h c.2)).getD i []
      = ktoListN h ((pElems p).getD i (0, default)).2 :=
    map_getD_gen (pElems p) _ i (0, default) hi
  have hlen : 0 < (((pElems p).map (fun c => ktoListN h c.2)).getD i []).length := by
    rw [hblock]
    exact List.length_pos.mpr hne
  constructor
  · rw [ktoListN_stem]
    have := join_getD_offset ((pElems p).map (fun c => ktoListN h c.2)) d i 0
      (by simpa using hi) hlen
    rw [Nat.add_zero] at this
    rw [this, hblock, hx.2, oMinKeyN, head_getD_key Prod.fst _ d hne]
  · rw [ktoListN_stem]
    have := blocksOffset_add_lt ((pElems p).map (fun c => ktoListN h c.2)) i 0
      (by simpa using hi) hlen
    simpa using this

theorem kstem_keys_sorted (h : Nat) (p : PageS (Nat × ONode))
    (hwf : kwf (h + 1) (.ostem p) = true)
    (hs : sortedKeys Prod.fst (ktoListN (h + 1) (.ostem p))) :
    sortedKeys Prod.fst (pElems p) := by
  obtain ⟨d0, -⟩ := List.exists_mem_of_ne_nil _ (ktoListN_ne_nil (h + 1) (.ostem p) hwf)
  apply sortedKeys_of_getD_lt Prod.fst (pElems p) (0, default)
  intro i j hij hj
  have hi : i < (pElems p).length := Nat.lt_trans hij hj
  have Hi := kstem_key_eq_join d0 h p hwf i hi
  have Hj := kstem_key_eq_join d0 h p hwf j hj
  rw [Hi.1, Hj.1]
  apply sortedKeys_getD_lt Prod.fst _ d0 hs _ _ ?_ Hj.2
  have hmono := blocksOffset_mono ((pElems p).map (fun c => ktoListN h c.2)) (i + 1) j hij
  have hsucc := blocksOffset_succ ((pElems p).map (fun c => ktoListN h c.2)) i
    (by simpa using hi)
  simp only [kwf, Bool.and_eq_true] at hwf
  have hx := kwfL_getD _ _ (pElems p) hwf.2 i (0, default) hi
  have hneb : (((pElems p).map (fun c => ktoListN h c.2)).getD i []).length ≠ 0 := by
    rw [map_getD_gen (pElems p) _ i (0, default) hi]
    simpa using ktoListN_ne_nil h _ hx.1
  omega

theorem kfindGo_shift (k : Nat) : ∀ (h : Nat) (n : ONode) (a b : Nat),
    kfindGo k h n (a + b)
      = ⟨a + (kfindGo k h n b).page, (kfindGo k h n b).line,
          (kfindGo k h n b).elem⟩ := by
  intro h
  induction h with
  | zero =>
    intro n a b
    simp [kfindGo]
  | succ h ih =>
    intro n a b
    simp only [kfindGo]
    rw [Nat.add_assoc]
    exact ih _ a _

theorem kfindGo_acc (k : Nat) (h : Nat) (n : ONode) (acc : Nat) :
    kfindGo k h n acc
      = ⟨acc + (kfindGo k h n 0).page, (kfindGo k h n 0).line,
          (kfindGo k h n 0).elem⟩ := by
  have := kfindGo_shift k h n acc 0
  simpa using this

theorem kwfL_mem (f : ONode → Bool) (m : ONode → Nat)
    (cs : List (Nat × ONode)) (hwl : kwfL f m cs = true)
    (c : Nat × ONode) (hc : c ∈ cs) : f c.2 = true ∧ c.1 = m c.2 := by
  induction cs with
  | nil => simp at hc
  | cons c0 cs ih =>
    simp only [kwfL, Bool.and_eq_true, beq_iff_eq] at hwl
    rcases List.mem_cons.mp hc with h | h
    · subst h
      exact ⟨hwl.1.1, hwl.1.2⟩
    · exact ih (by simp [hwl.2]) h

theorem oRank_lt (h : Nat) (n : ONode) (pos : KPos)
    (h1 : pos.page < (oLeafList h n).length)
    (h2 : pos.line < (pLines (oPageAt h n pos.page).levels
        (oPageAt h n pos.page).tree).length)
    (h3 : pos.elem < ((pLines (oPageAt h n pos.page).levels
        (oPageAt h n pos.page).tree).getD pos.line []).length) :
    oRankOfPos h n pos < (ktoListN h n).length := by
  have hinner : pRankOfPos (oPageAt h n pos.page) (pos.line, pos.elem)
      < (pElems (oPageAt h n pos.page)).length := by
    have := blocksOffset_add_lt
      (pLines (oPageAt h n pos.page).levels (oPageAt h n pos.page).tree)
      pos.line pos.elem h2 h3
    exact this
  have hblockpage : ((oLeafList h n).map (fun pg => pElems pg)).getD pos.page []
      = pElems (oPageAt h n pos.page) :=
    map_getD_gen (oLeafList h n) _ pos.page ⟨.pleaf [], 0⟩ h1
  have := blocksOffset_add_lt ((oLeafList h n).map (fun pg => pElems pg)) pos.page
    (pRankOfPos (oPageAt h n pos.page) (pos.line, pos.elem))
    (by simpa using h1) (by rw [hblockpage]; exact hinner)
  exact this

theorem oElemAt_eq (d : E) (h : Nat) (n : ONode) (pos : KPos)
    (h1 : pos.page < (oLeafList h n).length)
    (h2 : pos.line < (pLines (oPageAt h n pos.page).levels
        (oPageAt h n pos.page).tree).length)
    (h3 : pos.elem < ((pLines (oPageAt h n pos.page).levels
        (oPageAt h n pos.page).tree).getD pos.line []).length) :
    pElemAtPos (oPageAt h n pos.page) (pos.line, pos.elem) d
      = (ktoListN h n).getD (oRankOfPos h n pos) d := by
  have hblockpage : ((oLeafList h n).map (fun pg => pElems pg)).getD pos.page []
      = pElems (oPageAt h n pos.page) :=
    map_getD_gen (oLeafList h n) _ pos.page ⟨.pleaf [], 0⟩ h1
  have hinner : pRankOfPos (oPageAt h n pos.page) (pos.line, pos.elem)
      < (pElems (oPageAt h n pos.page)).length := by
    have := blocksOffset_add_lt
      (pLines (oPageAt h n pos.page).levels (oPageAt h n pos.page).tree)
      pos.line pos.elem h2 h3
    exact this
  have houter := join_getD_offset ((oLeafList h n).map (fun pg => pElems pg)) d pos.page
    (pRankOfPos (oPageAt h n pos.page) (pos.line, pos.elem))
    (by simpa using h1) (by rw [hblockpage]; exact hinner)
  have hinner2 := join_getD_offset
    (pLines (oPageAt h n pos.page).levels (oPageAt h n pos.page).tree) d
    pos.line pos.elem h2 h3
  have e1 : (ktoListN h n).getD (oRankOfPos h n pos) d
      = (pElems (oPageAt h n pos.page)).getD
          (pRankOfPos (oPageAt h n pos.page) (pos.line, pos.elem)) d := by
    rw [← hblockpage]
    exact houter
  have e2 : (pElems (oPageAt h n pos.page)).getD
        (pRankOfPos (oPageAt h n pos.page) (pos.line, pos.elem)) d
      = pElemAtPos (oPageAt h n pos.page) (pos.line, pos.elem) d := by
    exact hinner2
  rw [e1, e2]

/-- Correctness of `kernel::find_implementation`'s descent under one outer
node: the returned iterator position is valid; when every key of the
subtree exceeds the searched key the minimum position is returned;
otherwise the position's global rank points at the greatest key at most the
searched key. -/
theorem kfind_spec (d : E) (h : Nat) :
    ∀ (n : ONode) (k : Nat), kwf h n = true →
    sortedKeys Prod.fst (ktoListN h n) →
    (kfindGo k h n 0).page < (oLeafList h n).length
    ∧ (kfindGo k h n 0).line
        < (pLines (oPageAt h n (kfindGo k h n 0).page).levels
            (oPageAt h n (kfindGo k h n 0).page).tree).length
    ∧ (kfindGo k h n 0).elem
        < ((pLines (oPageAt h n (kfindGo k h n 0).page).levels
            (oPageAt h n (kfindGo k h n 0).page).tree).getD
              (kfindGo k h n 0).line []).length
    ∧ ((∀ e ∈ ktoListN h n, k < e.1) → kfindGo k h n 0 = ⟨0, 0, 0⟩)
    ∧ (∀ j, j < (ktoListN h n).length → ((ktoListN h n).getD j d).1 ≤ k →
        ((ktoListN h n).getD (oRankOfPos h n (kfindGo k h n 0)) d).1 ≤ k
        ∧ j ≤ oRankOfPos h n (kfindGo k h n 0)) := by
  induction h with
  | zero =>
    intro n k hwf hs
    cases n with
    | ostem p => simp [kwf] at hwf
    | oleaf p =>
      have hpwf : pwf Prod.fst p.levels p.tree = true := by simpa [kwf] using hwf
      have hlist : ktoListN 0 (.oleaf p) = eJoin p.levels p.tree := ktoListN_leaf p
      have hs' : sortedKeys Prod.fst (eJoin p.levels p.tree) := by rwa [hlist] at hs
      have S := pfind_spec Prod.fst d p.levels p.tree k hpwf hs'
      have hfind : kfindGo k 0 (.oleaf p) 0
          = ⟨0, (pfindPos Prod.fst p.levels p.tree k).1,
              (pfindPos Prod.fst p.levels p.tree k).2⟩ := rfl
      have hpage : oPageAt 0 (.oleaf p) 0 = p := by
        simp [oPageAt, oLeafList, asLeafPage]
      have hR : oRankOfPos 0 (.oleaf p) (kfindGo k 0 (.oleaf p) 0)
          = rankOfPos p.levels p.tree (pfindPos Prod.fst p.levels p.tree k) := by
        rw [hfind]
        simp [oRankOfPos, hpage, blocksOffset, pRankOfPos, rankOfPos]
      refine ⟨?_, ?_, ?_, ?_, ?_⟩
      · rw [hfind]
        show (0 : Nat) < (oLeafList 0 (.oleaf p)).length
        simp [oLeafList]
      · rw [hfind]
        show (pfindPos Prod.fst p.levels p.tree k).1
            < (pLines (oPageAt 0 (.oleaf p) 0).levels
                (oPageAt 0 (.oleaf p) 0).tree).length
        rw [hpage]
        exact S.1
      · rw [hfind]
        show (pfindPos Prod.fst p.levels p.tree k).2
            < ((pLines (oPageAt 0 (.oleaf p) 0).levels
                (oPageAt 0 (.oleaf p) 0).tree).getD
                  (pfindPos Prod.fst p.levels p.tree k).1 []).length
        rw [hpage]
        exact S.2.1
      · intro hall
        rw [hlist] at hall
        rw [hfind, S.2.2.1 hall]
      · intro j hj hjk
        rw [hlist] at hj hjk
        rw [hlist, hR]
        exact S.2.2.2 j hj hjk
  | succ h ih =>
    intro n k hwf hs
    cases n with
    | oleaf p => simp [kwf] at hwf
    | ostem p =>
      have hpwfp : pwf Prod.fst p.levels p.tree = true := by
        simp only [kwf, Bool.and_eq_true] at hwf
        exact hwf.1
      have hkwl : kwfL (kwf h) (oMinKeyN h) (pElems p) = true := by
        simp only [kwf, Bool.and_eq_true] at hwf
        exact hwf.2
      have hcsne : pElems p ≠ [] := eJoin_ne_nil Prod.fst p.levels p.tree hpwfp
      have hsorted_cs : sortedKeys Prod.fst (pElems p) := kstem_keys_sorted h p hwf hs
      set blocks := (pElems p).map (fun c => ktoListN h c.2) with hblocks
      have hJ : ktoListN (h + 1) (.ostem p) = blocks.join := by
        rw [hblocks]
        exact ktoListN_stem h p
      set rI := pRankOfPos p (pfind Prod.fst p k) with hrI
      have hrIeq : rI = lineFind Prod.fst (pElems p) k := by
        rw [hrI]
        exact pfind_rank_eq_lineFind Prod.fst p.levels p.tree k hpwfp hsorted_cs
      have hiF : rI < (pElems p).length := by
        rw [hrIeq]
        exact lineFind_lt_length Prod.fst (pElems p) k hcsne
      set child := ((pElems p).getD rI (0, default)).2 with hchild
      have hx := kwfL_getD _ _ (pElems p) hkwl rI (0, default) hiF
      have hchildwf : kwf h child = true := hx.1
      have hckey : ((pElems p).getD rI (0, default)).1 = oMinKeyN h child := hx.2
      have hblockc : blocks.getD rI [] = ktoListN h child := by
        rw [hblocks]
        exact map_getD_gen (pElems p) _ rI (0, default) hiF
      have hchildsorted : sortedKeys Prod.fst (ktoListN h child) := by
        rw [← hblockc]
        exact sorted_block_of_sorted_join Prod.fst d blocks (by rw [← hJ]; exact hs) rI
          (by simpa [hblocks] using hiF)
      have IH := ih child k hchildwf hchildsorted
      have hsplit : pElems p = (pElems p).take rI
          ++ ((pElems p).getD rI (0, default)) :: (pElems p).drop (rI + 1) := by
        have hd : (pElems p).drop rI
            = (pElems p).getD rI (0, default) :: (pElems p).drop (rI + 1) := by
          rw [List.getD_eq_get _ _ hiF]
          exact List.drop_eq_get_cons hiF
        conv_lhs => rw [← List.take_append_drop rI (pElems p), hd]
      set PB := oLeafListL (oLeafList h) ((pElems p).take rI) with hPB
      set PC := oLeafList h child with hPC
      set PA := oLeafListL (oLeafList h) ((pElems p).drop (rI + 1)) with hPA
      have hpages : oLeafList (h + 1) (.ostem p) = PB ++ (PC ++ PA) := by
        show oLeafListL (oLeafList h) (pElems p) = PB ++ (PC ++ PA)
        conv_lhs => rw [hsplit]
        rw [oLeafListL_append]
        rfl
      set q := kfindGo k h child 0 with hq
      have hq1 : q.page < PC.length := IH.1
      have hq2 : q.line < (pLines (oPageAt h child q.page).levels
          (oPageAt h child q.page).tree).length := IH.2.1
      have hq3 : q.elem < ((pLines (oPageAt h child q.page).levels
          (oPageAt h child q.page).tree).getD q.line []).length := IH.2.2.1
      have hfind : kfindGo k (h + 1) (.ostem p) 0
          = ⟨PB.length + q.page, q.line, q.elem⟩ := by
        show kfindGo k h child (0 + PB.length) = _
        rw [kfindGo_acc]
        simp [← hq, Nat.zero_add]
      have hpageAt : oPageAt (h + 1) (.ostem p) (PB.length + q.page)
          = oPageAt h child q.page := by
        rw [oPageAt, oPageAt, hpages, getD_append_right, getD_append_left _ _ _ _ hq1]
      have hvalid1 : PB.length + q.page < (oLeafList (h + 1) (.ostem p)).length := by
        rw [hpages]
        simp only [List.length_append]
        omega
      refine ⟨?_, ?_, ?_, ?_, ?_⟩
      · rw [hfind]
        show PB.length + q.page < (oLeafList (h + 1) (.ostem p)).length
        exact hvalid1
      · rw [hfind]
        show q.line < (pLines (oPageAt (h + 1) (.ostem p) (PB.length + q.page)).levels
            (oPageAt (h + 1) (.ostem p) (PB.length + q.page)).tree).length
        rw [hpageAt]
        exact hq2
      · rw [hfind]
        show q.elem < ((pLines (oPageAt (h + 1) (.ostem p) (PB.length + q.page)).levels
            (oPageAt (h + 1) (.ostem p) (PB.length + q.page)).tree).getD q.line []).length
        rw [hpageAt]
        exact hq3
      · -- all keys greater: the minimum position
        intro hall
        have hall' : ∀ c ∈ pElems p, k < c.1 := by
          intro c hc
          have hm := kwfL_mem _ _ (pElems p) hkwl c hc
          have hnec := ktoListN_ne_nil h c.2 hm.1
          match hx0 : ktoListN h c.2, hnec with
          | x0 :: rest, _ =>
            have hx0mem : x0 ∈ ktoListN (h + 1) (.ostem p) := by
              rw [hJ]
              apply List.mem_join.mpr
              refine ⟨ktoListN h c.2, ?_, by rw [hx0]; simp⟩
              simp only [hblocks]
              exact List.mem_map.mpr ⟨c, hc, rfl⟩
            have := hall x0 hx0mem
            rw [hm.2, oMinKeyN, hx0]
            simpa using this
        have hl0 : rI = 0 := by
          rw [hrIeq]
          exact lineFind_all_gt Prod.fst (pElems p) k hall'
        have hchild0 : ∀ e ∈ ktoListN h child, k < e.1 := by
          intro e he
          apply hall
          rw [hJ]
          apply List.mem_join.mpr
          have hmemb : ktoListN h child ∈ blocks := by
            rw [← hblockc]
            exact getD_mem blocks rI [] (by simpa [hblocks] using hiF)
          exact ⟨ktoListN h child, hmemb, he⟩
        have hq0 : q = ⟨0, 0, 0⟩ := IH.2.2.2.1 hchild0
        have hPB0 : PB.length = 0 := by
          rw [hPB, hl0]
          simp [oLeafListL]
        rw [hfind, hq0]
        simp [hPB0]
      · -- greatest key at most k
        intro j hj hjk
        rw [hJ] at hj hjk
        have hsumPB : ((PB.map (fun pg => pElems pg)).map List.length).sum
            = blocksOffset blocks rI := by
          rw [hPB, hblocks, blocksOffset, ← List.map_take, ← length_join_eq_sum,
            ← length_join_eq_sum, oLeafListL_join, List.map_take]
        have hrank2 : oRankOfPos (h + 1) (.ostem p) ⟨PB.length + q.page, q.line, q.elem⟩
            = blocksOffset blocks rI + oRankOfPos h child q := by
          show blocksOffset ((oLeafList (h + 1) (.ostem p)).map (fun pg => pElems pg))
                (PB.length + q.page)
              + pRankOfPos (oPageAt (h + 1) (.ostem p) (PB.length + q.page))
                  (q.line, q.elem)
            = blocksOffset blocks rI + oRankOfPos h child q
          rw [hpageAt, hpages, List.map_append, List.map_append]
          rw [show PB.length = (PB.map (fun pg => pElems pg)).length from
            (List.length_map _ _).symm]
          rw [blocksOffset_append_add]
          rw [blocksOffset_append_left _ _ _ (by
            rw [List.length_map]
            exact Nat.le_of_lt hq1)]
          rw [hsumPB, oRankOfPos, ← hPC]
          omega
        have hrc : oRankOfPos h child q < (ktoListN h child).length :=
          oRank_lt h child q hq1 hq2 hq3
        have hkey0 : Prod.fst (blocks.join.getD 0 d) ≤ k := by
          have := sortedKeys_getD_le Prod.fst blocks.join d (by rw [← hJ]; exact hs) 0 j
            (Nat.zero_le _) hj
          omega
        have hhead : Prod.fst ((pElems p).getD 0 (0, default)) ≤ k := by
          have h0 := kstem_key_eq_join d h p hwf 0 (List.length_pos.mpr hcsne)
          rw [h0.1, hJ]
          have : blocksOffset blocks 0 = 0 := by simp [blocksOffset]
          rw [this]
          exact hkey0
        have hkeyliF : Prod.fst ((ktoListN h child).getD 0 d) ≤ k := by
          have := lineFind_key_le' Prod.fst (pElems p) k (0, default) hcsne
            (by simpa [List.getD_cons_zero] using hhead)
          rw [← hrIeq] at this
          rw [← head_getD_key Prod.fst _ d (ktoListN_ne_nil h child hchildwf)]
          rw [← oMinKeyN, ← hckey]
          exact this
        have hchildne : ktoListN h child ≠ [] := ktoListN_ne_nil h child hchildwf
        have IH4 := IH.2.2.2.2 0 (List.length_pos.mpr hchildne) hkeyliF
        constructor
        · rw [hfind, hrank2, hJ]
          have := join_getD_offset blocks d rI (oRankOfPos h child q)
            (by simpa [hblocks] using hiF) (by rw [hblockc]; exact hrc)
          rw [this, hblockc]
          exact IH4.1
        · rw [hfind, hrank2]
          obtain ⟨bj, j', hbj, hj', hdecomp⟩ := join_index_decomp blocks j hj
          rcases Nat.lt_trichotomy bj rI with hlt | heq | hgt
          · have h1 : j < blocksOffset blocks (bj + 1) := by
              rw [blocksOffset_succ blocks bj hbj]
              omega
            have h2 : blocksOffset blocks (bj + 1) ≤ blocksOffset blocks rI :=
              blocksOffset_mono blocks _ _ hlt
            omega
          · subst heq
            have hkeyj' : Prod.fst ((ktoListN h child).getD j' d) ≤ k := by
              have := join_getD_offset blocks d rI j' hbj hj'
              rw [← hblockc, ← this, ← hdecomp]
              exact hjk
            have := (IH.2.2.2.2 j' (by rw [← hblockc]; exact hj') hkeyj').2
            omega
          · exfalso
            have hnext : rI + 1 < (pElems p).length := by
              have hbl : blocks.length = (pElems p).length := by simp [hblocks]
              omega
            have hgtk : k < Prod.fst ((pElems p).getD (rI + 1) (0, default)) := by
              have := lineFind_next_gt' Prod.fst (pElems p) k (0, default) hcsne
                (by simpa [List.getD_cons_zero] using hhead) (by rw [← hrIeq]; exact hnext)
              rw [← hrIeq] at this
              exact this
            have hbjc : bj < (pElems p).length := by simpa [hblocks] using hbj
            have hbjkey := kstem_key_eq_join d h p hwf bj hbjc
            have hnextkey := kstem_key_eq_join d h p hwf (rI + 1) hnext
            have hmono1 : Prod.fst ((pElems p).getD (rI + 1) (0, default))
                ≤ Prod.fst ((pElems p).getD bj (0, default)) := by
              rcases Nat.eq_or_lt_of_le (Nat.succ_le_of_lt hgt) with he | hlt2
              · have he2 : rI + 1 = bj := he
                rw [he2]
              · rw [hnextkey.1, hbjkey.1]
                simp only [← hblocks]
                apply Nat.le_of_lt
                apply sortedKeys_getD_lt Prod.fst _ d hs
                · have h1 : blocksOffset blocks (rI + 2)
                      = blocksOffset blocks (rI + 1) + (blocks.getD (rI + 1) []).length :=
                    blocksOffset_succ blocks (rI + 1) (by simpa [hblocks] using hnext)
                  have h2 : blocksOffset blocks (rI + 2) ≤ blocksOffset blocks bj :=
                    blocksOffset_mono blocks _ _ hlt2
                  have hlen1 : (((pElems p).map (fun c => ktoListN h c.2)).getD
                      (rI + 1) []).length ≠ 0 := by
                    rw [map_getD_gen (pElems p) _ _ (0, default) hnext]
                    have hx2 := kwfL_getD _ _ (pElems p) hkwl (rI + 1) (0, default) hnext
                    simpa using ktoListN_ne_nil h _ hx2.1
                  simp only [← hblocks] at h1 hlen1
                  omega
                · simp only [← hblocks] at hbjkey
                  exact hbjkey.2
            have hblockbj : Prod.fst (blocks.join.getD (blocksOffset blocks bj) d)
                ≤ Prod.fst (blocks.join.getD j d) := by
              rcases Nat.eq_zero_or_pos j' with hz | hpos
              · rw [hdecomp, hz]
                simp
              · exact Nat.le_of_lt (sortedKeys_getD_lt Prod.fst _ d
                  (by rw [← hJ]; exact hs) _ _ (by omega) hj)
            have hfinal : Prod.fst ((pElems p).getD bj (0, default))
                ≤ Prod.fst (blocks.join.getD j d) := by
              rw [hbjkey.1, hJ]
              exact hblockbj
            omega

theorem kIsEmptyRoot_toList (s : KState) (h : kIsEmptyRoot s = true) :
    ktoList s = [] := by
  obtain ⟨r, lv⟩ := s
  cases r with
  | ostem p => simp [kIsEmptyRoot] at h
  | oleaf p =>
    simp only [kIsEmptyRoot, Bool.and_eq_true, beq_iff_eq] at h
    obtain ⟨⟨h1, h2⟩, h3⟩ := h
    have ht : p.tree = PTree.pleaf [] := by
      revert h3
      cases p.tree with
      | pstem cs => simp
      | pleaf es =>
        cases es with
        | nil => simp
        | cons a l => simp
    subst h1
    have he : ktoList ⟨.oleaf p, 0⟩ = eJoin p.levels p.tree := ktoListN_leaf p
    rw [he, h2, ht]
    exact eJoin_leaf []

theorem kernelWF_parts (s : KState) (hwf : kernelWF s = true) (hne : ktoList s ≠ []) :
    kwf s.levels s.root = true ∧ sortedKeys Prod.fst (ktoList s) := by
  simp only [kernelWF, Bool.and_eq_true, Bool.or_eq_true, decide_eq_true_eq] at hwf
  rcases hwf with ⟨hk | he, hs⟩
  · exact ⟨hk, hs⟩
  · exact absurd (kIsEmptyRoot_toList s he) hne

-- ======================================================================
-- LINE INSERT: STRUCTURE LEMMAS
-- ======================================================================

theorem sortedKeys_iff (kf : α → Nat) (es : List α) :
    sortedKeys kf es ↔ es.Pairwise (fun a b => kf a < kf b) := by
  rw [sortedKeys, List.pairwise_map]

theorem sortedKeys_cons (kf : α → Nat) (x : α) (xs : List α) :
    sortedKeys kf (x :: xs) ↔ (∀ y ∈ xs, kf x < kf y) ∧ sortedKeys kf xs := by
  rw [sortedKeys_iff, List.pairwise_cons, sortedKeys_iff]

theorem lineInsert_length (kf : α → Nat) (es : List α) (e : α) :
    (lineInsert kf es e).length = es.length + 1 := by
  induction es with
  | nil => simp [lineInsert]
  | cons x xs ih =>
    by_cases h : kf x > kf e
    · simp [lineInsert, h]
    · simp [lineInsert, h, ih]

theorem lineInsert_append_right (kf : α → Nat) (pre rest : List α) (e : α)
    (hpre : ∀ x ∈ pre, kf x ≤ kf e) :
    lineInsert kf (pre ++ rest) e = pre ++ lineInsert kf rest e := by
  induction pre with
  | nil => simp
  | cons x xs ih =>
    have hx : ¬ kf x > kf e := by
      have := hpre x (by simp)
      omega
    simp only [List.cons_append, lineInsert, if_neg hx]
    exact congrArg (List.cons x) (ih (fun y hy => hpre y (by simp [hy])))

theorem lineInsert_append_left (kf : α → Nat) (pre rest : List α) (e : α)
    (hrest : ∀ x ∈ rest, kf e < kf x) :
    lineInsert kf (pre ++ rest) e = lineInsert kf pre e ++ rest := by
  induction pre with
  | nil =>
    cases rest with
    | nil => simp [lineInsert]
    | cons y ys =>
      have hy : kf y > kf e := hrest y (by simp)
      simp [lineInsert, hy]
  | cons x xs ih =>
    by_cases hx : kf x > kf e
    · simp [lineInsert, hx]
    · simp only [List.cons_append, lineInsert, if_neg hx]
      exact congrArg (List.cons x) ih

theorem mem_of_mem_lineInsert (kf : α → Nat) (es : List α) (e x : α) :
    x ∈ lineInsert kf es e ↔ x = e ∨ x ∈ es := by
  induction es with
  | nil => simp [lineInsert]
  | cons y ys ih =>
    by_cases h : kf y > kf e
    · simp [lineInsert, h]
    · simp [lineInsert, h, ih]
      tauto

theorem lineInsert_sorted (kf : α → Nat) (es : List α) (e : α)
    (hs : sortedKeys kf es) (hfresh : ∀ x ∈ es, kf x ≠ kf e) :
    sortedKeys kf (lineInsert kf es e) := by
  induction es with
  | nil => simp [lineInsert, sortedKeys]
  | cons x xs ih =>
    rw [sortedKeys_cons] at hs
    by_cases h : kf x > kf e
    · simp only [lineInsert, if_pos h]
      rw [sortedKeys_cons]
      refine ⟨?_, by rw [sortedKeys_cons]; exact hs⟩
      intro y hy
      rcases List.mem_cons.mp hy with rfl | hy
      · exact h
      · exact Nat.lt_trans h (hs.1 y hy)
    · simp only [lineInsert, if_neg h]
      rw [sortedKeys_cons]
      constructor
      · intro y hy
        rcases (mem_of_mem_lineInsert kf xs e y).mp hy with rfl | hy
        · have := hfresh x (by simp)
          omega
        · exact hs.1 y hy
      · exact ih hs.2 (fun y hy => hfresh y (by simp [hy]))

/-- Inserting into the block that covers the new key commutes with
flattening: if every element left of block `i` has key at most the new
element's and every element right of it a strictly greater key, then
`line_node::insert` into block `i` is `line_node::insert` into the
concatenation. -/
theorem lineInsert_join (kf : α → Nat) (e : α) :
    ∀ (blocks : List (List α)) (i : Nat), i < blocks.length →
    (∀ j, j < i → ∀ x ∈ blocks.getD j [], kf x ≤ kf e) →
    (∀ j, i < j → j < blocks.length → ∀ x ∈ blocks.getD j [], kf e < kf x) →
    (blocks.set i (lineInsert kf (blocks.getD i []) e)).join
      = lineInsert kf blocks.join e := by
  intro blocks
  induction blocks with
  | nil => intro i hi; simp at hi
  | cons b bs ih =>
    intro i hi hpre hpost
    cases i with
    | zero =>
      simp only [List.getD_cons_zero, List.set_cons_zero, join_cons_eq]
      have hrest : ∀ x ∈ bs.join, kf e < kf x := by
        intro x hx
        obtain ⟨blk, hblk, hxb⟩ := List.mem_join.mp hx
        obtain ⟨⟨jj, hjjlt⟩, hget⟩ := List.mem_iff_get.mp hblk
        have hblkD : bs.getD jj [] = blk := by
          rw [List.getD_eq_get _ _ hjjlt]
          exact hget
        exact hpost (jj + 1) (Nat.succ_pos _) (by simpa using Nat.succ_lt_succ hjjlt) x
          (by rw [List.getD_cons_succ, hblkD]; exact hxb)
      rw [lineInsert_append_left kf b bs.join e hrest]
    | succ i =>
      simp only [List.set_cons_succ, join_cons_eq, List.getD_cons_succ]
      have hpreb : ∀ x ∈ b, kf x ≤ kf e := by
        have := hpre 0 (Nat.succ_pos _)
        simpa using this
      rw [lineInsert_append_right kf b bs.join e hpreb]
      congr 1
      exact ih i (Nat.lt_of_succ_lt_succ hi)
        (fun j hj x hx => hpre (j + 1) (Nat.succ_lt_succ hj) x
          (by rw [List.getD_cons_succ]; exact hx))
        (fun j hj hjl x hx => hpost (j + 1) (Nat.succ_lt_succ hj)
          (by simpa using Nat.succ_lt_succ hjl) x
          (by rw [List.getD_cons_succ]; exact hx))

-- ======================================================================
-- LIST INDEXING HELPERS FOR INSERT PRESERVATION
-- ======================================================================

theorem getD_take (l : List β) : ∀ (n i : Nat) (d : β), i < n →
    (l.take n).getD i d = l.getD i d := by
  induction l with
  | nil => intro n i d _; simp
  | cons x xs ih =>
    intro n i d hi
    cases n with
    | zero => omega
    | succ n =>
      cases i with
      | zero => simp [List.take_succ_cons, List.getD_cons_zero]
      | succ i =>
        simp only [List.take_succ_cons, List.getD_cons_succ]
        exact ih n i d (Nat.lt_of_succ_lt_succ hi)

theorem getD_drop (l : List β) : ∀ (n i : Nat) (d : β),
    (l.drop n).getD i d = l.getD (n + i) d := by
  induction l with
  | nil => intro n i d; simp
  | cons x xs ih =>
    intro n i d
    cases n with
    | zero => simp
    | succ n =>
      simp only [List.drop_succ_cons]
      rw [ih n i d]
      simp only [Nat.succ_add, List.getD_cons_succ]

theorem take_getD_drop (l : List β) : ∀ (i : Nat) (d : β), i < l.length →
    l = l.take i ++ l.getD i d :: l.drop (i + 1) := by
  induction l with
  | nil => intro i d hi; simp at hi
  | cons x xs ih =>
    intro i d hi
    cases i with
    | zero => simp
    | succ i =>
      simp only [List.take_succ_cons, List.getD_cons_succ, List.drop_succ_cons,
        List.cons_append, List.cons.injEq, true_and]
      exact ih i d (Nat.lt_of_succ_lt_succ hi)

theorem set_eq_take_cons_drop (l : List β) : ∀ (i : Nat) (v : β), i < l.length →
    l.set i v = l.take i ++ v :: l.drop (i + 1) := by
  induction l with
  | nil => intro i v hi; simp at hi
  | cons x xs ih =>
    intro i v hi
    cases i with
    | zero => simp
    | succ i =>
      simp only [List.set_cons_succ, List.take_succ_cons, List.drop_succ_cons,
        List.cons_append, List.cons.injEq, true_and]
      exact ih i v (Nat.lt_of_succ_lt_succ hi)

theorem sortedKeys_append (kf : α → Nat) (a b : List α) :
    sortedKeys kf (a ++ b)
      ↔ sortedKeys kf a ∧ sortedKeys kf b ∧ ∀ x ∈ a, ∀ y ∈ b, kf x < kf y := by
  rw [sortedKeys_iff, List.pairwise_append, sortedKeys_iff, sortedKeys_iff]

theorem mem_pLinesL_join (h : Nat) (l : List (Nat × PTree α)) (x : α)
    (hx : x ∈ (pLinesL (pLines h) l).join) :
    ∃ j, j < l.length ∧ x ∈ eJoin h (l.getD j (pgdflt α)).2 := by
  rw [pLinesL_join] at hx
  obtain ⟨blk, hblk, hxb⟩ := List.mem_join.mp hx
  obtain ⟨⟨jj, hjjlt⟩, hget⟩ := List.mem_iff_get.mp hblk
  have hjl : jj < l.length := by simpa using hjjlt
  refine ⟨jj, hjl, ?_⟩
  have : (l.map (fun c => eJoin h c.2)).getD jj [] = blk := by
    rw [List.getD_eq_get _ _ hjjlt]
    exact hget
  rw [map_getD_blocks l _ jj hjl] at this
  rw [this]
  exact hxb

-- ======================================================================
-- PER-BLOCK KEY BOUNDS INSIDE A WELL-FORMED STEM
-- ======================================================================

theorem block_elem_ge_key (kf : α → Nat) (d : α) (h : Nat)
    (cs : List (Nat × PTree α)) (hwf : pwf kf (h + 1) (.pstem cs) = true)
    (hs : sortedKeys kf (eJoin (h + 1) (.pstem cs)))
    (j : Nat) (hj : j < cs.length)
    (x : α) (hx : x ∈ eJoin h (cs.getD j (pgdflt α)).2) :
    (cs.getD j (pgdflt α)).1 ≤ kf x := by
  have hwl : pwfL (pwf kf h) (pMinKeyOf kf h) cs = true := by
    simp only [pwf, Bool.and_eq_true] at hwf
    exact hwf.2
  have hxx := pwfL_getD _ _ cs hwl j (pgdflt α) hj
  have hsb : sortedKeys kf (eJoin h (cs.getD j (pgdflt α)).2) := by
    rw [← map_getD_blocks cs (fun c => eJoin h c.2) j hj]
    exact sorted_block_of_sorted_join kf d (cs.map (fun c => eJoin h c.2))
      (by rw [← eJoin_stem]; exact hs) j (by simpa using hj)
  obtain ⟨⟨r, hrlt⟩, hget⟩ := List.mem_iff_get.mp hx
  have hxr : (eJoin h (cs.getD j (pgdflt α)).2).getD r d = x := by
    rw [List.getD_eq_get _ _ hrlt]
    exact hget
  have hne : eJoin h (cs.getD j (pgdflt α)).2 ≠ [] := eJoin_ne_nil kf h _ hxx.1
  have h0 := sortedKeys_getD_le kf _ d hsb 0 r (Nat.zero_le _) hrlt
  rw [hxr] at h0
  rw [hxx.2, pMinKeyOf, head_getD_key kf _ d hne]
  exact h0

theorem block_elem_lt_key (kf : α → Nat) (d : α) (h : Nat)
    (cs : List (Nat × PTree α)) (hwf : pwf kf (h + 1) (.pstem cs) = true)
    (hs : sortedKeys kf (eJoin (h + 1) (.pstem cs)))
    (j m : Nat) (hjm : j < m) (hm : m < cs.length)
    (x : α) (hx : x ∈ eJoin h (cs.getD j (pgdflt α)).2) :
    kf x < (cs.getD m (pgdflt α)).1 := by
  have hj : j < cs.length := Nat.lt_trans hjm hm
  obtain ⟨⟨r, hrlt⟩, hget⟩ := List.mem_iff_get.mp hx
  have hxr : (eJoin h (cs.getD j (pgdflt α)).2).getD r d = x := by
    rw [List.getD_eq_get _ _ hrlt]
    exact hget
  have hblockj : (cs.map (fun c => eJoin h c.2)).getD j []
      = eJoin h (cs.getD j (pgdflt α)).2 := map_getD_blocks cs _ j hj
  have hgidx := join_getD_offset (cs.map (fun c => eJoin h c.2)) d j r
    (by simpa using hj) (by rw [hblockj]; exact hrlt)
  have hsucc := blocksOffset_succ (cs.map (fun c => eJoin h c.2)) j (by simpa using hj)
  have hmono := blocksOffset_mono (cs.map (fun c => eJoin h c.2)) (j + 1) m hjm
  have hM := stem_key_eq_join kf d h cs hwf m hm
  rw [hM.1]
  have hlt : blocksOffset (cs.map (fun c => eJoin h c.2)) j + r
      < blocksOffset (cs.map (fun c => eJoin h c.2)) m := by
    rw [hblockj] at hsucc
    omega
  have := sortedKeys_getD_lt kf _ d hs
    (blocksOffset (cs.map (fun c => eJoin h c.2)) j + r)
    (blocksOffset (cs.map (fun c => eJoin h c.2)) m) hlt hM.2
  rw [eJoin_stem] at this ⊢
  rw [hgidx, hblockj, hxr] at this
  exact this

-- ======================================================================
-- SPLIT IDENTITIES
-- ======================================================================

theorem lineSplit_append (es : List α) : lineSplitL es ++ lineSplitR es = es :=
  List.take_append_drop _ es

theorem eJoin_split (kf : α → Nat) (h : Nat) (t : PTree α)
    (hwf : pwf kf h t = true) :
    eJoin h (nodeSplitL t) ++ eJoin h (nodeSplitR t) = eJoin h t := by
  cases h with
  | zero =>
    cases t with
    | pstem cs => simp [pwf] at hwf
    | pleaf es =>
      simp only [nodeSplitL, nodeSplitR, eJoin_leaf]
      exact lineSplit_append es
  | succ h =>
    cases t with
    | pleaf es => simp [pwf] at hwf
    | pstem cs =>
      simp only [nodeSplitL, nodeSplitR, eJoin, pLines_stem, stemChildren]
      rw [← join_append_eq, ← pLinesL_append, lineSplit_append]

theorem lineInsert_all_gt (kf : α → Nat) (es : List α) (e : α)
    (h : ∀ x ∈ es, kf e < kf x) : lineInsert kf es e = e :: es := by
  have := lineInsert_append_left kf [] es e h
  simpa [lineInsert] using this

theorem lineFind_pos_head_le (kf : α → Nat) (es : List α) (k : Nat) (d : α)
    (h : 0 < lineFind kf es k) : kf (es.getD 0 d) ≤ k := by
  match es with
  | [] => simp [lineFind] at h
  | e :: rest =>
    by_cases he : kf e > k
    · simp [lineFind, he] at h
    · simpa [List.getD_cons_zero] using Nat.not_lt.mp he

theorem head_le_of_mem (kf : α → Nat) (es : List α) (d : α)
    (hs : sortedKeys kf es) (x : α) (hx : x ∈ es) :
    kf (es.getD 0 d) ≤ kf x := by
  obtain ⟨⟨r, hrlt⟩, hget⟩ := List.mem_iff_get.mp hx
  have hxr : es.getD r d = x := by
    rw [List.getD_eq_get _ _ hrlt]
    exact hget
  have := sortedKeys_getD_le kf es d hs 0 r (Nat.zero_le _) hrlt
  rw [hxr] at this
  exact this

theorem pwfL_take (f : PTree α → Bool) (m : PTree α → Nat) :
    ∀ (cs : List (Nat × PTree α)), pwfL f m cs = true →
    ∀ (n : Nat), pwfL f m (cs.take n) = true := by
  intro cs
  induction cs with
  | nil => intro _ n; cases n <;> simp [pwfL]
  | cons c cs ih =>
    intro hwl n
    simp only [pwfL, Bool.and_eq_true] at hwl
    cases n with
    | zero => simp [pwfL]
    | succ n =>
      simp only [List.take_succ_cons, pwfL, Bool.and_eq_true]
      exact ⟨hwl.1, ih hwl.2 n⟩

theorem pwfL_drop (f : PTree α → Bool) (m : PTree α → Nat) :
    ∀ (cs : List (Nat × PTree α)), pwfL f m cs = true →
    ∀ (n : Nat), pwfL f m (cs.drop n) = true := by
  intro cs
  induction cs with
  | nil => intro _ n; cases n <;> simp [pwfL]
  | cons c cs ih =>
    intro hwl n
    simp only [pwfL, Bool.and_eq_true] at hwl
    cases n with
    | zero => simpa [pwfL, Bool.and_eq_true] using hwl
    | succ n =>
      simp only [List.drop_succ_cons]
      exact ih hwl.2 n

theorem not_isEmpty_of_length_pos (l : List β) (h : 0 < l.length) :
    (!l.isEmpty) = true := by
  cases l with
  | nil => simp at h
  | cons x xs => simp

theorem pwf_split (kf : α → Nat) (h : Nat) (t : PTree α)
    (hwf : pwf kf h t = true) (hfull : nodeFull t = true) :
    pwf kf h (nodeSplitL t) = true ∧ pwf kf h (nodeSplitR t) = true := by
  cases h with
  | zero =>
    cases t with
    | pstem cs => simp [pwf] at hwf
    | pleaf es =>
      have hlen : es.length = lineMax := by simpa [nodeFull] using hfull
      constructor
      · simp only [nodeSplitL, pwf]
        apply not_isEmpty_of_length_pos
        rw [lineSplitL, List.length_take, hlen]
        decide
      · simp only [nodeSplitR, pwf]
        apply not_isEmpty_of_length_pos
        rw [lineSplitR, List.length_drop, hlen]
        decide
  | succ h =>
    cases t with
    | pleaf es => simp [pwf] at hwf
    | pstem cs =>
      simp only [pwf, Bool.and_eq_true] at hwf
      have hlen : cs.length = branchout := by simpa [nodeFull] using hfull
      refine ⟨?_, ?_⟩
      · simp only [nodeSplitL, pwf, Bool.and_eq_true]
        refine ⟨?_, pwfL_take _ _ cs hwf.2 _⟩
        apply not_isEmpty_of_length_pos
        rw [lineSplitL, List.length_take, hlen]
        decide
      · simp only [nodeSplitR, pwf, Bool.and_eq_true]
        refine ⟨?_, pwfL_drop _ _ cs hwf.2 _⟩
        apply not_isEmpty_of_length_pos
        rw [lineSplitR, List.length_drop, hlen]
        decide

theorem nodeMinKey_eq (kf : α → Nat) (h : Nat) (t : PTree α)
    (hwf : pwf kf h t = true) : nodeMinKey kf t = pMinKeyOf kf h t := by
  cases h with
  | zero =>
    cases t with
    | pstem cs => simp [pwf] at hwf
    | pleaf es => simp [nodeMinKey, pMinKeyOf, eJoin_leaf]
  | succ h =>
    cases t with
    | pleaf es => simp [pwf] at hwf
    | pstem cs =>
      simp only [pwf, Bool.and_eq_true] at hwf
      match cs, hwf with
      | c :: cs, hwf =>
        have hwl := hwf.2
        simp only [pwfL, Bool.and_eq_true, beq_iff_eq] at hwl
        have hcne : eJoin h c.2 ≠ [] := eJoin_ne_nil kf h c.2 hwl.1.1
        have hj : eJoin (h + 1) (.pstem (c :: cs))
            = eJoin h c.2 ++ ((cs.map (fun x => eJoin h x.2)).join) := by
          rw [eJoin_stem, List.map_cons, join_cons_eq]
        simp only [nodeMinKey, List.head?_cons, Option.map_some, Option.getD_some]
        rw [pMinKeyOf, hj]
        match hce : eJoin h c.2, hcne with
        | x0 :: rest, _ =>
          simp only [List.cons_append, List.head?_cons]
          show c.1 = kf x0
          rw [hwl.1.2, pMinKeyOf, hce]
          simp

theorem eJoin_stem_parts (h : Nat) (A : List (Nat × PTree α)) (c : Nat × PTree α)
    (B : List (Nat × PTree α)) :
    eJoin (h + 1) (.pstem (A ++ c :: B))
      = (pLinesL (pLines h) A).join
        ++ (eJoin h c.2 ++ (pLinesL (pLines h) B).join) := by
  rw [eJoin, pLines_stem, pLinesL_append, join_append_eq]
  congr 1
  show (pLines h c.2 ++ pLinesL (pLines h) B).join = _
  rw [join_append_eq]
  rfl

theorem eJoin_stem_parts2 (h : Nat) (A : List (Nat × PTree α)) (c c' : Nat × PTree α)
    (B : List (Nat × PTree α)) :
    eJoin (h + 1) (.pstem (A ++ c :: c' :: B))
      = (pLinesL (pLines h) A).join
        ++ (eJoin h c.2 ++ (eJoin h c'.2 ++ (pLinesL (pLines h) B).join)) := by
  rw [eJoin, pLines_stem, pLinesL_append, join_append_eq]
  congr 1
  show (pLines h c.2 ++ (pLines h c'.2 ++ pLinesL (pLines h) B)).join = _
  rw [join_append_eq, join_append_eq]
  rfl

/-- Branch normal form of `pinsertGo` at a stem level: the conditional
routing-key lowering only rewrites the target entry's key, so the descent is
the same three-way case split on the (unchanged) target child. -/
theorem pinsertGo_stem_eq (kf : α → Nat) (cs : List (Nat × PTree α)) (e : α) (h : Nat)
    (hiF : lineFind Prod.fst cs (kf e) < cs.length) :
    pinsertGo kf (h + 1) (.pstem cs) e
      = (let i := lineFind Prod.fst cs (kf e)
         let c0 := cs.getD i (pgdflt α)
         let key0 := if kf e < nodeMinKey kf c0.2 then kf e else c0.1
         if nodeFull c0.2 then
           let l := nodeSplitL c0.2
           let r := nodeSplitR c0.2
           let kr := nodeMinKey kf r
           if kf e ≥ kr then
             .pstem (lineInsert Prod.fst (cs.set i (key0, l)) (kr, pinsertGo kf h r e))
           else
             .pstem (lineInsert Prod.fst (cs.set i (key0, pinsertGo kf h l e)) (kr, r))
         else
           .pstem (cs.set i (key0, pinsertGo kf h c0.2 e))) := by
  by_cases hlow : kf e < nodeMinKey kf (cs.getD (lineFind Prod.fst cs (kf e)) (pgdflt α)).2
  · simp only [pinsertGo, stemChildren, if_pos hlow, getD_set_same, if_pos hiF,
      List.set_set]
  · simp only [pinsertGo, stemChildren, if_neg hlow]

/-- Element abstraction of the `PageNode::insert` descent: inserting into a
well-formed sorted page subtree is `line_node::insert` on its flat element
list. -/
theorem pinsertGo_eJoin (kf : α → Nat) (d : α) (h : Nat) :
    ∀ (t : PTree α) (e : α), pwf kf h t = true → sortedKeys kf (eJoin h t) →
    eJoin h (pinsertGo kf h t e) = lineInsert kf (eJoin h t) e := by
  induction h with
  | zero =>
    intro t e hwf hs
    cases t with
    | pstem cs => simp [pwf] at hwf
    | pleaf es =>
      show eJoin 0 (.pleaf (lineInsert kf (leafElems (.pleaf es)) e)) = _
      rw [eJoin_leaf, eJoin_leaf]
      rfl
  | succ h ih =>
    intro t e hwf hs
    cases t with
    | pleaf es => simp [pwf] at hwf
    | pstem cs =>
      have hcs : cs ≠ [] := by
        simp only [pwf, Bool.and_eq_true, Bool.not_eq_true'] at hwf
        simpa [List.isEmpty_iff] using hwf.1
      have hwl : pwfL (pwf kf h) (pMinKeyOf kf h) cs = true := by
        simp only [pwf, Bool.and_eq_true] at hwf
        exact hwf.2
      have hsorted_cs := stem_keys_sorted kf h cs hwf hs
      set i := lineFind Prod.fst cs (kf e) with hi
      have hiF : i < cs.length := lineFind_lt_length Prod.fst cs (kf e) hcs
      set c0 := cs.getD i (pgdflt α) with hc0
      have hcx := pwfL_getD _ _ cs hwl i (pgdflt α) hiF
      have hcwf : pwf kf h c0.2 = true := hcx.1
      set A := cs.take i with hA
      set B := cs.drop (i + 1) with hB
      have hsplitcs : cs = A ++ c0 :: B := take_getD_drop cs i (pgdflt α) hiF
      have hEJ : eJoin (h + 1) (.pstem cs)
          = (pLinesL (pLines h) A).join
            ++ (eJoin h c0.2 ++ (pLinesL (pLines h) B).join) := by
        conv_lhs => rw [hsplitcs]
        exact eJoin_stem_parts h A c0 B
      have hsp : sortedKeys kf ((pLinesL (pLines h) A).join)
          ∧ sortedKeys kf (eJoin h c0.2)
          ∧ sortedKeys kf ((pLinesL (pLines h) B).join) := by
        have hh := hs
        rw [hEJ, sortedKeys_append] at hh
        have h2 := hh.2.1
        rw [sortedKeys_append] at h2
        exact ⟨hh.1, h2.1, h2.2.1⟩
      have hAle : ∀ x ∈ (pLinesL (pLines h) A).join, kf x ≤ kf e := by
        intro x hx
        obtain ⟨j, hjlen, hxj⟩ := mem_pLinesL_join h A x hx
        have hjlt : j < i := by
          rw [hA, List.length_take] at hjlen
          omega
        have hAj : A.getD j (pgdflt α) = cs.getD j (pgdflt α) := by
          rw [hA]
          exact getD_take cs i j (pgdflt α) hjlt
        rw [hAj] at hxj
        have hlt := block_elem_lt_key kf d h cs hwf hs j i hjlt hiF x hxj
        have hkey : Prod.fst c0 ≤ kf e := by
          rw [hc0, hi]
          apply lineFind_key_le' Prod.fst cs (kf e) (pgdflt α) hcs
          exact lineFind_pos_head_le Prod.fst cs (kf e) (pgdflt α)
            (by rw [← hi]; omega)
        rw [← hc0] at hlt
        omega
      have hBgt : ∀ x ∈ (pLinesL (pLines h) B).join, kf e < kf x := by
        intro x hx
        obtain ⟨j, hjlen, hxj⟩ := mem_pLinesL_join h B x hx
        have hjlen' : i + 1 + j < cs.length := by
          rw [hB, List.length_drop] at hjlen
          omega
        have hBj : B.getD j (pgdflt α) = cs.getD (i + 1 + j) (pgdflt α) := by
          rw [hB]
          exact getD_drop cs (i + 1) j (pgdflt α)
        rw [hBj] at hxj
        have hge := block_elem_ge_key kf d h cs hwf hs (i + 1 + j) hjlen' x hxj
        by_cases hhd : Prod.fst (cs.getD 0 (pgdflt α)) ≤ kf e
        · have hnext := lineFind_next_gt' Prod.fst cs (kf e) (pgdflt α) hcs
            (by simpa [List.getD_cons_zero] using hhd) (by rw [← hi]; omega)
          rw [← hi] at hnext
          have hmono := sortedKeys_getD_le Prod.fst cs (pgdflt α) hsorted_cs
            (i + 1) (i + 1 + j) (by omega) hjlen'
          omega
        · push_neg at hhd
          have hmono := sortedKeys_getD_le Prod.fst cs (pgdflt α) hsorted_cs
            0 (i + 1 + j) (Nat.zero_le _) hjlen'
          omega
      have htarget : lineInsert kf (eJoin (h + 1) (.pstem cs)) e
          = (pLinesL (pLines h) A).join
            ++ (lineInsert kf (eJoin h c0.2) e ++ (pLinesL (pLines h) B).join) := by
        rw [hEJ, lineInsert_append_right kf _ _ e hAle]
        congr 1
        rw [lineInsert_append_left kf _ _ e hBgt]
      rw [pinsertGo_stem_eq kf cs e h (by rw [← hi]; exact hiF)]
      simp only [← hi, ← hc0]
      by_cases hfull : nodeFull c0.2 = true
      · rw [if_pos hfull]
        have hsplit_wf := pwf_split kf h c0.2 hcwf hfull
        have hLR : eJoin h (nodeSplitL c0.2) ++ eJoin h (nodeSplitR c0.2)
            = eJoin h c0.2 := eJoin_split kf h c0.2 hcwf
        have hrs : sortedKeys kf (eJoin h (nodeSplitL c0.2))
            ∧ sortedKeys kf (eJoin h (nodeSplitR c0.2))
            ∧ ∀ x ∈ eJoin h (nodeSplitL c0.2), ∀ y ∈ eJoin h (nodeSplitR c0.2),
                kf x < kf y := by
          have hh := hsp.2.1
          rw [← hLR, sortedKeys_append] at hh
          exact hh
        have hrne : eJoin h (nodeSplitR c0.2) ≠ [] :=
          eJoin_ne_nil kf h _ hsplit_wf.2
        have hkr_eq : nodeMinKey kf (nodeSplitR c0.2)
            = kf ((eJoin h (nodeSplitR c0.2)).getD 0 d) := by
          rw [nodeMinKey_eq kf h _ hsplit_wf.2, pMinKeyOf, head_getD_key kf _ d hrne]
        have hr_ge : ∀ y ∈ eJoin h (nodeSplitR c0.2),
            nodeMinKey kf (nodeSplitR c0.2) ≤ kf y := by
          intro y hy
          rw [hkr_eq]
          exact head_le_of_mem kf _ d hrs.2.1 y hy
        have hl_lt : ∀ x ∈ eJoin h (nodeSplitL c0.2),
            kf x < nodeMinKey kf (nodeSplitR c0.2) := by
          intro x hx
          rw [hkr_eq]
          exact hrs.2.2 x hx _ (getD_mem _ _ _ (List.length_pos.mpr hrne))
        have hkr_mem : (eJoin h (nodeSplitR c0.2)).getD 0 d ∈ eJoin h c0.2 := by
          rw [← hLR]
          exact List.mem_append_right _ (getD_mem _ _ _ (List.length_pos.mpr hrne))
        have hc01_le_kr : Prod.fst c0 ≤ nodeMinKey kf (nodeSplitR c0.2) := by
          rw [hkr_eq, hcx.2, pMinKeyOf,
            head_getD_key kf _ d (eJoin_ne_nil kf h c0.2 hcwf)]
          exact head_le_of_mem kf _ d hsp.2.1 _ hkr_mem
        have hkey0_le : ∀ key0,
            (key0 = kf e ∧ kf e < nodeMinKey kf c0.2) ∨ key0 = Prod.fst c0 →
            key0 ≤ nodeMinKey kf (nodeSplitR c0.2) := by
          intro key0 hk
          rcases hk with ⟨rfl, hlow⟩ | rfl
          · have : nodeMinKey kf c0.2 ≤ nodeMinKey kf (nodeSplitR c0.2) := by
              rw [hkr_eq, nodeMinKey_eq kf h c0.2 hcwf, pMinKeyOf,
                head_getD_key kf _ d (eJoin_ne_nil kf h c0.2 hcwf)]
              exact head_le_of_mem kf _ d hsp.2.1 _ hkr_mem
            omega
          · exact hc01_le_kr
        have hA_entry : ∀ x ∈ A, Prod.fst x ≤ nodeMinKey kf (nodeSplitR c0.2) := by
          intro x hxA
          obtain ⟨⟨jj, hjjlt⟩, hget⟩ := List.mem_iff_get.mp hxA
          have hjlt : jj < i := by
            rw [hA, List.length_take] at hjjlt
            omega
          have hxe : x = cs.getD jj (pgdflt α) := by
            rw [← getD_take cs i jj (pgdflt α) hjlt, ← hA,
              List.getD_eq_get _ _ hjjlt, hget]
          have := sortedKeys_getD_lt Prod.fst cs (pgdflt α) hsorted_cs jj i hjlt hiF
          rw [← hc0] at this
          rw [hxe]
          omega
        have hB_entry : ∀ x ∈ B, nodeMinKey kf (nodeSplitR c0.2) < Prod.fst x := by
          intro x hxB
          obtain ⟨⟨jj, hjjlt⟩, hget⟩ := List.mem_iff_get.mp hxB
          have hjlen' : i + 1 + jj < cs.length := by
            rw [hB, List.length_drop] at hjjlt
            omega
          have hxe : x = cs.getD (i + 1 + jj) (pgdflt α) := by
            rw [← getD_drop cs (i + 1) jj (pgdflt α), ← hB,
              List.getD_eq_get _ _ hjjlt, hget]
          have hlt := block_elem_lt_key kf d h cs hwf hs i (i + 1 + jj)
            (by omega) hjlen' _ (by rw [← hc0]; exact hkr_mem)
          rw [hkr_eq, hxe]
          exact hlt
        by_cases hge : kf e ≥ nodeMinKey kf (nodeSplitR c0.2)
        · rw [if_pos hge]
          have hstem : lineInsert Prod.fst
              (cs.set i ((if kf e < nodeMinKey kf c0.2 then kf e else c0.1),
                nodeSplitL c0.2))
              (nodeMinKey kf (nodeSplitR c0.2), pinsertGo kf h (nodeSplitR c0.2) e)
              = A ++ ((if kf e < nodeMinKey kf c0.2 then kf e else c0.1),
                  nodeSplitL c0.2)
                :: (nodeMinKey kf (nodeSplitR c0.2), pinsertGo kf h (nodeSplitR c0.2) e)
                :: B := by
            rw [set_eq_take_cons_drop cs i _ hiF, ← hA, ← hB]
            rw [show A ++ ((if kf e < nodeMinKey kf c0.2 then kf e else c0.1),
                nodeSplitL c0.2) :: B
              = (A ++ [((if kf e < nodeMinKey kf c0.2 then kf e else c0.1),
                  nodeSplitL c0.2)]) ++ B by simp]
            rw [lineInsert_append_right Prod.fst _ B _ ?pre]
            case pre =>
              intro x hxm
              rcases List.mem_append.mp hxm with hxm | hxm
              · exact hA_entry x hxm
              · rcases List.mem_singleton.mp hxm with rfl
                apply hkey0_le
                by_cases hlow : kf e < nodeMinKey kf c0.2
                · left
                  exact ⟨by simp [hlow], hlow⟩
                · right
                  simp [hlow]
            rw [lineInsert_all_gt Prod.fst B _ (fun x hx => hB_entry x hx)]
            simp
          rw [hstem]
          show eJoin (h + 1) (.pstem (A ++ _ :: _ :: B)) = _
          rw [eJoin_stem_parts2, htarget]
          rw [ih (nodeSplitR c0.2) e hsplit_wf.2 hrs.2.1]
          have hc0split : lineInsert kf (eJoin h c0.2) e
              = eJoin h (nodeSplitL c0.2) ++ lineInsert kf (eJoin h (nodeSplitR c0.2)) e := by
            rw [← hLR, lineInsert_append_right kf _ _ e]
            intro x hx
            have := hl_lt x hx
            omega
          rw [hc0split]
          simp [List.append_assoc]
        · rw [if_neg hge]
          have hstem : lineInsert Prod.fst
              (cs.set i ((if kf e < nodeMinKey kf c0.2 then kf e else c0.1),
                pinsertGo kf h (nodeSplitL c0.2) e))
              (nodeMinKey kf (nodeSplitR c0.2), nodeSplitR c0.2)
              = A ++ ((if kf e < nodeMinKey kf c0.2 then kf e else c0.1),
                  pinsertGo kf h (nodeSplitL c0.2) e)
                :: (nodeMinKey kf (nodeSplitR c0.2), nodeSplitR c0.2)
                :: B := by
            rw [set_eq_take_cons_drop cs i _ hiF, ← hA, ← hB]
            rw [show A ++ ((if kf e < nodeMinKey kf c0.2 then kf e else c0.1),
                pinsertGo kf h (nodeSplitL c0.2) e) :: B
              = (A ++ [((if kf e < nodeMinKey kf c0.2 then kf e else c0.1),
                  pinsertGo kf h (nodeSplitL c0.2) e)]) ++ B by simp]
            rw [lineInsert_append_right Prod.fst _ B _ ?pre]
            case pre =>
              intro x hxm
              rcases List.mem_append.mp hxm with hxm | hxm
              · exact hA_entry x hxm
              · rcases List.mem_singleton.mp hxm with rfl
                apply hkey0_le
                by_cases hlow : kf e < nodeMinKey kf c0.2
                · left
                  exact ⟨by simp [hlow], hlow⟩
                · right
                  simp [hlow]
            rw [lineInsert_all_gt Prod.fst B _ (fun x hx => hB_entry x hx)]
            simp
          rw [hstem]
          show eJoin (h + 1) (.pstem (A ++ _ :: _ :: B)) = _
          rw [eJoin_stem_parts2, htarget]
          rw [ih (nodeSplitL c0.2) e hsplit_wf.1 hrs.1]
          have hc0split : lineInsert kf (eJoin h c0.2) e
              = lineInsert kf (eJoin h (nodeSplitL c0.2)) e ++ eJoin h (nodeSplitR c0.2) := by
            rw [← hLR, lineInsert_append_left kf _ _ e]
            intro x hx
            have := hr_ge x hx
            omega
          rw [hc0split]
          simp [List.append_assoc]
      · rw [if_neg hfull]
        show eJoin (h + 1) (.pstem (cs.set i (_, pinsertGo kf h c0.2 e))) = _
        rw [set_eq_take_cons_drop cs i _ hiF, ← hA, ← hB]
        rw [eJoin_stem_parts, htarget]
        rw [ih c0.2 e hcwf hsp.2.1]

theorem pwfL_append (f : PTree α → Bool) (m : PTree α → Nat)
    (l1 l2 : List (Nat × PTree α)) :
    pwfL f m (l1 ++ l2) = (pwfL f m l1 && pwfL f m l2) := by
  induction l1 with
  | nil => simp [pwfL]
  | cons c cs ih =>
    show ((f c.2 && (c.1 == m c.2)) && pwfL f m (cs ++ l2))
        = (pwfL f m (c :: cs) && pwfL f m l2)
    rw [ih]
    simp only [pwfL, Bool.and_assoc]

/-- Head key of a `line_node::insert` result on a non-empty line: the new
element's key if it undercuts the old minimum, the old minimum otherwise. -/
theorem lineInsert_head_key (kf : α → Nat) (es : List α) (e : α) (hne : es ≠ []) :
    ((lineInsert kf es e).head?.map kf).getD 0
      = if kf e < ((es.head?.map kf).getD 0) then kf e
        else ((es.head?.map kf).getD 0) := by
  match es, hne with
  | x :: xs, _ =>
    by_cases h : kf x > kf e
    · simp [lineInsert, h]
    · have : ¬ kf e < kf x := by omega
      simp [lineInsert, h, this]

/-- `pMinKeyOf` of an insert result. -/
theorem pMinKeyOf_pinsertGo (kf : α → Nat) (d : α) (h : Nat) (t : PTree α) (e : α)
    (hwf : pwf kf h t = true) (hs : sortedKeys kf (eJoin h t)) :
    pMinKeyOf kf h (pinsertGo kf h t e)
      = if kf e < pMinKeyOf kf h t then kf e else pMinKeyOf kf h t := by
  have hne : eJoin h t ≠ [] := eJoin_ne_nil kf h t hwf
  rw [pMinKeyOf, pMinKeyOf, pinsertGo_eJoin kf d h t e hwf hs]
  exact lineInsert_head_key kf (eJoin h t) e hne

theorem pwfL_set (f : PTree α → Bool) (m : PTree α → Nat) :
    ∀ (cs : List (Nat × PTree α)) (i : Nat) (k : Nat) (x : PTree α),
    pwfL f m cs = true → f x = true → k = m x →
    pwfL f m (cs.set i (k, x)) = true := by
  intro cs
  induction cs with
  | nil => intro i k x h _ _; simpa using h
  | cons c cs ih =>
    intro i k x hwl hf hk
    simp only [pwfL, Bool.and_eq_true, beq_iff_eq] at hwl
    cases i with
    | zero =>
      simp only [List.set_cons_zero, pwfL, Bool.and_eq_true, beq_iff_eq]
      exact ⟨⟨hf, hk⟩, hwl.2⟩
    | succ i =>
      simp only [List.set_cons_succ, pwfL, Bool.and_eq_true, beq_iff_eq]
      exact ⟨hwl.1, ih i k x hwl.2 hf hk⟩

/-- Well-formedness preservation of the `PageNode::insert` descent. -/
theorem pinsertGo_pwf (kf : α → Nat) (d : α) (h : Nat) :
    ∀ (t : PTree α) (e : α), pwf kf h t = true → sortedKeys kf (eJoin h t) →
    pwf kf h (pinsertGo kf h t e) = true := by
  induction h with
  | zero =>
    intro t e hwf _
    cases t with
    | pstem cs => simp [pwf] at hwf
    | pleaf es =>
      show pwf kf 0 (.pleaf (lineInsert kf (leafElems (.pleaf es)) e)) = true
      simp only [pwf]
      apply not_isEmpty_of_length_pos
      show 0 < (lineInsert kf es e).length
      rw [lineInsert_length]
      omega
  | succ h ih =>
    intro t e hwf hs
    cases t with
    | pleaf es => simp [pwf] at hwf
    | pstem cs =>
      have hcs : cs ≠ [] := by
        simp only [pwf, Bool.and_eq_true, Bool.not_eq_true'] at hwf
        simpa [List.isEmpty_iff] using hwf.1
      have hwl : pwfL (pwf kf h) (pMinKeyOf kf h) cs = true := by
        simp only [pwf, Bool.and_eq_true] at hwf
        exact hwf.2
      have hsorted_cs := stem_keys_sorted kf h cs hwf hs
      set i := lineFind Prod.fst cs (kf e) with hi
      have hiF : i < cs.length := lineFind_lt_length Prod.fst cs (kf e) hcs
      set c0 := cs.getD i (pgdflt α) with hc0
      have hcx := pwfL_getD _ _ cs hwl i (pgdflt α) hiF
      have hcwf : pwf kf h c0.2 = true := hcx.1
      have hbr1 : c0.1 = (cs.getD i (pgdflt α)).1 := by rw [hc0]
      have hbr2 : pMinKeyOf kf h c0.2 = pMinKeyOf kf h (cs.getD i (pgdflt α)).2 := by
        rw [hc0]
      have hcsorted : sortedKeys kf (eJoin h c0.2) := by
        rw [← map_getD_blocks cs (fun c => eJoin h c.2) i hiF]
        exact sorted_block_of_sorted_join kf d (cs.map (fun c => eJoin h c.2))
          (by rw [← eJoin_stem]; exact hs) i (by simpa using hiF)
      have hminc0 : nodeMinKey kf c0.2 = pMinKeyOf kf h c0.2 :=
        nodeMinKey_eq kf h c0.2 hcwf
      rw [pinsertGo_stem_eq kf cs e h (by rw [← hi]; exact hiF)]
      simp only [← hi, ← hc0]
      by_cases hfull : nodeFull c0.2 = true
      · rw [if_pos hfull]
        have hsplit_wf := pwf_split kf h c0.2 hcwf hfull
        have hLR : eJoin h (nodeSplitL c0.2) ++ eJoin h (nodeSplitR c0.2)
            = eJoin h c0.2 := eJoin_split kf h c0.2 hcwf
        have hrs : sortedKeys kf (eJoin h (nodeSplitL c0.2))
            ∧ sortedKeys kf (eJoin h (nodeSplitR c0.2))
            ∧ ∀ x ∈ eJoin h (nodeSplitL c0.2), ∀ y ∈ eJoin h (nodeSplitR c0.2),
                kf x < kf y := by
          have hh := hcsorted
          rw [← hLR, sortedKeys_append] at hh
          exact hh
        have hlne : eJoin h (nodeSplitL c0.2) ≠ [] :=
          eJoin_ne_nil kf h _ hsplit_wf.1
        have hrne : eJoin h (nodeSplitR c0.2) ≠ [] :=
          eJoin_ne_nil kf h _ hsplit_wf.2
        have hminl : pMinKeyOf kf h (nodeSplitL c0.2) = pMinKeyOf kf h c0.2 := by
          rw [pMinKeyOf, pMinKeyOf, ← hLR]
          match hl0 : eJoin h (nodeSplitL c0.2), hlne with
          | x :: xs, _ => simp
        have hminc0_lt_kr : pMinKeyOf kf h c0.2 < nodeMinKey kf (nodeSplitR c0.2) := by
          rw [nodeMinKey_eq kf h _ hsplit_wf.2]
          rw [pMinKeyOf, pMinKeyOf, head_getD_key kf _ d hrne,
            head_getD_key kf _ d (eJoin_ne_nil kf h c0.2 hcwf)]
          have hy := getD_mem (eJoin h (nodeSplitR c0.2)) 0 d
            (List.length_pos.mpr hrne)
          have hx : (eJoin h c0.2).getD 0 d ∈ eJoin h (nodeSplitL c0.2) := by
            have hxl := getD_mem (eJoin h (nodeSplitL c0.2)) 0 d
              (List.length_pos.mpr hlne)
            have : (eJoin h c0.2).getD 0 d = (eJoin h (nodeSplitL c0.2)).getD 0 d := by
              rw [← hLR]
              match hl0 : eJoin h (nodeSplitL c0.2), hlne with
              | x :: xs, _ => simp
            rw [this]
            exact hxl
          exact hrs.2.2 _ hx _ hy
        by_cases hge : kf e ≥ nodeMinKey kf (nodeSplitR c0.2)
        · rw [if_pos hge]
          have hnolow : ¬ kf e < nodeMinKey kf c0.2 := by
            rw [hminc0]
            omega
          rw [if_neg hnolow]
          simp only [pwf, Bool.and_eq_true]
          constructor
          · apply not_isEmpty_of_length_pos
            rw [lineInsert_length, List.length_set]
            omega
          · rw [set_eq_take_cons_drop cs i _ hiF]
            rw [show cs.take i ++ (c0.1, nodeSplitL c0.2) :: cs.drop (i + 1)
              = (cs.take i ++ [(c0.1, nodeSplitL c0.2)]) ++ cs.drop (i + 1) by simp]
            rw [lineInsert_append_right Prod.fst _ _ _ ?pre]
            case pre =>
              intro x hxm
              rcases List.mem_append.mp hxm with hxm | hxm
              · obtain ⟨⟨jj, hjjlt⟩, hget⟩ := List.mem_iff_get.mp hxm
                have hjlt : jj < i := by
                  rw [List.length_take] at hjjlt
                  omega
                have hxe : x = cs.getD jj (pgdflt α) := by
                  rw [← getD_take cs i jj (pgdflt α) hjlt,
                    List.getD_eq_get _ _ hjjlt, hget]
                have := sortedKeys_getD_lt Prod.fst cs (pgdflt α) hsorted_cs jj i
                  hjlt hiF
                rw [← hc0] at this
                have hc01 : Prod.fst c0 ≤ nodeMinKey kf (nodeSplitR c0.2) := by
                  rw [hcx.2]
                  omega
                rw [hxe]
                omega
              · rcases List.mem_singleton.mp hxm with rfl
                show c0.1 ≤ nodeMinKey kf (nodeSplitR c0.2)
                rw [hcx.2]
                omega
            rw [lineInsert_all_gt Prod.fst _ _ ?post]
            case post =>
              intro x hxm
              obtain ⟨⟨jj, hjjlt⟩, hget⟩ := List.mem_iff_get.mp hxm
              have hjlen' : i + 1 + jj < cs.length := by
                rw [List.length_drop] at hjjlt
                omega
              have hxe : x = cs.getD (i + 1 + jj) (pgdflt α) := by
                rw [← getD_drop cs (i + 1) jj (pgdflt α),
                  List.getD_eq_get _ _ hjjlt, hget]
              have hkrmem : (eJoin h (nodeSplitR c0.2)).getD 0 d ∈ eJoin h c0.2 := by
                rw [← hLR]
                exact List.mem_append_right _
                  (getD_mem _ _ _ (List.length_pos.mpr hrne))
              have hlt := block_elem_lt_key kf d h cs hwf hs i (i + 1 + jj)
                (by omega) hjlen' _ (by rw [← hc0]; exact hkrmem)
              have hkr_eq : nodeMinKey kf (nodeSplitR c0.2)
                  = kf ((eJoin h (nodeSplitR c0.2)).getD 0 d) := by
                rw [nodeMinKey_eq kf h _ hsplit_wf.2, pMinKeyOf,
                  head_getD_key kf _ d hrne]
              rw [hkr_eq, hxe]
              exact hlt
            rw [show (cs.take i ++ [(c0.1, nodeSplitL c0.2)])
                ++ (nodeMinKey kf (nodeSplitR c0.2),
                    pinsertGo kf h (nodeSplitR c0.2) e) :: cs.drop (i + 1)
              = cs.take i ++ ((c0.1, nodeSplitL c0.2)
                :: (nodeMinKey kf (nodeSplitR c0.2),
                    pinsertGo kf h (nodeSplitR c0.2) e) :: cs.drop (i + 1)) by simp]
            rw [pwfL_append, Bool.and_eq_true]
            refine ⟨pwfL_take _ _ cs hwl i, ?_⟩
            simp only [pwfL, Bool.and_eq_true, beq_iff_eq]
            refine ⟨⟨hsplit_wf.1, by rw [hcx.2, hminl]⟩, ⟨⟨?_, ?_⟩, pwfL_drop _ _ cs hwl (i + 1)⟩⟩
            · exact ih (nodeSplitR c0.2) e hsplit_wf.2 hrs.2.1
            · rw [pMinKeyOf_pinsertGo kf d h _ e hsplit_wf.2 hrs.2.1]
              rw [nodeMinKey_eq kf h _ hsplit_wf.2]
              have : ¬ kf e < pMinKeyOf kf h (nodeSplitR c0.2) := by
                rw [← nodeMinKey_eq kf h _ hsplit_wf.2]
                omega
              rw [if_neg this]
        · rw [if_neg hge]
          simp only [pwf, Bool.and_eq_true]
          constructor
          · apply not_isEmpty_of_length_pos
            rw [lineInsert_length, List.length_set]
            omega
          · rw [set_eq_take_cons_drop cs i _ hiF]
            rw [show cs.take i ++ ((if kf e < nodeMinKey kf c0.2 then kf e else c0.1),
                pinsertGo kf h (nodeSplitL c0.2) e) :: cs.drop (i + 1)
              = (cs.take i ++ [((if kf e < nodeMinKey kf c0.2 then kf e else c0.1),
                  pinsertGo kf h (nodeSplitL c0.2) e)]) ++ cs.drop (i + 1) by simp]
            rw [lineInsert_append_right Prod.fst _ _ _ ?pre]
            case pre =>
              intro x hxm
              rcases List.mem_append.mp hxm with hxm | hxm
              · obtain ⟨⟨jj, hjjlt⟩, hget⟩ := List.mem_iff_get.mp hxm
                have hjlt : jj < i := by
                  rw [List.length_take] at hjjlt
                  omega
                have hxe : x = cs.getD jj (pgdflt α) := by
                  rw [← getD_take cs i jj (pgdflt α) hjlt,
                    List.getD_eq_get _ _ hjjlt, hget]
                have := sortedKeys_getD_lt Prod.fst cs (pgdflt α) hsorted_cs jj i
                  hjlt hiF
                rw [← hc0] at this
                have hc01 : Prod.fst c0 ≤ nodeMinKey kf (nodeSplitR c0.2) := by
                  rw [hcx.2]
                  omega
                rw [hxe]
                omega
              · rcases List.mem_singleton.mp hxm with rfl
                show (if kf e < nodeMinKey kf c0.2 then kf e else c0.1)
                    ≤ nodeMinKey kf (nodeSplitR c0.2)
                by_cases hlow : kf e < nodeMinKey kf c0.2
                · rw [if_pos hlow, hminc0] at *
                  omega
                · rw [if_neg hlow, hcx.2]
                  omega
            rw [lineInsert_all_gt Prod.fst _ _ ?post]
            case post =>
              intro x hxm
              obtain ⟨⟨jj, hjjlt⟩, hget⟩ := List.mem_iff_get.mp hxm
              have hjlen' : i + 1 + jj < cs.length := by
                rw [List.length_drop] at hjjlt
                omega
              have hxe : x = cs.getD (i + 1 + jj) (pgdflt α) := by
                rw [← getD_drop cs (i + 1) jj (pgdflt α),
                  List.getD_eq_get _ _ hjjlt, hget]
              have hkrmem : (eJoin h (nodeSplitR c0.2)).getD 0 d ∈ eJoin h c0.2 := by
                rw [← hLR]
                exact List.mem_append_right _
                  (getD_mem _ _ _ (List.length_pos.mpr hrne))
              have hlt := block_elem_lt_key kf d h cs hwf hs i (i + 1 + jj)
                (by omega) hjlen' _ (by rw [← hc0]; exact hkrmem)
              have hkr_eq : nodeMinKey kf (nodeSplitR c0.2)
                  = kf ((eJoin h (nodeSplitR c0.2)).getD 0 d) := by
                rw [nodeMinKey_eq kf h _ hsplit_wf.2, pMinKeyOf,
                  head_getD_key kf _ d hrne]
              rw [hkr_eq, hxe]
              exact hlt
            rw [show (cs.take i ++ [((if kf e < nodeMinKey kf c0.2 then kf e else c0.1),
                  pinsertGo kf h (nodeSplitL c0.2) e)])
                ++ (nodeMinKey kf (nodeSplitR c0.2), nodeSplitR c0.2) :: cs.drop (i + 1)
              = cs.take i ++ (((if kf e < nodeMinKey kf c0.2 then kf e else c0.1),
                  pinsertGo kf h (nodeSplitL c0.2) e)
                :: (nodeMinKey kf (nodeSplitR c0.2), nodeSplitR c0.2)
                :: cs.drop (i + 1)) by simp]
            rw [pwfL_append, Bool.and_eq_true]
            refine ⟨pwfL_take _ _ cs hwl i, ?_⟩
            simp only [pwfL, Bool.and_eq_true, beq_iff_eq]
            refine ⟨⟨?_, ?_⟩, ⟨⟨hsplit_wf.2, by rw [nodeMinKey_eq kf h _ hsplit_wf.2]⟩,
              pwfL_drop _ _ cs hwl (i + 1)⟩⟩
            · exact ih (nodeSplitL c0.2) e hsplit_wf.1 hrs.1
            · rw [pMinKeyOf_pinsertGo kf d h _ e hsplit_wf.1 hrs.1, hminl]
              by_cases hlow : kf e < nodeMinKey kf c0.2
              · rw [if_pos hlow]
                rw [hminc0] at hlow
                rw [if_pos hlow]
              · rw [if_neg hlow]
                rw [hminc0] at hlow
                rw [if_neg hlow, hcx.2]
      · rw [if_neg hfull]
        simp only [pwf, Bool.and_eq_true]
        constructor
        · apply not_isEmpty_of_length_pos
          rw [List.length_set]
          have := List.length_pos.mpr hcs
          omega
        · apply pwfL_set _ _ cs i _ _ hwl
          · exact ih c0.2 e hcwf hcsorted
          · rw [pMinKeyOf_pinsertGo kf d h _ e hcwf hcsorted, hminc0]
            by_cases hlow : kf e < pMinKeyOf kf h c0.2
            · rw [if_pos hlow, if_pos hlow]
            · rw [if_neg hlow, if_neg hlow, hcx.2]

theorem nodeSplit_minKey_lt (kf : α → Nat) (d : α) (h : Nat) (t : PTree α)
    (hwf : pwf kf h t = true) (hs : sortedKeys kf (eJoin h t))
    (hfull : nodeFull t = true) :
    nodeMinKey kf (nodeSplitL t) < nodeMinKey kf (nodeSplitR t) := by
  have hsplit_wf := pwf_split kf h t hwf hfull
  have hLR := eJoin_split kf h t hwf
  have hlne := eJoin_ne_nil kf h _ hsplit_wf.1
  have hrne := eJoin_ne_nil kf h _ hsplit_wf.2
  rw [nodeMinKey_eq kf h _ hsplit_wf.1, nodeMinKey_eq kf h _ hsplit_wf.2,
    pMinKeyOf, pMinKeyOf, head_getD_key kf _ d hlne, head_getD_key kf _ d hrne]
  have hcross : ∀ x ∈ eJoin h (nodeSplitL t), ∀ y ∈ eJoin h (nodeSplitR t),
      kf x < kf y := by
    have hh := hs
    rw [← hLR, sortedKeys_append] at hh
    exact hh.2.2
  exact hcross _ (getD_mem _ _ _ (List.length_pos.mpr hlne))
    _ (getD_mem _ _ _ (List.length_pos.mpr hrne))

/-- Branch normal form of `PageNode::split_root` on a well-formed sorted
page: split the full root line into the ordered pair of halves, else do
nothing. -/
theorem psplitRoot_eq (kf : α → Nat) (d : α) (p : PageS α)
    (hwf : pwf kf p.levels p.tree = true)
    (hs : sortedKeys kf (eJoin p.levels p.tree)) :
    psplitRoot kf p
      = if nodeFull p.tree = true then
          ⟨.pstem [(nodeMinKey kf (nodeSplitL p.tree), nodeSplitL p.tree),
                   (nodeMinKey kf (nodeSplitR p.tree), nodeSplitR p.tree)],
           p.levels + 1⟩
        else p := by
  obtain ⟨t, lev⟩ := p
  have hlt : nodeFull t = true →
      nodeMinKey kf (nodeSplitL t) < nodeMinKey kf (nodeSplitR t) :=
    fun hf => nodeSplit_minKey_lt kf d lev t hwf hs hf
  cases lev with
  | zero =>
    cases t with
    | pstem cs => simp [pwf] at hwf
    | pleaf es =>
      simp only [psplitRoot, leafElems]
      rw [if_neg (by omega : ¬ (0 : Nat) > 0)]
      by_cases hfull : (es.length == lineMax) = true
      · rw [if_pos hfull]
        have hne := hlt (by simpa [nodeFull] using hfull)
        rw [show nodeFull (PTree.pleaf es) = true by simpa [nodeFull] using hfull,
          if_pos rfl]
        simp only [nodeSplitL, nodeSplitR] at hne ⊢
        simp [lineInsert, Nat.not_lt.mpr (Nat.le_of_lt hne), Nat.not_lt_of_lt hne]
      · rw [if_neg hfull]
        rw [show nodeFull (PTree.pleaf es) = false by
          simpa [nodeFull, Bool.not_eq_true] using hfull]
        simp
  | succ L =>
    cases t with
    | pleaf es => simp [pwf] at hwf
    | pstem cs =>
      simp only [psplitRoot, stemChildren]
      rw [if_pos (by omega : L + 1 > 0)]
      by_cases hfull : (cs.length == branchout) = true
      · rw [if_pos hfull]
        have hne := hlt (by simpa [nodeFull] using hfull)
        rw [show nodeFull (PTree.pstem cs) = true by simpa [nodeFull] using hfull,
          if_pos rfl]
        simp only [nodeSplitL, nodeSplitR] at hne ⊢
        simp [lineInsert, Nat.not_lt.mpr (Nat.le_of_lt hne), Nat.not_lt_of_lt hne]
      · rw [if_neg hfull]
        rw [show nodeFull (PTree.pstem cs) = false by
          simpa [nodeFull, Bool.not_eq_true] using hfull]
        simp

theorem psplitRoot_eJoin (kf : α → Nat) (d : α) (p : PageS α)
    (hwf : pwf kf p.levels p.tree = true)
    (hs : sortedKeys kf (eJoin p.levels p.tree)) :
    eJoin (psplitRoot kf p).levels (psplitRoot kf p).tree
      = eJoin p.levels p.tree := by
  rw [psplitRoot_eq kf d p hwf hs]
  by_cases hfull : nodeFull p.tree = true
  · rw [if_pos hfull]
    show eJoin (p.levels + 1) (.pstem
      [(nodeMinKey kf (nodeSplitL p.tree), nodeSplitL p.tree),
       (nodeMinKey kf (nodeSplitR p.tree), nodeSplitR p.tree)]) = _
    rw [eJoin, pLines_stem]
    show (pLines p.levels (nodeSplitL p.tree)
        ++ (pLines p.levels (nodeSplitR p.tree) ++ [])).join = _
    rw [List.append_nil, join_append_eq]
    exact eJoin_split kf p.levels p.tree hwf
  · rw [if_neg hfull]

theorem psplitRoot_pwf (kf : α → Nat) (d : α) (p : PageS α)
    (hwf : pwf kf p.levels p.tree = true)
    (hs : sortedKeys kf (eJoin p.levels p.tree)) :
    pwf kf (psplitRoot kf p).levels (psplitRoot kf p).tree = true := by
  rw [psplitRoot_eq kf d p hwf hs]
  by_cases hfull : nodeFull p.tree = true
  · rw [if_pos hfull]
    have hsplit_wf := pwf_split kf p.levels p.tree hwf hfull
    show pwf kf (p.levels + 1) (.pstem _) = true
    simp only [pwf, pwfL, Bool.and_eq_true, beq_iff_eq]
    refine ⟨by simp, ⟨hsplit_wf.1, nodeMinKey_eq kf p.levels _ hsplit_wf.1⟩,
      ⟨hsplit_wf.2, nodeMinKey_eq kf p.levels _ hsplit_wf.2⟩, trivial⟩
  · rw [if_neg hfull]
    exact hwf

/-- Element abstraction of `PageNode::insert` on a well-formed sorted page. -/
theorem pinsert_pElems (kf : α → Nat) (d : α) (p : PageS α) (e : α)
    (hwf : pwf kf p.levels p.tree = true)
    (hs : sortedKeys kf (eJoin p.levels p.tree)) :
    pElems (pinsert kf p e) = lineInsert kf (pElems p) e := by
  have h1 := psplitRoot_pwf kf d p hwf hs
  have h2 := psplitRoot_eJoin kf d p hwf hs
  show eJoin (psplitRoot kf p).levels
      (pinsertGo kf (psplitRoot kf p).levels (psplitRoot kf p).tree e) = _
  rw [pinsertGo_eJoin kf d _ _ e h1 (by rw [h2]; exact hs), h2]
  rfl

/-- Well-formedness preservation of `PageNode::insert`. -/
theorem pinsert_pwf (kf : α → Nat) (d : α) (p : PageS α) (e : α)
    (hwf : pwf kf p.levels p.tree = true)
    (hs : sortedKeys kf (eJoin p.levels p.tree)) :
    pwf kf (pinsert kf p e).levels (pinsert kf p e).tree = true := by
  have h1 := psplitRoot_pwf kf d p hwf hs
  have h2 := psplitRoot_eJoin kf d p hwf hs
  show pwf kf (psplitRoot kf p).levels
      (pinsertGo kf (psplitRoot kf p).levels (psplitRoot kf p).tree e) = true
  exact pinsertGo_pwf kf d _ _ e h1 (by rw [h2]; exact hs)

-- ======================================================================
-- POSITIONAL LINE UPDATES (pSetLine, set_key, set child)
-- ======================================================================

theorem set_append_left (a b : List β) : ∀ (i : Nat) (x : β), i < a.length →
    (a ++ b).set i x = a.set i x ++ b := by
  induction a with
  | nil => intro i x hi; simp at hi
  | cons y ys ih =>
    intro i x hi
    cases i with
    | zero => simp
    | succ i =>
      simp only [List.cons_append, List.set_cons_succ, List.cons.injEq, true_and]
      exact ih i x (Nat.lt_of_succ_lt_succ hi)

theorem set_append_right (a b : List β) : ∀ (i : Nat) (x : β), a.length ≤ i →
    (a ++ b).set i x = a ++ b.set (i - a.length) x := by
  induction a with
  | nil => intro i x _; simp
  | cons y ys ih =>
    intro i x hi
    cases i with
    | zero => simp at hi
    | succ i =>
      simp only [List.cons_append, List.set_cons_succ, List.cons.injEq, true_and,
        List.length_cons, Nat.succ_sub_succ]
      exact ih i x (Nat.le_of_succ_le_succ hi)

theorem join_set_inner (v : α) :
    ∀ (blocks : List (List α)) (i j : Nat), i < blocks.length →
    j < (blocks.getD i []).length →
    (blocks.set i ((blocks.getD i []).set j v)).join
      = blocks.join.set (blocksOffset blocks i + j) v := by
  intro blocks
  induction blocks with
  | nil => intro i j hi; simp at hi
  | cons b bs ih =>
    intro i j hi hj
    cases i with
    | zero =>
      simp only [List.getD_cons_zero] at hj
      simp only [List.getD_cons_zero, List.set_cons_zero, join_cons_eq]
      rw [show blocksOffset (b :: bs) 0 = 0 by simp [blocksOffset], Nat.zero_add]
      rw [set_append_left _ _ j v hj]
    | succ i =>
      simp only [List.getD_cons_succ] at hj
      simp only [List.getD_cons_succ, List.set_cons_succ, join_cons_eq,
        blocksOffset_cons]
      rw [ih i j (Nat.lt_of_succ_lt_succ hi) hj]
      rw [set_append_right b _ _ v (by omega)]
      congr 2
      omega

theorem lineSetChild_eq (d : Nat × β) :
    ∀ (l : List (Nat × β)) (j : Nat) (c : β),
    lineSetChild l j c = l.set j ((l.getD j d).1, c) := by
  intro l
  induction l with
  | nil => intro j c; simp [lineSetChild]
  | cons x xs ih =>
    intro j c
    cases j with
    | zero => simp [lineSetChild]
    | succ j =>
      simp only [lineSetChild, List.getD_cons_succ, List.set_cons_succ,
        List.cons.injEq, true_and]
      exact ih j c

theorem lineSetKeyPair_eq (d : Nat × β) :
    ∀ (l : List (Nat × β)) (j nk : Nat),
    lineSetKeyPair l j nk = l.set j (nk, (l.getD j d).2) := by
  intro l
  induction l with
  | nil => intro j nk; simp [lineSetKeyPair]
  | cons x xs ih =>
    intro j nk
    cases j with
    | zero => simp [lineSetKeyPair]
    | succ j =>
      simp only [lineSetKeyPair, List.getD_cons_succ, List.set_cons_succ,
        List.cons.injEq, true_and]
      exact ih j nk

/-- `pSetLine` rewrites exactly the leaf line with the given in-order
index. -/
theorem pSetLine_pLines (h : Nat) :
    ∀ (t : PTree α) (i : Nat) (l : List α), i < (pLines h t).length →
    pLines h (pSetLine h t i l) = (pLines h t).set i l := by
  induction h with
  | zero =>
    intro t i l hi
    simp only [pLines, List.length_cons, List.length_nil] at hi
    have : i = 0 := by omega
    subst this
    simp [pSetLine, pLines, leafElems]
  | succ h ih =>
    intro t i l hi
    cases t with
    | pleaf es =>
      simp only [pLines, stemChildren, pLinesL] at hi
      simp at hi
    | pstem cs =>
      show pLines (h + 1) (.pstem (pSetLineL (pSetLine h)
        (fun c => (pLines h c).length) cs i l)) = _
      rw [pLines_stem, pLines_stem]
      rw [pLines_stem] at hi
      have inner : ∀ (cs : List (Nat × PTree α)) (i : Nat) (l : List α),
          i < (pLinesL (pLines h) cs).length →
          pLinesL (pLines h) (pSetLineL (pSetLine h)
            (fun c => (pLines h c).length) cs i l)
            = (pLinesL (pLines h) cs).set i l := by
        intro cs
        induction cs with
        | nil => intro i l hi; simp [pLinesL] at hi
        | cons c cs ihc =>
          intro i l hi
          by_cases hin : i < (pLines h c.2).length
          · simp only [pSetLineL, if_pos hin, pLinesL]
            rw [ih c.2 i l hin, set_append_left _ _ i l hin]
          · simp only [pSetLineL, if_neg hin, pLinesL]
            have hi' : i - (pLines h c.2).length
                < (pLinesL (pLines h) cs).length := by
              simp only [pLinesL, List.length_append] at hi
              omega
            rw [ihc _ l hi', set_append_right _ _ i l (by omega)]
      exact inner cs i l hi

theorem pLinesL_set_congr (h : Nat) :
    ∀ (cs : List (Nat × PTree α)) (i k : Nat) (x : PTree α),
    pLines h x = pLines h (cs.getD i (pgdflt α)).2 →
    pLinesL (pLines h) (cs.set i (k, x)) = pLinesL (pLines h) cs := by
  intro cs
  induction cs with
  | nil => intro i k x _; simp
  | cons c cs ih =>
    intro i k x hx
    cases i with
    | zero =>
      simp only [List.getD_cons_zero] at hx
      simp only [List.set_cons_zero, pLinesL, hx]
    | succ i =>
      simp only [List.getD_cons_succ] at hx
      simp only [List.set_cons_succ, pLinesL, List.cons.injEq]
      rw [ih i k x hx]

theorem pLines_stemSetKeyNode (e nk : Nat) (h : Nat) (nd : PTree α) :
    pLines h (stemSetKeyNode e nk nd) = pLines h nd := by
  cases nd with
  | pleaf es => rfl
  | pstem cs =>
    cases h with
    | zero => rfl
    | succ h =>
      show pLines (h + 1) (.pstem (cs.set e (nk, (cs.getD e (pgdflt α)).2))) = _
      rw [pLines_stem, pLines_stem]
      exact pLinesL_set_congr h cs e nk _ rfl

theorem pModifyNodeAt_pLines_inv (f : PTree α → PTree α)
    (hf : ∀ (h : Nat) (nd : PTree α), pLines h (f nd) = pLines h nd) :
    ∀ (ip : List Nat) (H : Nat) (t : PTree α),
    pLines H (pModifyNodeAt f t ip) = pLines H t := by
  intro ip
  induction ip with
  | nil => intro H t; exact hf H t
  | cons i is ih =>
    intro H t
    cases t with
    | pleaf es => rfl
    | pstem cs =>
      show pLines H (.pstem (cs.set i ((cs.getD i (pgdflt α)).1,
        pModifyNodeAt f (cs.getD i (pgdflt α)).2 is))) = _
      cases H with
      | zero => rfl
      | succ H =>
        rw [pLines_stem, pLines_stem]
        exact pLinesL_set_congr H cs i _ _ (ih H _)

theorem pUpdateKey_pLines (H : Nat) :
    ∀ (d : Nat) (t : PTree α) (ipath : List Nat) (elem nk : Nat),
    pLines H (pUpdateKey t ipath d elem nk) = pLines H t := by
  intro d
  induction d with
  | zero =>
    intro t ipath elem nk
    show pLines H (pModifyNodeAt (stemSetKeyNode elem nk) t (ipath.take 0)) = _
    exact pModifyNodeAt_pLines_inv _ (pLines_stemSetKeyNode elem nk) _ H t
  | succ d ih =>
    intro t ipath elem nk
    cases elem with
    | zero =>
      show pLines H (pUpdateKey (pModifyNodeAt (stemSetKeyNode 0 nk) t
        (ipath.take (d + 1))) ipath d (ipath.getD d 0) nk) = _
      rw [ih]
      exact pModifyNodeAt_pLines_inv _ (pLines_stemSetKeyNode 0 nk) _ H t
    | succ e =>
      show pLines H (pModifyNodeAt (stemSetKeyNode (e + 1) nk) t
        (ipath.take (d + 1))) = _
      exact pModifyNodeAt_pLines_inv _ (pLines_stemSetKeyNode (e + 1) nk) _ H t

/-- `PageNode::set_key` only rewrites a key: the leaf lines keep their
shape, with the addressed element's key replaced. -/
theorem psetKey_pLines (p : PageS (Nat × β)) (pos : Nat × Nat) (nk : Nat)
    (hpos : pos.1 < (pLines p.levels p.tree).length) :
    pLines (psetKey p pos nk).levels (psetKey p pos nk).tree
      = (pLines p.levels p.tree).set pos.1
          (lineSetKeyPair ((pLines p.levels p.tree).getD pos.1 []) pos.2 nk) := by
  show pLines _ _ = _
  by_cases hc : pos.2 = 0 ∧ p.levels > 0
  · simp only [psetKey, if_pos hc]
    rw [pUpdateKey_pLines]
    exact pSetLine_pLines p.levels p.tree pos.1 _ hpos
  · simp only [psetKey, if_neg hc]
    exact pSetLine_pLines p.levels p.tree pos.1 _ hpos

/-- Replacing the child payload at a position rewrites exactly that line. -/
theorem psetChildAtPos_pLines (p : PageS (Nat × β)) (pos : Nat × Nat) (c : β)
    (hpos : pos.1 < (pLines p.levels p.tree).length) :
    pLines (psetChildAtPos p pos c).levels (psetChildAtPos p pos c).tree
      = (pLines p.levels p.tree).set pos.1
          (lineSetChild ((pLines p.levels p.tree).getD pos.1 []) pos.2 c) := by
  show pLines p.levels (pSetLine p.levels p.tree pos.1 _) = _
  exact pSetLine_pLines p.levels p.tree pos.1 _ hpos

theorem psetChildAtPos_levels (p : PageS (Nat × β)) (pos : Nat × Nat) (c : β) :
    (psetChildAtPos p pos c).levels = p.levels := rfl

theorem psetKey_levels (p : PageS (Nat × β)) (pos : Nat × Nat) (nk : Nat) :
    (psetKey p pos nk).levels = p.levels := by
  by_cases hc : pos.2 = 0 ∧ p.levels > 0
  · simp [psetKey, hc]
  · simp [psetKey, hc]

/-- Element-level effect of `psetChildAtPos` at a valid position: one entry's
payload is replaced, keys and all other entries unchanged. -/
theorem psetChildAtPos_pElems (p : PageS (Nat × β)) (pos : Nat × Nat) (c : β)
    (d : Nat × β)
    (h1 : pos.1 < (pLines p.levels p.tree).length)
    (h2 : pos.2 < ((pLines p.levels p.tree).getD pos.1 []).length) :
    pElems (psetChildAtPos p pos c)
      = (pElems p).set (pRankOfPos p pos)
          ((pElemAtPos p pos d).1, c) := by
  show (pLines (psetChildAtPos p pos c).levels (psetChildAtPos p pos c).tree).join = _
  rw [psetChildAtPos_pLines p pos c h1]
  rw [lineSetChild_eq d _ pos.2 c]
  have := join_set_inner ((((pLines p.levels p.tree).getD pos.1 []).getD pos.2 d).1, c)
    (pLines p.levels p.tree) pos.1 pos.2 h1 h2
  rw [this]
  rfl

/-- Element-level effect of `psetKey` at a valid position. -/
theorem psetKey_pElems (p : PageS (Nat × β)) (pos : Nat × Nat) (nk : Nat)
    (d : Nat × β)
    (h1 : pos.1 < (pLines p.levels p.tree).length)
    (h2 : pos.2 < ((pLines p.levels p.tree).getD pos.1 []).length) :
    pElems (psetKey p pos nk)
      = (pElems p).set (pRankOfPos p pos) (nk, (pElemAtPos p pos d).2) := by
  show (pLines (psetKey p pos nk).levels (psetKey p pos nk).tree).join = _
  rw [psetKey_pLines p pos nk h1]
  rw [lineSetKeyPair_eq d _ pos.2 nk]
  have := join_set_inner (nk, (((pLines p.levels p.tree).getD pos.1 []).getD pos.2 d).2)
    (pLines p.levels p.tree) pos.1 pos.2 h1 h2
  rw [this]
  rfl

-- ======================================================================
-- ERASE-PATH APPARATUS: VALID PATHS, FILL INVARIANTS
-- ======================================================================

/-- Removing one routing entry from a stem node (the net structural effect
of `erase_node` at its target stem, before rebalancing). -/
def eraseEntry (elem : Nat) (nd : PTree α) : PTree α :=
  .pstem ((stemChildren nd).eraseIdx elem)

/-- The child-index path is valid: each index is in range of the stem it
addresses. -/
def ipathOK : PTree α → List Nat → Bool
  | _, [] => true
  | t, i :: is =>
    match t with
    | .pleaf _ => false
    | .pstem cs => i < cs.length && ipathOK ((cs.getD i (pgdflt α)).2) is

/-- Fill invariant of the entry list of a stem, abstracted over the
per-subtree check. -/
def pfillL (f : PTree α → Bool) : List (Nat × PTree α) → Bool
  | [] => true
  | c :: cs => f c.2 && pfillL f cs

/-- Fill invariant below the root: every line of the subtree holds at least
`min_count - 1` entries.  (`erase_node` erases from a line only when it is
not thin, lowering a `min_count` line to one fewer; `min_count - 1` is the
bound every operation preserves, cf. specification section 8, item 3.) -/
def pfillSub : Nat → PTree α → Bool
  | 0, t => minCount - 1 ≤ (leafElems t).length
  | h + 1, t =>
    minCount - 1 ≤ (stemChildren t).length && pfillL (pfillSub h) (stemChildren t)

/-- Fill invariant of a page: the root line is unconstrained except that a
root stem keeps at least two entries (else `erase_node` collapses it), and
every non-root line holds at least `min_count` entries. -/
def pfill : Nat → PTree α → Bool
  | 0, _ => true
  | h + 1, t =>
    2 ≤ (stemChildren t).length && pfillL (pfillSub h) (stemChildren t)

theorem eraseIdx_eq_take_drop (l : List β) : ∀ (i : Nat),
    l.eraseIdx i = l.take i ++ l.drop (i + 1) := by
  induction l with
  | nil => intro i; simp [List.eraseIdx]
  | cons x xs ih =>
    intro i
    cases i with
    | zero => simp [List.eraseIdx]
    | succ i =>
      simp only [List.eraseIdx, List.take_succ_cons, List.drop_succ_cons,
        List.cons_append, List.cons.injEq, true_and]
      exact ih i

theorem pNodeAt_append (t : PTree α) : ∀ (p q : List Nat),
    pNodeAt t (p ++ q) = pNodeAt (pNodeAt t p) q := by
  intro p
  induction p generalizing t with
  | nil => intro q; rfl
  | cons i is ih =>
    intro q
    cases t with
    | pstem cs =>
      show pNodeAt ((cs.getD i (pgdflt α)).2) (is ++ q) = _
      rw [ih]
      rfl
    | pleaf es =>
      show pNodeAt (.pleaf es) (is ++ q) = _
      rw [ih]
      rfl

theorem pNodeAt_pleaf (es : List α) : ∀ (p : List Nat),
    pNodeAt (.pleaf es : PTree α) p = .pleaf es := by
  intro p
  induction p with
  | nil => rfl
  | cons i is ih => exact ih

theorem pwfL_eraseIdx (f : PTree α → Bool) (m : PTree α → Nat) :
    ∀ (cs : List (Nat × PTree α)) (i : Nat), pwfL f m cs = true →
    pwfL f m (cs.eraseIdx i) = true := by
  intro cs i hwl
  rw [eraseIdx_eq_take_drop, pwfL_append, Bool.and_eq_true]
  exact ⟨pwfL_take f m cs hwl i, pwfL_drop f m cs hwl (i + 1)⟩

theorem pfillL_getD (f : PTree α → Bool) :
    ∀ (cs : List (Nat × PTree α)), pfillL f cs = true →
    ∀ (i : Nat) (d : Nat × PTree α), i < cs.length → f (cs.getD i d).2 = true := by
  intro cs
  induction cs with
  | nil => intro _ i d hi; simp at hi
  | cons c cs ih =>
    intro hf i d hi
    simp only [pfillL, Bool.and_eq_true] at hf
    cases i with
    | zero => simpa using hf.1
    | succ i =>
      simp only [List.getD_cons_succ]
      exact ih hf.2 i d (Nat.lt_of_succ_lt_succ hi)

theorem pfillL_append (f : PTree α → Bool) (l1 l2 : List (Nat × PTree α)) :
    pfillL f (l1 ++ l2) = (pfillL f l1 && pfillL f l2) := by
  induction l1 with
  | nil => simp [pfillL]
  | cons c cs ih =>
    show (f c.2 && pfillL f (cs ++ l2)) = (pfillL f (c :: cs) && pfillL f l2)
    rw [ih]
    simp only [pfillL, Bool.and_assoc]

theorem pfillL_take (f : PTree α → Bool) :
    ∀ (cs : List (Nat × PTree α)), pfillL f cs = true →
    ∀ (n : Nat), pfillL f (cs.take n) = true := by
  intro cs
  induction cs with
  | nil => intro _ n; cases n <;> simp [pfillL]
  | cons c cs ih =>
    intro hf n
    simp only [pfillL, Bool.and_eq_true] at hf
    cases n with
    | zero => simp [pfillL]
    | succ n =>
      simp only [List.take_succ_cons, pfillL, Bool.and_eq_true]
      exact ⟨hf.1, ih hf.2 n⟩

theorem pfillL_drop (f : PTree α → Bool) :
    ∀ (cs : List (Nat × PTree α)), pfillL f cs = true →
    ∀ (n : Nat), pfillL f (cs.drop n) = true := by
  intro cs
  induction cs with
  | nil => intro _ n; cases n <;> simp [pfillL]
  | cons c cs ih =>
    intro hf n
    simp only [pfillL, Bool.and_eq_true] at hf
    cases n with
    | zero => simpa [pfillL, Bool.and_eq_true] using hf
    | succ n =>
      simp only [List.drop_succ_cons]
      exact ih hf.2 n

theorem pfillL_eraseIdx (f : PTree α → Bool) (cs : List (Nat × PTree α)) (i : Nat)
    (hf : pfillL f cs = true) : pfillL f (cs.eraseIdx i) = true := by
  rw [eraseIdx_eq_take_drop, pfillL_append, Bool.and_eq_true]
  exact ⟨pfillL_take f cs hf i, pfillL_drop f cs hf (i + 1)⟩

theorem pfillL_set (f : PTree α → Bool) :
    ∀ (cs : List (Nat × PTree α)) (i : Nat) (k : Nat) (x : PTree α),
    pfillL f cs = true → f x = true → pfillL f (cs.set i (k, x)) = true := by
  intro cs
  induction cs with
  | nil => intro i k x h _; simpa using h
  | cons c cs ih =>
    intro i k x hf hx
    simp only [pfillL, Bool.and_eq_true] at hf
    cases i with
    | zero =>
      simp only [List.set_cons_zero, pfillL, Bool.and_eq_true]
      exact ⟨hx, hf.2⟩
    | succ i =>
      simp only [List.set_cons_succ, pfillL, Bool.and_eq_true]
      exact ⟨hf.1, ih i k x hf.2 hx⟩

theorem pLinesL_eraseIdx (h : Nat) (cs : List (Nat × PTree α)) (i : Nat) :
    pLinesL (pLines h) (cs.eraseIdx i)
      = pLinesL (pLines h) (cs.take i) ++ pLinesL (pLines h) (cs.drop (i + 1)) := by
  rw [eraseIdx_eq_take_drop, pLinesL_append]

theorem set_getD_self (l : List β) : ∀ (i : Nat) (d : β),
    l.set i (l.getD i d) = l := by
  induction l with
  | nil => intro i d; simp
  | cons x xs ih =>
    intro i d
    cases i with
    | zero => simp
    | succ i =>
      simp only [List.getD_cons_succ, List.set_cons_succ, List.cons.injEq, true_and]
      exact ih i d

/-- A modification that fixes the addressed node fixes the whole tree. -/
theorem pModifyNodeAt_id (f : PTree α → PTree α) :
    ∀ (ip : List Nat) (t : PTree α),
    f (pNodeAt t ip) = pNodeAt t ip → pModifyNodeAt f t ip = t := by
  intro ip
  induction ip with
  | nil => intro t h; exact h
  | cons i is ih =>
    intro t h
    cases t with
    | pleaf es => rfl
    | pstem cs =>
      show PTree.pstem (cs.set i ((cs.getD i (pgdflt α)).1,
        pModifyNodeAt f (cs.getD i (pgdflt α)).2 is)) = _
      rw [ih _ h]
      rw [show ((cs.getD i (pgdflt α)).1, (cs.getD i (pgdflt α)).2)
        = cs.getD i (pgdflt α) from rfl]
      rw [set_getD_self]

theorem pNodeAt_pModifyNodeAt (f : PTree α → PTree α) :
    ∀ (ip : List Nat) (t : PTree α), ipathOK t ip = true →
    pNodeAt (pModifyNodeAt f t ip) ip = f (pNodeAt t ip) := by
  intro ip
  induction ip with
  | nil => intro t _; rfl
  | cons i is ih =>
    intro t hok
    cases t with
    | pleaf es => simp [ipathOK] at hok
    | pstem cs =>
      simp only [ipathOK, Bool.and_eq_true, decide_eq_true_eq] at hok
      show pNodeAt (.pstem (cs.set i ((cs.getD i (pgdflt α)).1,
        pModifyNodeAt f (cs.getD i (pgdflt α)).2 is))) (i :: is) = _
      show pNodeAt (((cs.set i ((cs.getD i (pgdflt α)).1,
        pModifyNodeAt f (cs.getD i (pgdflt α)).2 is)).getD i (pgdflt α))).2 is = _
      rw [getD_set_same, if_pos hok.1]
      exact ih _ hok.2

theorem pNodeAt_pModifyNodeAt_prefix (f : PTree α → PTree α) :
    ∀ (p q : List Nat) (t : PTree α), ipathOK t p = true →
    pNodeAt (pModifyNodeAt f t (p ++ q)) p = pModifyNodeAt f (pNodeAt t p) q := by
  intro p
  induction p with
  | nil => intro q t _; rfl
  | cons i is ih =>
    intro q t hok
    cases t with
    | pleaf es => simp [ipathOK] at hok
    | pstem cs =>
      simp only [ipathOK, Bool.and_eq_true, decide_eq_true_eq] at hok
      show pNodeAt (((cs.set i ((cs.getD i (pgdflt α)).1,
        pModifyNodeAt f (cs.getD i (pgdflt α)).2 (is ++ q))).getD i (pgdflt α))).2 is
        = _
      rw [getD_set_same, if_pos hok.1]
      exact ih q _ hok.2

theorem pModifyNodeAt_comp (f g : PTree α → PTree α) :
    ∀ (ip : List Nat) (t : PTree α), ipathOK t ip = true →
    pModifyNodeAt f (pModifyNodeAt g t ip) ip
      = pModifyNodeAt (fun nd => f (g nd)) t ip := by
  intro ip
  induction ip with
  | nil => intro t _; rfl
  | cons i is ih =>
    intro t hok
    cases t with
    | pleaf es => rfl
    | pstem cs =>
      simp only [ipathOK, Bool.and_eq_true, decide_eq_true_eq] at hok
      show PTree.pstem _ = PTree.pstem _
      congr 1
      rw [show ((cs.set i ((cs.getD i (pgdflt α)).1,
            pModifyNodeAt g (cs.getD i (pgdflt α)).2 is)).getD i (pgdflt α))
          = ((cs.getD i (pgdflt α)).1,
            pModifyNodeAt g (cs.getD i (pgdflt α)).2 is) by
        rw [getD_set_same, if_pos hok.1]]
      rw [List.set_set]
      congr 1
      show ((cs.getD i (pgdflt α)).1,
          pModifyNodeAt f (pModifyNodeAt g (cs.getD i (pgdflt α)).2 is) is) = _
      rw [ih _ hok.2]

theorem pNodeAt_pwf (kf : α → Nat) :
    ∀ (ip : List Nat) (H : Nat) (t : PTree α),
    pwf kf H t = true → ipathOK t ip = true →
    ip.length ≤ H ∧ pwf kf (H - ip.length) (pNodeAt t ip) = true := by
  intro ip
  induction ip with
  | nil => intro H t hwf _; simpa using hwf
  | cons i is ih =>
    intro H t hwf hok
    cases t with
    | pleaf es => simp [ipathOK] at hok
    | pstem cs =>
      cases H with
      | zero => simp [pwf] at hwf
      | succ H =>
        simp only [ipathOK, Bool.and_eq_true, decide_eq_true_eq] at hok
        simp only [pwf, Bool.and_eq_true] at hwf
        have hx := pwfL_getD _ _ cs hwf.2 i (pgdflt α) hok.1
        have := ih H _ hx.1 hok.2
        refine ⟨by simpa using Nat.succ_le_succ this.1, ?_⟩
        show pwf kf (H + 1 - (is.length + 1)) (pNodeAt (cs.getD i (pgdflt α)).2 is)
            = true
        rw [Nat.succ_sub_succ]
        exact this.2

theorem take_succ_getD (l : List Nat) : ∀ (d : Nat), d < l.length →
    l.take (d + 1) = l.take d ++ [l.getD d 0] := by
  induction l with
  | nil => intro d hd; simp at hd
  | cons x xs ih =>
    intro d hd
    cases d with
    | zero => simp
    | succ d =>
      simp only [List.take_succ_cons, List.getD_cons_succ, List.cons_append,
        List.cons.injEq, true_and]
      exact ih d (by simpa using hd)

theorem ipathOK_take : ∀ (ip : List Nat) (t : PTree α), ipathOK t ip = true →
    ∀ (n : Nat), ipathOK t (ip.take n) = true := by
  intro ip
  induction ip with
  | nil => intro t _ n; rw [List.take_nil]; rfl
  | cons i is ih =>
    intro t hok n
    cases n with
    | zero => rfl
    | succ n =>
      cases t with
      | pleaf es => simp [ipathOK] at hok
      | pstem cs =>
        simp only [ipathOK, Bool.and_eq_true, decide_eq_true_eq] at hok
        simp only [List.take_succ_cons, ipathOK, Bool.and_eq_true,
          decide_eq_true_eq]
        exact ⟨hok.1, ih _ hok.2 n⟩

theorem ipathOK_pModifyNodeAt (f : PTree α → PTree α) :
    ∀ (ip : List Nat) (t : PTree α), ipathOK t ip = true →
    ipathOK (pModifyNodeAt f t ip) ip = true := by
  intro ip
  induction ip with
  | nil => intro t _; rfl
  | cons i is ih =>
    intro t hok
    cases t with
    | pleaf es => simp [ipathOK] at hok
    | pstem cs =>
      simp only [ipathOK, Bool.and_eq_true, decide_eq_true_eq] at hok
      show ipathOK (.pstem (cs.set i ((cs.getD i (pgdflt α)).1,
        pModifyNodeAt f (cs.getD i (pgdflt α)).2 is))) (i :: is) = true
      simp only [ipathOK, Bool.and_eq_true, decide_eq_true_eq]
      refine ⟨by simpa [List.length_set] using hok.1, ?_⟩
      rw [getD_set_same, if_pos hok.1]
      exact ih _ hok.2

theorem ipathOK_append_elem : ∀ (p : List Nat) (t : PTree α) (i : Nat),
    ipathOK t (p ++ [i]) = true →
    i < (stemChildren (pNodeAt t p)).length := by
  intro p
  induction p with
  | nil =>
    intro t i h
    cases t with
    | pleaf es => simp [ipathOK] at h
    | pstem cs =>
      simp only [List.nil_append, ipathOK, Bool.and_eq_true,
        decide_eq_true_eq] at h
      exact h.1
  | cons j js ih =>
    intro t i h
    cases t with
    | pleaf es => simp [ipathOK] at h
    | pstem cs =>
      simp only [List.cons_append, ipathOK, Bool.and_eq_true,
        decide_eq_true_eq] at h
      exact ih _ i h.2

theorem pModifyNodeAt_append (f : PTree α → PTree α) :
    ∀ (p q : List Nat) (t : PTree α),
    pModifyNodeAt f t (p ++ q)
      = pModifyNodeAt (fun nd => pModifyNodeAt f nd q) t p := by
  intro p
  induction p with
  | nil => intro q t; rfl
  | cons i is ih =>
    intro q t
    cases t with
    | pleaf es => rfl
    | pstem cs =>
      show PTree.pstem (cs.set i ((cs.getD i (pgdflt α)).1,
          pModifyNodeAt f (cs.getD i (pgdflt α)).2 (is ++ q))) = _
      rw [ih q]
      rfl

theorem pLinesL_set_congr2 (h : Nat) :
    ∀ (cs : List (Nat × PTree α)) (i k k' : Nat) (x y : PTree α),
    pLines h x = pLines h y →
    pLinesL (pLines h) (cs.set i (k, x)) = pLinesL (pLines h) (cs.set i (k', y)) := by
  intro cs
  induction cs with
  | nil => intro i k k' x y _; simp
  | cons c cs ih =>
    intro i k k' x y hxy
    cases i with
    | zero => simp only [List.set_cons_zero, pLinesL, hxy]
    | succ i =>
      simp only [List.set_cons_succ, pLinesL]
      rw [ih i k k' x y hxy]

theorem pModifyNodeAt_pLines_congr (f g : PTree α → PTree α) :
    ∀ (ip : List Nat) (t : PTree α), ipathOK t ip = true →
    (∀ h : Nat, pLines h (f (pNodeAt t ip)) = pLines h (g (pNodeAt t ip))) →
    ∀ (H : Nat), pLines H (pModifyNodeAt f t ip) = pLines H (pModifyNodeAt g t ip) := by
  intro ip
  induction ip with
  | nil => intro t _ hfg H; exact hfg H
  | cons i is ih =>
    intro t hok hfg H
    cases t with
    | pleaf es => rfl
    | pstem cs =>
      simp only [ipathOK, Bool.and_eq_true, decide_eq_true_eq] at hok
      cases H with
      | zero => rfl
      | succ H =>
        show pLines (H + 1) (.pstem (cs.set i ((cs.getD i (pgdflt α)).1,
            pModifyNodeAt f (cs.getD i (pgdflt α)).2 is)))
          = pLines (H + 1) (.pstem (cs.set i ((cs.getD i (pgdflt α)).1,
            pModifyNodeAt g (cs.getD i (pgdflt α)).2 is)))
        rw [pLines_stem, pLines_stem]
        exact pLinesL_set_congr2 H cs i _ _ _ _ (ih _ hok.2 hfg H)

theorem head_eJoin_stem_cons (h : Nat) (c : Nat × PTree α)
    (cs : List (Nat × PTree α)) (hne : eJoin h c.2 ≠ []) :
    (eJoin (h + 1) (.pstem (c :: cs))).head? = (eJoin h c.2).head? := by
  have hj : eJoin (h + 1) (.pstem (c :: cs))
      = eJoin h c.2 ++ ((cs.map (fun x => eJoin h x.2)).join) := by
    rw [eJoin_stem, List.map_cons, join_cons_eq]
  rw [hj]
  match hce : eJoin h c.2, hne with
  | x0 :: rest, _ => simp

theorem pMinKeyOf_stem_cons (kf : α → Nat) (h : Nat) (c : Nat × PTree α)
    (cs : List (Nat × PTree α)) (hne : eJoin h c.2 ≠ []) :
    pMinKeyOf kf (h + 1) (.pstem (c :: cs)) = pMinKeyOf kf h c.2 := by
  unfold pMinKeyOf
  rw [head_eJoin_stem_cons h c cs hne]

/-- Replacing the node at a valid path with a well-formed node of the same
height and minimum key keeps the page well formed and its minimum key. -/
theorem pModifyNodeAt_pwf (kf : α → Nat) (f : PTree α → PTree α) :
    ∀ (ip : List Nat) (H : Nat) (t : PTree α),
    pwf kf H t = true → ipathOK t ip = true →
    pwf kf (H - ip.length) (f (pNodeAt t ip)) = true →
    pMinKeyOf kf (H - ip.length) (f (pNodeAt t ip))
      = pMinKeyOf kf (H - ip.length) (pNodeAt t ip) →
    pwf kf H (pModifyNodeAt f t ip) = true
      ∧ pMinKeyOf kf H (pModifyNodeAt f t ip) = pMinKeyOf kf H t := by
  intro ip
  induction ip with
  | nil =>
    intro H t hwf _ hf hmin
    exact ⟨by simpa using hf, by simpa using hmin⟩
  | cons i is ih =>
    intro H t hwf hok hf hmin
    cases t with
    | pleaf es => simp [ipathOK] at hok
    | pstem cs =>
      cases H with
      | zero => simp [pwf] at hwf
      | succ H =>
        simp only [ipathOK, Bool.and_eq_true, decide_eq_true_eq] at hok
        simp only [pwf, Bool.and_eq_true] at hwf
        have hc := pwfL_getD _ _ cs hwf.2 i (pgdflt α) hok.1
        have harith : H + 1 - (i :: is).length = H - is.length := by
          simp [Nat.succ_sub_succ]
        rw [harith] at hf hmin
        have hrec := ih H (cs.getD i (pgdflt α)).2 hc.1 hok.2 hf hmin
        constructor
        · show pwf kf (H + 1) (.pstem (cs.set i ((cs.getD i (pgdflt α)).1,
            pModifyNodeAt f (cs.getD i (pgdflt α)).2 is))) = true
          simp only [pwf, Bool.and_eq_true]
          refine ⟨?_, pwfL_set _ _ cs i _ _ hwf.2 hrec.1 ?_⟩
          · exact not_isEmpty_of_length_pos _ (by rw [List.length_set]; omega)
          · rw [hrec.2]; exact hc.2
        · show pMinKeyOf kf (H + 1) (.pstem (cs.set i ((cs.getD i (pgdflt α)).1,
            pModifyNodeAt f (cs.getD i (pgdflt α)).2 is))) = _
          match cs, hok, hc, hrec, hwf with
          | c0 :: cs', hok, hc, hrec, hwf =>
            cases i with
            | zero =>
              simp only [List.getD_cons_zero] at hc hrec
              rw [List.set_cons_zero]
              rw [pMinKeyOf_stem_cons kf H _ cs'
                (eJoin_ne_nil kf H _ hrec.1)]
              rw [pMinKeyOf_stem_cons kf H c0 cs'
                (eJoin_ne_nil kf H _ hc.1)]
              exact hrec.2
            | succ i =>
              have hw0 : pwf kf H c0.2 = true := by
                have := hwf.2
                simp only [pwfL, Bool.and_eq_true] at this
                exact this.1.1
              rw [List.set_cons_succ]
              rw [pMinKeyOf_stem_cons kf H c0 _
                (eJoin_ne_nil kf H _ hw0)]
              rw [pMinKeyOf_stem_cons kf H c0 cs'
                (eJoin_ne_nil kf H _ hw0)]

/-- When every routing key `update_key` touches beyond its target is already
forced to the written value by well-formedness (which is the situation at
every call site: the propagated key is the subtree minimum that the lower
write has just installed), `update_key` amounts to the single key write at
its target stem. -/
theorem pUpdateKey_eq_fix (kf : α → Nat) :
    ∀ (D : Nat) (t : PTree α) (ipath : List Nat) (elem nk : Nat) (H : Nat),
    ipathOK t (ipath.take D) = true →
    D ≤ ipath.length → D < H →
    pwf kf H (pModifyNodeAt (stemSetKeyNode elem nk) t (ipath.take D)) = true →
    pUpdateKey t ipath D elem nk
      = pModifyNodeAt (stemSetKeyNode elem nk) t (ipath.take D) := by
  intro D
  induction D with
  | zero => intro t ipath elem nk H _ _ _ _; cases elem <;> rfl
  | succ d ih =>
    intro t ipath elem nk H hok hlen hDH hQ
    cases elem with
    | succ e => rfl
    | zero =>
      have hd_lt : d < ipath.length := by omega
      have htake : ipath.take (d + 1) = ipath.take d ++ [ipath.getD d 0] :=
        take_succ_getD ipath d hd_lt
      have htt : (ipath.take (d + 1)).take d = ipath.take d := by
        rw [List.take_take]
        congr 1
        omega
      have hlt1 : (ipath.take (d + 1)).length = d + 1 := by
        rw [List.length_take]; omega
      have hltd : (ipath.take d).length = d := by
        rw [List.length_take]; omega
      have hokd : ipathOK t (ipath.take d) = true := by
        rw [← htt]; exact ipathOK_take _ t hok d
      have hokT1 : ipathOK (pModifyNodeAt (stemSetKeyNode 0 nk) t
          (ipath.take (d + 1))) (ipath.take (d + 1)) = true :=
        ipathOK_pModifyNodeAt _ _ t hok
      have hokT1d : ipathOK (pModifyNodeAt (stemSetKeyNode 0 nk) t
          (ipath.take (d + 1))) (ipath.take d) = true := by
        rw [← htt]; exact ipathOK_take _ _ hokT1 d
      have hpli : ipath.getD d 0 < (stemChildren (pNodeAt t (ipath.take d))).length := by
        apply ipathOK_append_elem
        rw [← htake]; exact hok
      have hnode : pNodeAt (pModifyNodeAt (stemSetKeyNode 0 nk) t
            (ipath.take (d + 1))) (ipath.take d)
          = pModifyNodeAt (stemSetKeyNode 0 nk)
              (pNodeAt t (ipath.take d)) [ipath.getD d 0] := by
        rw [htake, pModifyNodeAt_append]
        exact pNodeAt_pModifyNodeAt _ _ t hokd
      have hwfsub := (pNodeAt_pwf kf (ipath.take d) H _ hQ hokT1d).2
      rw [hltd] at hwfsub
      obtain ⟨h2, hh2⟩ : ∃ h2, H - d = h2 + 2 := ⟨H - d - 2, by omega⟩
      rw [hh2] at hwfsub
      rw [hnode] at hwfsub
      have hfix : pModifyNodeAt (stemSetKeyNode (ipath.getD d 0) nk)
          (pModifyNodeAt (stemSetKeyNode 0 nk) t (ipath.take (d + 1)))
          (ipath.take d)
          = pModifyNodeAt (stemSetKeyNode 0 nk) t (ipath.take (d + 1)) := by
        apply pModifyNodeAt_id
        rw [hnode]
        cases hP : pNodeAt t (ipath.take d) with
        | pleaf es =>
          rw [hP] at hwfsub
          simp [pModifyNodeAt, pwf] at hwfsub
        | pstem Pcs =>
          rw [hP] at hwfsub hpli
          have hpli2 : ipath.getD d 0 < Pcs.length := hpli
          have hred : pModifyNodeAt (stemSetKeyNode 0 nk)
              (PTree.pstem Pcs) [ipath.getD d 0]
              = PTree.pstem (Pcs.set (ipath.getD d 0)
                  ((Pcs.getD (ipath.getD d 0) (pgdflt α)).1,
                   stemSetKeyNode 0 nk (Pcs.getD (ipath.getD d 0) (pgdflt α)).2)) :=
            rfl
          rw [hred] at hwfsub
          rw [hred]
          simp only [pwf, Bool.and_eq_true] at hwfsub
          have hent := pwfL_getD _ _ _ hwfsub.2 (ipath.getD d 0) (pgdflt α)
            (by rw [List.length_set]; exact hpli2)
          rw [getD_set_same, if_pos hpli2] at hent
          have hkeynk : (Pcs.getD (ipath.getD d 0) (pgdflt α)).1 = nk := by
            rw [hent.2]
            cases hc2 : (Pcs.getD (ipath.getD d 0) (pgdflt α)).2 with
            | pleaf es2 =>
              rw [hc2] at hent
              have := hent.1
              simp [stemSetKeyNode, pwf] at this
            | pstem cs2 =>
              rw [hc2] at hent
              have hwfc : pwf kf (h2 + 1)
                  (stemSetKeyNode 0 nk (PTree.pstem cs2)) = true := hent.1
              have hmk := nodeMinKey_eq kf (h2 + 1)
                (stemSetKeyNode 0 nk (PTree.pstem cs2)) hwfc
              show pMinKeyOf kf (h2 + 1) (stemSetKeyNode 0 nk (PTree.pstem cs2)) = nk
              rw [← hmk]
              show nodeMinKey kf (.pstem (cs2.set 0
                (nk, (cs2.getD 0 (pgdflt α)).2))) = nk
              match cs2, hwfc with
              | z :: cs2', _ => rfl
          show PTree.pstem ((Pcs.set (ipath.getD d 0)
              ((Pcs.getD (ipath.getD d 0) (pgdflt α)).1,
               stemSetKeyNode 0 nk (Pcs.getD (ipath.getD d 0) (pgdflt α)).2)).set
              (ipath.getD d 0) (nk,
                ((Pcs.set (ipath.getD d 0)
                  ((Pcs.getD (ipath.getD d 0) (pgdflt α)).1,
                   stemSetKeyNode 0 nk
                     (Pcs.getD (ipath.getD d 0) (pgdflt α)).2)).getD
                  (ipath.getD d 0) (pgdflt α)).2)) = _
          rw [getD_set_same, if_pos hpli2, List.set_set, hkeynk]
      show pUpdateKey (pModifyNodeAt (stemSetKeyNode 0 nk) t (ipath.take (d + 1)))
          ipath d (ipath.getD d 0) nk = _
      rw [ih _ ipath _ nk H hokT1d (by omega) (by omega) (by rw [hfix]; exact hQ)]
      exact hfix

theorem pModifyNodeAt_congr (f g : PTree α → PTree α) :
    ∀ (ip : List Nat) (t : PTree α), ipathOK t ip = true →
    f (pNodeAt t ip) = g (pNodeAt t ip) →
    pModifyNodeAt f t ip = pModifyNodeAt g t ip := by
  intro ip
  induction ip with
  | nil => intro t _ h; exact h
  | cons i is ih =>
    intro t hok h
    cases t with
    | pleaf es => rfl
    | pstem cs =>
      simp only [ipathOK, Bool.and_eq_true, decide_eq_true_eq] at hok
      show PTree.pstem (cs.set i ((cs.getD i (pgdflt α)).1,
        pModifyNodeAt f (cs.getD i (pgdflt α)).2 is)) = _
      rw [ih _ hok.2 h]
      rfl

-- ======================================================================
-- LINE-PRESERVING STRUCTURAL CONGRUENCE
-- ======================================================================

/-- Helper of `linesEqP` over child lists, abstracted over the recursive
call. -/
def linesEqLP (f : PTree α → PTree α → Prop) :
    List (Nat × PTree α) → List (Nat × PTree α) → Prop
  | [], [] => True
  | c :: cs, c' :: cs' => f c.2 c'.2 ∧ linesEqLP f cs cs'
  | _, _ => False

/-- Two page trees of uniform height `h` agree on everything except routing
keys: same stem arities and identical leaf lines everywhere.  Key rewrites
(`update_key` and friends) relate a tree to its result under this
congruence. -/
def linesEqP : Nat → PTree α → PTree α → Prop
  | 0, t, t' =>
    match t, t' with
    | .pleaf es, .pleaf es' => es = es'
    | _, _ => False
  | h + 1, t, t' =>
    match t, t' with
    | .pstem cs, .pstem cs' => linesEqLP (linesEqP h) cs cs'
    | _, _ => False

theorem linesEqLP_length (f : PTree α → PTree α → Prop) :
    ∀ (cs cs' : List (Nat × PTree α)), linesEqLP f cs cs' →
    cs.length = cs'.length := by
  intro cs
  induction cs with
  | nil => intro cs' h; cases cs' with
    | nil => rfl
    | cons c' cs' => exact absurd h (by simp [linesEqLP])
  | cons c cs ih =>
    intro cs' h
    cases cs' with
    | nil => exact absurd h (by simp [linesEqLP])
    | cons c' cs' =>
      simp only [List.length_cons]
      rw [ih cs' h.2]

theorem linesEqLP_getD (f : PTree α → PTree α → Prop) :
    ∀ (cs cs' : List (Nat × PTree α)), linesEqLP f cs cs' →
    ∀ (i : Nat), i < cs.length →
    f ((cs.getD i (pgdflt α)).2) ((cs'.getD i (pgdflt α)).2) := by
  intro cs
  induction cs with
  | nil => intro cs' _ i hi; simp at hi
  | cons c cs ih =>
    intro cs' h i hi
    cases cs' with
    | nil => exact absurd h (by simp [linesEqLP])
    | cons c' cs' =>
      cases i with
      | zero => exact h.1
      | succ i => exact ih cs' h.2 i (by simpa using hi)

theorem linesEqP_refl_of_pwf (kf : α → Nat) :
    ∀ (h : Nat) (t : PTree α), pwf kf h t = true → linesEqP h t t := by
  intro h
  induction h with
  | zero =>
    intro t hwf
    cases t with
    | pleaf es => exact rfl
    | pstem cs => simp [pwf] at hwf
  | succ h ih =>
    intro t hwf
    cases t with
    | pleaf es => simp [pwf] at hwf
    | pstem cs =>
      simp only [pwf, Bool.and_eq_true] at hwf
      show linesEqLP (linesEqP h) cs cs
      have hl := hwf.2
      clear hwf
      induction cs with
      | nil => exact trivial
      | cons c cs ihl =>
        simp only [pwfL, Bool.and_eq_true] at hl
        exact ⟨ih c.2 hl.1.1, ihl hl.2⟩

theorem linesEqP_symm : ∀ (h : Nat) (t t' : PTree α),
    linesEqP h t t' → linesEqP h t' t := by
  intro h
  induction h with
  | zero =>
    intro t t' he
    cases t with
    | pleaf es => cases t' with
      | pleaf es' => exact (show es = es' from he).symm
      | pstem cs' => exact absurd he (by simp [linesEqP])
    | pstem cs => exact absurd he (by simp [linesEqP])
  | succ h ih =>
    intro t t' he
    cases t with
    | pleaf es => exact absurd he (by simp [linesEqP])
    | pstem cs =>
      cases t' with
      | pleaf es' => exact absurd he (by simp [linesEqP])
      | pstem cs' =>
        show linesEqLP (linesEqP h) cs' cs
        have he' : linesEqLP (linesEqP h) cs cs' := he
        clear he
        induction cs generalizing cs' with
        | nil => cases cs' with
          | nil => exact trivial
          | cons c' cs' => exact absurd he' (by simp [linesEqLP])
        | cons c cs ihl =>
          cases cs' with
          | nil => exact absurd he' (by simp [linesEqLP])
          | cons c' cs' => exact ⟨ih _ _ he'.1, ihl cs' he'.2⟩

theorem linesEqP_trans : ∀ (h : Nat) (a b c : PTree α),
    linesEqP h a b → linesEqP h b c → linesEqP h a c := by
  intro h
  induction h with
  | zero =>
    intro a b c hab hbc
    cases a with
    | pleaf es => cases b with
      | pleaf es2 => cases c with
        | pleaf es3 =>
          exact (show es = es2 from hab).trans (show es2 = es3 from hbc)
        | pstem cs3 => exact absurd hbc (by simp [linesEqP])
      | pstem cs2 => exact absurd hab (by simp [linesEqP])
    | pstem cs => exact absurd hab (by simp [linesEqP])
  | succ h ih =>
    intro a b c hab hbc
    cases a with
    | pleaf es => exact absurd hab (by simp [linesEqP])
    | pstem csa =>
      cases b with
      | pleaf es2 => exact absurd hab (by simp [linesEqP])
      | pstem csb =>
        cases c with
        | pleaf es3 => exact absurd hbc (by simp [linesEqP])
        | pstem csc =>
          show linesEqLP (linesEqP h) csa csc
          have hab' : linesEqLP (linesEqP h) csa csb := hab
          have hbc' : linesEqLP (linesEqP h) csb csc := hbc
          clear hab hbc
          induction csa generalizing csb csc with
          | nil => cases csb with
            | nil => cases csc with
              | nil => exact trivial
              | cons c3 cs3 => exact absurd hbc' (by simp [linesEqLP])
            | cons c2 cs2 => exact absurd hab' (by simp [linesEqLP])
          | cons c1 cs1 ihl =>
            cases csb with
            | nil => exact absurd hab' (by simp [linesEqLP])
            | cons c2 cs2 =>
              cases csc with
              | nil => exact absurd hbc' (by simp [linesEqLP])
              | cons c3 cs3 =>
                exact ⟨ih _ _ _ hab'.1 hbc'.1, ihl cs2 cs3 hab'.2 hbc'.2⟩

theorem linesEqP_pLines : ∀ (h : Nat) (t t' : PTree α),
    linesEqP h t t' → pLines h t = pLines h t' := by
  intro h
  induction h with
  | zero =>
    intro t t' he
    cases t with
    | pleaf es => cases t' with
      | pleaf es' => show [es] = [es']; rw [show es = es' from he]
      | pstem cs' => exact absurd he (by simp [linesEqP])
    | pstem cs => exact absurd he (by simp [linesEqP])
  | succ h ih =>
    intro t t' he
    cases t with
    | pleaf es => exact absurd he (by simp [linesEqP])
    | pstem cs =>
      cases t' with
      | pleaf es' => exact absurd he (by simp [linesEqP])
      | pstem cs' =>
        have he' : linesEqLP (linesEqP h) cs cs' := he
        clear he
        show pLinesL (pLines h) cs = pLinesL (pLines h) cs'
        induction cs generalizing cs' with
        | nil => cases cs' with
          | nil => rfl
          | cons c' cs' => exact absurd he' (by simp [linesEqLP])
        | cons c cs ihl =>
          cases cs' with
          | nil => exact absurd he' (by simp [linesEqLP])
          | cons c' cs' =>
            show pLines h c.2 ++ pLinesL (pLines h) cs
              = pLines h c'.2 ++ pLinesL (pLines h) cs'
            rw [ih _ _ he'.1, ihl cs' he'.2]

theorem linesEqP_ipathOK : ∀ (p : List Nat) (h : Nat) (t t' : PTree α),
    linesEqP h t t' → p.length ≤ h → ipathOK t p = true →
    ipathOK t' p = true := by
  intro p
  induction p with
  | nil => intro h t t' _ _ _; rfl
  | cons i is ih =>
    intro h t t' he hlen hok
    cases t with
    | pleaf es => simp [ipathOK] at hok
    | pstem cs =>
      cases h with
      | zero => simp at hlen
      | succ h =>
        cases t' with
        | pleaf es' => exact absurd he (by simp [linesEqP])
        | pstem cs' =>
          have he' : linesEqLP (linesEqP h) cs cs' := he
          simp only [ipathOK, Bool.and_eq_true, decide_eq_true_eq] at hok
          simp only [ipathOK, Bool.and_eq_true, decide_eq_true_eq]
          refine ⟨by rw [← linesEqLP_length _ cs cs' he']; exact hok.1, ?_⟩
          exact ih h _ _ (linesEqLP_getD _ cs cs' he' i hok.1)
            (by simpa using hlen) hok.2

theorem linesEqP_pNodeAt : ∀ (p : List Nat) (h : Nat) (t t' : PTree α),
    linesEqP h t t' → ipathOK t p = true → p.length ≤ h →
    linesEqP (h - p.length) (pNodeAt t p) (pNodeAt t' p) := by
  intro p
  induction p with
  | nil => intro h t t' he _ _; simpa using he
  | cons i is ih =>
    intro h t t' he hok hlen
    cases t with
    | pleaf es => simp [ipathOK] at hok
    | pstem cs =>
      cases h with
      | zero => simp at hlen
      | succ h =>
        cases t' with
        | pleaf es' => exact absurd he (by simp [linesEqP])
        | pstem cs' =>
          have he' : linesEqLP (linesEqP h) cs cs' := he
          simp only [ipathOK, Bool.and_eq_true, decide_eq_true_eq] at hok
          have harith : h + 1 - (i :: is).length = h - is.length := by
            simp [Nat.succ_sub_succ]
          rw [harith]
          exact ih h _ _ (linesEqLP_getD _ cs cs' he' i hok.1) hok.2
            (by simpa using hlen)

theorem linesEqP_stemLen (h : Nat) (t t' : PTree α)
    (he : linesEqP (h + 1) t t') :
    (stemChildren t).length = (stemChildren t').length := by
  cases t with
  | pleaf es => exact absurd he (by simp [linesEqP])
  | pstem cs =>
    cases t' with
    | pleaf es' => exact absurd he (by simp [linesEqP])
    | pstem cs' => exact linesEqLP_length _ cs cs' he

theorem pfillL_congr_linesEq (h : Nat) : ∀ (cs cs' : List (Nat × PTree α)),
    (∀ (a b : PTree α), linesEqP h a b → pfillSub h a = pfillSub h b) →
    linesEqLP (linesEqP h) cs cs' →
    pfillL (pfillSub h) cs = pfillL (pfillSub h) cs' := by
  intro cs
  induction cs with
  | nil =>
    intro cs' _ he
    cases cs' with
    | nil => rfl
    | cons c' cs' => exact absurd he (by simp [linesEqLP])
  | cons c cs ihl =>
    intro cs' hcong he
    cases cs' with
    | nil => exact absurd he (by simp [linesEqLP])
    | cons c' cs' =>
      show (pfillSub h c.2 && pfillL (pfillSub h) cs)
        = (pfillSub h c'.2 && pfillL (pfillSub h) cs')
      rw [hcong _ _ he.1, ihl cs' hcong he.2]

theorem linesEqP_pfillSub : ∀ (h : Nat) (t t' : PTree α),
    linesEqP h t t' → pfillSub h t = pfillSub h t' := by
  intro h
  induction h with
  | zero =>
    intro t t' he
    cases t with
    | pleaf es => cases t' with
      | pleaf es' =>
        show decide (minCount - 1 ≤ es.length) = decide (minCount - 1 ≤ es'.length)
        rw [show es = es' from he]
      | pstem cs' => exact absurd he (by simp [linesEqP])
    | pstem cs => exact absurd he (by simp [linesEqP])
  | succ h ih =>
    intro t t' he
    cases t with
    | pleaf es => exact absurd he (by simp [linesEqP])
    | pstem cs =>
      cases t' with
      | pleaf es' => exact absurd he (by simp [linesEqP])
      | pstem cs' =>
        have he' : linesEqLP (linesEqP h) cs cs' := he
        show (decide (minCount - 1 ≤ cs.length) && pfillL (pfillSub h) cs)
          = (decide (minCount - 1 ≤ cs'.length) && pfillL (pfillSub h) cs')
        rw [linesEqLP_length _ cs cs' he', pfillL_congr_linesEq h cs cs' ih he']

theorem linesEqP_pfill (h : Nat) (t t' : PTree α)
    (he : linesEqP h t t') : pfill h t = pfill h t' := by
  cases h with
  | zero => rfl
  | succ h =>
    cases t with
    | pleaf es => exact absurd he (by simp [linesEqP])
    | pstem cs =>
      cases t' with
      | pleaf es' => exact absurd he (by simp [linesEqP])
      | pstem cs' =>
        have he' : linesEqLP (linesEqP h) cs cs' := he
        show (decide (2 ≤ cs.length) && pfillL (pfillSub h) cs)
          = (decide (2 ≤ cs'.length) && pfillL (pfillSub h) cs')
        rw [linesEqLP_length _ cs cs' he',
          pfillL_congr_linesEq h cs cs' (fun a b => linesEqP_pfillSub h a b) he']

theorem linesEqLP_set (f : PTree α → PTree α → Prop) :
    ∀ (cs : List (Nat × PTree α)) (i k : Nat) (x : PTree α),
    linesEqLP f cs cs →
    (i < cs.length → f ((cs.getD i (pgdflt α)).2) x) →
    linesEqLP f cs (cs.set i (k, x)) := by
  intro cs
  induction cs with
  | nil => intro i k x _ _; simp only [List.set_nil]; exact trivial
  | cons c cs ih =>
    intro i k x hself hf
    cases i with
    | zero =>
      exact ⟨hf (by simp), hself.2⟩
    | succ i =>
      exact ⟨hself.1, ih i k x hself.2 (fun hi => hf (by simpa using hi))⟩

theorem linesEqP_pMod_setKey : ∀ (q : List Nat) (h : Nat) (t : PTree α) (i nk : Nat),
    linesEqP h t t →
    linesEqP h t (pModifyNodeAt (stemSetKeyNode i nk) t q) := by
  intro q
  induction q with
  | nil =>
    intro h t i nk hself
    cases t with
    | pleaf es => exact hself
    | pstem cs =>
      cases h with
      | zero => exact absurd hself (by simp [linesEqP])
      | succ h =>
        show linesEqLP (linesEqP h) cs (cs.set i (nk, (cs.getD i (pgdflt α)).2))
        exact linesEqLP_set _ cs i nk _ hself
          (fun _ => linesEqLP_getD _ cs cs hself i ‹_›)
  | cons j q' ih =>
    intro h t i nk hself
    cases t with
    | pleaf es => exact hself
    | pstem cs =>
      cases h with
      | zero => exact absurd hself (by simp [linesEqP])
      | succ h =>
        show linesEqLP (linesEqP h) cs (cs.set j ((cs.getD j (pgdflt α)).1,
          pModifyNodeAt (stemSetKeyNode i nk) (cs.getD j (pgdflt α)).2 q'))
        exact linesEqLP_set _ cs j _ _ hself
          (fun hj => ih h _ i nk (linesEqLP_getD _ cs cs hself j hj))

theorem linesEqP_pUpdateKey : ∀ (D : Nat) (t : PTree α) (ipath : List Nat)
    (elem nk : Nat) (h : Nat), linesEqP h t t →
    linesEqP h t (pUpdateKey t ipath D elem nk) := by
  intro D
  induction D with
  | zero =>
    intro t ipath elem nk h hself
    cases elem with
    | zero => exact linesEqP_pMod_setKey _ h t 0 nk hself
    | succ e => exact linesEqP_pMod_setKey _ h t (e + 1) nk hself
  | succ d ih =>
    intro t ipath elem nk h hself
    cases elem with
    | succ e => exact linesEqP_pMod_setKey _ h t (e + 1) nk hself
    | zero =>
      have h1 : linesEqP h t (pModifyNodeAt (stemSetKeyNode 0 nk) t
          (ipath.take (d + 1))) := linesEqP_pMod_setKey _ h t 0 nk hself
      have hT1 : linesEqP h (pModifyNodeAt (stemSetKeyNode 0 nk) t
          (ipath.take (d + 1))) (pModifyNodeAt (stemSetKeyNode 0 nk) t
          (ipath.take (d + 1))) :=
        linesEqP_trans h _ _ _ (linesEqP_symm h _ _ h1) h1
      exact linesEqP_trans h _ _ _ h1 (ih _ ipath (ipath.getD d 0) nk h hT1)

theorem linesEqLP_eraseIdx (f : PTree α → PTree α → Prop) :
    ∀ (cs cs' : List (Nat × PTree α)) (j : Nat), linesEqLP f cs cs' →
    linesEqLP f (cs.eraseIdx j) (cs'.eraseIdx j) := by
  intro cs
  induction cs with
  | nil =>
    intro cs' j he
    cases cs' with
    | nil => simpa [List.eraseIdx] using he
    | cons c' cs' => exact absurd he (by simp [linesEqLP])
  | cons c cs ih =>
    intro cs' j he
    cases cs' with
    | nil => exact absurd he (by simp [linesEqLP])
    | cons c' cs' =>
      cases j with
      | zero => exact he.2
      | succ j => exact ⟨he.1, ih cs' j he.2⟩

theorem linesEqP_eraseEntry (h : Nat) (t t' : PTree α) (j : Nat)
    (he : linesEqP (h + 1) t t') :
    linesEqP (h + 1) (eraseEntry j t) (eraseEntry j t') := by
  cases t with
  | pleaf es => exact absurd he (by simp [linesEqP])
  | pstem cs =>
    cases t' with
    | pleaf es' => exact absurd he (by simp [linesEqP])
    | pstem cs' =>
      show linesEqLP (linesEqP h) (cs.eraseIdx j) (cs'.eraseIdx j)
      exact linesEqLP_eraseIdx _ cs cs' j he

theorem pLinesL_congr_linesEq (h : Nat) : ∀ (cs cs' : List (Nat × PTree α)),
    linesEqLP (linesEqP h) cs cs' →
    pLinesL (pLines h) cs = pLinesL (pLines h) cs' := by
  intro cs
  induction cs with
  | nil =>
    intro cs' he
    cases cs' with
    | nil => rfl
    | cons c' cs' => exact absurd he (by simp [linesEqLP])
  | cons c cs ih =>
    intro cs' he
    cases cs' with
    | nil => exact absurd he (by simp [linesEqLP])
    | cons c' cs' =>
      show pLines h c.2 ++ pLinesL (pLines h) cs
        = pLines h c'.2 ++ pLinesL (pLines h) cs'
      rw [linesEqP_pLines h _ _ he.1, ih cs' he.2]

theorem pLinesL_set_congr_two (h : Nat) :
    ∀ (cs cs' : List (Nat × PTree α)) (i k k' : Nat) (x y : PTree α),
    linesEqLP (linesEqP h) cs cs' →
    pLines h x = pLines h y →
    pLinesL (pLines h) (cs.set i (k, x)) = pLinesL (pLines h) (cs'.set i (k', y)) := by
  intro cs
  induction cs with
  | nil =>
    intro cs' i k k' x y he _
    cases cs' with
    | nil => rfl
    | cons c' cs' => exact absurd he (by simp [linesEqLP])
  | cons c cs ih =>
    intro cs' i k k' x y he hxy
    cases cs' with
    | nil => exact absurd he (by simp [linesEqLP])
    | cons c' cs' =>
      cases i with
      | zero =>
        show pLines h x ++ pLinesL (pLines h) cs
          = pLines h y ++ pLinesL (pLines h) cs'
        rw [hxy, pLinesL_congr_linesEq h cs cs' he.2]
      | succ i =>
        show pLines h c.2 ++ pLinesL (pLines h) (cs.set i (k, x))
          = pLines h c'.2 ++ pLinesL (pLines h) (cs'.set i (k', y))
        rw [linesEqP_pLines h _ _ he.1, ih cs' i k k' x y he.2 hxy]

/-- Modifying structurally congruent trees at the same valid path with the
same function yields the same leaf lines, provided the function does at the
addressed (congruent) nodes. -/
theorem linesEqP_pMod_pLines :
    ∀ (p : List Nat) (h : Nat) (tA tB : PTree α) (f : PTree α → PTree α),
    linesEqP h tA tB → ipathOK tA p = true → p.length ≤ h →
    pLines (h - p.length) (f (pNodeAt tA p)) = pLines (h - p.length) (f (pNodeAt tB p)) →
    pLines h (pModifyNodeAt f tA p) = pLines h (pModifyNodeAt f tB p) := by
  intro p
  induction p with
  | nil => intro h tA tB f _ _ _ hend; simpa using hend
  | cons i is ih =>
    intro h tA tB f he hok hlen hend
    cases tA with
    | pleaf es => simp [ipathOK] at hok
    | pstem csA =>
      cases h with
      | zero => simp at hlen
      | succ h =>
        cases tB with
        | pleaf es' => exact absurd he (by simp [linesEqP])
        | pstem csB =>
          have he' : linesEqLP (linesEqP h) csA csB := he
          simp only [ipathOK, Bool.and_eq_true, decide_eq_true_eq] at hok
          have harith : h + 1 - (i :: is).length = h - is.length := by
            simp [Nat.succ_sub_succ]
          rw [harith] at hend
          show pLinesL (pLines h) (csA.set i ((csA.getD i (pgdflt α)).1,
              pModifyNodeAt f (csA.getD i (pgdflt α)).2 is))
            = pLinesL (pLines h) (csB.set i ((csB.getD i (pgdflt α)).1,
              pModifyNodeAt f (csB.getD i (pgdflt α)).2 is))
          apply pLinesL_set_congr_two h csA csB i _ _ _ _ he'
          exact ih h _ _ f (linesEqLP_getD _ csA csB he' i hok.1) hok.2
            (by simpa using hlen) hend

-- ======================================================================
-- FILL INVARIANT ALONG PATHS AND UNDER MODIFICATION
-- ======================================================================

theorem pfill_of_pfillSub : ∀ (h : Nat) (t : PTree α),
    pfillSub h t = true → pfill h t = true := by
  intro h t hf
  cases h with
  | zero => rfl
  | succ h =>
    simp only [pfillSub, Bool.and_eq_true, decide_eq_true_eq] at hf
    simp only [pfill, Bool.and_eq_true, decide_eq_true_eq]
    have h7 : minCount = 7 := by decide
    exact ⟨by omega, hf.2⟩

theorem pfillSub_pNodeAt : ∀ (p : List Nat) (h : Nat) (t : PTree α),
    pfillSub h t = true → ipathOK t p = true →
    pfillSub (h - p.length) (pNodeAt t p) = true := by
  intro p
  induction p with
  | nil => intro h t hf _; simpa using hf
  | cons i is ih =>
    intro h t hf hok
    cases t with
    | pleaf es => simp [ipathOK] at hok
    | pstem cs =>
      cases h with
      | zero => simp [pfillSub, leafElems, minCount, lineMax] at hf
      | succ h =>
        simp only [pfillSub, Bool.and_eq_true, decide_eq_true_eq] at hf
        simp only [ipathOK, Bool.and_eq_true, decide_eq_true_eq] at hok
        have harith : h + 1 - (i :: is).length = h - is.length := by
          simp [Nat.succ_sub_succ]
        rw [harith]
        exact ih h _ (pfillL_getD _ cs hf.2 i (pgdflt α) hok.1) hok.2

theorem pfill_pNodeAt : ∀ (i : Nat) (is : List Nat) (h : Nat) (t : PTree α),
    pfill h t = true → ipathOK t (i :: is) = true → (i :: is).length ≤ h →
    pfillSub (h - (i :: is).length) (pNodeAt t (i :: is)) = true := by
  intro i is h t hf hok hlen
  cases t with
  | pleaf es => simp [ipathOK] at hok
  | pstem cs =>
    cases h with
    | zero => simp at hlen
    | succ h =>
      simp only [pfill, Bool.and_eq_true, decide_eq_true_eq] at hf
      simp only [ipathOK, Bool.and_eq_true, decide_eq_true_eq] at hok
      have harith : h + 1 - (i :: is).length = h - is.length := by
        simp [Nat.succ_sub_succ]
      rw [harith]
      exact pfillSub_pNodeAt is h _ (pfillL_getD _ cs hf.2 i (pgdflt α) hok.1) hok.2

theorem pModifyNodeAt_pfillSub : ∀ (p : List Nat) (h : Nat) (t : PTree α)
    (f : PTree α → PTree α),
    pfillSub h t = true → ipathOK t p = true →
    pfillSub (h - p.length) (f (pNodeAt t p)) = true →
    pfillSub h (pModifyNodeAt f t p) = true := by
  intro p
  induction p with
  | nil => intro h t f _ _ hend; simpa using hend
  | cons i is ih =>
    intro h t f hf hok hend
    cases t with
    | pleaf es => simp [ipathOK] at hok
    | pstem cs =>
      cases h with
      | zero => simp [pfillSub, leafElems, minCount, lineMax] at hf
      | succ h =>
        simp only [pfillSub, Bool.and_eq_true, decide_eq_true_eq] at hf
        simp only [ipathOK, Bool.and_eq_true, decide_eq_true_eq] at hok
        have harith : h + 1 - (i :: is).length = h - is.length := by
          simp [Nat.succ_sub_succ]
        rw [harith] at hend
        show pfillSub (h + 1) (.pstem (cs.set i ((cs.getD i (pgdflt α)).1,
          pModifyNodeAt f (cs.getD i (pgdflt α)).2 is))) = true
        simp only [pfillSub, Bool.and_eq_true, decide_eq_true_eq]
        refine ⟨by simpa [stemChildren, List.length_set] using hf.1, ?_⟩
        exact pfillL_set _ cs i _ _ hf.2
          (ih h _ f (pfillL_getD _ cs hf.2 i (pgdflt α) hok.1) hok.2 hend)

theorem pModifyNodeAt_pfill_cons : ∀ (i : Nat) (is : List Nat) (h : Nat)
    (t : PTree α) (f : PTree α → PTree α),
    pfill h t = true → ipathOK t (i :: is) = true → (i :: is).length ≤ h →
    pfillSub (h - (i :: is).length) (f (pNodeAt t (i :: is))) = true →
    pfill h (pModifyNodeAt f t (i :: is)) = true := by
  intro i is h t f hf hok hlen hend
  cases t with
  | pleaf es => simp [ipathOK] at hok
  | pstem cs =>
    cases h with
    | zero => simp at hlen
    | succ h =>
      simp only [pfill, Bool.and_eq_true, decide_eq_true_eq] at hf
      simp only [ipathOK, Bool.and_eq_true, decide_eq_true_eq] at hok
      have harith : h + 1 - (i :: is).length = h - is.length := by
        simp [Nat.succ_sub_succ]
      rw [harith] at hend
      show pfill (h + 1) (.pstem (cs.set i ((cs.getD i (pgdflt α)).1,
        pModifyNodeAt f (cs.getD i (pgdflt α)).2 is))) = true
      simp only [pfill, Bool.and_eq_true, decide_eq_true_eq]
      refine ⟨by simpa [stemChildren, List.length_set] using hf.1, ?_⟩
      exact pfillL_set _ cs i _ _ hf.2
        (pModifyNodeAt_pfillSub is h _ f
          (pfillL_getD _ cs hf.2 i (pgdflt α) hok.1) hok.2 hend)

/-- `update_key`, called on the parent entry of a freshly replaced subtree
with the replacement's minimum key, restores full well-formedness: its write
chain rewrites exactly the routing keys the replacement made stale (the
entry itself, and the `elem == 0` propagation path above it). -/
theorem pUpdateKey_replace_pwf (kf : α → Nat) :
    ∀ (d : Nat) (t0 : PTree α) (ipath : List Nat) (node' : PTree α) (nk H : Nat),
    pwf kf H t0 = true →
    ipathOK t0 (ipath.take (d + 1)) = true →
    d + 1 ≤ ipath.length → d + 1 ≤ H →
    pwf kf (H - (d + 1)) node' = true →
    nk = pMinKeyOf kf (H - (d + 1)) node' →
    pwf kf H (pUpdateKey (pModifyNodeAt (fun _ => node') t0 (ipath.take (d + 1)))
      ipath d (ipath.getD d 0) nk) = true := by
  intro d
  induction d with
  | zero =>
    intro t0 ipath node' nk H hwf hok hlen hH hwfn hnk
    have htake : ipath.take 1 = [] ++ [ipath.getD 0 0] :=
      take_succ_getD ipath 0 (by omega)
    rw [List.nil_append] at htake
    have hpli : ipath.getD 0 0 < (stemChildren t0).length := by
      have := ipathOK_append_elem [] t0 (ipath.getD 0 0)
      apply this
      rw [List.nil_append, ← htake]
      exact hok
    cases t0 with
    | pleaf es => rw [htake] at hok; simp [ipathOK] at hok
    | pstem cs =>
      have hcs : ipath.getD 0 0 < cs.length := hpli
      have hT1 : pModifyNodeAt (fun _ => node') (PTree.pstem cs) (ipath.take 1)
          = PTree.pstem (cs.set (ipath.getD 0 0)
              ((cs.getD (ipath.getD 0 0) (pgdflt α)).1, node')) := by
        rw [htake]; rfl
      obtain ⟨h1, hh1⟩ : ∃ h1, H = h1 + 1 := ⟨H - 1, by omega⟩
      subst hh1
      cases hpl : ipath.getD 0 0 with
      | zero =>
        rw [hpl] at hT1 hcs
        show pwf kf (h1 + 1) (stemSetKeyNode 0 nk
          (pModifyNodeAt (fun _ => node') (PTree.pstem cs) (ipath.take 1))) = true
        rw [hT1]
        show pwf kf (h1 + 1) (.pstem ((cs.set 0
            ((cs.getD 0 (pgdflt α)).1, node')).set 0 (nk,
            ((cs.set 0 ((cs.getD 0 (pgdflt α)).1, node')).getD 0 (pgdflt α)).2))) = true
        rw [getD_set_same, if_pos hcs, List.set_set]
        simp only [pwf, Bool.and_eq_true]
        refine ⟨not_isEmpty_of_length_pos _ (by rw [List.length_set]; omega), ?_⟩
        simp only [pwf, Bool.and_eq_true] at hwf
        exact pwfL_set _ _ cs 0 nk node' hwf.2 (by simpa using hwfn)
          (by simpa using hnk)
      | succ e =>
        rw [hpl] at hT1 hcs
        show pwf kf (h1 + 1) (stemSetKeyNode (e + 1) nk
          (pModifyNodeAt (fun _ => node') (PTree.pstem cs) (ipath.take 1))) = true
        rw [hT1]
        show pwf kf (h1 + 1) (.pstem ((cs.set (e + 1)
            ((cs.getD (e + 1) (pgdflt α)).1, node')).set (e + 1) (nk,
            ((cs.set (e + 1) ((cs.getD (e + 1) (pgdflt α)).1, node')).getD (e + 1)
              (pgdflt α)).2))) = true
        rw [getD_set_same, if_pos hcs, List.set_set]
        simp only [pwf, Bool.and_eq_true]
        refine ⟨not_isEmpty_of_length_pos _ (by rw [List.length_set]; omega), ?_⟩
        simp only [pwf, Bool.and_eq_true] at hwf
        exact pwfL_set _ _ cs (e + 1) nk node' hwf.2 (by simpa using hwfn)
          (by simpa using hnk)
  | succ d' ih =>
    intro t0 ipath node' nk H hwf hok hlen hH hwfn hnk
    have hd_lt : d' + 1 < ipath.length := by omega
    have htake : ipath.take (d' + 2) = ipath.take (d' + 1) ++ [ipath.getD (d' + 1) 0] :=
      take_succ_getD ipath (d' + 1) hd_lt
    have htt : (ipath.take (d' + 2)).take (d' + 1) = ipath.take (d' + 1) := by
      rw [List.take_take]
      congr 1
      omega
    have hltd : (ipath.take (d' + 1)).length = d' + 1 := by
      rw [List.length_take]; omega
    have hokd : ipathOK t0 (ipath.take (d' + 1)) = true := by
      rw [← htt]; exact ipathOK_take _ t0 hok (d' + 1)
    have hpli : ipath.getD (d' + 1) 0
        < (stemChildren (pNodeAt t0 (ipath.take (d' + 1)))).length := by
      apply ipathOK_append_elem
      rw [← htake]; exact hok
    have hwfP := (pNodeAt_pwf kf (ipath.take (d' + 1)) H t0 hwf hokd).2
    rw [hltd] at hwfP
    obtain ⟨h2, hh2⟩ : ∃ h2, H - (d' + 1) = h2 + 1 := ⟨H - (d' + 1) - 1, by omega⟩
    rw [hh2] at hwfP
    have harith2 : H - (d' + 2) = h2 := by omega
    rw [harith2] at hwfn hnk
    cases hP : pNodeAt t0 (ipath.take (d' + 1)) with
    | pleaf es =>
      rw [hP] at hwfP
      simp [pwf] at hwfP
    | pstem Pcs =>
      rw [hP] at hwfP hpli
      have hpli2 : ipath.getD (d' + 1) 0 < Pcs.length := hpli
      simp only [pwf, Bool.and_eq_true] at hwfP
      have hT1 : pModifyNodeAt (fun _ => node') t0 (ipath.take (d' + 2))
          = pModifyNodeAt (fun par => pModifyNodeAt (fun _ => node') par
              [ipath.getD (d' + 1) 0]) t0 (ipath.take (d' + 1)) := by
        rw [htake, pModifyNodeAt_append]
      cases hpl : ipath.getD (d' + 1) 0 with
      | succ e =>
        rw [hpl] at hT1 hpli2
        have hval : stemSetKeyNode (e + 1) nk (pModifyNodeAt (fun _ => node')
              (pNodeAt t0 (ipath.take (d' + 1))) [e + 1])
            = PTree.pstem (Pcs.set (e + 1) (nk, node')) := by
          rw [hP]
          show PTree.pstem ((Pcs.set (e + 1)
              ((Pcs.getD (e + 1) (pgdflt α)).1, node')).set (e + 1) (nk,
              ((Pcs.set (e + 1) ((Pcs.getD (e + 1) (pgdflt α)).1, node')).getD (e + 1)
                (pgdflt α)).2)) = _
          rw [getD_set_same, if_pos hpli2, List.set_set]
        have heq : pModifyNodeAt (stemSetKeyNode (e + 1) nk)
            (pModifyNodeAt (fun _ => node') t0 (ipath.take (d' + 1 + 1)))
            (ipath.take (d' + 1))
            = pModifyNodeAt (fun _ => PTree.pstem (Pcs.set (e + 1) (nk, node'))) t0
              (ipath.take (d' + 1)) := by
          rw [hT1, pModifyNodeAt_comp _ _ _ t0 hokd]
          exact pModifyNodeAt_congr _ _ (ipath.take (d' + 1)) t0 hokd hval
        have hnew_wf : pwf kf (h2 + 1) (PTree.pstem (Pcs.set (e + 1) (nk, node'))) = true := by
          simp only [pwf, Bool.and_eq_true]
          refine ⟨not_isEmpty_of_length_pos _ (by rw [List.length_set]; omega), ?_⟩
          exact pwfL_set _ _ Pcs (e + 1) nk node' hwfP.2 hwfn hnk
        have hnew_min : pMinKeyOf kf (h2 + 1) (PTree.pstem (Pcs.set (e + 1) (nk, node')))
            = pMinKeyOf kf (h2 + 1) (PTree.pstem Pcs) := by
          match Pcs, hpli2, hwfP with
          | c0 :: rest, _, hwfP =>
            have hw0 : pwf kf h2 c0.2 = true := by
              have := hwfP.2
              simp only [pwfL, Bool.and_eq_true] at this
              exact this.1.1
            rw [List.set_cons_succ]
            rw [pMinKeyOf_stem_cons kf h2 c0 _ (eJoin_ne_nil kf h2 _ hw0)]
            rw [pMinKeyOf_stem_cons kf h2 c0 rest (eJoin_ne_nil kf h2 _ hw0)]
        show pwf kf H (pModifyNodeAt (stemSetKeyNode (e + 1) nk)
          (pModifyNodeAt (fun _ => node') t0 (ipath.take (d' + 1 + 1)))
          (ipath.take (d' + 1))) = true
        rw [heq]
        have := pModifyNodeAt_pwf kf
          (fun _ => PTree.pstem (Pcs.set (e + 1) (nk, node')))
          (ipath.take (d' + 1)) H t0 hwf hokd
          (by rw [hltd, hh2]; exact hnew_wf)
          (by rw [hltd, hh2, hP]; exact hnew_min)
        exact this.1
      | zero =>
        rw [hpl] at hT1 hpli2
        have hval : stemSetKeyNode 0 nk (pModifyNodeAt (fun _ => node')
              (pNodeAt t0 (ipath.take (d' + 1))) [0])
            = PTree.pstem (Pcs.set 0 (nk, node')) := by
          rw [hP]
          show PTree.pstem ((Pcs.set 0
              ((Pcs.getD 0 (pgdflt α)).1, node')).set 0 (nk,
              ((Pcs.set 0 ((Pcs.getD 0 (pgdflt α)).1, node')).getD 0
                (pgdflt α)).2)) = _
          rw [getD_set_same, if_pos hpli2, List.set_set]
        have heq : pModifyNodeAt (stemSetKeyNode 0 nk)
            (pModifyNodeAt (fun _ => node') t0 (ipath.take (d' + 1 + 1)))
            (ipath.take (d' + 1))
            = pModifyNodeAt (fun _ => PTree.pstem (Pcs.set 0 (nk, node'))) t0
              (ipath.take (d' + 1)) := by
          rw [hT1, pModifyNodeAt_comp _ _ _ t0 hokd]
          exact pModifyNodeAt_congr _ _ (ipath.take (d' + 1)) t0 hokd hval
        show pwf kf H (pUpdateKey (pModifyNodeAt (stemSetKeyNode 0 nk)
          (pModifyNodeAt (fun _ => node') t0 (ipath.take (d' + 1 + 1)))
          (ipath.take (d' + 1))) ipath d' (ipath.getD d' 0) nk) = true
        rw [heq]
        have hnkmin : nk = pMinKeyOf kf (H - (d' + 1))
            (PTree.pstem (Pcs.set 0 (nk, node'))) := by
          rw [hh2]
          match Pcs, hpli2 with
          | c0 :: rest, _ =>
            rw [List.set_cons_zero]
            rw [pMinKeyOf_stem_cons kf h2 (nk, node') rest
              (eJoin_ne_nil kf h2 _ hwfn)]
            exact hnk
        have hnwf : pwf kf (H - (d' + 1)) (PTree.pstem (Pcs.set 0 (nk, node'))) = true := by
          rw [hh2]
          simp only [pwf, Bool.and_eq_true]
          refine ⟨not_isEmpty_of_length_pos _ (by rw [List.length_set]; omega), ?_⟩
          exact pwfL_set _ _ Pcs 0 nk node' hwfP.2 hwfn hnk
        exact ih t0 ipath (PTree.pstem (Pcs.set 0 (nk, node'))) nk H hwf hokd
          (by omega) (by omega) hnwf hnkmin

theorem pLinesL_eq_map_join (f : PTree α → List (List α)) :
    ∀ (cs : List (Nat × PTree α)),
    pLinesL f cs = (cs.map (fun c => f c.2)).join := by
  intro cs
  induction cs with
  | nil => rfl
  | cons c cs ih =>
    show f c.2 ++ pLinesL f cs = _
    rw [List.map_cons, join_cons_eq, ih]

theorem map_eraseIdx (g : β → γ) : ∀ (l : List β) (i : Nat),
    (l.eraseIdx i).map g = (l.map g).eraseIdx i := by
  intro l
  induction l with
  | nil => intro i; simp [List.eraseIdx]
  | cons x xs ih =>
    intro i
    cases i with
    | zero => simp [List.eraseIdx]
    | succ i =>
      show g x :: (xs.eraseIdx i).map g = _
      rw [ih i]
      rfl

theorem map_set_eq (g : β → γ) : ∀ (l : List β) (i : Nat) (v : β),
    (l.set i v).map g = (l.map g).set i (g v) := by
  intro l
  induction l with
  | nil => intro i v; simp
  | cons x xs ih =>
    intro i v
    cases i with
    | zero => simp
    | succ i =>
      show g x :: (xs.set i v).map g = _
      rw [ih i v]
      rfl

theorem getD_set_of_ne (l : List β) : ∀ (i j : Nat) (v d : β), i ≠ j →
    (l.set i v).getD j d = l.getD j d := by
  induction l with
  | nil => intro i j v d _; simp
  | cons x xs ih =>
    intro i j v d hne
    cases i with
    | zero =>
      cases j with
      | zero => exact absurd rfl hne
      | succ j => simp
    | succ i =>
      cases j with
      | zero => simp
      | succ j =>
        show (xs.set i v).getD j d = xs.getD j d
        exact ih i j v d (by omega)

/-- Lines bookkeeping of a merge with the previous sibling: writing the
concatenation into slot `i` and erasing slot `i + 1` concatenates to the
same whole. -/
theorem join_set_merge_prev (M : List (List β)) : ∀ (i : Nat), i + 1 < M.length →
    ∀ (N' : List β),
    ((M.set i (M.getD i [] ++ N')).eraseIdx (i + 1)).join
      = (M.set (i + 1) N').join := by
  induction M with
  | nil => intro i hi; simp at hi
  | cons a M ih =>
    intro i hi N'
    cases i with
    | zero =>
      cases M with
      | nil => simp at hi
      | cons b M =>
        show ((a ++ N') :: M).join = (a :: N' :: M).join
        rw [join_cons_eq, join_cons_eq, join_cons_eq, List.append_assoc]
    | succ i =>
      show (a :: (M.set i (M.getD i [] ++ N')).eraseIdx (i + 1)).join
        = (a :: M.set (i + 1) N').join
      rw [join_cons_eq, join_cons_eq, ih i (by simpa using hi) N']

/-- Lines bookkeeping of a merge with the next sibling. -/
theorem join_set_merge_next (M : List (List β)) : ∀ (i : Nat), i + 1 < M.length →
    ∀ (N' : List β),
    ((M.set i (N' ++ M.getD (i + 1) [])).eraseIdx (i + 1)).join
      = (M.set i N').join := by
  induction M with
  | nil => intro i hi; simp at hi
  | cons a M ih =>
    intro i hi N'
    cases i with
    | zero =>
      cases M with
      | nil => simp at hi
      | cons b M =>
        show ((N' ++ b) :: M).join = (N' :: b :: M).join
        rw [join_cons_eq, join_cons_eq, join_cons_eq, List.append_assoc]
    | succ i =>
      show (a :: (M.set i (N' ++ M.getD (i + 1) [])).eraseIdx (i + 1)).join
        = (a :: M.set i N').join
      rw [join_cons_eq, join_cons_eq, ih i (by simpa using hi) N']

/-- Lines bookkeeping of borrowing from the previous sibling: the donor
keeps its prefix, the borrowed tail is prepended to the recipient. -/
theorem join_set_borrow_prev (M : List (List β)) : ∀ (i : Nat), i + 1 < M.length →
    ∀ (Pdl L N' : List β), M.getD i [] = Pdl ++ L →
    ((M.set i Pdl).set (i + 1) (L ++ N')).join = (M.set (i + 1) N').join := by
  induction M with
  | nil => intro i hi; simp at hi
  | cons a M ih =>
    intro i hi Pdl L N' hP
    cases i with
    | zero =>
      cases M with
      | nil => simp at hi
      | cons b M =>
        show (Pdl :: (L ++ N') :: M).join = (a :: N' :: M).join
        rw [join_cons_eq, join_cons_eq, join_cons_eq, join_cons_eq]
        rw [show a = Pdl ++ L from hP]
        simp [List.append_assoc]
    | succ i =>
      show (a :: (M.set i Pdl).set (i + 1) (L ++ N')).join
        = (a :: M.set (i + 1) N').join
      rw [join_cons_eq, join_cons_eq, ih i (by simpa using hi) Pdl L N' hP]

/-- Lines bookkeeping of borrowing from the next sibling. -/
theorem join_set_borrow_next (M : List (List β)) : ∀ (i : Nat), i + 1 < M.length →
    ∀ (N' Q1 Qr : List β), M.getD (i + 1) [] = Q1 ++ Qr →
    ((M.set i (N' ++ Q1)).set (i + 1) Qr).join = (M.set i N').join := by
  induction M with
  | nil => intro i hi; simp at hi
  | cons a M ih =>
    intro i hi N' Q1 Qr hQ
    cases i with
    | zero =>
      cases M with
      | nil => simp at hi
      | cons b M =>
        show ((N' ++ Q1) :: Qr :: M).join = (N' :: b :: M).join
        rw [join_cons_eq, join_cons_eq, join_cons_eq, join_cons_eq]
        rw [show b = Q1 ++ Qr from hQ]
        simp [List.append_assoc]
    | succ i =>
      show (a :: (M.set i (N' ++ Q1)).set (i + 1) Qr).join
        = (a :: M.set i N').join
      rw [join_cons_eq, join_cons_eq, ih i (by simpa using hi) N' Q1 Qr hQ]

/-- Single-height variant of the `pModifyNodeAt` lines congruence: it
suffices that the two replacement functions agree on the leaf lines at the
node's own height. -/
theorem pModifyNodeAt_pLines_congr_h (f g : PTree α → PTree α) :
    ∀ (ip : List Nat) (H : Nat) (t : PTree α),
    ipathOK t ip = true → ip.length ≤ H →
    pLines (H - ip.length) (f (pNodeAt t ip)) = pLines (H - ip.length) (g (pNodeAt t ip)) →
    pLines H (pModifyNodeAt f t ip) = pLines H (pModifyNodeAt g t ip) := by
  intro ip
  induction ip with
  | nil => intro H t _ _ hend; simpa using hend
  | cons i is ih =>
    intro H t hok hlen hend
    cases t with
    | pleaf es => simp [ipathOK] at hok
    | pstem cs =>
      cases H with
      | zero => simp at hlen
      | succ H =>
        simp only [ipathOK, Bool.and_eq_true, decide_eq_true_eq] at hok
        have harith : H + 1 - (i :: is).length = H - is.length := by
          simp [Nat.succ_sub_succ]
        rw [harith] at hend
        show pLines (H + 1) (.pstem (cs.set i ((cs.getD i (pgdflt α)).1,
            pModifyNodeAt f (cs.getD i (pgdflt α)).2 is)))
          = pLines (H + 1) (.pstem (cs.set i ((cs.getD i (pgdflt α)).1,
            pModifyNodeAt g (cs.getD i (pgdflt α)).2 is)))
        rw [pLines_stem, pLines_stem]
        exact pLinesL_set_congr2 H cs i _ _ _ _
          (ih H _ hok.2 (by simpa using hlen) hend)

theorem linesEqLP_set_self (f : PTree α → PTree α → Prop) :
    ∀ (cs : List (Nat × PTree α)) (i k : Nat) (x : PTree α),
    linesEqLP f cs cs → f x x →
    linesEqLP f (cs.set i (k, x)) (cs.set i (k, x)) := by
  intro cs
  induction cs with
  | nil => intro i k x h _; simpa using h
  | cons c cs ih =>
    intro i k x hself hx
    cases i with
    | zero => exact ⟨hx, hself.2⟩
    | succ i => exact ⟨hself.1, ih i k x hself.2 hx⟩

theorem linesEqP_pMod_self :
    ∀ (p : List Nat) (h : Nat) (t : PTree α) (f : PTree α → PTree α),
    linesEqP h t t → ipathOK t p = true → p.length ≤ h →
    linesEqP (h - p.length) (f (pNodeAt t p)) (f (pNodeAt t p)) →
    linesEqP h (pModifyNodeAt f t p) (pModifyNodeAt f t p) := by
  intro p
  induction p with
  | nil => intro h t f _ _ _ hend; simpa using hend
  | cons i is ih =>
    intro h t f hself hok hlen hend
    cases t with
    | pleaf es => simp [ipathOK] at hok
    | pstem cs =>
      cases h with
      | zero => simp at hlen
      | succ h =>
        simp only [ipathOK, Bool.and_eq_true, decide_eq_true_eq] at hok
        have harith : h + 1 - (i :: is).length = h - is.length := by
          simp [Nat.succ_sub_succ]
        rw [harith] at hend
        show linesEqLP (linesEqP h) (cs.set i ((cs.getD i (pgdflt α)).1,
            pModifyNodeAt f (cs.getD i (pgdflt α)).2 is))
          (cs.set i ((cs.getD i (pgdflt α)).1,
            pModifyNodeAt f (cs.getD i (pgdflt α)).2 is))
        exact linesEqLP_set_self _ cs i _ _ hself
          (ih h _ f (linesEqLP_getD _ cs cs hself i hok.1) hok.2
            (by simpa using hlen) hend)

theorem pfill_parent_two : ∀ (p : List Nat) (h : Nat) (t : PTree α),
    pfill h t = true → ipathOK t p = true → p.length < h →
    2 ≤ (stemChildren (pNodeAt t p)).length := by
  intro p h t hf hok hlen
  cases p with
  | nil =>
    cases h with
    | zero => omega
    | succ h =>
      cases t with
      | pleaf es =>
        simp only [pfill, Bool.and_eq_true, decide_eq_true_eq] at hf
        simpa [stemChildren] using hf.1
      | pstem cs =>
        simp only [pfill, Bool.and_eq_true, decide_eq_true_eq] at hf
        exact hf.1
  | cons i is =>
    have := pfill_pNodeAt i is h t hf hok (by omega)
    obtain ⟨h2, hh2⟩ : ∃ h2, h - (i :: is).length = h2 + 1 :=
      ⟨h - (i :: is).length - 1, by simp only [List.length_cons] at hlen ⊢; omega⟩
    rw [hh2] at this
    cases hnd : pNodeAt t (i :: is) with
    | pleaf es =>
      rw [hnd] at this
      simp [pfillSub, stemChildren, minCount, lineMax] at this
    | pstem cs =>
      rw [hnd] at this
      simp only [pfillSub, Bool.and_eq_true, decide_eq_true_eq] at this
      have h7 : minCount = 7 := by decide
      show 2 ≤ (stemChildren (PTree.pstem cs)).length
      have := this.1
      simp only [stemChildren] at this ⊢
      omega

theorem pfill_parent_fillL : ∀ (p : List Nat) (h : Nat) (t : PTree α),
    pfill h t = true → ipathOK t p = true → p.length < h →
    pfillL (pfillSub (h - p.length - 1)) (stemChildren (pNodeAt t p)) = true := by
  intro p h t hf hok hlen
  cases p with
  | nil =>
    cases h with
    | zero => omega
    | succ h =>
      cases t with
      | pleaf es => simp [pfill, stemChildren, pfillL]
      | pstem cs =>
        simp only [pfill, Bool.and_eq_true, decide_eq_true_eq] at hf
        simpa using hf.2
  | cons i is =>
    have := pfill_pNodeAt i is h t hf hok (by omega)
    obtain ⟨h2, hh2⟩ : ∃ h2, h - (i :: is).length = h2 + 1 :=
      ⟨h - (i :: is).length - 1, by simp only [List.length_cons] at hlen ⊢; omega⟩
    rw [hh2] at this
    cases hnd : pNodeAt t (i :: is) with
    | pleaf es =>
      rw [hnd] at this
      simp [pfillSub, stemChildren, minCount, lineMax] at this
    | pstem cs =>
      rw [hnd] at this
      simp only [pfillSub, Bool.and_eq_true, decide_eq_true_eq] at this
      have : pfillL (pfillSub h2) cs = true := this.2
      rw [show h - (i :: is).length - 1 = h2 by omega]
      exact this

/-- Fill preservation under a node replacement that keeps the stem counts
acceptable: uniform over root and non-root target nodes. -/
theorem pModifyNodeAt_pfill_all : ∀ (p : List Nat) (h : Nat) (t : PTree α)
    (f : PTree α → PTree α),
    pfill h t = true → ipathOK t p = true → p.length < h →
    2 ≤ (stemChildren (f (pNodeAt t p))).length →
    (p ≠ [] → minCount - 1 ≤ (stemChildren (f (pNodeAt t p))).length) →
    pfillL (pfillSub (h - p.length - 1)) (stemChildren (f (pNodeAt t p))) = true →
    pfill h (pModifyNodeAt f t p) = true := by
  intro p h t f hf hok hlen h2le hsub hfl
  cases p with
  | nil =>
    obtain ⟨h1, hh1⟩ : ∃ h1, h = h1 + 1 := ⟨h - 1, by omega⟩
    subst hh1
    have h2le' : 2 ≤ (stemChildren (f t)).length := h2le
    have hfl' : pfillL (pfillSub (h1 + 1 - 1)) (stemChildren (f t)) = true := hfl
    show pfill (h1 + 1) (f t) = true
    cases hft : f t with
    | pleaf es =>
      rw [hft] at h2le'
      simp [stemChildren] at h2le'
    | pstem cs =>
      rw [hft] at h2le' hfl'
      simp only [pfill, Bool.and_eq_true, decide_eq_true_eq]
      exact ⟨h2le', by simpa using hfl'⟩
  | cons i is =>
    apply pModifyNodeAt_pfill_cons i is h t f hf hok (by omega)
    obtain ⟨h2, hh2⟩ : ∃ h2, h - (i :: is).length = h2 + 1 :=
      ⟨h - (i :: is).length - 1, by simp only [List.length_cons] at hlen ⊢; omega⟩
    rw [hh2]
    cases hft : f (pNodeAt t (i :: is)) with
    | pleaf es =>
      rw [hft] at h2le
      simp [stemChildren] at h2le
    | pstem cs =>
      rw [hft] at hsub hfl
      simp only [pfillSub, Bool.and_eq_true, decide_eq_true_eq]
      refine ⟨hsub (by simp), ?_⟩
      rw [show h - (i :: is).length - 1 = h2 by omega] at hfl
      exact hfl

/-- Preconditions of one `erase_node` call: a well-formed, fill-respecting
tree, a valid stem path of depth `D < stem height`, and an in-range entry
index at the addressed stem. -/
def erasePre (kf : α → Nat) (t : PTree α) (ipath : List Nat) (D elem H : Nat) : Prop :=
  pwf kf H t = true ∧ pfill H t = true ∧ D < H ∧ D ≤ ipath.length
  ∧ ipathOK t (ipath.take D) = true
  ∧ elem < (stemChildren (pNodeAt t (ipath.take D))).length

/-- Postcondition of one `erase_node` call: at most one root collapse, the
leaf lines are those of the tree with the addressed routing entry removed,
and well-formedness and fill are restored. -/
def eraseSpec (kf : α → Nat) (t : PTree α) (ipath : List Nat) (D elem H : Nat) : Prop :=
  (pEraseNode t ipath D elem).2 ≤ 1
  ∧ pLines (H - (pEraseNode t ipath D elem).2) (pEraseNode t ipath D elem).1
      = pLines H (pModifyNodeAt (eraseEntry elem) t (ipath.take D))
  ∧ pwf kf (H - (pEraseNode t ipath D elem).2) (pEraseNode t ipath D elem).1 = true
  ∧ pfill (H - (pEraseNode t ipath D elem).2) (pEraseNode t ipath D elem).1 = true

theorem pEraseNode_zero_unfold (t : PTree α) (ipath : List Nat) (elem : Nat) :
    pEraseNode t ipath 0 elem =
      (if ((stemChildren t).eraseIdx elem).length = 1 then
        ((((stemChildren t).eraseIdx elem).getD 0 (pgdflt α)).2, 1)
      else (.pstem ((stemChildren t).eraseIdx elem), 0)) := rfl

theorem pEraseNode_eq_inplace (t : PTree α) (ipath : List Nat) (d elem : Nat)
    (h1 : nodeThin (pNodeAt t (ipath.take (d + 1))) = false) :
    pEraseNode t ipath (d + 1) elem
      = ((if elem = 0 then
          pUpdateKey (pModifyNodeAt
            (fun _ => PTree.pstem
              ((stemChildren (pNodeAt t (ipath.take (d + 1)))).eraseIdx elem))
            t (ipath.take (d + 1))) ipath d (ipath.getD d 0)
            (stemMinKey (PTree.pstem
              ((stemChildren (pNodeAt t (ipath.take (d + 1)))).eraseIdx elem)))
        else pModifyNodeAt
            (fun _ => PTree.pstem
              ((stemChildren (pNodeAt t (ipath.take (d + 1)))).eraseIdx elem))
            t (ipath.take (d + 1))), 0) := by
  simp only [pEraseNode, h1]
  rfl

theorem pEraseNode_eq_mergePrev (t : PTree α) (ipath : List Nat) (d elem : Nat)
    (h1 : nodeThin (pNodeAt t (ipath.take (d + 1))) = true)
    (h2 : ipath.getD d 0 > 0)
    (h3 : nodeCount (pNodeAt t (ipath.take (d + 1)))
        + nodeCount ((stemChildren (pNodeAt t (ipath.take d))).getD
            (ipath.getD d 0 - 1) (pgdflt α)).2 ≤ branchout) :
    pEraseNode t ipath (d + 1) elem
      = pEraseNode (pModifyNodeAt (fun par => PTree.pstem ((stemChildren par).set
          (ipath.getD d 0 - 1)
          (((stemChildren (pNodeAt t (ipath.take d))).getD (ipath.getD d 0 - 1)
              (pgdflt α)).1,
           PTree.pstem (lineMergePrevErase
             (stemChildren (pNodeAt t (ipath.take (d + 1)))) elem
             (stemChildren ((stemChildren (pNodeAt t (ipath.take d))).getD
               (ipath.getD d 0 - 1) (pgdflt α)).2)))))
          t (ipath.take d)) ipath d (ipath.getD d 0) := by
  simp only [pEraseNode, h1, if_true]
  rw [if_pos h2, if_pos h3]

theorem pEraseNode_eq_borrowPrev (t : PTree α) (ipath : List Nat) (d elem : Nat)
    (h1 : nodeThin (pNodeAt t (ipath.take (d + 1))) = true)
    (h2 : ipath.getD d 0 > 0)
    (h3 : ¬(nodeCount (pNodeAt t (ipath.take (d + 1)))
        + nodeCount ((stemChildren (pNodeAt t (ipath.take d))).getD
            (ipath.getD d 0 - 1) (pgdflt α)).2 ≤ branchout)) :
    pEraseNode t ipath (d + 1) elem
      = (pUpdateKey (pModifyNodeAt (fun par => PTree.pstem
          (((stemChildren par).set (ipath.getD d 0 - 1)
            (((stemChildren (pNodeAt t (ipath.take d))).getD (ipath.getD d 0 - 1)
                (pgdflt α)).1,
             PTree.pstem (lineBorrowPrevDonor
               (stemChildren ((stemChildren (pNodeAt t (ipath.take d))).getD
                 (ipath.getD d 0 - 1) (pgdflt α)).2)))).set
            (ipath.getD d 0)
            (((stemChildren (pNodeAt t (ipath.take d))).getD (ipath.getD d 0)
                (pgdflt α)).1,
             PTree.pstem (lineBorrowPrevErase
               (stemChildren (pNodeAt t (ipath.take (d + 1)))) elem
               (stemChildren ((stemChildren (pNodeAt t (ipath.take d))).getD
                 (ipath.getD d 0 - 1) (pgdflt α)).2)))))
          t (ipath.take d)) ipath d (ipath.getD d 0)
          (stemMinKey (PTree.pstem (lineBorrowPrevErase
            (stemChildren (pNodeAt t (ipath.take (d + 1)))) elem
            (stemChildren ((stemChildren (pNodeAt t (ipath.take d))).getD
              (ipath.getD d 0 - 1) (pgdflt α)).2)))), 0) := by
  simp only [pEraseNode, h1, if_true]
  rw [if_pos h2, if_neg h3]

theorem pEraseNode_eq_mergeNext (t : PTree α) (ipath : List Nat) (d elem : Nat)
    (h1 : nodeThin (pNodeAt t (ipath.take (d + 1))) = true)
    (h2 : ¬(ipath.getD d 0 > 0))
    (h3 : nodeCount (pNodeAt t (ipath.take (d + 1)))
        + nodeCount ((stemChildren (pNodeAt t (ipath.take d))).getD
            (ipath.getD d 0 + 1) (pgdflt α)).2 ≤ branchout) :
    pEraseNode t ipath (d + 1) elem
      = pEraseNode
          (if elem = 0 then
            pUpdateKey (pModifyNodeAt (fun par => PTree.pstem ((stemChildren par).set
              (ipath.getD d 0)
              (((stemChildren (pNodeAt t (ipath.take d))).getD (ipath.getD d 0)
                  (pgdflt α)).1,
               PTree.pstem (lineMergeNextErase
                 (stemChildren (pNodeAt t (ipath.take (d + 1)))) elem
                 (stemChildren ((stemChildren (pNodeAt t (ipath.take d))).getD
                   (ipath.getD d 0 + 1) (pgdflt α)).2)))))
              t (ipath.take d)) ipath d (ipath.getD d 0)
              (stemMinKey (PTree.pstem (lineMergeNextErase
                (stemChildren (pNodeAt t (ipath.take (d + 1)))) elem
                (stemChildren ((stemChildren (pNodeAt t (ipath.take d))).getD
                  (ipath.getD d 0 + 1) (pgdflt α)).2))))
          else pModifyNodeAt (fun par => PTree.pstem ((stemChildren par).set
              (ipath.getD d 0)
              (((stemChildren (pNodeAt t (ipath.take d))).getD (ipath.getD d 0)
                  (pgdflt α)).1,
               PTree.pstem (lineMergeNextErase
                 (stemChildren (pNodeAt t (ipath.take (d + 1)))) elem
                 (stemChildren ((stemChildren (pNodeAt t (ipath.take d))).getD
                   (ipath.getD d 0 + 1) (pgdflt α)).2)))))
              t (ipath.take d))
          ipath d (ipath.getD d 0 + 1) := by
  simp only [pEraseNode, h1, if_true]
  rw [if_neg h2, if_pos h3]

theorem pEraseNode_eq_borrowNext (t : PTree α) (ipath : List Nat) (d elem : Nat)
    (h1 : nodeThin (pNodeAt t (ipath.take (d + 1))) = true)
    (h2 : ¬(ipath.getD d 0 > 0))
    (h3 : ¬(nodeCount (pNodeAt t (ipath.take (d + 1)))
        + nodeCount ((stemChildren (pNodeAt t (ipath.take d))).getD
            (ipath.getD d 0 + 1) (pgdflt α)).2 ≤ branchout)) :
    pEraseNode t ipath (d + 1) elem
      = ((if elem = 0 then
          pUpdateKey
            (pUpdateKey (pModifyNodeAt (fun par => PTree.pstem
              (((stemChildren par).set (ipath.getD d 0)
                (((stemChildren (pNodeAt t (ipath.take d))).getD (ipath.getD d 0)
                    (pgdflt α)).1,
                 PTree.pstem (lineBorrowNextErase
                   (stemChildren (pNodeAt t (ipath.take (d + 1)))) elem
                   (stemChildren ((stemChildren (pNodeAt t (ipath.take d))).getD
                     (ipath.getD d 0 + 1) (pgdflt α)).2)))).set
                (ipath.getD d 0 + 1)
                (((stemChildren (pNodeAt t (ipath.take d))).getD (ipath.getD d 0 + 1)
                    (pgdflt α)).1,
                 PTree.pstem (lineBorrowNextDonor
                   (stemChildren ((stemChildren (pNodeAt t (ipath.take d))).getD
                     (ipath.getD d 0 + 1) (pgdflt α)).2)))))
              t (ipath.take d)) ipath d (ipath.getD d 0 + 1)
              (stemMinKey (PTree.pstem (lineBorrowNextDonor
                (stemChildren ((stemChildren (pNodeAt t (ipath.take d))).getD
                  (ipath.getD d 0 + 1) (pgdflt α)).2)))))
            ipath d (ipath.getD d 0)
            (stemMinKey (PTree.pstem (lineBorrowNextErase
              (stemChildren (pNodeAt t (ipath.take (d + 1)))) elem
              (stemChildren ((stemChildren (pNodeAt t (ipath.take d))).getD
                (ipath.getD d 0 + 1) (pgdflt α)).2))))
        else
          pUpdateKey (pModifyNodeAt (fun par => PTree.pstem
              (((stemChildren par).set (ipath.getD d 0)
                (((stemChildren (pNodeAt t (ipath.take d))).getD (ipath.getD d 0)
                    (pgdflt α)).1,
                 PTree.pstem (lineBorrowNextErase
                   (stemChildren (pNodeAt t (ipath.take (d + 1)))) elem
                   (stemChildren ((stemChildren (pNodeAt t (ipath.take d))).getD
                     (ipath.getD d 0 + 1) (pgdflt α)).2)))).set
                (ipath.getD d 0 + 1)
                (((stemChildren (pNodeAt t (ipath.take d))).getD (ipath.getD d 0 + 1)
                    (pgdflt α)).1,
                 PTree.pstem (lineBorrowNextDonor
                   (stemChildren ((stemChildren (pNodeAt t (ipath.take d))).getD
                     (ipath.getD d 0 + 1) (pgdflt α)).2)))))
              t (ipath.take d)) ipath d (ipath.getD d 0 + 1)
              (stemMinKey (PTree.pstem (lineBorrowNextDonor
                (stemChildren ((stemChildren (pNodeAt t (ipath.take d))).getD
                  (ipath.getD d 0 + 1) (pgdflt α)).2))))), 0) := by
  simp only [pEraseNode, h1, if_true]
  rw [if_neg h2, if_neg h3]

theorem pfill_pNodeAt_ne : ∀ (p : List Nat) (h : Nat) (t : PTree α), p ≠ [] →
    pfill h t = true → ipathOK t p = true → p.length ≤ h →
    pfillSub (h - p.length) (pNodeAt t p) = true := by
  intro p h t hne hf hok hlen
  cases p with
  | nil => exact absurd rfl hne
  | cons i is => exact pfill_pNodeAt i is h t hf hok hlen

theorem length_eraseIdx_lt (l : List β) (i : Nat) (hi : i < l.length) :
    (l.eraseIdx i).length = l.length - 1 := by
  rw [eraseIdx_eq_take_drop, List.length_append, List.length_take, List.length_drop]
  omega

/-- `erase_node` at the root stem: the entry disappears; a singleton root
collapses one level. -/
theorem pEraseNode_spec_zero (kf : α → Nat) (t : PTree α) (ipath : List Nat)
    (elem H : Nat) (hpre : erasePre kf t ipath 0 elem H) :
    eraseSpec kf t ipath 0 elem H := by
  obtain ⟨hwf, hfill, hDH, hlen, hok, helem⟩ := hpre
  obtain ⟨h1, hh1⟩ : ∃ h1, H = h1 + 1 := ⟨H - 1, by omega⟩
  subst hh1
  cases t with
  | pleaf es => simp [pwf] at hwf
  | pstem cs =>
    have helem' : elem < cs.length := helem
    simp only [pwf, Bool.and_eq_true] at hwf
    simp only [pfill, Bool.and_eq_true, decide_eq_true_eq] at hfill
    have hlencs : (cs.eraseIdx elem).length = cs.length - 1 :=
      length_eraseIdx_lt cs elem helem'
    simp only [eraseSpec, pEraseNode_zero_unfold]
    by_cases hc1 : ((stemChildren (PTree.pstem cs)).eraseIdx elem).length = 1
    · rw [if_pos hc1]
      have hc1' : (cs.eraseIdx elem).length = 1 := hc1
      obtain ⟨c, hce⟩ := List.length_eq_one.mp hc1'
      have hwl' : pwfL (pwf kf h1) (pMinKeyOf kf h1) (cs.eraseIdx elem) = true :=
        pwfL_eraseIdx _ _ cs elem hwf.2
      have hfl' : pfillL (pfillSub h1) (cs.eraseIdx elem) = true :=
        pfillL_eraseIdx _ cs elem hfill.2
      rw [hce] at hwl' hfl'
      simp only [pwfL, Bool.and_eq_true, beq_iff_eq] at hwl'
      simp only [pfillL, Bool.and_eq_true] at hfl'
      refine ⟨by omega, ?_, ?_, ?_⟩
      · show pLines (h1 + 1 - 1) ((((stemChildren (PTree.pstem cs)).eraseIdx
            elem).getD 0 (pgdflt α)).2)
          = pLines (h1 + 1) (pModifyNodeAt (eraseEntry elem) (PTree.pstem cs)
            (ipath.take 0))
        show pLines (h1 + 1 - 1) (((cs.eraseIdx elem).getD 0 (pgdflt α)).2)
          = pLines (h1 + 1) (eraseEntry elem (PTree.pstem cs))
        rw [hce]
        show pLines (h1 + 1 - 1) c.2 = pLines (h1 + 1) (.pstem (cs.eraseIdx elem))
        rw [hce, pLines_stem]
        show pLines (h1 + 1 - 1) c.2 = pLines h1 c.2 ++ pLinesL (pLines h1) []
        rw [show h1 + 1 - 1 = h1 from rfl]
        show pLines h1 c.2 = pLines h1 c.2 ++ []
        rw [List.append_nil]
      · show pwf kf (h1 + 1 - 1) (((cs.eraseIdx elem).getD 0 (pgdflt α)).2) = true
        rw [hce]
        exact hwl'.1.1
      · show pfill (h1 + 1 - 1) (((cs.eraseIdx elem).getD 0 (pgdflt α)).2) = true
        rw [hce]
        exact pfill_of_pfillSub h1 c.2 hfl'.1
    · rw [if_neg hc1]
      have hc1' : ¬((cs.eraseIdx elem).length = 1) := hc1
      have h2cs : 2 ≤ cs.length := hfill.1
      refine ⟨by omega, ?_, ?_, ?_⟩
      · rfl
      · show pwf kf (h1 + 1 - 0) (.pstem ((stemChildren (PTree.pstem cs)).eraseIdx
          elem)) = true
        show pwf kf (h1 + 1) (.pstem (cs.eraseIdx elem)) = true
        simp only [pwf, Bool.and_eq_true]
        refine ⟨not_isEmpty_of_length_pos _ (by omega), ?_⟩
        exact pwfL_eraseIdx _ _ cs elem hwf.2
      · show pfill (h1 + 1 - 0) (.pstem ((stemChildren (PTree.pstem cs)).eraseIdx
          elem)) = true
        show pfill (h1 + 1) (.pstem (cs.eraseIdx elem)) = true
        simp only [pfill, Bool.and_eq_true, decide_eq_true_eq]
        refine ⟨?_, pfillL_eraseIdx _ cs elem hfill.2⟩
        show 2 ≤ (cs.eraseIdx elem).length
        omega

/-- `erase_node` at a non-thin stem below the root: the entry is removed in
place and the minimum-key chain is repaired when entry 0 was removed. -/
theorem pEraseNode_spec_inplace (kf : α → Nat) (d : Nat) (t : PTree α)
    (ipath : List Nat) (elem H : Nat)
    (hpre : erasePre kf t ipath (d + 1) elem H)
    (hthin : nodeThin (pNodeAt t (ipath.take (d + 1))) = false) :
    eraseSpec kf t ipath (d + 1) elem H := by
  obtain ⟨hwf, hfill, hDH, hlen, hok, helem⟩ := hpre
  have hltd1 : (ipath.take (d + 1)).length = d + 1 := by
    rw [List.length_take]; omega
  have htkne : ipath.take (d + 1) ≠ [] := by
    intro hx; rw [hx] at hltd1; simp at hltd1
  have hwfN := (pNodeAt_pwf kf (ipath.take (d + 1)) H t hwf hok).2
  rw [hltd1] at hwfN
  obtain ⟨hn, hhn⟩ : ∃ hn, H - (d + 1) = hn + 1 := ⟨H - (d + 1) - 1, by omega⟩
  rw [hhn] at hwfN
  have hfillN := pfill_pNodeAt_ne (ipath.take (d + 1)) H t htkne hfill hok
    (by rw [hltd1]; omega)
  rw [hltd1, hhn] at hfillN
  cases hnd : pNodeAt t (ipath.take (d + 1)) with
  | pleaf es => rw [hnd] at hwfN; simp [pwf] at hwfN
  | pstem ncs =>
    rw [hnd] at hwfN hfillN helem
    have hthinN : nodeThin (PTree.pstem ncs) = false := by rw [← hnd]; exact hthin
    have helem' : elem < ncs.length := helem
    simp only [pwf, Bool.and_eq_true] at hwfN
    simp only [pfillSub, Bool.and_eq_true, decide_eq_true_eq] at hfillN
    have hthin' : minCount ≤ ncs.length := by
      simp only [nodeThin, nodeCount, decide_eq_false_iff_not, not_lt] at hthinN
      exact hthinN
    have h7 : minCount = 7 := by decide
    have hlerase : (ncs.eraseIdx elem).length = ncs.length - 1 :=
      length_eraseIdx_lt ncs elem helem'
    have hwfE : pwf kf (hn + 1) (.pstem (ncs.eraseIdx elem)) = true := by
      simp only [pwf, Bool.and_eq_true]
      exact ⟨not_isEmpty_of_length_pos _ (by omega),
        pwfL_eraseIdx _ _ ncs elem hwfN.2⟩
    have ht1eq : pModifyNodeAt (fun _ => PTree.pstem (ncs.eraseIdx elem)) t
        (ipath.take (d + 1))
        = pModifyNodeAt (eraseEntry elem) t (ipath.take (d + 1)) := by
      apply pModifyNodeAt_congr _ _ _ t hok
      rw [hnd]
      rfl
    have hminE : elem ≠ 0 →
        pMinKeyOf kf (hn + 1) (.pstem (ncs.eraseIdx elem))
          = pMinKeyOf kf (hn + 1) (.pstem ncs) := by
      intro he0
      match ncs, helem', hwfN, elem, he0 with
      | c0 :: rest, _, hwfN, e + 1, _ =>
        have hw0 : pwf kf hn c0.2 = true := by
          have := hwfN.2
          simp only [pwfL, Bool.and_eq_true] at this
          exact this.1.1
        show pMinKeyOf kf (hn + 1) (.pstem (c0 :: rest.eraseIdx e)) = _
        rw [pMinKeyOf_stem_cons kf hn c0 _ (eJoin_ne_nil kf hn _ hw0)]
        rw [pMinKeyOf_stem_cons kf hn c0 rest (eJoin_ne_nil kf hn _ hw0)]
    have ht1wf : elem ≠ 0 → pwf kf H (pModifyNodeAt
        (fun _ => PTree.pstem (ncs.eraseIdx elem)) t (ipath.take (d + 1))) = true := by
      intro he0
      exact (pModifyNodeAt_pwf kf _ (ipath.take (d + 1)) H t hwf hok
        (by rw [hltd1, hhn]; exact hwfE)
        (by rw [hltd1, hhn, hnd]; exact hminE he0)).1
    have ht1fill : pfill H (pModifyNodeAt
        (fun _ => PTree.pstem (ncs.eraseIdx elem)) t (ipath.take (d + 1))) = true := by
      apply pModifyNodeAt_pfill_all (ipath.take (d + 1)) H t _ hfill hok
        (by rw [hltd1]; omega)
      · show 2 ≤ (ncs.eraseIdx elem).length
        omega
      · intro _
        show minCount - 1 ≤ (ncs.eraseIdx elem).length
        omega
      · show pfillL (pfillSub (H - (ipath.take (d + 1)).length - 1))
          (ncs.eraseIdx elem) = true
        rw [hltd1, show H - (d + 1) - 1 = hn from by omega]
        exact pfillL_eraseIdx _ ncs elem hfillN.2
    have ht1self : linesEqP H (pModifyNodeAt
        (fun _ => PTree.pstem (ncs.eraseIdx elem)) t (ipath.take (d + 1)))
        (pModifyNodeAt (fun _ => PTree.pstem (ncs.eraseIdx elem)) t
          (ipath.take (d + 1))) := by
      apply linesEqP_pMod_self _ H t _ (linesEqP_refl_of_pwf kf H t hwf) hok
        (by rw [hltd1]; omega)
      rw [hltd1, hhn]
      exact linesEqP_refl_of_pwf kf (hn + 1) _ hwfE
    simp only [eraseSpec, pEraseNode_eq_inplace t ipath d elem hthin, hnd,
      stemChildren]
    by_cases he0 : elem = 0
    · rw [if_pos he0]
      refine ⟨by show (0:Nat) ≤ 1; omega, ?_, ?_, ?_⟩
      · show pLines (H - 0) (pUpdateKey (pModifyNodeAt
          (fun _ => PTree.pstem (ncs.eraseIdx elem)) t (ipath.take (d + 1)))
          ipath d (ipath.getD d 0)
          (stemMinKey (PTree.pstem (ncs.eraseIdx elem)))) = _
        rw [Nat.sub_zero, pUpdateKey_pLines, ht1eq]
      · show pwf kf (H - 0) (pUpdateKey (pModifyNodeAt
          (fun _ => PTree.pstem (ncs.eraseIdx elem)) t (ipath.take (d + 1)))
          ipath d (ipath.getD d 0)
          (stemMinKey (PTree.pstem (ncs.eraseIdx elem)))) = true
        rw [Nat.sub_zero]
        have hnk : stemMinKey (PTree.pstem (ncs.eraseIdx elem))
            = pMinKeyOf kf (H - (d + 1)) (.pstem (ncs.eraseIdx elem)) := by
          rw [hhn]
          rw [show stemMinKey (PTree.pstem (ncs.eraseIdx elem))
            = nodeMinKey kf (.pstem (ncs.eraseIdx elem)) from rfl]
          exact nodeMinKey_eq kf (hn + 1) _ hwfE
        exact pUpdateKey_replace_pwf kf d t ipath (.pstem (ncs.eraseIdx elem))
          (stemMinKey (PTree.pstem (ncs.eraseIdx elem))) H hwf hok hlen (by omega)
          (by rw [hhn]; exact hwfE) hnk
      · show pfill (H - 0) (pUpdateKey (pModifyNodeAt
          (fun _ => PTree.pstem (ncs.eraseIdx elem)) t (ipath.take (d + 1)))
          ipath d (ipath.getD d 0)
          (stemMinKey (PTree.pstem (ncs.eraseIdx elem)))) = true
        rw [Nat.sub_zero]
        rw [← linesEqP_pfill H _ _ (linesEqP_pUpdateKey d _ ipath
          (ipath.getD d 0) _ H ht1self)]
        exact ht1fill
    · rw [if_neg he0]
      refine ⟨by show (0:Nat) ≤ 1; omega, ?_, ?_, ?_⟩
      · show pLines (H - 0) (pModifyNodeAt
          (fun _ => PTree.pstem (ncs.eraseIdx elem)) t (ipath.take (d + 1))) = _
        rw [Nat.sub_zero, ht1eq]
      · show pwf kf (H - 0) (pModifyNodeAt
          (fun _ => PTree.pstem (ncs.eraseIdx elem)) t (ipath.take (d + 1))) = true
        rw [Nat.sub_zero]
        exact ht1wf he0
      · show pfill (H - 0) (pModifyNodeAt
          (fun _ => PTree.pstem (ncs.eraseIdx elem)) t (ipath.take (d + 1))) = true
        rw [Nat.sub_zero]
        exact ht1fill

theorem pMinKeyOf_set_entry (kf : α → Nat) (hc : Nat) :
    ∀ (pcs : List (Nat × PTree α)) (i k : Nat) (x : PTree α),
    i < pcs.length →
    pwfL (pwf kf hc) (pMinKeyOf kf hc) pcs = true →
    pwf kf hc x = true →
    (i = 0 → pMinKeyOf kf hc x = pMinKeyOf kf hc ((pcs.getD 0 (pgdflt α)).2)) →
    pMinKeyOf kf (hc + 1) (.pstem (pcs.set i (k, x)))
      = pMinKeyOf kf (hc + 1) (.pstem pcs) := by
  intro pcs i k x hi hwl hx h0
  match pcs, hi with
  | c0 :: rest, _ =>
    have hw0 : pwf kf hc c0.2 = true := by
      simp only [pwfL, Bool.and_eq_true] at hwl
      exact hwl.1.1
    cases i with
    | zero =>
      rw [List.set_cons_zero]
      rw [pMinKeyOf_stem_cons kf hc (k, x) rest (eJoin_ne_nil kf hc _ hx)]
      rw [pMinKeyOf_stem_cons kf hc c0 rest (eJoin_ne_nil kf hc _ hw0)]
      exact h0 rfl
    | succ i =>
      rw [List.set_cons_succ]
      rw [pMinKeyOf_stem_cons kf hc c0 _ (eJoin_ne_nil kf hc _ hw0)]
      rw [pMinKeyOf_stem_cons kf hc c0 rest (eJoin_ne_nil kf hc _ hw0)]

/-- `erase_node` at a thin stem that merges into its previous sibling: the
merged entry replaces the sibling's and the recursive call removes the
vacated entry one level up. -/
theorem pEraseNode_spec_mergePrev (kf : α → Nat) (d : Nat) (t : PTree α)
    (ipath : List Nat) (elem H : Nat)
    (ih : ∀ (t' : PTree α) (elem' H' : Nat), erasePre kf t' ipath d elem' H' →
      eraseSpec kf t' ipath d elem' H')
    (hpre : erasePre kf t ipath (d + 1) elem H)
    (hthin : nodeThin (pNodeAt t (ipath.take (d + 1))) = true)
    (h2 : ipath.getD d 0 > 0)
    (h3 : nodeCount (pNodeAt t (ipath.take (d + 1)))
        + nodeCount ((stemChildren (pNodeAt t (ipath.take d))).getD
            (ipath.getD d 0 - 1) (pgdflt α)).2 ≤ branchout) :
    eraseSpec kf t ipath (d + 1) elem H := by
  obtain ⟨hwf, hfill, hDH, hlen, hok, helem⟩ := hpre
  have hd_lt : d < ipath.length := by omega
  have htake : ipath.take (d + 1) = ipath.take d ++ [ipath.getD d 0] :=
    take_succ_getD ipath d hd_lt
  have htt : (ipath.take (d + 1)).take d = ipath.take d := by
    rw [List.take_take]; congr 1; omega
  have hltd : (ipath.take d).length = d := by rw [List.length_take]; omega
  have hokd : ipathOK t (ipath.take d) = true := by
    rw [← htt]; exact ipathOK_take _ t hok d
  have hpli : ipath.getD d 0 < (stemChildren (pNodeAt t (ipath.take d))).length := by
    apply ipathOK_append_elem
    rw [← htake]; exact hok
  have hwfP := (pNodeAt_pwf kf (ipath.take d) H t hwf hokd).2
  rw [hltd] at hwfP
  obtain ⟨hc, hhc⟩ : ∃ hc, H - d = hc + 2 := ⟨H - d - 2, by omega⟩
  rw [hhc] at hwfP
  have hflP := pfill_parent_fillL (ipath.take d) H t hfill hokd (by rw [hltd]; omega)
  rw [hltd, show H - d - 1 = hc + 1 from by omega] at hflP
  have h2P := pfill_parent_two (ipath.take d) H t hfill hokd (by rw [hltd]; omega)
  cases hP : pNodeAt t (ipath.take d) with
  | pleaf es => rw [hP] at hwfP; simp [pwf] at hwfP
  | pstem pcs =>
    rw [hP] at hwfP hflP h2P hpli
    have hpli' : ipath.getD d 0 < pcs.length := hpli
    have hflP' : pfillL (pfillSub (hc + 1)) pcs = true := hflP
    have h2P' : 2 ≤ pcs.length := h2P
    simp only [pwf, Bool.and_eq_true] at hwfP
    have hnodeEq : pNodeAt t (ipath.take (d + 1))
        = (pcs.getD (ipath.getD d 0) (pgdflt α)).2 := by
      rw [htake, pNodeAt_append, hP]
      rfl
    have hprevE := pwfL_getD _ _ pcs hwfP.2 (ipath.getD d 0 - 1) (pgdflt α) (by omega)
    have hnodeE := pwfL_getD _ _ pcs hwfP.2 (ipath.getD d 0) (pgdflt α) hpli'
    have hprevF := pfillL_getD _ pcs hflP' (ipath.getD d 0 - 1) (pgdflt α) (by omega)
    have hnodeF := pfillL_getD _ pcs hflP' (ipath.getD d 0) (pgdflt α) hpli'
    cases hpv : (pcs.getD (ipath.getD d 0 - 1) (pgdflt α)).2 with
    | pleaf es2 => rw [hpv] at hprevE; simp [pwf] at hprevE
    | pstem prevCs =>
    cases hpnd : (pcs.getD (ipath.getD d 0) (pgdflt α)).2 with
    | pleaf es3 => rw [hpnd] at hnodeE; simp [pwf] at hnodeE
    | pstem nodeCs =>
    rw [hpv] at hprevE hprevF
    rw [hpnd] at hnodeE hnodeF
    rw [hnodeEq, hpnd] at helem
    have helem' : elem < nodeCs.length := helem
    have hthinN : nodeCs.length < minCount := by
      have := hthin
      rw [hnodeEq, hpnd] at this
      simpa [nodeThin, nodeCount] using this
    have hcounts : nodeCs.length + prevCs.length ≤ branchout := by
      have := h3
      rw [hnodeEq, hpnd, hP] at this
      simp only [stemChildren] at this
      rw [hpv] at this
      simpa [nodeCount] using this
    have h7 : minCount = 7 := by decide
    have hprevFc : minCount - 1 ≤ prevCs.length ∧ pfillL (pfillSub hc) prevCs = true := by
      simpa [pfillSub, Bool.and_eq_true] using hprevF
    have hnodeFc : minCount - 1 ≤ nodeCs.length ∧ pfillL (pfillSub hc) nodeCs = true := by
      simpa [pfillSub, Bool.and_eq_true] using hnodeF
    have hwfPrev : pwf kf (hc + 1) (.pstem prevCs) = true := hprevE.1
    have hwfNode : pwf kf (hc + 1) (.pstem nodeCs) = true := hnodeE.1
    have hlerase : (nodeCs.eraseIdx elem).length = nodeCs.length - 1 :=
      length_eraseIdx_lt nodeCs elem helem'
    -- the merged node
    have hwfMerged : pwf kf (hc + 1) (.pstem (prevCs ++ nodeCs.eraseIdx elem)) = true := by
      simp only [pwf, Bool.and_eq_true] at hwfPrev hwfNode ⊢
      refine ⟨not_isEmpty_of_length_pos _ (by rw [List.length_append]; omega), ?_⟩
      rw [pwfL_append, Bool.and_eq_true]
      exact ⟨hwfPrev.2, pwfL_eraseIdx _ _ nodeCs elem hwfNode.2⟩
    have hfillMerged : pfillSub (hc + 1) (.pstem (prevCs ++ nodeCs.eraseIdx elem)) = true := by
      simp only [pfillSub, Bool.and_eq_true, decide_eq_true_eq]
      constructor
      · show minCount - 1 ≤ (prevCs ++ nodeCs.eraseIdx elem).length
        rw [List.length_append]; omega
      · show pfillL (pfillSub hc) (prevCs ++ nodeCs.eraseIdx elem) = true
        rw [pfillL_append, Bool.and_eq_true]
        exact ⟨hprevFc.2, pfillL_eraseIdx _ nodeCs elem hnodeFc.2⟩
    have hminMerged : pMinKeyOf kf (hc + 1) (.pstem (prevCs ++ nodeCs.eraseIdx elem))
        = pMinKeyOf kf (hc + 1) (.pstem prevCs) := by
      match prevCs, hprevFc, hwfPrev with
      | p0 :: prest, _, hwfPrev =>
        have hw0 : pwf kf hc p0.2 = true := by
          simp only [pwf, Bool.and_eq_true, pwfL] at hwfPrev
          exact hwfPrev.2.1.1
        rw [List.cons_append]
        rw [pMinKeyOf_stem_cons kf hc p0 _ (eJoin_ne_nil kf hc _ hw0)]
        rw [pMinKeyOf_stem_cons kf hc p0 prest (eJoin_ne_nil kf hc _ hw0)]
    -- the rebuilt tree handed to the recursive call
    have hgoal : pEraseNode t ipath (d + 1) elem
        = pEraseNode (pModifyNodeAt (fun par => PTree.pstem ((stemChildren par).set
            (ipath.getD d 0 - 1) ((pcs.getD (ipath.getD d 0 - 1) (pgdflt α)).1,
             PTree.pstem (prevCs ++ nodeCs.eraseIdx elem)))) t (ipath.take d))
          ipath d (ipath.getD d 0) := by
      rw [pEraseNode_eq_mergePrev t ipath d elem hthin h2 h3]
      rw [hnodeEq, hpnd, hP]
      simp only [stemChildren]
      rw [hpv]
      simp only [stemChildren, lineMergePrevErase]
    have hfT1wf := pModifyNodeAt_pwf kf
      (fun par => PTree.pstem ((stemChildren par).set
        (ipath.getD d 0 - 1) ((pcs.getD (ipath.getD d 0 - 1) (pgdflt α)).1,
         PTree.pstem (prevCs ++ nodeCs.eraseIdx elem))))
      (ipath.take d) H t hwf hokd
      (by
        rw [hltd, hhc, hP]
        show pwf kf (hc + 2) (.pstem (pcs.set (ipath.getD d 0 - 1)
          ((pcs.getD (ipath.getD d 0 - 1) (pgdflt α)).1,
           PTree.pstem (prevCs ++ nodeCs.eraseIdx elem)))) = true
        simp only [pwf, Bool.and_eq_true]
        refine ⟨not_isEmpty_of_length_pos _ (by rw [List.length_set]; omega), ?_⟩
        apply pwfL_set _ _ pcs _ _ _ hwfP.2 hwfMerged
        rw [hminMerged]
        exact hprevE.2
      )
      (by
        rw [hltd, hhc, hP]
        show pMinKeyOf kf (hc + 2) (.pstem (pcs.set (ipath.getD d 0 - 1)
          ((pcs.getD (ipath.getD d 0 - 1) (pgdflt α)).1,
           PTree.pstem (prevCs ++ nodeCs.eraseIdx elem))))
          = pMinKeyOf kf (hc + 2) (.pstem pcs)
        apply pMinKeyOf_set_entry kf (hc + 1) pcs _ _ _ (by omega) hwfP.2 hwfMerged
        intro hi0
        rw [hminMerged, ← hpv, hi0]
      )
    have hT1fill : pfill H (pModifyNodeAt
        (fun par => PTree.pstem ((stemChildren par).set
          (ipath.getD d 0 - 1) ((pcs.getD (ipath.getD d 0 - 1) (pgdflt α)).1,
           PTree.pstem (prevCs ++ nodeCs.eraseIdx elem))))
        t (ipath.take d)) = true := by
      apply pModifyNodeAt_pfill_all (ipath.take d) H t _ hfill hokd
        (by rw [hltd]; omega)
      · rw [hP]
        show 2 ≤ (pcs.set (ipath.getD d 0 - 1)
          ((pcs.getD (ipath.getD d 0 - 1) (pgdflt α)).1,
           PTree.pstem (prevCs ++ nodeCs.eraseIdx elem))).length
        rw [List.length_set]; omega
      · intro hne
        have := pfill_pNodeAt_ne (ipath.take d) H t hne hfill hokd
          (by rw [hltd]; omega)
        rw [hltd, hP, show H - d = (hc + 1) + 1 from by omega] at this
        simp only [pfillSub, Bool.and_eq_true, decide_eq_true_eq] at this
        rw [hP]
        show minCount - 1 ≤ (pcs.set (ipath.getD d 0 - 1)
          ((pcs.getD (ipath.getD d 0 - 1) (pgdflt α)).1,
           PTree.pstem (prevCs ++ nodeCs.eraseIdx elem))).length
        rw [List.length_set]
        have := this.1
        simpa [stemChildren] using this
      · rw [hltd, hP, show H - d - 1 = hc + 1 from by omega]
        show pfillL (pfillSub (hc + 1)) (pcs.set (ipath.getD d 0 - 1)
          ((pcs.getD (ipath.getD d 0 - 1) (pgdflt α)).1,
           PTree.pstem (prevCs ++ nodeCs.eraseIdx elem))) = true
        exact pfillL_set _ pcs _ _ _ hflP' hfillMerged
    have hokT1 : ipathOK (pModifyNodeAt
        (fun par => PTree.pstem ((stemChildren par).set
          (ipath.getD d 0 - 1) ((pcs.getD (ipath.getD d 0 - 1) (pgdflt α)).1,
           PTree.pstem (prevCs ++ nodeCs.eraseIdx elem))))
        t (ipath.take d)) (ipath.take d) = true :=
      ipathOK_pModifyNodeAt _ _ t hokd
    have hpliT1 : ipath.getD d 0 < (stemChildren (pNodeAt (pModifyNodeAt
        (fun par => PTree.pstem ((stemChildren par).set
          (ipath.getD d 0 - 1) ((pcs.getD (ipath.getD d 0 - 1) (pgdflt α)).1,
           PTree.pstem (prevCs ++ nodeCs.eraseIdx elem))))
        t (ipath.take d)) (ipath.take d))).length := by
      rw [pNodeAt_pModifyNodeAt _ _ t hokd, hP]
      show ipath.getD d 0 < (pcs.set (ipath.getD d 0 - 1)
        ((pcs.getD (ipath.getD d 0 - 1) (pgdflt α)).1,
         PTree.pstem (prevCs ++ nodeCs.eraseIdx elem))).length
      rw [List.length_set]; omega
    have hspec := ih (pModifyNodeAt
        (fun par => PTree.pstem ((stemChildren par).set
          (ipath.getD d 0 - 1) ((pcs.getD (ipath.getD d 0 - 1) (pgdflt α)).1,
           PTree.pstem (prevCs ++ nodeCs.eraseIdx elem))))
        t (ipath.take d)) (ipath.getD d 0) H
      ⟨hfT1wf.1, hT1fill, by omega, by omega, hokT1, hpliT1⟩
    simp only [eraseSpec] at hspec ⊢
    rw [hgoal]
    refine ⟨hspec.1, ?_, hspec.2.2.1, hspec.2.2.2⟩
    rw [hspec.2.1]
    -- remaining: lines of the recursive target equal the one-shot erase lines
    rw [pModifyNodeAt_comp _ _ _ t hokd]
    rw [htake, pModifyNodeAt_append]
    apply pModifyNodeAt_pLines_congr_h _ _ (ipath.take d) H t hokd
      (by rw [hltd]; omega)
    rw [hltd, hhc, hP]
    show pLines (hc + 2) (eraseEntry (ipath.getD d 0)
        (.pstem (pcs.set (ipath.getD d 0 - 1)
          ((pcs.getD (ipath.getD d 0 - 1) (pgdflt α)).1,
           PTree.pstem (prevCs ++ nodeCs.eraseIdx elem)))))
      = pLines (hc + 2) (pModifyNodeAt (eraseEntry elem) (.pstem pcs)
        [ipath.getD d 0])
    show pLines (hc + 2) (.pstem ((pcs.set (ipath.getD d 0 - 1)
          ((pcs.getD (ipath.getD d 0 - 1) (pgdflt α)).1,
           PTree.pstem (prevCs ++ nodeCs.eraseIdx elem))).eraseIdx (ipath.getD d 0)))
      = pLines (hc + 2) (.pstem (pcs.set (ipath.getD d 0)
          ((pcs.getD (ipath.getD d 0) (pgdflt α)).1,
           eraseEntry elem (pcs.getD (ipath.getD d 0) (pgdflt α)).2)))
    rw [hpnd]
    show pLines (hc + 2) (.pstem ((pcs.set (ipath.getD d 0 - 1)
          ((pcs.getD (ipath.getD d 0 - 1) (pgdflt α)).1,
           PTree.pstem (prevCs ++ nodeCs.eraseIdx elem))).eraseIdx (ipath.getD d 0)))
      = pLines (hc + 2) (.pstem (pcs.set (ipath.getD d 0)
          ((pcs.getD (ipath.getD d 0) (pgdflt α)).1,
           PTree.pstem (nodeCs.eraseIdx elem))))
    rw [pLines_stem, pLines_stem, pLinesL_eq_map_join, pLinesL_eq_map_join]
    rw [map_eraseIdx, map_set_eq, map_set_eq]
    show ((((pcs.map (fun c => pLines (hc + 1) c.2)).set (ipath.getD d 0 - 1)
        (pLines (hc + 1) (.pstem (prevCs ++ nodeCs.eraseIdx elem)))).eraseIdx
        (ipath.getD d 0)).join : List (List α))
      = ((pcs.map (fun c => pLines (hc + 1) c.2)).set (ipath.getD d 0)
        (pLines (hc + 1) (.pstem (nodeCs.eraseIdx elem)))).join
    have hMP : (pcs.map (fun c => pLines (hc + 1) c.2)).getD (ipath.getD d 0 - 1) []
        = pLines (hc + 1) (.pstem prevCs) := by
      rw [map_getD_gen pcs _ _ (pgdflt α) (by omega), hpv]
    have hmergedLines : pLines (hc + 1) (.pstem (prevCs ++ nodeCs.eraseIdx elem))
        = (pcs.map (fun c => pLines (hc + 1) c.2)).getD (ipath.getD d 0 - 1) []
          ++ pLinesL (pLines hc) (nodeCs.eraseIdx elem) := by
      rw [hMP, pLines_stem, pLines_stem, pLinesL_append]
    rw [hmergedLines]
    rw [show pLines (hc + 1) (.pstem (nodeCs.eraseIdx elem))
      = pLinesL (pLines hc) (nodeCs.eraseIdx elem) from pLines_stem hc _]
    have := join_set_merge_prev (pcs.map (fun c => pLines (hc + 1) c.2))
      (ipath.getD d 0 - 1)
      (by rw [List.length_map]; omega)
      (pLinesL (pLines hc) (nodeCs.eraseIdx elem))
    rw [show ipath.getD d 0 - 1 + 1 = ipath.getD d 0 from by omega] at this
    exact this

/-- `erase_node` at a thin leftmost stem that merges with its next sibling:
the merged entry replaces the node's own, the propagated minimum key is
repaired, and the recursive call removes the sibling's entry. -/
theorem pEraseNode_spec_mergeNext (kf : α → Nat) (d : Nat) (t : PTree α)
    (ipath : List Nat) (elem H : Nat)
    (ih : ∀ (t' : PTree α) (elem' H' : Nat), erasePre kf t' ipath d elem' H' →
      eraseSpec kf t' ipath d elem' H')
    (hpre : erasePre kf t ipath (d + 1) elem H)
    (hthin : nodeThin (pNodeAt t (ipath.take (d + 1))) = true)
    (h2 : ¬(ipath.getD d 0 > 0))
    (h3 : nodeCount (pNodeAt t (ipath.take (d + 1)))
        + nodeCount ((stemChildren (pNodeAt t (ipath.take d))).getD
            (ipath.getD d 0 + 1) (pgdflt α)).2 ≤ branchout) :
    eraseSpec kf t ipath (d + 1) elem H := by
  obtain ⟨hwf, hfill, hDH, hlen, hok, helem⟩ := hpre
  have hpl0 : ipath.getD d 0 = 0 := by omega
  have hd_lt : d < ipath.length := by omega
  have htake : ipath.take (d + 1) = ipath.take d ++ [0] := by
    rw [take_succ_getD ipath d hd_lt, hpl0]
  have htt : (ipath.take (d + 1)).take d = ipath.take d := by
    rw [List.take_take]; congr 1; omega
  have hltd : (ipath.take d).length = d := by rw [List.length_take]; omega
  have hokd : ipathOK t (ipath.take d) = true := by
    rw [← htt]; exact ipathOK_take _ t hok d
  have hwfP := (pNodeAt_pwf kf (ipath.take d) H t hwf hokd).2
  rw [hltd] at hwfP
  obtain ⟨hc, hhc⟩ : ∃ hc, H - d = hc + 2 := ⟨H - d - 2, by omega⟩
  rw [hhc] at hwfP
  have hflP := pfill_parent_fillL (ipath.take d) H t hfill hokd (by rw [hltd]; omega)
  rw [hltd, show H - d - 1 = hc + 1 from by omega] at hflP
  have h2P := pfill_parent_two (ipath.take d) H t hfill hokd (by rw [hltd]; omega)
  cases hP : pNodeAt t (ipath.take d) with
  | pleaf es => rw [hP] at hwfP; simp [pwf] at hwfP
  | pstem pcs =>
    rw [hP] at hwfP hflP h2P
    have hflP' : pfillL (pfillSub (hc + 1)) pcs = true := hflP
    have h2P' : 2 ≤ pcs.length := h2P
    simp only [pwf, Bool.and_eq_true] at hwfP
    have hnodeEq : pNodeAt t (ipath.take (d + 1))
        = (pcs.getD 0 (pgdflt α)).2 := by
      rw [htake, pNodeAt_append, hP]
      rfl
    have hnodeE := pwfL_getD _ _ pcs hwfP.2 0 (pgdflt α) (by omega)
    have hnextE := pwfL_getD _ _ pcs hwfP.2 1 (pgdflt α) (by omega)
    have hnodeF := pfillL_getD _ pcs hflP' 0 (pgdflt α) (by omega)
    have hnextF := pfillL_getD _ pcs hflP' 1 (pgdflt α) (by omega)
    cases hpnd : (pcs.getD 0 (pgdflt α)).2 with
    | pleaf es3 => rw [hpnd] at hnodeE; simp [pwf] at hnodeE
    | pstem nodeCs =>
    cases hnx : (pcs.getD 1 (pgdflt α)).2 with
    | pleaf es2 => rw [hnx] at hnextE; simp [pwf] at hnextE
    | pstem nextCs =>
    rw [hpnd] at hnodeE hnodeF
    rw [hnx] at hnextE hnextF
    rw [hnodeEq, hpnd] at helem
    have helem' : elem < nodeCs.length := helem
    have hthinN : nodeCs.length < minCount := by
      have := hthin
      rw [hnodeEq, hpnd] at this
      simpa [nodeThin, nodeCount] using this
    have hcounts : nodeCs.length + nextCs.length ≤ branchout := by
      have := h3
      rw [hnodeEq, hpnd, hP] at this
      simp only [stemChildren, hpl0] at this
      rw [hnx] at this
      simpa [nodeCount] using this
    have h7 : minCount = 7 := by decide
    have hnodeFc : minCount - 1 ≤ nodeCs.length ∧ pfillL (pfillSub hc) nodeCs = true := by
      simpa [pfillSub, Bool.and_eq_true] using hnodeF
    have hnextFc : minCount - 1 ≤ nextCs.length ∧ pfillL (pfillSub hc) nextCs = true := by
      simpa [pfillSub, Bool.and_eq_true] using hnextF
    have hwfNode : pwf kf (hc + 1) (.pstem nodeCs) = true := hnodeE.1
    have hwfNext : pwf kf (hc + 1) (.pstem nextCs) = true := hnextE.1
    have hlerase : (nodeCs.eraseIdx elem).length = nodeCs.length - 1 :=
      length_eraseIdx_lt nodeCs elem helem'
    have hwfMerged : pwf kf (hc + 1) (.pstem (nodeCs.eraseIdx elem ++ nextCs)) = true := by
      simp only [pwf, Bool.and_eq_true] at hwfNode hwfNext ⊢
      refine ⟨not_isEmpty_of_length_pos _ (by rw [List.length_append]; omega), ?_⟩
      rw [pwfL_append, Bool.and_eq_true]
      exact ⟨pwfL_eraseIdx _ _ nodeCs elem hwfNode.2, hwfNext.2⟩
    have hfillMerged : pfillSub (hc + 1) (.pstem (nodeCs.eraseIdx elem ++ nextCs)) = true := by
      simp only [pfillSub, Bool.and_eq_true, decide_eq_true_eq]
      constructor
      · show minCount - 1 ≤ (nodeCs.eraseIdx elem ++ nextCs).length
        rw [List.length_append]; omega
      · show pfillL (pfillSub hc) (nodeCs.eraseIdx elem ++ nextCs) = true
        rw [pfillL_append, Bool.and_eq_true]
        exact ⟨pfillL_eraseIdx _ nodeCs elem hnodeFc.2, hnextFc.2⟩
    have hminMerged : elem ≠ 0 →
        pMinKeyOf kf (hc + 1) (.pstem (nodeCs.eraseIdx elem ++ nextCs))
          = pMinKeyOf kf (hc + 1) (.pstem nodeCs) := by
      intro he0
      match nodeCs, helem', hwfNode, elem, he0 with
      | n0 :: rest, _, hwfNode, e + 1, _ =>
        have hw0 : pwf kf hc n0.2 = true := by
          simp only [pwf, Bool.and_eq_true, pwfL] at hwfNode
          exact hwfNode.2.1.1
        show pMinKeyOf kf (hc + 1) (.pstem (n0 :: (rest.eraseIdx e ++ nextCs))) = _
        rw [pMinKeyOf_stem_cons kf hc n0 _ (eJoin_ne_nil kf hc _ hw0)]
        rw [pMinKeyOf_stem_cons kf hc n0 rest (eJoin_ne_nil kf hc _ hw0)]
    -- normal forms of the rebuilt trees
    have hgoal : pEraseNode t ipath (d + 1) elem
        = pEraseNode
            (if elem = 0 then
              pUpdateKey (pModifyNodeAt (fun par => PTree.pstem ((stemChildren par).set
                0 ((pcs.getD 0 (pgdflt α)).1,
                 PTree.pstem (nodeCs.eraseIdx elem ++ nextCs)))) t (ipath.take d))
                ipath d 0
                (stemMinKey (PTree.pstem (nodeCs.eraseIdx elem ++ nextCs)))
            else pModifyNodeAt (fun par => PTree.pstem ((stemChildren par).set
                0 ((pcs.getD 0 (pgdflt α)).1,
                 PTree.pstem (nodeCs.eraseIdx elem ++ nextCs)))) t (ipath.take d))
          ipath d 1 := by
      rw [pEraseNode_eq_mergeNext t ipath d elem hthin h2 h3]
      rw [hnodeEq, hpnd, hP]
      simp only [stemChildren, hpl0]
      rw [hnx]
      simp only [stemChildren, lineMergeNextErase]
    have ht1wf : elem ≠ 0 → pwf kf H (pModifyNodeAt
        (fun par => PTree.pstem ((stemChildren par).set 0 ((pcs.getD 0 (pgdflt α)).1,
          PTree.pstem (nodeCs.eraseIdx elem ++ nextCs)))) t (ipath.take d)) = true := by
      intro he0
      exact (pModifyNodeAt_pwf kf _ (ipath.take d) H t hwf hokd
        (by
          rw [hltd, hhc, hP]
          show pwf kf (hc + 2) (.pstem (pcs.set 0 ((pcs.getD 0 (pgdflt α)).1,
            PTree.pstem (nodeCs.eraseIdx elem ++ nextCs)))) = true
          simp only [pwf, Bool.and_eq_true]
          refine ⟨not_isEmpty_of_length_pos _ (by rw [List.length_set]; omega), ?_⟩
          apply pwfL_set _ _ pcs _ _ _ hwfP.2 hwfMerged
          rw [hminMerged he0]
          exact hnodeE.2
        )
        (by
          rw [hltd, hhc, hP]
          apply pMinKeyOf_set_entry kf (hc + 1) pcs _ _ _ (by omega) hwfP.2 hwfMerged
          intro _
          rw [hminMerged he0, ← hpnd]
        )).1
    have ht1eqG : pModifyNodeAt
        (fun par => PTree.pstem ((stemChildren par).set 0 ((pcs.getD 0 (pgdflt α)).1,
          PTree.pstem (nodeCs.eraseIdx elem ++ nextCs)))) t (ipath.take d)
        = pModifyNodeAt (fun _ => PTree.pstem (nodeCs.eraseIdx elem ++ nextCs)) t
            (ipath.take (d + 1)) := by
      rw [htake, pModifyNodeAt_append]
      apply pModifyNodeAt_congr _ _ (ipath.take d) t hokd
      rw [hP]
      show PTree.pstem (pcs.set 0 ((pcs.getD 0 (pgdflt α)).1,
          PTree.pstem (nodeCs.eraseIdx elem ++ nextCs)))
        = PTree.pstem (pcs.set 0 ((pcs.getD 0 (pgdflt α)).1,
          pModifyNodeAt (fun _ => PTree.pstem (nodeCs.eraseIdx elem ++ nextCs))
            (pcs.getD 0 (pgdflt α)).2 []))
      rfl
    have ht2wf : elem = 0 → pwf kf H
        (pUpdateKey (pModifyNodeAt (fun par => PTree.pstem ((stemChildren par).set
          0 ((pcs.getD 0 (pgdflt α)).1,
           PTree.pstem (nodeCs.eraseIdx elem ++ nextCs)))) t (ipath.take d))
          ipath d 0
          (stemMinKey (PTree.pstem (nodeCs.eraseIdx elem ++ nextCs)))) = true := by
      intro _
      rw [ht1eqG, ← hpl0]
      apply pUpdateKey_replace_pwf kf d t ipath _ _ H hwf hok hlen (by omega)
        (by rw [show H - (d + 1) = hc + 1 from by omega]; exact hwfMerged)
      rw [show H - (d + 1) = hc + 1 from by omega]
      rw [show stemMinKey (PTree.pstem (nodeCs.eraseIdx elem ++ nextCs))
        = nodeMinKey kf (.pstem (nodeCs.eraseIdx elem ++ nextCs)) from rfl]
      exact nodeMinKey_eq kf (hc + 1) _ hwfMerged
    have ht1fill : pfill H (pModifyNodeAt
        (fun par => PTree.pstem ((stemChildren par).set 0 ((pcs.getD 0 (pgdflt α)).1,
          PTree.pstem (nodeCs.eraseIdx elem ++ nextCs)))) t (ipath.take d)) = true := by
      apply pModifyNodeAt_pfill_all (ipath.take d) H t _ hfill hokd
        (by rw [hltd]; omega)
      · rw [hP]
        show 2 ≤ (pcs.set 0 ((pcs.getD 0 (pgdflt α)).1,
          PTree.pstem (nodeCs.eraseIdx elem ++ nextCs))).length
        rw [List.length_set]; omega
      · intro hne
        have := pfill_pNodeAt_ne (ipath.take d) H t hne hfill hokd
          (by rw [hltd]; omega)
        rw [hltd, hP, show H - d = (hc + 1) + 1 from by omega] at this
        simp only [pfillSub, Bool.and_eq_true, decide_eq_true_eq] at this
        rw [hP]
        show minCount - 1 ≤ (pcs.set 0 ((pcs.getD 0 (pgdflt α)).1,
          PTree.pstem (nodeCs.eraseIdx elem ++ nextCs))).length
        rw [List.length_set]
        have := this.1
        simpa [stemChildren] using this
      · rw [hltd, hP, show H - d - 1 = hc + 1 from by omega]
        show pfillL (pfillSub (hc + 1)) (pcs.set 0 ((pcs.getD 0 (pgdflt α)).1,
          PTree.pstem (nodeCs.eraseIdx elem ++ nextCs))) = true
        exact pfillL_set _ pcs _ _ _ hflP' hfillMerged
    have ht1self : linesEqP H (pModifyNodeAt
        (fun par => PTree.pstem ((stemChildren par).set 0 ((pcs.getD 0 (pgdflt α)).1,
          PTree.pstem (nodeCs.eraseIdx elem ++ nextCs)))) t (ipath.take d))
        (pModifyNodeAt
        (fun par => PTree.pstem ((stemChildren par).set 0 ((pcs.getD 0 (pgdflt α)).1,
          PTree.pstem (nodeCs.eraseIdx elem ++ nextCs)))) t (ipath.take d)) := by
      apply linesEqP_pMod_self _ H t _ (linesEqP_refl_of_pwf kf H t hwf) hokd
        (by rw [hltd]; omega)
      rw [hltd, hhc, hP]
      show linesEqP (hc + 2) (.pstem (pcs.set 0 ((pcs.getD 0 (pgdflt α)).1,
          PTree.pstem (nodeCs.eraseIdx elem ++ nextCs))))
        (.pstem (pcs.set 0 ((pcs.getD 0 (pgdflt α)).1,
          PTree.pstem (nodeCs.eraseIdx elem ++ nextCs))))
      show linesEqLP (linesEqP (hc + 1)) (pcs.set 0 ((pcs.getD 0 (pgdflt α)).1,
          PTree.pstem (nodeCs.eraseIdx elem ++ nextCs)))
        (pcs.set 0 ((pcs.getD 0 (pgdflt α)).1,
          PTree.pstem (nodeCs.eraseIdx elem ++ nextCs)))
      apply linesEqLP_set_self
      · exact linesEqP_refl_of_pwf kf (hc + 2) (PTree.pstem pcs) (by
          simp only [pwf, Bool.and_eq_true]
          exact ⟨hwfP.1, hwfP.2⟩)
      · exact linesEqP_refl_of_pwf kf (hc + 1) _ hwfMerged
    -- the tree handed to the recursive call, under both `elem` cases
    have hkey : ∀ (t2 : PTree α), pwf kf H t2 = true → pfill H t2 = true →
        linesEqP H (pModifyNodeAt
          (fun par => PTree.pstem ((stemChildren par).set 0 ((pcs.getD 0 (pgdflt α)).1,
            PTree.pstem (nodeCs.eraseIdx elem ++ nextCs)))) t (ipath.take d)) t2 →
        (pEraseNode t2 ipath d 1).2 ≤ 1
        ∧ pLines (H - (pEraseNode t2 ipath d 1).2) (pEraseNode t2 ipath d 1).1
            = pLines H (pModifyNodeAt (eraseEntry elem) t (ipath.take (d + 1)))
        ∧ pwf kf (H - (pEraseNode t2 ipath d 1).2) (pEraseNode t2 ipath d 1).1 = true
        ∧ pfill (H - (pEraseNode t2 ipath d 1).2) (pEraseNode t2 ipath d 1).1 = true := by
      intro t2 ht2wf' ht2fill' hle
      have hokT1 : ipathOK (pModifyNodeAt
          (fun par => PTree.pstem ((stemChildren par).set 0 ((pcs.getD 0 (pgdflt α)).1,
            PTree.pstem (nodeCs.eraseIdx elem ++ nextCs)))) t (ipath.take d))
          (ipath.take d) = true := ipathOK_pModifyNodeAt _ _ t hokd
      have hokT2 : ipathOK t2 (ipath.take d) = true :=
        linesEqP_ipathOK (ipath.take d) H _ t2 hle (by rw [hltd]; omega) hokT1
      have hlenT2 : 1 < (stemChildren (pNodeAt t2 (ipath.take d))).length := by
        have hsub := linesEqP_pNodeAt (ipath.take d) H _ t2 hle hokT1
          (by rw [hltd]; omega)
        rw [hltd, hhc] at hsub
        have := linesEqP_stemLen (hc + 1) _ _ hsub
        rw [← this]
        rw [pNodeAt_pModifyNodeAt _ _ t hokd, hP]
        show 1 < (pcs.set 0 ((pcs.getD 0 (pgdflt α)).1,
          PTree.pstem (nodeCs.eraseIdx elem ++ nextCs))).length
        rw [List.length_set]; omega
      have hspec := ih t2 1 H ⟨ht2wf', ht2fill', by omega, by omega, hokT2, hlenT2⟩
      simp only [eraseSpec] at hspec
      refine ⟨hspec.1, ?_, hspec.2.2.1, hspec.2.2.2⟩
      rw [hspec.2.1]
      -- replace `t2` by the un-rekeyed tree
      have hstep1 : pLines H (pModifyNodeAt (eraseEntry 1) t2 (ipath.take d))
          = pLines H (pModifyNodeAt (eraseEntry 1)
            (pModifyNodeAt (fun par => PTree.pstem ((stemChildren par).set 0
              ((pcs.getD 0 (pgdflt α)).1,
               PTree.pstem (nodeCs.eraseIdx elem ++ nextCs)))) t (ipath.take d))
            (ipath.take d)) := by
        apply Eq.symm
        apply linesEqP_pMod_pLines (ipath.take d) H _ t2 _ hle hokT1
          (by rw [hltd]; omega)
        have hsub := linesEqP_pNodeAt (ipath.take d) H _ t2 hle hokT1
          (by rw [hltd]; omega)
        rw [hltd, hhc] at hsub ⊢
        exact linesEqP_pLines (hc + 2) _ _
          (linesEqP_eraseEntry (hc + 1) _ _ 1 hsub)
      rw [hstep1]
      rw [pModifyNodeAt_comp _ _ _ t hokd]
      rw [htake, pModifyNodeAt_append]
      apply pModifyNodeAt_pLines_congr_h _ _ (ipath.take d) H t hokd
        (by rw [hltd]; omega)
      rw [hltd, hhc, hP]
      show pLines (hc + 2) (.pstem ((pcs.set 0 ((pcs.getD 0 (pgdflt α)).1,
            PTree.pstem (nodeCs.eraseIdx elem ++ nextCs))).eraseIdx 1))
        = pLines (hc + 2) (.pstem (pcs.set 0 ((pcs.getD 0 (pgdflt α)).1,
            eraseEntry elem (pcs.getD 0 (pgdflt α)).2)))
      rw [hpnd]
      show pLines (hc + 2) (.pstem ((pcs.set 0 ((pcs.getD 0 (pgdflt α)).1,
            PTree.pstem (nodeCs.eraseIdx elem ++ nextCs))).eraseIdx 1))
        = pLines (hc + 2) (.pstem (pcs.set 0 ((pcs.getD 0 (pgdflt α)).1,
            PTree.pstem (nodeCs.eraseIdx elem))))
      rw [pLines_stem, pLines_stem, pLinesL_eq_map_join, pLinesL_eq_map_join]
      rw [map_eraseIdx, map_set_eq, map_set_eq]
      have hQ : (pcs.map (fun c => pLines (hc + 1) c.2)).getD 1 []
          = pLinesL (pLines hc) nextCs := by
        rw [map_getD_gen pcs _ _ (pgdflt α) (by omega), hnx]
        exact pLines_stem hc _
      have hmergedLines : pLines (hc + 1) (.pstem (nodeCs.eraseIdx elem ++ nextCs))
          = pLinesL (pLines hc) (nodeCs.eraseIdx elem)
            ++ (pcs.map (fun c => pLines (hc + 1) c.2)).getD 1 [] := by
        rw [hQ, pLines_stem, pLinesL_append]
      rw [hmergedLines]
      rw [show pLines (hc + 1) (.pstem (nodeCs.eraseIdx elem))
        = pLinesL (pLines hc) (nodeCs.eraseIdx elem) from pLines_stem hc _]
      exact join_set_merge_next (pcs.map (fun c => pLines (hc + 1) c.2)) 0
        (by rw [List.length_map]; omega) (pLinesL (pLines hc) (nodeCs.eraseIdx elem))
    simp only [eraseSpec]
    rw [hgoal]
    by_cases he0 : elem = 0
    · rw [if_pos he0]
      exact hkey _ (ht2wf he0) (by
          rw [← linesEqP_pfill H _ _ (linesEqP_pUpdateKey d _ ipath 0 _ H ht1self)]
          exact ht1fill)
        (linesEqP_pUpdateKey d _ ipath 0 _ H ht1self)
    · rw [if_neg he0]
      exact hkey _ (ht1wf he0) ht1fill ht1self

theorem getLast_split : ∀ (l : List β), l ≠ [] →
    ∃ (a : β), l.getLast? = some a ∧ l = l.dropLast ++ [a] := by
  intro l
  induction l with
  | nil => intro h; exact absurd rfl h
  | cons x xs ih =>
    intro _
    cases xs with
    | nil => exact ⟨x, rfl, rfl⟩
    | cons y ys =>
      obtain ⟨a, h1, h2⟩ := ih (by simp)
      refine ⟨a, ?_, ?_⟩
      · rw [List.getLast?_cons_cons]
        exact h1
      · show x :: (y :: ys) = (x :: (y :: ys).dropLast) ++ [a]
        rw [List.cons_append, ← h2]

theorem ipathOK_append_one : ∀ (p : List Nat) (t : PTree α) (i : Nat),
    ipathOK t p = true → i < (stemChildren (pNodeAt t p)).length →
    ipathOK t (p ++ [i]) = true := by
  intro p
  induction p with
  | nil =>
    intro t i _ hi
    cases t with
    | pleaf es =>
      exact absurd hi (by
        show ¬(i < ([] : List (Nat × PTree α)).length)
        simp)
    | pstem cs =>
      simp only [List.nil_append, ipathOK, Bool.and_eq_true, decide_eq_true_eq]
      exact ⟨hi, trivial⟩
  | cons j js ih =>
    intro t i hok hi
    cases t with
    | pleaf es => simp [ipathOK] at hok
    | pstem cs =>
      simp only [ipathOK, Bool.and_eq_true, decide_eq_true_eq] at hok
      simp only [List.cons_append, ipathOK, Bool.and_eq_true, decide_eq_true_eq]
      exact ⟨hok.1, ih _ i hok.2 hi⟩

/-- `erase_node` at a thin stem that borrows the previous sibling's last
entry: both siblings are rewritten in place and the routing key of the
node's entry is updated; no entry disappears. -/
theorem pEraseNode_spec_borrowPrev (kf : α → Nat) (d : Nat) (t : PTree α)
    (ipath : List Nat) (elem H : Nat)
    (hpre : erasePre kf t ipath (d + 1) elem H)
    (hthin : nodeThin (pNodeAt t (ipath.take (d + 1))) = true)
    (h2 : ipath.getD d 0 > 0)
    (h3 : ¬(nodeCount (pNodeAt t (ipath.take (d + 1)))
        + nodeCount ((stemChildren (pNodeAt t (ipath.take d))).getD
            (ipath.getD d 0 - 1) (pgdflt α)).2 ≤ branchout)) :
    eraseSpec kf t ipath (d + 1) elem H := by
  obtain ⟨hwf, hfill, hDH, hlen, hok, helem⟩ := hpre
  have hd_lt : d < ipath.length := by omega
  have htake : ipath.take (d + 1) = ipath.take d ++ [ipath.getD d 0] :=
    take_succ_getD ipath d hd_lt
  have htt : (ipath.take (d + 1)).take d = ipath.take d := by
    rw [List.take_take]; congr 1; omega
  have hltd : (ipath.take d).length = d := by rw [List.length_take]; omega
  have hokd : ipathOK t (ipath.take d) = true := by
    rw [← htt]; exact ipathOK_take _ t hok d
  have hpli : ipath.getD d 0 < (stemChildren (pNodeAt t (ipath.take d))).length := by
    apply ipathOK_append_elem
    rw [← htake]; exact hok
  have hwfP := (pNodeAt_pwf kf (ipath.take d) H t hwf hokd).2
  rw [hltd] at hwfP
  obtain ⟨hc, hhc⟩ : ∃ hc, H - d = hc + 2 := ⟨H - d - 2, by omega⟩
  rw [hhc] at hwfP
  have hflP := pfill_parent_fillL (ipath.take d) H t hfill hokd (by rw [hltd]; omega)
  rw [hltd, show H - d - 1 = hc + 1 from by omega] at hflP
  have h2P := pfill_parent_two (ipath.take d) H t hfill hokd (by rw [hltd]; omega)
  cases hP : pNodeAt t (ipath.take d) with
  | pleaf es => rw [hP] at hwfP; simp [pwf] at hwfP
  | pstem pcs =>
    rw [hP] at hwfP hflP h2P hpli
    have hpli' : ipath.getD d 0 < pcs.length := hpli
    have hflP' : pfillL (pfillSub (hc + 1)) pcs = true := hflP
    have h2P' : 2 ≤ pcs.length := h2P
    simp only [pwf, Bool.and_eq_true] at hwfP
    have hnodeEq : pNodeAt t (ipath.take (d + 1))
        = (pcs.getD (ipath.getD d 0) (pgdflt α)).2 := by
      rw [htake, pNodeAt_append, hP]
      rfl
    have hprevE := pwfL_getD _ _ pcs hwfP.2 (ipath.getD d 0 - 1) (pgdflt α) (by omega)
    have hnodeE := pwfL_getD _ _ pcs hwfP.2 (ipath.getD d 0) (pgdflt α) hpli'
    have hprevF := pfillL_getD _ pcs hflP' (ipath.getD d 0 - 1) (pgdflt α) (by omega)
    have hnodeF := pfillL_getD _ pcs hflP' (ipath.getD d 0) (pgdflt α) hpli'
    cases hpv : (pcs.getD (ipath.getD d 0 - 1) (pgdflt α)).2 with
    | pleaf es2 => rw [hpv] at hprevE; simp [pwf] at hprevE
    | pstem prevCs =>
    cases hpnd : (pcs.getD (ipath.getD d 0) (pgdflt α)).2 with
    | pleaf es3 => rw [hpnd] at hnodeE; simp [pwf] at hnodeE
    | pstem nodeCs =>
    rw [hpv] at hprevE hprevF
    rw [hpnd] at hnodeE hnodeF
    rw [hnodeEq, hpnd] at helem
    have helem' : elem < nodeCs.length := helem
    have hthinN : nodeCs.length < minCount := by
      have := hthin
      rw [hnodeEq, hpnd] at this
      simpa [nodeThin, nodeCount] using this
    have hcounts : ¬(nodeCs.length + prevCs.length ≤ branchout) := by
      have := h3
      rw [hnodeEq, hpnd, hP] at this
      simp only [stemChildren] at this
      rw [hpv] at this
      simpa [nodeCount] using this
    have h7 : minCount = 7 := by decide
    have h15 : branchout = 15 := by decide
    have hprevFc : minCount - 1 ≤ prevCs.length ∧ pfillL (pfillSub hc) prevCs = true := by
      simpa [pfillSub, Bool.and_eq_true] using hprevF
    have hnodeFc : minCount - 1 ≤ nodeCs.length ∧ pfillL (pfillSub hc) nodeCs = true := by
      simpa [pfillSub, Bool.and_eq_true] using hnodeF
    have hwfPrev : pwf kf (hc + 1) (.pstem prevCs) = true := hprevE.1
    have hwfNode : pwf kf (hc + 1) (.pstem nodeCs) = true := hnodeE.1
    have hprevlen : 2 ≤ prevCs.length := by omega
    obtain ⟨pLast, hgl, hsplit⟩ := getLast_split prevCs (by intro hx; rw [hx] at hprevlen; simp at hprevlen)
    have hlerase : (nodeCs.eraseIdx elem).length = nodeCs.length - 1 :=
      length_eraseIdx_lt nodeCs elem helem'
    have hldrop : prevCs.dropLast.length = prevCs.length - 1 := by
      rw [List.length_dropLast]
    -- split facts for the donor
    have hwfPrevL : pwfL (pwf kf hc) (pMinKeyOf kf hc) prevCs = true := by
      simp only [pwf, Bool.and_eq_true] at hwfPrev
      exact hwfPrev.2
    have hwfDLlast : pwfL (pwf kf hc) (pMinKeyOf kf hc) prevCs.dropLast = true
        ∧ pwfL (pwf kf hc) (pMinKeyOf kf hc) [pLast] = true := by
      have hthis := hwfPrevL
      rw [hsplit, pwfL_append, Bool.and_eq_true] at hthis
      exact hthis
    have hfillDL : pfillL (pfillSub hc) prevCs.dropLast = true
        ∧ pfillL (pfillSub hc) [pLast] = true := by
      have hthis := hprevFc.2
      rw [hsplit, pfillL_append, Bool.and_eq_true] at hthis
      exact hthis
    have hwfLast : pwf kf hc pLast.2 = true ∧ pLast.1 = pMinKeyOf kf hc pLast.2 := by
      have := hwfDLlast.2
      simp only [pwfL, Bool.and_eq_true, beq_iff_eq] at this
      exact ⟨this.1.1, this.1.2⟩
    -- the rewritten siblings
    have hwfPrev' : pwf kf (hc + 1) (.pstem prevCs.dropLast) = true := by
      simp only [pwf, Bool.and_eq_true]
      refine ⟨not_isEmpty_of_length_pos _ (by omega), hwfDLlast.1⟩
    have hwfNode' : pwf kf (hc + 1) (.pstem (pLast :: nodeCs.eraseIdx elem)) = true := by
      simp only [pwf, Bool.and_eq_true]
      refine ⟨by simp, ?_⟩
      simp only [pwfL, Bool.and_eq_true, beq_iff_eq]
      refine ⟨⟨hwfLast.1, hwfLast.2⟩, ?_⟩
      simp only [pwf, Bool.and_eq_true] at hwfNode
      exact pwfL_eraseIdx _ _ nodeCs elem hwfNode.2
    have hfillPrev' : pfillSub (hc + 1) (.pstem prevCs.dropLast) = true := by
      simp only [pfillSub, Bool.and_eq_true, decide_eq_true_eq]
      refine ⟨?_, hfillDL.1⟩
      show minCount - 1 ≤ prevCs.dropLast.length
      omega
    have hfillNode' : pfillSub (hc + 1) (.pstem (pLast :: nodeCs.eraseIdx elem)) = true := by
      simp only [pfillSub, Bool.and_eq_true, decide_eq_true_eq]
      constructor
      · show minCount - 1 ≤ (pLast :: nodeCs.eraseIdx elem).length
        simp only [List.length_cons]
        omega
      · show pfillL (pfillSub hc) (pLast :: nodeCs.eraseIdx elem) = true
        simp only [pfillL, Bool.and_eq_true]
        have := hfillDL.2
        simp only [pfillL, Bool.and_eq_true] at this
        exact ⟨this.1, pfillL_eraseIdx _ nodeCs elem hnodeFc.2⟩
    -- minimum keys of the rewritten siblings
    have hminPrev' : pMinKeyOf kf (hc + 1) (.pstem prevCs.dropLast)
        = pMinKeyOf kf (hc + 1) (.pstem prevCs) := by
      match prevCs, hprevlen, hsplit, hwfPrevL with
      | p0 :: p1 :: prest, _, hsplit, hwfPrevL =>
        have hw0 : pwf kf hc p0.2 = true := by
          simp only [pwfL, Bool.and_eq_true] at hwfPrevL
          exact hwfPrevL.1.1
        show pMinKeyOf kf (hc + 1) (.pstem (p0 :: (p1 :: prest).dropLast)) = _
        rw [pMinKeyOf_stem_cons kf hc p0 _ (eJoin_ne_nil kf hc _ hw0)]
        rw [pMinKeyOf_stem_cons kf hc p0 _ (eJoin_ne_nil kf hc _ hw0)]
    have hminNode' : pMinKeyOf kf (hc + 1) (.pstem (pLast :: nodeCs.eraseIdx elem))
        = pMinKeyOf kf hc pLast.2 :=
      pMinKeyOf_stem_cons kf hc pLast _ (eJoin_ne_nil kf hc _ hwfLast.1)
    -- reduce the result term
    obtain ⟨e1, he1⟩ : ∃ e1, ipath.getD d 0 = e1 + 1 := ⟨ipath.getD d 0 - 1, by omega⟩
    have hgoal : pEraseNode t ipath (d + 1) elem
        = (pModifyNodeAt (stemSetKeyNode (ipath.getD d 0)
            (stemMinKey (PTree.pstem (pLast :: nodeCs.eraseIdx elem))))
            (pModifyNodeAt (fun par => PTree.pstem
              (((stemChildren par).set (ipath.getD d 0 - 1)
                ((pcs.getD (ipath.getD d 0 - 1) (pgdflt α)).1,
                 PTree.pstem prevCs.dropLast)).set (ipath.getD d 0)
                ((pcs.getD (ipath.getD d 0) (pgdflt α)).1,
                 PTree.pstem (pLast :: nodeCs.eraseIdx elem))))
              t (ipath.take d)) (ipath.take d), 0) := by
      rw [pEraseNode_eq_borrowPrev t ipath d elem hthin h2 h3]
      rw [hnodeEq, hpnd, hP]
      simp only [stemChildren]
      rw [hpv]
      simp only [stemChildren, lineBorrowPrevErase, lineBorrowPrevDonor, hgl]
      rw [he1]
      cases d with
      | zero => rfl
      | succ d' => rfl
    -- the final tree as a single modification of the parent
    have hfinal : pModifyNodeAt (stemSetKeyNode (ipath.getD d 0)
          (stemMinKey (PTree.pstem (pLast :: nodeCs.eraseIdx elem))))
          (pModifyNodeAt (fun par => PTree.pstem
            (((stemChildren par).set (ipath.getD d 0 - 1)
              ((pcs.getD (ipath.getD d 0 - 1) (pgdflt α)).1,
               PTree.pstem prevCs.dropLast)).set (ipath.getD d 0)
              ((pcs.getD (ipath.getD d 0) (pgdflt α)).1,
               PTree.pstem (pLast :: nodeCs.eraseIdx elem))))
            t (ipath.take d)) (ipath.take d)
        = pModifyNodeAt (fun _ => PTree.pstem
            ((pcs.set (ipath.getD d 0 - 1)
              ((pcs.getD (ipath.getD d 0 - 1) (pgdflt α)).1,
               PTree.pstem prevCs.dropLast)).set (ipath.getD d 0)
              (stemMinKey (PTree.pstem (pLast :: nodeCs.eraseIdx elem)),
               PTree.pstem (pLast :: nodeCs.eraseIdx elem))))
            t (ipath.take d) := by
      rw [pModifyNodeAt_comp _ _ _ t hokd]
      apply pModifyNodeAt_congr _ _ _ t hokd
      rw [hP]
      show stemSetKeyNode (ipath.getD d 0)
          (stemMinKey (PTree.pstem (pLast :: nodeCs.eraseIdx elem)))
          (PTree.pstem ((pcs.set (ipath.getD d 0 - 1)
            ((pcs.getD (ipath.getD d 0 - 1) (pgdflt α)).1,
             PTree.pstem prevCs.dropLast)).set (ipath.getD d 0)
            ((pcs.getD (ipath.getD d 0) (pgdflt α)).1,
             PTree.pstem (pLast :: nodeCs.eraseIdx elem)))) = _
      show PTree.pstem (((pcs.set (ipath.getD d 0 - 1)
            ((pcs.getD (ipath.getD d 0 - 1) (pgdflt α)).1,
             PTree.pstem prevCs.dropLast)).set (ipath.getD d 0)
            ((pcs.getD (ipath.getD d 0) (pgdflt α)).1,
             PTree.pstem (pLast :: nodeCs.eraseIdx elem))).set (ipath.getD d 0)
            (stemMinKey (PTree.pstem (pLast :: nodeCs.eraseIdx elem)),
             (((pcs.set (ipath.getD d 0 - 1)
               ((pcs.getD (ipath.getD d 0 - 1) (pgdflt α)).1,
                PTree.pstem prevCs.dropLast)).set (ipath.getD d 0)
               ((pcs.getD (ipath.getD d 0) (pgdflt α)).1,
                PTree.pstem (pLast :: nodeCs.eraseIdx elem))).getD
               (ipath.getD d 0) (pgdflt α)).2)) = _
      rw [getD_set_same, if_pos (by rw [List.length_set]; exact hpli'), List.set_set]
    -- well-formedness of the final tree
    have hstemmin : stemMinKey (PTree.pstem (pLast :: nodeCs.eraseIdx elem))
        = pMinKeyOf kf (hc + 1) (.pstem (pLast :: nodeCs.eraseIdx elem)) := by
      rw [show stemMinKey (PTree.pstem (pLast :: nodeCs.eraseIdx elem))
        = nodeMinKey kf (.pstem (pLast :: nodeCs.eraseIdx elem)) from rfl]
      exact nodeMinKey_eq kf (hc + 1) _ hwfNode'
    have hwl1 : pwfL (pwf kf (hc + 1)) (pMinKeyOf kf (hc + 1))
        (pcs.set (ipath.getD d 0 - 1)
          ((pcs.getD (ipath.getD d 0 - 1) (pgdflt α)).1,
           PTree.pstem prevCs.dropLast)) = true := by
      apply pwfL_set _ _ pcs _ _ _ hwfP.2 hwfPrev'
      rw [hminPrev']
      exact hprevE.2
    have hVwf : pwf kf (hc + 2) (.pstem ((pcs.set (ipath.getD d 0 - 1)
        ((pcs.getD (ipath.getD d 0 - 1) (pgdflt α)).1,
         PTree.pstem prevCs.dropLast)).set (ipath.getD d 0)
        (stemMinKey (PTree.pstem (pLast :: nodeCs.eraseIdx elem)),
         PTree.pstem (pLast :: nodeCs.eraseIdx elem)))) = true := by
      simp only [pwf, Bool.and_eq_true]
      refine ⟨not_isEmpty_of_length_pos _
        (by rw [List.length_set, List.length_set]; omega), ?_⟩
      apply pwfL_set _ _ _ _ _ _ hwl1 hwfNode'
      exact hstemmin
    have hVmin : pMinKeyOf kf (hc + 2) (.pstem ((pcs.set (ipath.getD d 0 - 1)
        ((pcs.getD (ipath.getD d 0 - 1) (pgdflt α)).1,
         PTree.pstem prevCs.dropLast)).set (ipath.getD d 0)
        (stemMinKey (PTree.pstem (pLast :: nodeCs.eraseIdx elem)),
         PTree.pstem (pLast :: nodeCs.eraseIdx elem))))
        = pMinKeyOf kf (hc + 2) (.pstem pcs) := by
      rw [pMinKeyOf_set_entry kf (hc + 1) _ _ _ _
        (by rw [List.length_set]; exact hpli') hwl1 hwfNode'
        (by intro hx; omega)]
      apply pMinKeyOf_set_entry kf (hc + 1) pcs _ _ _ (by omega) hwfP.2 hwfPrev'
      intro hi0
      rw [hminPrev', ← hpv, hi0]
    simp only [eraseSpec]
    rw [hgoal, hfinal]
    refine ⟨by show (0:Nat) ≤ 1; omega, ?_, ?_, ?_⟩
    · show pLines (H - 0) _ = _
      rw [Nat.sub_zero]
      rw [htake, pModifyNodeAt_append]
      apply pModifyNodeAt_pLines_congr_h _ _ (ipath.take d) H t hokd
        (by rw [hltd]; omega)
      rw [hltd, hhc, hP]
      show pLines (hc + 2) (.pstem ((pcs.set (ipath.getD d 0 - 1)
          ((pcs.getD (ipath.getD d 0 - 1) (pgdflt α)).1,
           PTree.pstem prevCs.dropLast)).set (ipath.getD d 0)
          (stemMinKey (PTree.pstem (pLast :: nodeCs.eraseIdx elem)),
           PTree.pstem (pLast :: nodeCs.eraseIdx elem))))
        = pLines (hc + 2) (.pstem (pcs.set (ipath.getD d 0)
          ((pcs.getD (ipath.getD d 0) (pgdflt α)).1,
           eraseEntry elem (pcs.getD (ipath.getD d 0) (pgdflt α)).2)))
      rw [hpnd]
      show pLines (hc + 2) (.pstem ((pcs.set (ipath.getD d 0 - 1)
          ((pcs.getD (ipath.getD d 0 - 1) (pgdflt α)).1,
           PTree.pstem prevCs.dropLast)).set (ipath.getD d 0)
          (stemMinKey (PTree.pstem (pLast :: nodeCs.eraseIdx elem)),
           PTree.pstem (pLast :: nodeCs.eraseIdx elem))))
        = pLines (hc + 2) (.pstem (pcs.set (ipath.getD d 0)
          ((pcs.getD (ipath.getD d 0) (pgdflt α)).1,
           PTree.pstem (nodeCs.eraseIdx elem))))
      rw [pLines_stem, pLines_stem, pLinesL_eq_map_join, pLinesL_eq_map_join]
      rw [map_set_eq, map_set_eq, map_set_eq]
      have hMP : (pcs.map (fun c => pLines (hc + 1) c.2)).getD (ipath.getD d 0 - 1) []
          = pLinesL (pLines hc) prevCs.dropLast ++ pLines hc pLast.2 := by
        rw [map_getD_gen pcs _ _ (pgdflt α) (by omega), hpv]
        rw [show pLines (hc + 1) (PTree.pstem prevCs) = pLinesL (pLines hc) prevCs
          from pLines_stem hc _]
        conv_lhs => rw [hsplit]
        rw [pLinesL_append]
        congr 1
        show pLines hc pLast.2 ++ pLinesL (pLines hc) [] = pLines hc pLast.2
        rw [show pLinesL (pLines hc) ([] : List (Nat × PTree α)) = [] from rfl]
        rw [List.append_nil]
      have := join_set_borrow_prev (pcs.map (fun c => pLines (hc + 1) c.2))
        (ipath.getD d 0 - 1)
        (by rw [List.length_map]; omega)
        (pLinesL (pLines hc) prevCs.dropLast)
        (pLines hc pLast.2)
        (pLinesL (pLines hc) (nodeCs.eraseIdx elem))
        hMP
      rw [show ipath.getD d 0 - 1 + 1 = ipath.getD d 0 from by omega] at this
      rw [show pLines (hc + 1) (PTree.pstem prevCs.dropLast)
        = pLinesL (pLines hc) prevCs.dropLast from pLines_stem hc _]
      rw [show pLines (hc + 1) (PTree.pstem (pLast :: nodeCs.eraseIdx elem))
        = pLines hc pLast.2 ++ pLinesL (pLines hc) (nodeCs.eraseIdx elem)
        from pLines_stem hc _]
      rw [show pLines (hc + 1) (PTree.pstem (nodeCs.eraseIdx elem))
        = pLinesL (pLines hc) (nodeCs.eraseIdx elem) from pLines_stem hc _]
      exact this
    · show pwf kf (H - 0) _ = true
      rw [Nat.sub_zero]
      exact (pModifyNodeAt_pwf kf
        (fun _ => PTree.pstem ((pcs.set (ipath.getD d 0 - 1)
          ((pcs.getD (ipath.getD d 0 - 1) (pgdflt α)).1,
           PTree.pstem prevCs.dropLast)).set (ipath.getD d 0)
          (stemMinKey (PTree.pstem (pLast :: nodeCs.eraseIdx elem)),
           PTree.pstem (pLast :: nodeCs.eraseIdx elem))))
        (ipath.take d) H t hwf hokd
        (by rw [hltd, hhc]; exact hVwf)
        (by rw [hltd, hhc, hP]; exact hVmin)).1
    · show pfill (H - 0) _ = true
      rw [Nat.sub_zero]
      apply pModifyNodeAt_pfill_all (ipath.take d) H t
        (fun _ => PTree.pstem ((pcs.set (ipath.getD d 0 - 1)
          ((pcs.getD (ipath.getD d 0 - 1) (pgdflt α)).1,
           PTree.pstem prevCs.dropLast)).set (ipath.getD d 0)
          (stemMinKey (PTree.pstem (pLast :: nodeCs.eraseIdx elem)),
           PTree.pstem (pLast :: nodeCs.eraseIdx elem))))
        hfill hokd (by rw [hltd]; omega)
      · show 2 ≤ ((pcs.set (ipath.getD d 0 - 1)
          ((pcs.getD (ipath.getD d 0 - 1) (pgdflt α)).1,
           PTree.pstem prevCs.dropLast)).set (ipath.getD d 0)
          (stemMinKey (PTree.pstem (pLast :: nodeCs.eraseIdx elem)),
           PTree.pstem (pLast :: nodeCs.eraseIdx elem))).length
        rw [List.length_set, List.length_set]; omega
      · intro hne
        have hsubf := pfill_pNodeAt_ne (ipath.take d) H t hne hfill hokd
          (by rw [hltd]; omega)
        rw [hltd, hP, show H - d = (hc + 1) + 1 from by omega] at hsubf
        simp only [pfillSub, Bool.and_eq_true, decide_eq_true_eq] at hsubf
        have hpcslen : minCount - 1 ≤ pcs.length := by
          have := hsubf.1
          simpa [stemChildren] using this
        show minCount - 1 ≤ ((pcs.set (ipath.getD d 0 - 1)
          ((pcs.getD (ipath.getD d 0 - 1) (pgdflt α)).1,
           PTree.pstem prevCs.dropLast)).set (ipath.getD d 0)
          (stemMinKey (PTree.pstem (pLast :: nodeCs.eraseIdx elem)),
           PTree.pstem (pLast :: nodeCs.eraseIdx elem))).length
        rw [List.length_set, List.length_set]
        omega
      · rw [hltd, show H - d - 1 = hc + 1 from by omega]
        show pfillL (pfillSub (hc + 1)) ((pcs.set (ipath.getD d 0 - 1)
          ((pcs.getD (ipath.getD d 0 - 1) (pgdflt α)).1,
           PTree.pstem prevCs.dropLast)).set (ipath.getD d 0)
          (stemMinKey (PTree.pstem (pLast :: nodeCs.eraseIdx elem)),
           PTree.pstem (pLast :: nodeCs.eraseIdx elem))) = true
        apply pfillL_set
        · exact pfillL_set _ pcs _ _ _ hflP' hfillPrev'
        · exact hfillNode'

theorem pUpdateKey_succ_elem (t : PTree α) (ipath : List Nat) (D e nk : Nat) :
    pUpdateKey t ipath D (e + 1) nk
      = pModifyNodeAt (stemSetKeyNode (e + 1) nk) t (ipath.take D) := by
  cases D with
  | zero => rfl
  | succ D => rfl

/-- `erase_node` at a thin leftmost stem that borrows the next sibling's
first entry: both siblings are rewritten in place and the two affected
routing keys are updated; no entry disappears. -/
theorem pEraseNode_spec_borrowNext (kf : α → Nat) (d : Nat) (t : PTree α)
    (ipath : List Nat) (elem H : Nat)
    (hpre : erasePre kf t ipath (d + 1) elem H)
    (hthin : nodeThin (pNodeAt t (ipath.take (d + 1))) = true)
    (h2 : ¬(ipath.getD d 0 > 0))
    (h3 : ¬(nodeCount (pNodeAt t (ipath.take (d + 1)))
        + nodeCount ((stemChildren (pNodeAt t (ipath.take d))).getD
            (ipath.getD d 0 + 1) (pgdflt α)).2 ≤ branchout)) :
    eraseSpec kf t ipath (d + 1) elem H := by
  obtain ⟨hwf, hfill, hDH, hlen, hok, helem⟩ := hpre
  have hpl0 : ipath.getD d 0 = 0 := by omega
  have hd_lt : d < ipath.length := by omega
  have htake : ipath.take (d + 1) = ipath.take d ++ [0] := by
    rw [take_succ_getD ipath d hd_lt, hpl0]
  have htt : (ipath.take (d + 1)).take d = ipath.take d := by
    rw [List.take_take]; congr 1; omega
  have hltd : (ipath.take d).length = d := by rw [List.length_take]; omega
  have hokd : ipathOK t (ipath.take d) = true := by
    rw [← htt]; exact ipathOK_take _ t hok d
  have hwfP := (pNodeAt_pwf kf (ipath.take d) H t hwf hokd).2
  rw [hltd] at hwfP
  obtain ⟨hc, hhc⟩ : ∃ hc, H - d = hc + 2 := ⟨H - d - 2, by omega⟩
  rw [hhc] at hwfP
  have hflP := pfill_parent_fillL (ipath.take d) H t hfill hokd (by rw [hltd]; omega)
  rw [hltd, show H - d - 1 = hc + 1 from by omega] at hflP
  have h2P := pfill_parent_two (ipath.take d) H t hfill hokd (by rw [hltd]; omega)
  cases hP : pNodeAt t (ipath.take d) with
  | pleaf es => rw [hP] at hwfP; simp [pwf] at hwfP
  | pstem pcs =>
    rw [hP] at hwfP hflP h2P
    have hflP' : pfillL (pfillSub (hc + 1)) pcs = true := hflP
    have h2P' : 2 ≤ pcs.length := h2P
    simp only [pwf, Bool.and_eq_true] at hwfP
    have hnodeEq : pNodeAt t (ipath.take (d + 1))
        = (pcs.getD 0 (pgdflt α)).2 := by
      rw [htake, pNodeAt_append, hP]
      rfl
    have hnodeE := pwfL_getD _ _ pcs hwfP.2 0 (pgdflt α) (by omega)
    have hnextE := pwfL_getD _ _ pcs hwfP.2 1 (pgdflt α) (by omega)
    have hnodeF := pfillL_getD _ pcs hflP' 0 (pgdflt α) (by omega)
    have hnextF := pfillL_getD _ pcs hflP' 1 (pgdflt α) (by omega)
    cases hpnd : (pcs.getD 0 (pgdflt α)).2 with
    | pleaf es3 => rw [hpnd] at hnodeE; simp [pwf] at hnodeE
    | pstem nodeCs =>
    cases hnx : (pcs.getD 1 (pgdflt α)).2 with
    | pleaf es2 => rw [hnx] at hnextE; simp [pwf] at hnextE
    | pstem nextCs =>
    rw [hpnd] at hnodeE hnodeF
    rw [hnx] at hnextE hnextF
    rw [hnodeEq, hpnd] at helem
    have helem' : elem < nodeCs.length := helem
    have hthinN : nodeCs.length < minCount := by
      have := hthin
      rw [hnodeEq, hpnd] at this
      simpa [nodeThin, nodeCount] using this
    have hcounts : ¬(nodeCs.length + nextCs.length ≤ branchout) := by
      have := h3
      rw [hnodeEq, hpnd, hP] at this
      simp only [stemChildren, hpl0] at this
      rw [hnx] at this
      simpa [nodeCount] using this
    have h7 : minCount = 7 := by decide
    have h15 : branchout = 15 := by decide
    have hnodeFc : minCount - 1 ≤ nodeCs.length ∧ pfillL (pfillSub hc) nodeCs = true := by
      simpa [pfillSub, Bool.and_eq_true] using hnodeF
    have hnextFc : minCount - 1 ≤ nextCs.length ∧ pfillL (pfillSub hc) nextCs = true := by
      simpa [pfillSub, Bool.and_eq_true] using hnextF
    have hwfNode : pwf kf (hc + 1) (.pstem nodeCs) = true := hnodeE.1
    have hwfNext : pwf kf (hc + 1) (.pstem nextCs) = true := hnextE.1
    have hnextlen : 10 ≤ nextCs.length := by omega
    have hlerase : (nodeCs.eraseIdx elem).length = nodeCs.length - 1 :=
      length_eraseIdx_lt nodeCs elem helem'
    have hltake1 : (nextCs.take 1).length = 1 := by
      rw [List.length_take]; omega
    have hldrop1 : (nextCs.drop 1).length = nextCs.length - 1 := by
      rw [List.length_drop]
    have hwfNextL : pwfL (pwf kf hc) (pMinKeyOf kf hc) nextCs = true := by
      simp only [pwf, Bool.and_eq_true] at hwfNext
      exact hwfNext.2
    have hwfNodeL : pwfL (pwf kf hc) (pMinKeyOf kf hc) nodeCs = true := by
      simp only [pwf, Bool.and_eq_true] at hwfNode
      exact hwfNode.2
    -- the rewritten siblings
    have hwfNode' : pwf kf (hc + 1)
        (.pstem (nodeCs.eraseIdx elem ++ nextCs.take 1)) = true := by
      simp only [pwf, Bool.and_eq_true]
      refine ⟨not_isEmpty_of_length_pos _
        (by rw [List.length_append]; omega), ?_⟩
      rw [pwfL_append, Bool.and_eq_true]
      exact ⟨pwfL_eraseIdx _ _ nodeCs elem hwfNodeL,
        pwfL_take _ _ nextCs hwfNextL 1⟩
    have hwfNext' : pwf kf (hc + 1) (.pstem (nextCs.drop 1)) = true := by
      simp only [pwf, Bool.and_eq_true]
      refine ⟨not_isEmpty_of_length_pos _ (by omega), ?_⟩
      exact pwfL_drop _ _ nextCs hwfNextL 1
    have hfillNode' : pfillSub (hc + 1)
        (.pstem (nodeCs.eraseIdx elem ++ nextCs.take 1)) = true := by
      simp only [pfillSub, Bool.and_eq_true, decide_eq_true_eq]
      constructor
      · show minCount - 1 ≤ (nodeCs.eraseIdx elem ++ nextCs.take 1).length
        rw [List.length_append]; omega
      · show pfillL (pfillSub hc) (nodeCs.eraseIdx elem ++ nextCs.take 1) = true
        rw [pfillL_append, Bool.and_eq_true]
        exact ⟨pfillL_eraseIdx _ nodeCs elem hnodeFc.2,
          pfillL_take _ nextCs hnextFc.2 1⟩
    have hfillNext' : pfillSub (hc + 1) (.pstem (nextCs.drop 1)) = true := by
      simp only [pfillSub, Bool.and_eq_true, decide_eq_true_eq]
      constructor
      · show minCount - 1 ≤ (nextCs.drop 1).length
        omega
      · exact pfillL_drop _ nextCs hnextFc.2 1
    have hminNode' : elem ≠ 0 →
        pMinKeyOf kf (hc + 1) (.pstem (nodeCs.eraseIdx elem ++ nextCs.take 1))
          = pMinKeyOf kf (hc + 1) (.pstem nodeCs) := by
      intro he0
      match nodeCs, helem', hwfNodeL, elem, he0 with
      | n0 :: rest, _, hwfNodeL, e + 1, _ =>
        have hw0 : pwf kf hc n0.2 = true := by
          simp only [pwfL, Bool.and_eq_true] at hwfNodeL
          exact hwfNodeL.1.1
        show pMinKeyOf kf (hc + 1)
          (.pstem (n0 :: (rest.eraseIdx e ++ nextCs.take 1))) = _
        rw [pMinKeyOf_stem_cons kf hc n0 _ (eJoin_ne_nil kf hc _ hw0)]
        rw [pMinKeyOf_stem_cons kf hc n0 rest (eJoin_ne_nil kf hc _ hw0)]
    have hstem2 : stemMinKey (PTree.pstem (nextCs.drop 1))
        = pMinKeyOf kf (hc + 1) (.pstem (nextCs.drop 1)) := by
      rw [show stemMinKey (PTree.pstem (nextCs.drop 1))
        = nodeMinKey kf (.pstem (nextCs.drop 1)) from rfl]
      exact nodeMinKey_eq kf (hc + 1) _ hwfNext'
    have hstem3 : stemMinKey (PTree.pstem (nodeCs.eraseIdx elem ++ nextCs.take 1))
        = pMinKeyOf kf (hc + 1) (.pstem (nodeCs.eraseIdx elem ++ nextCs.take 1)) := by
      rw [show stemMinKey (PTree.pstem (nodeCs.eraseIdx elem ++ nextCs.take 1))
        = nodeMinKey kf (.pstem (nodeCs.eraseIdx elem ++ nextCs.take 1)) from rfl]
      exact nodeMinKey_eq kf (hc + 1) _ hwfNode'
    -- reduce the result term
    have hgoal : pEraseNode t ipath (d + 1) elem
        = ((if elem = 0 then
            pUpdateKey
              (pUpdateKey (pModifyNodeAt (fun par => PTree.pstem
                (((stemChildren par).set 0 ((pcs.getD 0 (pgdflt α)).1,
                  PTree.pstem (nodeCs.eraseIdx elem ++ nextCs.take 1))).set 1
                  ((pcs.getD 1 (pgdflt α)).1, PTree.pstem (nextCs.drop 1))))
                t (ipath.take d)) ipath d 1
                (stemMinKey (PTree.pstem (nextCs.drop 1))))
              ipath d 0
              (stemMinKey (PTree.pstem (nodeCs.eraseIdx elem ++ nextCs.take 1)))
          else
            pUpdateKey (pModifyNodeAt (fun par => PTree.pstem
              (((stemChildren par).set 0 ((pcs.getD 0 (pgdflt α)).1,
                PTree.pstem (nodeCs.eraseIdx elem ++ nextCs.take 1))).set 1
                ((pcs.getD 1 (pgdflt α)).1, PTree.pstem (nextCs.drop 1))))
              t (ipath.take d)) ipath d 1
              (stemMinKey (PTree.pstem (nextCs.drop 1)))), 0) := by
      rw [pEraseNode_eq_borrowNext t ipath d elem hthin h2 h3]
      rw [hnodeEq, hpnd, hP]
      simp only [stemChildren, hpl0]
      rw [hnx]
      simp only [stemChildren, lineBorrowNextErase, lineBorrowNextDonor]
    -- the once-updated tree as a single parent modification
    have ht2eq : pUpdateKey (pModifyNodeAt (fun par => PTree.pstem
          (((stemChildren par).set 0 ((pcs.getD 0 (pgdflt α)).1,
            PTree.pstem (nodeCs.eraseIdx elem ++ nextCs.take 1))).set 1
            ((pcs.getD 1 (pgdflt α)).1, PTree.pstem (nextCs.drop 1))))
          t (ipath.take d)) ipath d 1
          (stemMinKey (PTree.pstem (nextCs.drop 1)))
        = pModifyNodeAt (fun _ => PTree.pstem
            ((pcs.set 0 ((pcs.getD 0 (pgdflt α)).1,
              PTree.pstem (nodeCs.eraseIdx elem ++ nextCs.take 1))).set 1
              (stemMinKey (PTree.pstem (nextCs.drop 1)),
               PTree.pstem (nextCs.drop 1))))
            t (ipath.take d) := by
      rw [show (1 : Nat) = 0 + 1 from rfl, pUpdateKey_succ_elem]
      rw [pModifyNodeAt_comp _ _ _ t hokd]
      apply pModifyNodeAt_congr _ _ _ t hokd
      rw [hP]
      show PTree.pstem (((pcs.set 0 ((pcs.getD 0 (pgdflt α)).1,
            PTree.pstem (nodeCs.eraseIdx elem ++ nextCs.take 1))).set 1
            ((pcs.getD 1 (pgdflt α)).1, PTree.pstem (nextCs.drop 1))).set (0 + 1)
            (stemMinKey (PTree.pstem (nextCs.drop 1)),
             (((pcs.set 0 ((pcs.getD 0 (pgdflt α)).1,
               PTree.pstem (nodeCs.eraseIdx elem ++ nextCs.take 1))).set 1
               ((pcs.getD 1 (pgdflt α)).1, PTree.pstem (nextCs.drop 1))).getD (0 + 1)
               (pgdflt α)).2)) = _
      rw [getD_set_same, if_pos (by rw [List.length_set]; omega), List.set_set]
    -- well-formedness pieces for the final tree
    have hwl1 : pwfL (pwf kf (hc + 1)) (pMinKeyOf kf (hc + 1))
        (pcs.set 0 ((pcs.getD 0 (pgdflt α)).1,
          PTree.pstem (nodeCs.eraseIdx elem ++ nextCs.take 1))) = true → True := fun _ => trivial
    have ht2wf : elem ≠ 0 → pwf kf H (pModifyNodeAt (fun _ => PTree.pstem
          ((pcs.set 0 ((pcs.getD 0 (pgdflt α)).1,
            PTree.pstem (nodeCs.eraseIdx elem ++ nextCs.take 1))).set 1
            (stemMinKey (PTree.pstem (nextCs.drop 1)),
             PTree.pstem (nextCs.drop 1))))
          t (ipath.take d)) = true := by
      intro he0
      refine (pModifyNodeAt_pwf kf _ (ipath.take d) H t hwf hokd
        (by
          rw [hltd, hhc]
          show pwf kf (hc + 2) (.pstem ((pcs.set 0 ((pcs.getD 0 (pgdflt α)).1,
            PTree.pstem (nodeCs.eraseIdx elem ++ nextCs.take 1))).set 1
            (stemMinKey (PTree.pstem (nextCs.drop 1)),
             PTree.pstem (nextCs.drop 1)))) = true
          simp only [pwf, Bool.and_eq_true]
          refine ⟨not_isEmpty_of_length_pos _
            (by rw [List.length_set, List.length_set]; omega), ?_⟩
          apply pwfL_set _ _ _ _ _ _ ?_ hwfNext' hstem2
          apply pwfL_set _ _ pcs _ _ _ hwfP.2 hwfNode'
          rw [hminNode' he0]
          exact hnodeE.2
        )
        (by
          rw [hltd, hhc, hP]
          show pMinKeyOf kf (hc + 2) (.pstem ((pcs.set 0 ((pcs.getD 0 (pgdflt α)).1,
            PTree.pstem (nodeCs.eraseIdx elem ++ nextCs.take 1))).set 1
            (stemMinKey (PTree.pstem (nextCs.drop 1)),
             PTree.pstem (nextCs.drop 1))))
            = pMinKeyOf kf (hc + 2) (.pstem pcs)
          rw [pMinKeyOf_set_entry kf (hc + 1) _ _ _ _
            (by rw [List.length_set]; omega)
            (by
              apply pwfL_set _ _ pcs _ _ _ hwfP.2 hwfNode'
              rw [hminNode' he0]
              exact hnodeE.2)
            hwfNext' (by intro hx; omega)]
          apply pMinKeyOf_set_entry kf (hc + 1) pcs _ _ _ (by omega) hwfP.2 hwfNode'
          intro _
          rw [hminNode' he0, ← hpnd]
        )).1
    -- fill of the once-updated tree (independent of `elem`)
    have ht2fill : pfill H (pModifyNodeAt (fun _ => PTree.pstem
          ((pcs.set 0 ((pcs.getD 0 (pgdflt α)).1,
            PTree.pstem (nodeCs.eraseIdx elem ++ nextCs.take 1))).set 1
            (stemMinKey (PTree.pstem (nextCs.drop 1)),
             PTree.pstem (nextCs.drop 1))))
          t (ipath.take d)) = true := by
      apply pModifyNodeAt_pfill_all (ipath.take d) H t _ hfill hokd
        (by rw [hltd]; omega)
      · show 2 ≤ ((pcs.set 0 ((pcs.getD 0 (pgdflt α)).1,
          PTree.pstem (nodeCs.eraseIdx elem ++ nextCs.take 1))).set 1
          (stemMinKey (PTree.pstem (nextCs.drop 1)),
           PTree.pstem (nextCs.drop 1))).length
        rw [List.length_set, List.length_set]; omega
      · intro hne
        have hsubf := pfill_pNodeAt_ne (ipath.take d) H t hne hfill hokd
          (by rw [hltd]; omega)
        rw [hltd, hP, show H - d = (hc + 1) + 1 from by omega] at hsubf
        simp only [pfillSub, Bool.and_eq_true, decide_eq_true_eq] at hsubf
        have hpcslen : minCount - 1 ≤ pcs.length := by
          have := hsubf.1
          simpa [stemChildren] using this
        show minCount - 1 ≤ ((pcs.set 0 ((pcs.getD 0 (pgdflt α)).1,
          PTree.pstem (nodeCs.eraseIdx elem ++ nextCs.take 1))).set 1
          (stemMinKey (PTree.pstem (nextCs.drop 1)),
           PTree.pstem (nextCs.drop 1))).length
        rw [List.length_set, List.length_set]
        omega
      · rw [hltd, show H - d - 1 = hc + 1 from by omega]
        show pfillL (pfillSub (hc + 1)) ((pcs.set 0 ((pcs.getD 0 (pgdflt α)).1,
          PTree.pstem (nodeCs.eraseIdx elem ++ nextCs.take 1))).set 1
          (stemMinKey (PTree.pstem (nextCs.drop 1)),
           PTree.pstem (nextCs.drop 1))) = true
        apply pfillL_set
        · exact pfillL_set _ pcs _ _ _ hflP' hfillNode'
        · exact hfillNext'
    -- structural self-congruence of the once-updated tree
    have ht2self : linesEqP H (pModifyNodeAt (fun _ => PTree.pstem
          ((pcs.set 0 ((pcs.getD 0 (pgdflt α)).1,
            PTree.pstem (nodeCs.eraseIdx elem ++ nextCs.take 1))).set 1
            (stemMinKey (PTree.pstem (nextCs.drop 1)),
             PTree.pstem (nextCs.drop 1))))
          t (ipath.take d))
        (pModifyNodeAt (fun _ => PTree.pstem
          ((pcs.set 0 ((pcs.getD 0 (pgdflt α)).1,
            PTree.pstem (nodeCs.eraseIdx elem ++ nextCs.take 1))).set 1
            (stemMinKey (PTree.pstem (nextCs.drop 1)),
             PTree.pstem (nextCs.drop 1))))
          t (ipath.take d)) := by
      apply linesEqP_pMod_self _ H t _ (linesEqP_refl_of_pwf kf H t hwf) hokd
        (by rw [hltd]; omega)
      rw [hltd, hhc]
      show linesEqP (hc + 2) (.pstem ((pcs.set 0 ((pcs.getD 0 (pgdflt α)).1,
          PTree.pstem (nodeCs.eraseIdx elem ++ nextCs.take 1))).set 1
          (stemMinKey (PTree.pstem (nextCs.drop 1)), PTree.pstem (nextCs.drop 1))))
        (.pstem ((pcs.set 0 ((pcs.getD 0 (pgdflt α)).1,
          PTree.pstem (nodeCs.eraseIdx elem ++ nextCs.take 1))).set 1
          (stemMinKey (PTree.pstem (nextCs.drop 1)), PTree.pstem (nextCs.drop 1))))
      show linesEqLP (linesEqP (hc + 1)) ((pcs.set 0 ((pcs.getD 0 (pgdflt α)).1,
          PTree.pstem (nodeCs.eraseIdx elem ++ nextCs.take 1))).set 1
          (stemMinKey (PTree.pstem (nextCs.drop 1)), PTree.pstem (nextCs.drop 1)))
        ((pcs.set 0 ((pcs.getD 0 (pgdflt α)).1,
          PTree.pstem (nodeCs.eraseIdx elem ++ nextCs.take 1))).set 1
          (stemMinKey (PTree.pstem (nextCs.drop 1)), PTree.pstem (nextCs.drop 1)))
      apply linesEqLP_set_self
      · apply linesEqLP_set_self
        · exact linesEqP_refl_of_pwf kf (hc + 2) (PTree.pstem pcs) (by
            simp only [pwf, Bool.and_eq_true]
            exact ⟨hwfP.1, hwfP.2⟩)
        · exact linesEqP_refl_of_pwf kf (hc + 1) _ hwfNode'
      · exact linesEqP_refl_of_pwf kf (hc + 1) _ hwfNext'
    -- the donor-side pre-update tree used by the propagation argument
    have hT0wf : pwf kf H (pModifyNodeAt (fun _ => PTree.pstem
          (pcs.set 1 (stemMinKey (PTree.pstem (nextCs.drop 1)),
           PTree.pstem (nextCs.drop 1)))) t (ipath.take d)) = true := by
      refine (pModifyNodeAt_pwf kf _ (ipath.take d) H t hwf hokd
        (by
          rw [hltd, hhc]
          show pwf kf (hc + 2) (.pstem (pcs.set 1
            (stemMinKey (PTree.pstem (nextCs.drop 1)),
             PTree.pstem (nextCs.drop 1)))) = true
          simp only [pwf, Bool.and_eq_true]
          refine ⟨not_isEmpty_of_length_pos _ (by rw [List.length_set]; omega), ?_⟩
          exact pwfL_set _ _ pcs _ _ _ hwfP.2 hwfNext' hstem2
        )
        (by
          rw [hltd, hhc, hP]
          apply pMinKeyOf_set_entry kf (hc + 1) pcs _ _ _ (by omega) hwfP.2 hwfNext'
          intro hx
          omega
        )).1
    have hokT0 : ipathOK (pModifyNodeAt (fun _ => PTree.pstem
          (pcs.set 1 (stemMinKey (PTree.pstem (nextCs.drop 1)),
           PTree.pstem (nextCs.drop 1)))) t (ipath.take d)) (ipath.take d) = true :=
      ipathOK_pModifyNodeAt _ _ t hokd
    have hokT0e : ipathOK (pModifyNodeAt (fun _ => PTree.pstem
          (pcs.set 1 (stemMinKey (PTree.pstem (nextCs.drop 1)),
           PTree.pstem (nextCs.drop 1)))) t (ipath.take d))
          (ipath.take (d + 1)) = true := by
      rw [htake]
      apply ipathOK_append_one _ _ _ hokT0
      rw [pNodeAt_pModifyNodeAt _ _ t hokd]
      show 0 < (pcs.set 1 (stemMinKey (PTree.pstem (nextCs.drop 1)),
        PTree.pstem (nextCs.drop 1))).length
      rw [List.length_set]; omega
    have hT2G : pModifyNodeAt (fun _ => PTree.pstem
          ((pcs.set 0 ((pcs.getD 0 (pgdflt α)).1,
            PTree.pstem (nodeCs.eraseIdx elem ++ nextCs.take 1))).set 1
            (stemMinKey (PTree.pstem (nextCs.drop 1)),
             PTree.pstem (nextCs.drop 1))))
          t (ipath.take d)
        = pModifyNodeAt (fun _ => PTree.pstem (nodeCs.eraseIdx elem ++ nextCs.take 1))
            (pModifyNodeAt (fun _ => PTree.pstem
              (pcs.set 1 (stemMinKey (PTree.pstem (nextCs.drop 1)),
               PTree.pstem (nextCs.drop 1)))) t (ipath.take d))
            (ipath.take (d + 1)) := by
      rw [htake, pModifyNodeAt_append, pModifyNodeAt_comp _ _ _ t hokd]
      apply pModifyNodeAt_congr _ _ _ t hokd
      show PTree.pstem ((pcs.set 0 ((pcs.getD 0 (pgdflt α)).1,
          PTree.pstem (nodeCs.eraseIdx elem ++ nextCs.take 1))).set 1
          (stemMinKey (PTree.pstem (nextCs.drop 1)),
           PTree.pstem (nextCs.drop 1)))
        = PTree.pstem ((pcs.set 1 (stemMinKey (PTree.pstem (nextCs.drop 1)),
            PTree.pstem (nextCs.drop 1))).set 0
            (((pcs.set 1 (stemMinKey (PTree.pstem (nextCs.drop 1)),
              PTree.pstem (nextCs.drop 1))).getD 0 (pgdflt α)).1,
             PTree.pstem (nodeCs.eraseIdx elem ++ nextCs.take 1)))
      rw [getD_set_of_ne pcs 1 0 _ _ (by omega)]
      exact congrArg PTree.pstem (List.set_comm _ _ pcs (by omega))
    have ht3wf : elem = 0 → pwf kf H
        (pUpdateKey (pModifyNodeAt (fun _ => PTree.pstem
          ((pcs.set 0 ((pcs.getD 0 (pgdflt α)).1,
            PTree.pstem (nodeCs.eraseIdx elem ++ nextCs.take 1))).set 1
            (stemMinKey (PTree.pstem (nextCs.drop 1)),
             PTree.pstem (nextCs.drop 1))))
          t (ipath.take d)) ipath d 0
          (stemMinKey (PTree.pstem (nodeCs.eraseIdx elem ++ nextCs.take 1)))) = true := by
      intro _
      rw [hT2G]
      have hG := pUpdateKey_replace_pwf kf d
        (pModifyNodeAt (fun _ => PTree.pstem
          (pcs.set 1 (stemMinKey (PTree.pstem (nextCs.drop 1)),
           PTree.pstem (nextCs.drop 1)))) t (ipath.take d))
        ipath (PTree.pstem (nodeCs.eraseIdx elem ++ nextCs.take 1))
        (stemMinKey (PTree.pstem (nodeCs.eraseIdx elem ++ nextCs.take 1))) H
        hT0wf hokT0e hlen (by omega)
        (by rw [show H - (d + 1) = hc + 1 from by omega]; exact hwfNode')
        (by rw [show H - (d + 1) = hc + 1 from by omega]; exact hstem3)
      rw [hpl0] at hG
      exact hG
    simp only [eraseSpec]
    rw [hgoal]
    by_cases he0 : elem = 0
    · rw [if_pos he0]
      refine ⟨by show (0:Nat) ≤ 1; omega, ?_, ?_, ?_⟩
      · show pLines (H - 0) _ = _
        rw [Nat.sub_zero, pUpdateKey_pLines, ht2eq]
        rw [htake, pModifyNodeAt_append]
        apply pModifyNodeAt_pLines_congr_h _ _ (ipath.take d) H t hokd
          (by rw [hltd]; omega)
        rw [hltd, hhc, hP]
        show pLines (hc + 2) (.pstem ((pcs.set 0 ((pcs.getD 0 (pgdflt α)).1,
            PTree.pstem (nodeCs.eraseIdx elem ++ nextCs.take 1))).set 1
            (stemMinKey (PTree.pstem (nextCs.drop 1)),
             PTree.pstem (nextCs.drop 1))))
          = pLines (hc + 2) (.pstem (pcs.set 0 ((pcs.getD 0 (pgdflt α)).1,
            eraseEntry elem (pcs.getD 0 (pgdflt α)).2)))
        rw [hpnd]
        show pLines (hc + 2) (.pstem ((pcs.set 0 ((pcs.getD 0 (pgdflt α)).1,
            PTree.pstem (nodeCs.eraseIdx elem ++ nextCs.take 1))).set 1
            (stemMinKey (PTree.pstem (nextCs.drop 1)),
             PTree.pstem (nextCs.drop 1))))
          = pLines (hc + 2) (.pstem (pcs.set 0 ((pcs.getD 0 (pgdflt α)).1,
            PTree.pstem (nodeCs.eraseIdx elem))))
        rw [pLines_stem, pLines_stem, pLinesL_eq_map_join, pLinesL_eq_map_join]
        rw [map_set_eq, map_set_eq, map_set_eq]
        have hQsplit : (pcs.map (fun c => pLines (hc + 1) c.2)).getD 1 []
            = pLinesL (pLines hc) (nextCs.take 1)
              ++ pLinesL (pLines hc) (nextCs.drop 1) := by
          rw [map_getD_gen pcs _ _ (pgdflt α) (by omega), hnx]
          rw [show pLines (hc + 1) (PTree.pstem nextCs)
            = pLinesL (pLines hc) nextCs from pLines_stem hc _]
          conv_lhs => rw [← List.take_append_drop 1 nextCs]
          rw [pLinesL_append]
        have := join_set_borrow_next (pcs.map (fun c => pLines (hc + 1) c.2)) 0
          (by rw [List.length_map]; omega)
          (pLinesL (pLines hc) (nodeCs.eraseIdx elem))
          (pLinesL (pLines hc) (nextCs.take 1))
          (pLinesL (pLines hc) (nextCs.drop 1))
          hQsplit
        rw [show pLines (hc + 1)
            (PTree.pstem (nodeCs.eraseIdx elem ++ nextCs.take 1))
          = pLinesL (pLines hc) (nodeCs.eraseIdx elem)
            ++ pLinesL (pLines hc) (nextCs.take 1) from by
          rw [pLines_stem, pLinesL_append]]
        rw [show pLines (hc + 1) (PTree.pstem (nextCs.drop 1))
          = pLinesL (pLines hc) (nextCs.drop 1) from pLines_stem hc _]
        rw [show pLines (hc + 1) (PTree.pstem (nodeCs.eraseIdx elem))
          = pLinesL (pLines hc) (nodeCs.eraseIdx elem) from pLines_stem hc _]
        exact this
      · show pwf kf (H - 0) _ = true
        rw [Nat.sub_zero]
        have := ht3wf he0
        rw [ht2eq]
        exact this
      · show pfill (H - 0) _ = true
        rw [Nat.sub_zero]
        rw [ht2eq]
        rw [← linesEqP_pfill H _ _ (linesEqP_pUpdateKey d _ ipath 0 _ H ht2self)]
        exact ht2fill
    · rw [if_neg he0]
      refine ⟨by show (0:Nat) ≤ 1; omega, ?_, ?_, ?_⟩
      · show pLines (H - 0) _ = _
        rw [Nat.sub_zero, ht2eq]
        rw [htake, pModifyNodeAt_append]
        apply pModifyNodeAt_pLines_congr_h _ _ (ipath.take d) H t hokd
          (by rw [hltd]; omega)
        rw [hltd, hhc, hP]
        show pLines (hc + 2) (.pstem ((pcs.set 0 ((pcs.getD 0 (pgdflt α)).1,
            PTree.pstem (nodeCs.eraseIdx elem ++ nextCs.take 1))).set 1
            (stemMinKey (PTree.pstem (nextCs.drop 1)),
             PTree.pstem (nextCs.drop 1))))
          = pLines (hc + 2) (.pstem (pcs.set 0 ((pcs.getD 0 (pgdflt α)).1,
            eraseEntry elem (pcs.getD 0 (pgdflt α)).2)))
        rw [hpnd]
        show pLines (hc + 2) (.pstem ((pcs.set 0 ((pcs.getD 0 (pgdflt α)).1,
            PTree.pstem (nodeCs.eraseIdx elem ++ nextCs.take 1))).set 1
            (stemMinKey (PTree.pstem (nextCs.drop 1)),
             PTree.pstem (nextCs.drop 1))))
          = pLines (hc + 2) (.pstem (pcs.set 0 ((pcs.getD 0 (pgdflt α)).1,
            PTree.pstem (nodeCs.eraseIdx elem))))
        rw [pLines_stem, pLines_stem, pLinesL_eq_map_join, pLinesL_eq_map_join]
        rw [map_set_eq, map_set_eq, map_set_eq]
        have hQsplit : (pcs.map (fun c => pLines (hc + 1) c.2)).getD 1 []
            = pLinesL (pLines hc) (nextCs.take 1)
              ++ pLinesL (pLines hc) (nextCs.drop 1) := by
          rw [map_getD_gen pcs _ _ (pgdflt α) (by omega), hnx]
          rw [show pLines (hc + 1) (PTree.pstem nextCs)
            = pLinesL (pLines hc) nextCs from pLines_stem hc _]
          conv_lhs => rw [← List.take_append_drop 1 nextCs]
          rw [pLinesL_append]
        have := join_set_borrow_next (pcs.map (fun c => pLines (hc + 1) c.2)) 0
          (by rw [List.length_map]; omega)
          (pLinesL (pLines hc) (nodeCs.eraseIdx elem))
          (pLinesL (pLines hc) (nextCs.take 1))
          (pLinesL (pLines hc) (nextCs.drop 1))
          hQsplit
        rw [show pLines (hc + 1)
            (PTree.pstem (nodeCs.eraseIdx elem ++ nextCs.take 1))
          = pLinesL (pLines hc) (nodeCs.eraseIdx elem)
            ++ pLinesL (pLines hc) (nextCs.take 1) from by
          rw [pLines_stem, pLinesL_append]]
        rw [show pLines (hc + 1) (PTree.pstem (nextCs.drop 1))
          = pLinesL (pLines hc) (nextCs.drop 1) from pLines_stem hc _]
        rw [show pLines (hc + 1) (PTree.pstem (nodeCs.eraseIdx elem))
          = pLinesL (pLines hc) (nodeCs.eraseIdx elem) from pLines_stem hc _]
        exact this
      · show pwf kf (H - 0) _ = true
        rw [Nat.sub_zero, ht2eq]
        exact ht2wf he0
      · show pfill (H - 0) _ = true
        rw [Nat.sub_zero, ht2eq]
        exact ht2fill

/-- `erase_node` at any valid depth: it removes exactly the addressed entry
(the concatenated lines equal those of the tree with that one entry erased),
shrinks the height by at most one, and preserves well-formedness and the
fill invariants. -/
theorem pEraseNode_spec (kf : α → Nat) (ipath : List Nat) :
    ∀ (D : Nat) (t : PTree α) (elem H : Nat),
    erasePre kf t ipath D elem H → eraseSpec kf t ipath D elem H := by
  intro D
  induction D with
  | zero =>
    intro t elem H hpre
    exact pEraseNode_spec_zero kf t ipath elem H hpre
  | succ d ih =>
    intro t elem H hpre
    cases hthin : nodeThin (pNodeAt t (ipath.take (d + 1))) with
    | false => exact pEraseNode_spec_inplace kf d t ipath elem H hpre hthin
    | true =>
      by_cases h2 : ipath.getD d 0 > 0
      · by_cases h3 : nodeCount (pNodeAt t (ipath.take (d + 1)))
            + nodeCount ((stemChildren (pNodeAt t (ipath.take d))).getD
                (ipath.getD d 0 - 1) (pgdflt α)).2 ≤ branchout
        · exact pEraseNode_spec_mergePrev kf d t ipath elem H
            (fun t' e' H' => ih t' e' H') hpre hthin h2 h3
        · exact pEraseNode_spec_borrowPrev kf d t ipath elem H hpre hthin h2 h3
      · by_cases h3 : nodeCount (pNodeAt t (ipath.take (d + 1)))
            + nodeCount ((stemChildren (pNodeAt t (ipath.take d))).getD
                (ipath.getD d 0 + 1) (pgdflt α)).2 ≤ branchout
        · exact pEraseNode_spec_mergeNext kf d t ipath elem H
            (fun t' e' H' => ih t' e' H') hpre hthin h2 h3
        · exact pEraseNode_spec_borrowNext kf d t ipath elem H hpre hthin h2 h3

theorem pLinesL_length_ge (h : Nat) (cs : List (Nat × PTree α)) (kf : α → Nat)
    (hwl : pwfL (pwf kf h) (pMinKeyOf kf h) cs = true) :
    cs.length ≤ (pLinesL (pLines h) cs).length := by
  induction cs with
  | nil => simp [pLinesL]
  | cons c cs ih =>
    simp only [pwfL, Bool.and_eq_true] at hwl
    have hc : pLines h c.2 ≠ [] := by
      intro hx
      have := eJoin_ne_nil kf h c.2 hwl.1.1
      rw [eJoin, hx] at this
      exact this rfl
    simp only [pLinesL, List.length_append, List.length_cons]
    have h1 : 1 ≤ (pLines h c.2).length := List.length_pos.mpr hc
    have h2 := ih hwl.2
    omega

theorem pLines_length_pos (kf : α → Nat) (h : Nat) (t : PTree α)
    (hwf : pwf kf h t = true) : 0 < (pLines h t).length := by
  have := eJoin_ne_nil kf h t hwf
  rw [eJoin] at this
  cases hx : pLines h t with
  | nil => rw [hx] at this; exact absurd rfl this
  | cons a l => simp

theorem pLines_mem_ne_nil (kf : α → Nat) : ∀ (h : Nat) (t : PTree α),
    pwf kf h t = true → ∀ l ∈ pLines h t, l ≠ [] := by
  intro h
  induction h with
  | zero =>
    intro t hwf l hl
    cases t with
    | pstem cs => simp [pwf] at hwf
    | pleaf es =>
      simp only [pLines, leafElems, List.mem_singleton] at hl
      subst hl
      simp only [pwf, Bool.not_eq_true'] at hwf
      simpa [List.isEmpty_iff] using hwf
  | succ h ih =>
    intro t hwf l hl
    cases t with
    | pleaf es => simp [pwf] at hwf
    | pstem cs =>
      simp only [pwf, Bool.and_eq_true] at hwf
      have hwl := hwf.2
      clear hwf
      show l ≠ []
      induction cs with
      | nil => simp [pLines, pLinesL, stemChildren] at hl
      | cons c cs ihcs =>
        simp only [pwfL, Bool.and_eq_true] at hwl
        have : l ∈ pLines h c.2 ++ pLinesL (pLines h) cs := by
          simpa [pLines, pLinesL, stemChildren] using hl
        rcases List.mem_append.mp this with hc | hcs
        · exact ih c.2 hwl.1.1 l hc
        · exact ihcs (by simpa [pLines, stemChildren] using hcs) hwl.2

theorem sortedKeys_infix (kf : α → Nat) (l₁ l₂ : List α)
    (hinf : l₁ <:+: l₂) (hs : sortedKeys kf l₂) : sortedKeys kf l₁ := by
  rw [sortedKeys] at hs ⊢
  exact List.Pairwise.sublist (List.Sublist.map kf hinf.sublist) hs

theorem pfillL_lineInsert (f : PTree α → Bool) (x : Nat × PTree α)
    (hx : f x.2 = true) : ∀ (cs : List (Nat × PTree α)), pfillL f cs = true →
    pfillL f (lineInsert Prod.fst cs x) = true := by
  intro cs
  induction cs with
  | nil =>
    intro _
    show pfillL f [x] = true
    simp [pfillL, hx]
  | cons c cs ih =>
    intro hcs
    simp only [pfillL, Bool.and_eq_true] at hcs
    by_cases hk : Prod.fst c > Prod.fst x
    · show pfillL f (if Prod.fst c > Prod.fst x then x :: c :: cs
        else c :: lineInsert Prod.fst cs x) = true
      rw [if_pos hk]
      simp [pfillL, hx, hcs.1, hcs.2]
    · show pfillL f (if Prod.fst c > Prod.fst x then x :: c :: cs
        else c :: lineInsert Prod.fst cs x) = true
      rw [if_neg hk]
      simp [pfillL, hcs.1, ih hcs.2]

theorem lineSplit_lengths (es : List α) (hf : es.length = 15) :
    (lineSplitL es).length = 8 ∧ (lineSplitR es).length = 7 := by
  simp [lineSplitL, lineSplitR, hf]

/-- Splitting a full line yields two halves that both satisfy the sub-root
fill invariant. -/
theorem nodeSplit_pfillSub (h : Nat) (t : PTree α) (hfull : nodeFull t = true)
    (hf : pfillSub h t = true) :
    pfillSub h (nodeSplitL t) = true ∧ pfillSub h (nodeSplitR t) = true := by
  cases h with
  | zero =>
    cases t with
    | pstem cs => simp [pfillSub, leafElems, minCount, lineMax] at hf
    | pleaf es =>
      have hlen : es.length = 15 := by simpa [nodeFull, lineMax] using hfull
      have hs := lineSplit_lengths es hlen
      constructor
      · show pfillSub 0 (.pleaf (lineSplitL es)) = true
        simp [pfillSub, leafElems, hs.1, minCount, lineMax]
      · show pfillSub 0 (.pleaf (lineSplitR es)) = true
        simp [pfillSub, leafElems, hs.2, minCount, lineMax]
  | succ h =>
    cases t with
    | pleaf es => simp [pfillSub, stemChildren, minCount, lineMax] at hf
    | pstem cs =>
      have hlen : cs.length = 15 := by simpa [nodeFull, branchout] using hfull
      have hs := lineSplit_lengths cs hlen
      have hfl : pfillL (pfillSub h) cs = true := by
        have := hf
        simp only [pfillSub, stemChildren, Bool.and_eq_true] at this
        exact this.2
      constructor
      · show pfillSub (h + 1) (.pstem (lineSplitL cs)) = true
        simp only [pfillSub, stemChildren, Bool.and_eq_true, decide_eq_true_eq]
        exact ⟨by rw [hs.1]; decide, pfillL_take _ cs hfl _⟩
      · show pfillSub (h + 1) (.pstem (lineSplitR cs)) = true
        simp only [pfillSub, stemChildren, Bool.and_eq_true, decide_eq_true_eq]
        exact ⟨by rw [hs.2]; decide, pfillL_drop _ cs hfl _⟩

/-- The `PageNode::insert` descent preserves the sub-root fill invariant:
inserting only lengthens lines, and a preemptive split leaves two halves of
at least seven entries each. -/
theorem pinsertGo_pfillSub (kf : α → Nat) (h : Nat) :
    ∀ (t : PTree α) (e : α), pfillSub h t = true →
    pfillSub h (pinsertGo kf h t e) = true := by
  induction h with
  | zero =>
    intro t e hf
    cases t with
    | pstem cs => simp [pfillSub, leafElems, minCount, lineMax] at hf
    | pleaf es =>
      show pfillSub 0 (.pleaf (lineInsert kf (leafElems (.pleaf es)) e)) = true
      simp only [pfillSub, leafElems, decide_eq_true_eq] at hf ⊢
      rw [lineInsert_length]
      omega
  | succ h ih =>
    intro t e hf
    cases t with
    | pleaf es => simp [pfillSub, stemChildren, minCount, lineMax] at hf
    | pstem cs =>
      have hf' : minCount - 1 ≤ cs.length ∧ pfillL (pfillSub h) cs = true := by
        simpa [pfillSub, stemChildren, Bool.and_eq_true] using hf
      have hcs : cs ≠ [] := by
        intro hx
        rw [hx] at hf'
        simp [minCount, lineMax] at hf'
      set i := lineFind Prod.fst cs (kf e) with hi
      have hiF : i < cs.length := lineFind_lt_length Prod.fst cs (kf e) hcs
      have hcf : pfillSub h (cs.getD i (pgdflt α)).2 = true :=
        pfillL_getD _ cs hf'.2 i (pgdflt α) hiF
      rw [pinsertGo_stem_eq kf cs e h (by rw [← hi]; exact hiF)]
      simp only [← hi]
      by_cases hfull : nodeFull (cs.getD i (pgdflt α)).2 = true
      · rw [if_pos hfull]
        have hsp := nodeSplit_pfillSub h _ hfull hcf
        by_cases hge : kf e ≥ nodeMinKey kf (nodeSplitR (cs.getD i (pgdflt α)).2)
        · rw [if_pos hge]
          show pfillSub (h + 1) (.pstem (lineInsert Prod.fst _ _)) = true
          simp only [pfillSub, stemChildren, Bool.and_eq_true, decide_eq_true_eq]
          constructor
          · rw [lineInsert_length, List.length_set]
            omega
          · exact pfillL_lineInsert _ _ (ih _ e hsp.2) _
              (pfillL_set _ cs i _ _ hf'.2 hsp.1 )
        · rw [if_neg hge]
          show pfillSub (h + 1) (.pstem (lineInsert Prod.fst _ _)) = true
          simp only [pfillSub, stemChildren, Bool.and_eq_true, decide_eq_true_eq]
          constructor
          · rw [lineInsert_length, List.length_set]
            omega
          · exact pfillL_lineInsert _ _ hsp.2 _
              (pfillL_set _ cs i _ _ hf'.2 (ih _ e hsp.1))
      · rw [if_neg hfull]
        show pfillSub (h + 1) (.pstem (cs.set i _)) = true
        simp only [pfillSub, stemChildren, Bool.and_eq_true, decide_eq_true_eq]
        constructor
        · rw [List.length_set]
          omega
        · exact pfillL_set _ cs i _ _ hf'.2 (ih _ e hcf)

/-- The `PageNode::insert` descent preserves the page fill invariant at the
root. -/
theorem pinsertGo_pfill (kf : α → Nat) (h : Nat) (t : PTree α) (e : α)
    (hf : pfill h t = true) : pfill h (pinsertGo kf h t e) = true := by
  cases h with
  | zero => rfl
  | succ h =>
    cases t with
    | pleaf es => simp [pfill, stemChildren] at hf
    | pstem cs =>
      have hf' : 2 ≤ cs.length ∧ pfillL (pfillSub h) cs = true := by
        simpa [pfill, stemChildren, Bool.and_eq_true] using hf
      have hcs : cs ≠ [] := by
        intro hx
        rw [hx] at hf'
        simp at hf'
      set i := lineFind Prod.fst cs (kf e) with hi
      have hiF : i < cs.length := lineFind_lt_length Prod.fst cs (kf e) hcs
      have hcf : pfillSub h (cs.getD i (pgdflt α)).2 = true :=
        pfillL_getD _ cs hf'.2 i (pgdflt α) hiF
      rw [pinsertGo_stem_eq kf cs e h (by rw [← hi]; exact hiF)]
      simp only [← hi]
      by_cases hfull : nodeFull (cs.getD i (pgdflt α)).2 = true
      · rw [if_pos hfull]
        have hsp := nodeSplit_pfillSub h _ hfull hcf
        by_cases hge : kf e ≥ nodeMinKey kf (nodeSplitR (cs.getD i (pgdflt α)).2)
        · rw [if_pos hge]
          show pfill (h + 1) (.pstem (lineInsert Prod.fst _ _)) = true
          simp only [pfill, stemChildren, Bool.and_eq_true, decide_eq_true_eq]
          constructor
          · rw [lineInsert_length, List.length_set]
            omega
          · exact pfillL_lineInsert _ _ (pinsertGo_pfillSub kf h _ e hsp.2) _
              (pfillL_set _ cs i _ _ hf'.2 hsp.1)
        · rw [if_neg hge]
          show pfill (h + 1) (.pstem (lineInsert Prod.fst _ _)) = true
          simp only [pfill, stemChildren, Bool.and_eq_true, decide_eq_true_eq]
          constructor
          · rw [lineInsert_length, List.length_set]
            omega
          · exact pfillL_lineInsert _ _ hsp.2 _
              (pfillL_set _ cs i _ _ hf'.2 (pinsertGo_pfillSub kf h _ e hsp.1))
      · rw [if_neg hfull]
        show pfill (h + 1) (.pstem (cs.set i _)) = true
        simp only [pfill, stemChildren, Bool.and_eq_true, decide_eq_true_eq]
        constructor
        · rw [List.length_set]
          omega
        · exact pfillL_set _ cs i _ _ hf'.2 (pinsertGo_pfillSub kf h _ e hcf)

/-- `PageNode::split_root` preserves the fill invariant: when it fires, the
new root holds exactly two half entries of at least seven lines each. -/
theorem psplitRoot_pfill (kf : α → Nat) (d : α) (p : PageS α)
    (hwf : pwf kf p.levels p.tree = true)
    (hs : sortedKeys kf (eJoin p.levels p.tree))
    (hf : pfill p.levels p.tree = true) :
    pfill (psplitRoot kf p).levels (psplitRoot kf p).tree = true := by
  rw [psplitRoot_eq kf d p hwf hs]
  by_cases hfull : nodeFull p.tree = true
  · rw [if_pos hfull]
    show pfill (p.levels + 1) (.pstem _) = true
    simp only [pfill, stemChildren, Bool.and_eq_true, decide_eq_true_eq]
    have hsp : pfillSub p.levels (nodeSplitL p.tree) = true
        ∧ pfillSub p.levels (nodeSplitR p.tree) = true := by
      cases hlv : p.levels with
      | zero =>
        rw [hlv] at hwf
        cases ht : p.tree with
        | pstem cs => rw [ht] at hwf; simp [pwf] at hwf
        | pleaf es =>
          rw [ht] at hfull
          have hlen : es.length = 15 := by simpa [nodeFull, lineMax] using hfull
          have hls := lineSplit_lengths es hlen
          constructor
          · show pfillSub 0 (.pleaf (lineSplitL es)) = true
            simp [pfillSub, leafElems, hls.1, minCount, lineMax]
          · show pfillSub 0 (.pleaf (lineSplitR es)) = true
            simp [pfillSub, leafElems, hls.2, minCount, lineMax]
      | succ L =>
        rw [hlv] at hf
        cases ht : p.tree with
        | pleaf es =>
          rw [hlv, ht] at hwf
          simp [pwf] at hwf
        | pstem cs =>
          rw [ht] at hf hfull
          have hlen : cs.length = 15 := by simpa [nodeFull, branchout] using hfull
          have hls := lineSplit_lengths cs hlen
          have hfl : pfillL (pfillSub L) cs = true := by
            have := hf
            simp only [pfill, stemChildren, Bool.and_eq_true] at this
            exact this.2
          constructor
          · show pfillSub (L + 1) (.pstem (lineSplitL cs)) = true
            simp only [pfillSub, stemChildren, Bool.and_eq_true, decide_eq_true_eq]
            exact ⟨by rw [hls.1]; decide, pfillL_take _ cs hfl _⟩
          · show pfillSub (L + 1) (.pstem (lineSplitR cs)) = true
            simp only [pfillSub, stemChildren, Bool.and_eq_true, decide_eq_true_eq]
            exact ⟨by rw [hls.2]; decide, pfillL_drop _ cs hfl _⟩
    refine ⟨by simp, ?_⟩
    show pfillL (pfillSub p.levels)
      [(nodeMinKey kf (nodeSplitL p.tree), nodeSplitL p.tree),
       (nodeMinKey kf (nodeSplitR p.tree), nodeSplitR p.tree)] = true
    simp [pfillL, hsp.1, hsp.2]
  · rw [if_neg hfull]
    exact hf

/-- Fill preservation of `PageNode::insert`. -/
theorem pinsert_pfill (kf : α → Nat) (d : α) (p : PageS α) (e : α)
    (hwf : pwf kf p.levels p.tree = true)
    (hs : sortedKeys kf (eJoin p.levels p.tree))
    (hf : pfill p.levels p.tree = true) :
    pfill (pinsert kf p e).levels (pinsert kf p e).tree = true := by
  have h1 := psplitRoot_pfill kf d p hwf hs hf
  show pfill (psplitRoot kf p).levels
    (pinsertGo kf (psplitRoot kf p).levels (psplitRoot kf p).tree e) = true
  exact pinsertGo_pfill kf _ _ e h1

-- ======================================================================
-- CLAIMS C10, C6 AND THE C3 COUNTEREXAMPLE
-- ======================================================================

/-- C10: for the newly constructed (empty) map, `begin()` differs from
`end()`: both sit on leaf page 0, leaf line 0, but `begin()` has element
index `min_index() = 0` while `end_position()` is `max_index() + 1 = 1`
(`max_index()` is 0 on a count-0 line), so the two iterators differ in their
`sub_position`. -/
theorem C10_empty_begin_ne_end :
    kbegin kinit ≠ kend kinit
    ∧ kbegin kinit = ⟨0, 0, 0⟩
    ∧ kend kinit = ⟨0, 0, 1⟩ := by
  decide

/-- The state reached from the empty map by inserting `(0,0) .. (n-1,n-1)`
in ascending key order; used to exhibit reachable states. -/
def insertSeq (n : Nat) : KState :=
  (List.range n).foldl (fun s i => kinsert s (i, i)) kinit

set_option maxRecDepth 8000 in
/-- C6, counterexample: the no-oversized-at-rest guarantee fails on reachable
states.  After 104 ascending inserts from the empty map the outer root is
still the single leaf page and it is oversized at rest (`free_count = 1`);
after 200 ascending inserts the tree has a stem root over two leaf pages and
the second (non-root) leaf page is oversized at rest.  Oversized pages are
repaired lazily, only when a later insert descends into them. -/
theorem C6_counterexample :
    ((insertSeq 104).levels = 0 ∧ poversized (asLeafPage (insertSeq 104).root) = true)
    ∧ ((insertSeq 200).levels = 1
        ∧ poversized ((oLeafList (insertSeq 200).levels (insertSeq 200).root).getD 1
            ⟨.pleaf [], 0⟩) = true) := by
  decide

/-- C6 (amended): what survives of the page-fill claim is its first
conjunct: every PageNode (root or not) is small or large, because
`PageNode::large()` is defined as the exact complement of
`PageNode::small()`.  The further guarantee that no page is oversized when a
public operation completes does not hold, for the root or for other pages
(see the counterexample). -/
theorem C6_small_or_large (p : PageS α) : psmall p = true ∨ plarge p = true := by
  simp only [psmall, plarge, smallFC, largeFC, decide_eq_true_eq]
  omega

/-- C3 (corrected): under the documented invariants, on a non-empty map
`find(key)` returns the position of the greatest stored key at most `key` —
an entry whose key equals `key` exactly when `key` is present — and returns
the minimum position (not `end()`) when every stored key exceeds `key`.
The original claim's "returns `end()` when `key` is absent" is refuted by
the accompanying counterexample. -/
theorem C3_find_greatest_le (s : KState) (k : Nat) (d : E)
    (hwf : kernelWF s = true) (hne : ktoList s ≠ []) :
    ((∀ e ∈ ktoList s, k < e.1) → kfindImpl s k = ⟨0, 0, 0⟩)
    ∧ (∀ j, j < (ktoList s).length → ((ktoList s).getD j d).1 ≤ k →
        (kElemAt s (kfindImpl s k) d).1 ≤ k ∧ j ≤ kRankOfPos s (kfindImpl s k))
    ∧ (∀ j, j < (ktoList s).length → ((ktoList s).getD j d).1 = k →
        (kElemAt s (kfindImpl s k) d).1 = k) := by
  obtain ⟨hk, hs⟩ := kernelWF_parts s hwf hne
  have S := kfind_spec d s.levels s.root k hk hs
  have hbridge : kElemAt s (kfindImpl s k) d
      = (ktoList s).getD (kRankOfPos s (kfindImpl s k)) d :=
    oElemAt_eq d s.levels s.root (kfindGo k s.levels s.root 0) S.1 S.2.1 S.2.2.1
  have hrlt : kRankOfPos s (kfindImpl s k) < (ktoList s).length :=
    oRank_lt s.levels s.root (kfindGo k s.levels s.root 0) S.1 S.2.1 S.2.2.1
  refine ⟨?_, ?_, ?_⟩
  · intro hall
    exact S.2.2.2.1 hall
  · intro j hj hjk
    have H := S.2.2.2.2 j hj hjk
    have H1 : ((ktoList s).getD (kRankOfPos s (kfindImpl s k)) d).1 ≤ k := H.1
    have H2 : j ≤ kRankOfPos s (kfindImpl s k) := H.2
    rw [hbridge]
    exact ⟨H1, H2⟩
  · intro j hj hjk
    have H := S.2.2.2.2 j hj (Nat.le_of_eq hjk)
    have H1 : ((ktoList s).getD (kRankOfPos s (kfindImpl s k)) d).1 ≤ k := H.1
    have H2 : j ≤ kRankOfPos s (kfindImpl s k) := H.2
    have hmono := sortedKeys_getD_le Prod.fst (ktoList s) d hs j
      (kRankOfPos s (kfindImpl s k)) H2 hrlt
    rw [hbridge]
    omega

theorem C3_witness :
    (kElemAt ⟨.oleaf ⟨.pleaf [((1 : Nat), (10 : Nat)), (3, 30)], 0⟩, 0⟩
        (kfindImpl ⟨.oleaf ⟨.pleaf [(1, 10), (3, 30)], 0⟩, 0⟩ 2) (0, 0)).1 ≤ 2
    ∧ 0 ≤ kRankOfPos ⟨.oleaf ⟨.pleaf [(1, 10), (3, 30)], 0⟩, 0⟩
        (kfindImpl ⟨.oleaf ⟨.pleaf [(1, 10), (3, 30)], 0⟩, 0⟩ 2) := by
  exact (C3_find_greatest_le ⟨.oleaf ⟨.pleaf [(1, 10), (3, 30)], 0⟩, 0⟩ 2 (0, 0)
    (by decide) (by decide)).2.1 0 (by decide) (by decide)

set_option maxRecDepth 8000 in
/-- C3, counterexample: in the reachable one-element map `{5 ↦ 50}` the key 7
is absent, yet `find(7)` does not return `end()`: it returns the position of
the entry with key 5 (the greatest key at most 7). -/
theorem C3_counterexample :
    ((ktoList (kinsert kinit (5, 50))).all (fun x => x.1 ≠ 7)) = true
    ∧ kfindImpl (kinsert kinit (5, 50)) 7 ≠ kend (kinsert kinit (5, 50))
    ∧ pElemAtPos ((oLeafList (kinsert kinit (5, 50)).levels
          (kinsert kinit (5, 50)).root).getD (kfindImpl (kinsert kinit (5, 50)) 7).page
          ⟨.pleaf [], 0⟩)
        ((kfindImpl (kinsert kinit (5, 50)) 7).line, (kfindImpl (kinsert kinit (5, 50)) 7).elem)
        (0, 0) = (5, 50) := by
  decide

-- ======================================================================
-- CLAIM C7: load-state predicates
-- ======================================================================

/-- C7, counterexample: at `free_count = 1` (with this repository's
`maxLevels = 2`) both `oversized` and `large` hold, so `large` is not
"neither small nor oversized" and it is false that exactly one of the three
predicates holds: `large()` as implemented is exactly the complement of
`small()` and includes every oversized page. -/
theorem C7_counterexample :
    oversizedFC 1 = true ∧ largeFC 1 = true ∧
    ¬ (largeFC 1 = true ↔ (smallFC 1 = false ∧ oversizedFC 1 = false)) := by
  decide

/-- C7, amended: `small` holds iff `free_count > 2*MAX_LEVELS - 1`,
`oversized` holds iff `free_count ≤ MAX_LEVELS - 1`, and `large` is the exact
complement of `small` (so exactly one of `small` / `large` holds, and every
oversized page is also large). -/
theorem C7_load_states (fc : Nat) :
    (smallFC fc = true ↔ fc > 2 * maxLevels - 1)
    ∧ (oversizedFC fc = true ↔ fc ≤ maxLevels - 1)
    ∧ (largeFC fc = true ↔ ¬ smallFC fc = true)
    ∧ (oversizedFC fc = true → largeFC fc = true) := by
  refine ⟨by simp [smallFC], by simp [oversizedFC], ?_, ?_⟩
  · simp only [largeFC, smallFC, decide_eq_true_eq]
    omega
  · simp only [oversizedFC, largeFC, decide_eq_true_eq]
    omega

-- ======================================================================
-- CLAIM C9: line_node::find
-- ======================================================================

/-- C9: for every non-empty, strictly key-sorted line and every key `k`,
`line_node::find` returns 0 when every key in the line exceeds `k`, and
otherwise returns the index of the greatest key that is at most `k`: the
returned index is in range, its key is at most `k`, and every index whose key
is at most `k` is bounded by it. -/
theorem C9_line_find_greatest_le (kf : α → Nat) (d : α) (es : List α) (k : Nat)
    (hne : es ≠ []) (hs : sortedKeys kf es) :
    ((∀ e ∈ es, k < kf e) → lineFind kf es k = 0)
    ∧ (∀ j, j < es.length → kf (es.getD j d) ≤ k →
        lineFind kf es k < es.length
        ∧ kf (es.getD (lineFind kf es k) d) ≤ k
        ∧ j ≤ lineFind kf es k) := by
  constructor
  · intro hall
    match es, hne with
    | e :: rest, _ =>
      have : kf e > k := hall e (by simp)
      simp [lineFind, this]
  · intro j hj hjk
    match es, hne with
    | e :: rest, _ =>
      have hhead : kf e ≤ k := by
        have := sortedKeys_getD_le kf (e :: rest) d hs 0 j (Nat.zero_le _) hj
        simpa [List.getD] using Nat.le_trans this hjk
      have heq := lineFind_eq_takeWhile kf k e rest hhead
      set p : α → Bool := fun x => decide (kf x ≤ k) with hp
      have hjtw : j < ((e :: rest).takeWhile p).length := by
        apply lt_length_takeWhile_of_sat p (e :: rest) d j hj
        intro i hi
        have hkey := sortedKeys_getD_le kf (e :: rest) d hs i j hi hj
        have hik : kf ((e :: rest).getD i d) ≤ k := Nat.le_trans hkey hjk
        simpa [hp, List.getD] using hik
      have htwlen := length_takeWhile_le_length p (e :: rest)
      have hFlt : lineFind kf (e :: rest) k < ((e :: rest).takeWhile p).length := by
        rw [heq]; omega
      refine ⟨by omega, ?_, by omega⟩
      have := takeWhile_getD_sat p (e :: rest) d _ hFlt
      simpa [hp] using this

/-- Witness for C9: the line `[(1,10), (3,30), (6,60)]` with key 4:
`find` returns index 1, the entry with key 3. -/
theorem C9_witness :
    ([((1:Nat),(10:Nat)), (3,30), (6,60)] ≠ ([] : List (Nat × Nat)))
    ∧ sortedKeys Prod.fst [((1:Nat),(10:Nat)), (3,30), (6,60)]
    ∧ (∀ j, j < 3 → (([((1:Nat),(10:Nat)), (3,30), (6,60)].getD j (0,0)).1 ≤ 4) →
        lineFind Prod.fst [((1:Nat),(10:Nat)), (3,30), (6,60)] 4 < 3
        ∧ ([((1:Nat),(10:Nat)), (3,30), (6,60)].getD
            (lineFind Prod.fst [((1:Nat),(10:Nat)), (3,30), (6,60)] 4) (0,0)).1 ≤ 4
        ∧ j ≤ lineFind Prod.fst [((1:Nat),(10:Nat)), (3,30), (6,60)] 4) := by
  refine ⟨by decide, by decide, ?_⟩
  have h := C9_line_find_greatest_le Prod.fst ((0:Nat),(0:Nat))
    [((1:Nat),(10:Nat)), (3,30), (6,60)] 4 (by decide) (by decide)
  simpa using h.2

end DT
